import Mathlib

/-! sqlx: bind-variable translation, sequence expansion and named-query compilation

A shallow embedding of `binder/bind.go` and `named.go`.

Go strings and `[]byte` values are byte sequences: they are modelled as
`List UInt8`.  String literals of the source are written with `bytesOf`,
the UTF-8 encoding of a Lean string literal.
-/

namespace Sqlx

/-- A Go `string` (or `[]byte`): a finite sequence of bytes. -/
abbrev GoString := List UInt8

/-- The bytes of a string literal, UTF-8 encoded as Go source literals are. -/
def bytesOf (s : String) : GoString := s.data.flatMap String.utf8EncodeChar

/-- Decimal rendering of a non-negative integer, as `strconv.Itoa` and
`strconv.AppendInt(_, _, 10)` produce it. -/
def Itoa (n : Nat) : GoString := (Nat.toDigits 10 n).map (fun c => UInt8.ofNat c.toNat)

/-- Go `strings.IndexByte(s, c)`, and `strings.Index(s, "?")` for the one-byte
pattern: the index of the first occurrence of `c`; `none` stands for `-1`. -/
def IndexByte : GoString → UInt8 → Option Nat
  | [], _ => none
  | b :: rest, c => if b = c then some 0 else (IndexByte rest c).map (· + 1)

/-- How a call ends: it returns, or it panics at run time. -/
inductive Run (α : Type) where
  | ret (a : α)
  | fault
  deriving DecidableEq, Repr

/-! ## binder/bind.go -/

namespace Binder

/-- Bindvar types: `const ( UNKNOWN = iota; QUESTION; DOLLAR; NAMED; AT )`. -/
def UNKNOWN : Int := 0
/-- Bindvar type `QUESTION`. -/
def QUESTION : Int := 1
/-- Bindvar type `DOLLAR`. -/
def DOLLAR : Int := 2
/-- Bindvar type `NAMED`. -/
def NAMED : Int := 3
/-- Bindvar type `AT`. -/
def AT : Int := 4

/-- The inner `switch bindType` of `Rebind`: the bytes appended before the
counter (`'$'`, `':','a','r','g'`, `'@','p'`, or nothing for any other value). -/
def rebindLead (bindType : Int) : GoString :=
  if bindType = DOLLAR then [36]
  else if bindType = NAMED then [58, 97, 114, 103]
  else if bindType = AT then [64, 112]
  else []

/-- The `for i = strings.Index(query, "?"); i != -1; ...` loop of `Rebind`,
with state `rqb`, `j`, `query`.  Each iteration shortens `query`, so the loop
is run on a fuel counter; `none` means the fuel ran out. -/
def RebindLoop (bindType : Int) : Nat → GoString → Nat → GoString → Option GoString
  | 0, _, _, _ => none
  | fuel + 1, rqb, j, query =>
    match IndexByte query 63 with
    | none => some (rqb ++ query)
    | some i =>
      RebindLoop bindType fuel
        (rqb ++ query.take i ++ rebindLead bindType ++ Itoa (j + 1)) (j + 1)
        (query.drop (i + 1))

/-- Method `Binder.Rebind(bindType, query)`.  The counter `j` is a Go `int`; it never
exceeds `len(query)`, so `int64(j)` is exact. -/
def Rebind (bindType : Int) (query : GoString) : Option GoString :=
  if bindType = QUESTION ∨ bindType = UNKNOWN then some query
  else RebindLoop bindType (query.length + 1) [] 0 query

/-- The placeholder the specification gives for the `k`-th `?`:
`$k` for DOLLAR, `:argk` for NAMED, `@pk` for AT. -/
def dialectPlaceholder (bindType : Int) (k : Nat) : GoString :=
  if bindType = DOLLAR then bytesOf "$" ++ Itoa k
  else if bindType = NAMED then bytesOf ":arg" ++ Itoa k
  else if bindType = AT then bytesOf "@p" ++ Itoa k
  else []

/-- Specification of `Rebind` in the words of the claim: every `?` byte is
replaced by the placeholder carrying its running number (the first one seen
gets `k`), every other byte is copied. -/
def replaceMarks (bindType : Int) : Nat → GoString → GoString
  | _, [] => []
  | k, b :: rest =>
    if b = 63 then dialectPlaceholder bindType k ++ replaceMarks bindType (k + 1) rest
    else b :: replaceMarks bindType k rest

/-- The query `s0 ++ "?" ++ s1 ++ ... ++ "?" ++ sn` built from segments. -/
def joinMarks : List GoString → GoString
  | [] => []
  | [s] => s
  | s :: rest => s ++ 63 :: joinMarks rest

/-- The text `s0 ++ P k ++ s1 ++ P (k+1) ++ ... ++ sn` built from segments. -/
def weaveMarks (bindType : Int) : Nat → List GoString → GoString
  | _, [] => []
  | _, [s] => s
  | k, s :: rest => s ++ dialectPlaceholder bindType k ++ weaveMarks bindType (k + 1) rest

/-- The shape of a Go value as `asSliceForIn` observes it through `reflect`:
the nil interface, a value whose type is neither a slice nor a pointer to a
slice (or is a pointer to `[]byte`), a `[]byte`, a slice of any other type,
or a pointer to a slice of any other type (`none` is the nil pointer).  Slice
elements are never inspected by `In` (each is boxed as one argument), so they
are kept as uninterpreted values. -/
inductive Plain where
  | nil
  | scalar (v : Int)
  | bytes (b : GoString)
  | slice (elems : List Int)
  | slicePtr (target : Option (List Int))
  deriving DecidableEq, Repr

/-- Whether a value is a pointer to a slice of a type other than `[]byte`. -/
def Plain.isSlicePtr : Plain → Bool
  | .slicePtr _ => true
  | _ => false

/-- An argument of `In` (a Go `any`): either a value that does not implement
`driver.Valuer`, or a Valuer: `self` is the value itself, which `In` does not
look at, `value` and `err` are what its `Value()` method returns. -/
inductive GoVal where
  | plain (p : Plain)
  | valuer (self : Plain) (value : Plain) (err : Option String)
  deriving DecidableEq, Repr

/-- The value an argument is, whether or not its type implements
`driver.Valuer`. -/
def GoVal.shape : GoVal → Plain
  | .plain p => p
  | .valuer self _ _ => self

/-- The local type `argMeta` of `In`: `v` and `length` are set for slices,
`i` for everything else; unset fields keep their zero value. -/
structure argMeta where
  v : List Int
  i : Plain
  length : Nat
  deriving DecidableEq, Repr

/-- The three results `(string, []any, error)` of `In`; `args = none` is the
nil slice and `err = none` the nil error. -/
structure InResult where
  query : GoString
  args : Option (List GoVal)
  err : Option String
  deriving DecidableEq, Repr

/-- The `reflect.Value` that `asSliceForIn` hands back with `ok = true`:
`reflect.ValueOf(i)` as it is, of kind Slice for a slice and of kind Pointer
for a pointer to a slice (`Deref` is applied to the type only). -/
inductive SliceValue where
  | slice (elems : List Int)
  | ptr (target : Option (List Int))
  deriving DecidableEq, Repr

/-- Method `reflect.Value.Len`: the length of a value of kind Slice; on a
value of kind Pointer whose element is a slice the call panics. -/
def SliceValue.Len : SliceValue → Run Nat
  | .slice elems => Run.ret elems.length
  | .ptr _ => Run.fault

/-- The elements that `Index(0)`, ..., `Index(Len()-1)` give for a value of
kind Slice; a value of kind Pointer never gets that far. -/
def SliceValue.elems : SliceValue → List Int
  | .slice elems => elems
  | .ptr _ => []

/-- Method `Binder.asSliceForIn`: `some v` for `(v, true)`, `none` for
`(_, false)`.  The test is on `Deref(v.Type())`, so a pointer to a slice
passes it, and the value returned is the pointer. -/
def asSliceForIn : Plain → Option SliceValue
  | .nil => none
  | .scalar _ => none
  | .bytes _ => none
  | .slice elems => some (.slice elems)
  | .slicePtr target => some (.ptr target)

/-- Method `Binder.appendReflectSlice(args, v, vlen)`: each branch of the type switch
appends the elements of `v` in index order (the default branch the first
`vlen` of them, and `vlen` is `v.Len()`). -/
def appendReflectSlice (args : List GoVal) (v : List Int) (vlen : Nat) : List GoVal :=
  args ++ (v.take vlen).map (fun e => GoVal.plain (Plain.scalar e))

/-- The step `if a, ok := arg.(driver.Valuer); ok { arg, err = a.Value() }`:
the argument after conversion and the error of the conversion. -/
def valuerValue : GoVal → Plain × Option String
  | .valuer _ value err => (value, err)
  | .plain p => (p, none)

/-- The first loop of `In` (`for i, arg := range args`): Valuer conversion,
classification, the call `v.Len()`, which panics on a pointer, and the two
early error returns.  On success it gives `meta` and `anySlices`.
`flatArgsCount` only sizes buffers and is left out. -/
def inMeta : List GoVal → List argMeta → Bool → Run (Except String (List argMeta × Bool))
  | [], meta, anySlices => .ret (.ok (meta, anySlices))
  | arg :: rest, meta, anySlices =>
    let conv := valuerValue arg
    match conv.2 with
    | some e => .ret (.error e)
    | none =>
      match asSliceForIn conv.1 with
      | some v =>
        match v.Len with
        | .fault => .fault
        | .ret n =>
          if n = 0 then .ret (.error "empty slice passed to \x27in\x27 query")
          else inMeta rest (meta ++ [⟨v.elems, Plain.nil, n⟩]) true
      | none => inMeta rest (meta ++ [⟨[], conv.1, 0⟩]) anySlices

/-- The second loop of `In`
(`for i := strings.IndexByte(query[offset:], '?'); i != -1; ...`) followed by
the code after it, with state `query`, `offset`, `arg`, `buf`, `newArgs`.
Each iteration moves past one `?`, so the loop is run on a fuel counter;
`none` means the fuel ran out. -/
def inLoop (meta : List argMeta) :
    Nat → GoString → Nat → Nat → GoString → List GoVal → Option InResult
  | 0, _, _, _, _, _ => none
  | fuel + 1, query, offset, arg, buf, newArgs =>
    match IndexByte (query.drop offset) 63 with
    | none =>
      if arg < meta.length then
        some ⟨[], none, some "number of bindVars less than number arguments"⟩
      else some ⟨buf ++ query, some newArgs, none⟩
    | some i =>
      match meta[arg]? with
      | none => some ⟨[], none, some "number of bindVars exceeds arguments"⟩
      | some m =>
        if m.length = 0 then
          inLoop meta fuel query (offset + i + 1) (arg + 1) buf (newArgs ++ [GoVal.plain m.i])
        else
          inLoop meta fuel (query.drop (offset + i + 1)) 0 (arg + 1)
            (buf ++ query.take (offset + i + 1)
              ++ (List.replicate (m.length - 1) (bytesOf ", ?")).flatten)
            (appendReflectSlice newArgs m.v m.length)

/-- Method `Binder.In(query, args...)`: the first loop, the fast path when
there is no slice, then the second loop.  `some Run.fault` is the panic of
`v.Len()` in the first loop; `none` means the fuel of the second loop ran
out. -/
def In (query : GoString) (args : List GoVal) : Option (Run InResult) :=
  match inMeta args [] false with
  | .fault => some Run.fault
  | .ret (.error e) => some (Run.ret ⟨[], none, some e⟩)
  | .ret (.ok (meta, anySlices)) =>
    if !anySlices then some (Run.ret ⟨query, some args, none⟩)
    else (inLoop meta (query.length + 1) query 0 0 [] []).map Run.ret

/-- Number of `?` bytes of a query. -/
def countMarks (q : GoString) : Nat := q.count 63

/-- The text `"?, ?, ..., ?"` of `n` placeholders joined by `", "`. -/
def placeholders (n : Nat) : GoString :=
  List.intercalate (bytesOf ", ") (List.replicate n (bytesOf "?"))

/-- What one argument contributes to the expanded query: a sequence of
length `n` gives `n` joined placeholders, anything else a single `?`. -/
def argMarks : Plain → GoString
  | .slice elems => placeholders elems.length
  | _ => bytesOf "?"

/-- What one argument contributes to the flattened argument list: a sequence
gives its elements, anything else itself. -/
def argValues : Plain → List GoVal
  | .slice elems => elems.map (fun e => GoVal.plain (Plain.scalar e))
  | p => [GoVal.plain p]

/-- Specification of the expanded query in the words of the claim: the i-th
`?` is replaced by what the i-th argument contributes, other bytes are kept. -/
def expandQuery : GoString → List Plain → GoString
  | [], _ => []
  | b :: rest, args =>
    if b = 63 then
      match args with
      | [] => b :: expandQuery rest []
      | a :: more => argMarks a ++ expandQuery rest more
    else b :: expandQuery rest args

/-- Specification of the flattened argument list. -/
def flattenArgs (args : List Plain) : List GoVal := args.flatMap argValues

/-- The `argMeta` entry the first loop stores for a converted argument. -/
def metaEntry (p : Plain) : argMeta :=
  match asSliceForIn p with
  | some v => ⟨v.elems, Plain.nil, v.elems.length⟩
  | none => ⟨[], p, 0⟩

/-- One-pass reference for the second loop of `In`: walk the `?` bytes of the
remaining query against the remaining arguments; the result is the rewritten
remainder and the flattened arguments, or the error of a count mismatch. -/
def expandWalk : GoString → List Plain → Except String (GoString × List GoVal)
  | [], [] => .ok ([], [])
  | [], _ :: _ => .error "number of bindVars less than number arguments"
  | b :: rest, args =>
    if b = 63 then
      match args with
      | [] => .error "number of bindVars exceeds arguments"
      | a :: more =>
        match expandWalk rest more with
        | .error e => .error e
        | .ok (qq, aa) => .ok (argMarks a ++ qq, argValues a ++ aa)
    else
      match expandWalk rest args with
      | .error e => .error e
      | .ok (qq, aa) => .ok (b :: qq, aa)

/-- The result `In` returns for an outcome of the walk, given the text and
arguments already produced. -/
def walkResult (pre : GoString) (done : List GoVal) :
    Except String (GoString × List GoVal) → InResult
  | .error e => ⟨[], none, some e⟩
  | .ok (qq, aa) => ⟨pre ++ qq, some (done ++ aa), none⟩

end Binder

/-! ## named.go -/

/-- The test `unicode.Is(unicode.Letter, rune(b))` for a byte `b`: the letter
code points below 256 are `A-Z`, `a-z`, U+00AA, U+00B5, U+00BA, U+00C0-U+00D6,
U+00D8-U+00F6 and U+00F8-U+00FF. -/
def isLetter (b : UInt8) : Bool :=
  (65 ≤ b && b ≤ 90) || (97 ≤ b && b ≤ 122) || b = 170 || b = 181 || b = 186
    || (192 ≤ b && b ≤ 214) || (216 ≤ b && b ≤ 246) || 248 ≤ b

/-- The test `unicode.Is(unicode.Digit, rune(b))` for a byte `b`: the decimal
digit code points below 256 are `0-9`. -/
def isDigit (b : UInt8) : Bool := 48 ≤ b && b ≤ 57

/-- The test `unicode.IsOneOf(allowedBindRunes, rune(b))` with
`allowedBindRunes = {unicode.Letter, unicode.Digit}`. -/
def allowedBindRune (b : UInt8) : Bool := isLetter b || isDigit b

/-- The three results `(query string, names []string, err error)` of
`compileNamedQuery`; `err = none` is the nil error. -/
structure CompileResult where
  query : GoString
  names : List GoString
  err : Option String
  deriving DecidableEq, Repr

/-- The local variables of `compileNamedQuery` that the loop updates. -/
structure CompileState where
  inName : Bool
  name : GoString
  rebound : GoString
  names : List GoString
  currentVar : Nat
  deriving DecidableEq, Repr

/-- Outcome of one loop iteration: go on with a new state, or return. -/
inductive CompileStep where
  | next (s : CompileState)
  | ret (r : CompileResult)
  deriving DecidableEq, Repr

/-- The `switch bindType` that emits the bindvar for a finished name: the
bytes appended to `rebound` and the new value of `currentVar`. -/
def emitBindvar (bindType : Int) (name : GoString) (currentVar : Nat) : GoString × Nat :=
  if bindType = Binder.NAMED then (58 :: name, currentVar)
  else if bindType = Binder.QUESTION ∨ bindType = Binder.UNKNOWN then ([63], currentVar)
  else if bindType = Binder.DOLLAR then (36 :: Itoa currentVar, currentVar + 1)
  else if bindType = Binder.AT then (64 :: 112 :: Itoa currentVar, currentVar + 1)
  else ([], currentVar)

/-- The body of the loop `for i, b := range qs` of `compileNamedQuery`.
`prevColon` is the value of `i > 0 && qs[i-1] == ':'` and `isLast` the value
of `i == last`; `i` is otherwise used for the error text only.  On the error
return the named result `query` still has its zero value. -/
def compileBody (bindType : Int) (prevColon isLast : Bool) (i : Nat) (b : UInt8)
    (s : CompileState) : CompileStep :=
  if b = 58 then
    if s.inName && prevColon then
      .next { s with rebound := s.rebound ++ [58], inName := false }
    else if s.inName then
      .ret ⟨[], s.names, some ("unexpected \x60:\x60 while reading named param at " ++ toString i)⟩
    else .next { s with inName := true, name := [] }
  else if s.inName && decide (i > 0) && b = 61 && s.name.length = 0 then
    .next { s with rebound := s.rebound ++ [58, 61], inName := false }
  else if s.inName && (allowedBindRune b || b = 95 || b = 46) && !isLast then
    .next { s with name := s.name ++ [b] }
  else if s.inName then
    let name := if isLast && allowedBindRune b then s.name ++ [b] else s.name
    let names := s.names ++ [name]
    let emitted := emitBindvar bindType name s.currentVar
    let rebound := s.rebound ++ emitted.1
    let rebound :=
      if !isLast then rebound ++ [b]
      else if !allowedBindRune b then rebound ++ [b]
      else rebound
    .next ⟨false, name, rebound, names, emitted.2⟩
  else .next { s with rebound := s.rebound ++ [b] }

/-- One iteration at index `i` of `qs`, with `last := len(qs) - 1`. -/
def compileStep (qs : GoString) (bindType : Int) (i : Nat) (b : UInt8)
    (s : CompileState) : CompileStep :=
  compileBody bindType (decide (i > 0) && qs[i - 1]? = some 58)
    (decide ((i : Int) = (qs.length : Int) - 1)) i b s

/-- The loop `for i, b := range qs` from index `i` on, over the bytes not yet
visited, followed by the final `return string(rebound), names, err`. -/
def compileLoop (qs : GoString) (bindType : Int) : Nat → GoString → CompileState → CompileResult
  | _, [], s => ⟨s.rebound, s.names, none⟩
  | i, b :: rest, s =>
    match compileStep qs bindType i b s with
    | .ret r => r
    | .next s1 => compileLoop qs bindType (i + 1) rest s1

/-- Function `compileNamedQuery(qs, bindType)`: the loop over all of `qs`
from the initial state (`inName = false`, `currentVar = 1`, empty buffers). -/
def compileNamedQuery (qs : GoString) (bindType : Int) : CompileResult :=
  compileLoop qs bindType 0 qs ⟨false, [], [], [], 1⟩

/-- The loop of `compileNamedQuery` over a suffix of the input, told whether
the byte before the suffix is a colon; `isLast` holds on the last byte. -/
def compileAux (bindType : Int) : Bool → Nat → GoString → CompileState → CompileResult
  | _, _, [], s => ⟨s.rebound, s.names, none⟩
  | prevColon, i, b :: rest, s =>
    match compileBody bindType prevColon rest.isEmpty i b s with
    | .ret r => r
    | .next s1 => compileAux bindType (b = 58) (i + 1) rest s1

/-- The characters the claims call name characters: ASCII letters, digits,
underscore and dot. -/
def isNameChar (b : UInt8) : Bool :=
  (65 ≤ b && b ≤ 90) || (97 ≤ b && b ≤ 122) || (48 ≤ b && b ≤ 57) || b = 95 || b = 46

/-- The template `":" ++ n1 ++ t1 ++ ... ++ ":" ++ nk ++ tk` of a list of
(name, following text) pairs. -/
def namedTemplate : List (GoString × GoString) → GoString
  | [] => []
  | (n, t) :: rest => 58 :: (n ++ (t ++ namedTemplate rest))

/-- The placeholder the specification gives for the `i`-th name `n`: `?` for
QUESTION and UNKNOWN, `$i` for DOLLAR, `@pi` for AT, `:n` for NAMED. -/
def namedPlaceholder (bindType : Int) (i : Nat) (n : GoString) : GoString :=
  if bindType = Binder.DOLLAR then bytesOf "$" ++ Itoa i
  else if bindType = Binder.AT then bytesOf "@p" ++ Itoa i
  else if bindType = Binder.NAMED then bytesOf ":" ++ n
  else bytesOf "?"

/-- The text `P i ++ t_i ++ P (i+1) ++ t_(i+1) ++ ...` expected for a list of
(name, following text) pairs whose first name has number `i`. -/
def namedExpected (bindType : Int) : Nat → List (GoString × GoString) → GoString
  | _, [] => []
  | i, (n, t) :: rest => namedPlaceholder bindType i n ++ (t ++ namedExpected bindType (i + 1) rest)

/-- An error value returned by the binding functions of `named.go`: the error
of `compileNamedQuery`, the `could not find name` error (it carries the name),
or the `length of array is 0` error. -/
inductive BindError where
  | compile (msg : String)
  | notFound (name : GoString)
  | emptyArray
  deriving DecidableEq, Repr

/-- The three results `(string, []any, error)` of `bindMap` and `bindArray`. -/
structure BindResult (α : Type) where
  query : GoString
  args : List α
  err : Option BindError
  deriving DecidableEq, Repr

/-- The loop `for _, name := range names` of `bindMapArgs`, with the argument
list built so far.  A `map[string]any` is given by its lookup: `arg name` is
`none` when `name` is no key of the map. -/
def bindMapArgsLoop {α : Type} (arg : GoString → Option α) :
    List GoString → List α → List α × Option BindError
  | [], arglist => (arglist, none)
  | name :: rest, arglist =>
    match arg name with
    | none => (arglist, some (BindError.notFound name))
    | some val => bindMapArgsLoop arg rest (arglist ++ [val])

/-- Function `bindMapArgs(names, arg)`: the argument list and the error. -/
def bindMapArgs {α : Type} (names : List GoString) (arg : GoString → Option α) :
    List α × Option BindError :=
  bindMapArgsLoop arg names []

/-- Function `bindMap(bindType, query, args)`. -/
def bindMap {α : Type} (bindType : Int) (query : GoString) (args : GoString → Option α) :
    BindResult α :=
  let c := compileNamedQuery query bindType
  match c.err with
  | some e => ⟨[], [], some (BindError.compile e)⟩
  | none =>
    let r := bindMapArgs c.names args
    ⟨c.query, r.1, r.2⟩

/-- One element of the array given to `bindArray`: a value convertible to
`map[string]any`, given by its lookup, or any other value (a record).  For a
record, `field name` is a parameter standing for the traversal that the
mapper's `TraversalsByNameFunc` finds for `name` and the field value read
through it (`none` when the traversal is empty); the mapper is not part of
the files modelled here. -/
inductive Source (α : Type) where
  | map (m : GoString → Option α)
  | record (field : GoString → Option α)

/-- The value a source gives for a name, if it has one. -/
def Source.resolve {α : Type} : Source α → GoString → Option α
  | .map m => m
  | .record field => field

/-- The callback loop of `bindArgs`: names are visited in order, a name with
an empty traversal gives the `could not find name` error and ends the loop,
any other appends the field value. -/
def bindArgsLoop {α : Type} (field : GoString → Option α) :
    List GoString → List α → List α × Option BindError
  | [], arglist => (arglist, none)
  | name :: rest, arglist =>
    match field name with
    | none => (arglist, some (BindError.notFound name))
    | some val => bindArgsLoop field rest (arglist ++ [val])

/-- Function `bindArgs(names, arg, m)` on a record. -/
def bindArgs {α : Type} (names : List GoString) (field : GoString → Option α) :
    List α × Option BindError :=
  bindArgsLoop field names []

/-- Function `bindAnyArgs(names, arg, m)`: `bindMapArgs` when the argument
converts to `map[string]any`, `bindArgs` otherwise. -/
def bindAnyArgs {α : Type} (names : List GoString) : Source α → List α × Option BindError
  | .map m => bindMapArgs names m
  | .record field => bindArgs names field

/-- The Perl class `\s` of Go regular expressions: tab, newline, form feed,
carriage return and space. -/
def isSpace (b : UInt8) : Bool := b = 9 || b = 10 || b = 12 || b = 13 || b = 32

/-- The byte strings a letter of a `(?i)` literal accepts in UTF-8 text: the
upper-case and lower-case letter, and for `S` also U+017F (bytes `C5 BF`),
which Go's simple case folding puts in the orbit of `S`. -/
def foldForms (u : UInt8) : List GoString :=
  if u = 83 then [[83], [115], [197, 191]] else [[u], [u + 32]]

/-- Match one case-folded letter at the start of `s`: the rest after it. -/
def matchLetter (u : UInt8) (s : GoString) : Option GoString :=
  (foldForms u).findSome? (fun f => if f.isPrefixOf s then some (s.drop f.length) else none)

/-- Match a case-folded word (given in upper case) at the start of `s`. -/
def matchWord : List UInt8 → GoString → Option GoString
  | [], s => some s
  | u :: w, s =>
    match matchLetter u s with
    | none => none
    | some r => matchWord w r

/-- The word `VALUES` in upper case. -/
def valuesWord : List UInt8 := [86, 65, 76, 85, 69, 83]

/-- Match `valuesReg`, the pattern `\)\s*(?i)VALUES\s*\(`, at the start of
`s`: the length of the match.  After `)` the greedy `\s*` takes the whole run
of white space (the next byte has to start the word), and so does the second
one, so there is at most one match at a given start. -/
def matchValuesAt (s : GoString) : Option Nat :=
  match s with
  | 41 :: r0 =>
    match matchWord valuesWord (r0.dropWhile isSpace) with
    | none => none
    | some r2 =>
      match r2.dropWhile isSpace with
      | 40 :: r4 => some (s.length - r4.length)
      | _ => none
  | _ => none

/-- The search of `valuesReg.FindStringIndex` from byte position `pos`: the
leftmost start at which the pattern matches, with the end of the match. -/
def findValuesFrom : Nat → GoString → Option (Nat × Nat)
  | _, [] => none
  | pos, c :: rest =>
    match matchValuesAt (c :: rest) with
    | some e => some (pos, pos + e)
    | none => findValuesFrom (pos + 1) rest

/-- The call `valuesReg.FindStringIndex(bound)`: `none` is the nil result,
`some (loc0, loc1)` the pair `loc[0], loc[1]`. -/
def FindStringIndex (bound : GoString) : Option (Nat × Nat) := findValuesFrom 0 bound

/-- The loop `for i, ch := range s` of `findMatchingClosingBracketIndex`
with the running `count`, from byte index `i` on.  The loop visits runes;
`(` and `)` are single bytes that always start a rune, and no other rune
equals them, so visiting bytes gives the same counts and the same index
(`findMatchingRunes` is the loop over runes, `findMatchingRunes_eq` the proof
that both return the same). -/
def findMatchingLoop : Int → Nat → GoString → Nat
  | _, _, [] => 0
  | count, i, ch :: rest =>
    let count1 := if ch = 40 then count + 1 else count
    if ch = 41 then
      if count1 - 1 = 0 then i else findMatchingLoop (count1 - 1) (i + 1) rest
    else findMatchingLoop count1 (i + 1) rest

/-- Function `findMatchingClosingBracketIndex(s)`. -/
def findMatchingClosingBracketIndex (s : GoString) : Nat := findMatchingLoop 0 0 s

/-- Function `fixBound(bound, loop)`; `for range loop-1` runs `loop - 1` times,
and not at all when that is not positive. -/
def fixBound (bound : GoString) (loop : Int) : GoString :=
  match FindStringIndex bound with
  | none => bound
  | some loc =>
    let openingBracketIndex := loc.2 - 1
    let index := findMatchingClosingBracketIndex (bound.drop openingBracketIndex)
    if index = 0 then bound
    else
      let closingBracketIndex := openingBracketIndex + index + 1
      bound.take closingBracketIndex
        ++ (List.replicate (loop - 1).toNat
              (44 :: (bound.take closingBracketIndex).drop openingBracketIndex)).flatten
        ++ bound.drop closingBracketIndex

/-- The loop `for i := range arrayLen` of `bindArray` over the elements, with
the argument list built so far; an element that fails ends it with its error. -/
def bindArrayLoop {α : Type} (names : List GoString) :
    List (Source α) → List α → Except BindError (List α)
  | [], arglist => .ok arglist
  | elem :: rest, arglist =>
    match bindAnyArgs names elem with
    | (_, some e) => .error e
    | (elemArglist, none) => bindArrayLoop names rest (arglist ++ elemArglist)

/-- Function `bindArray(bindType, query, arg, m)` on an array or slice given
by its elements.  The final `Rebind` runs on fuel, hence the `Option`. -/
def bindArray {α : Type} (bindType : Int) (query : GoString) (arg : List (Source α)) :
    Option (BindResult α) :=
  let c := compileNamedQuery query Binder.QUESTION
  match c.err with
  | some e => some ⟨[], [], some (BindError.compile e)⟩
  | none =>
    if arg.length = 0 then some ⟨[], [], some BindError.emptyArray⟩
    else
      match bindArrayLoop c.names arg [] with
      | .error e => some ⟨[], [], some e⟩
      | .ok arglist =>
        let bound := if arg.length > 1 then fixBound c.query arg.length else c.query
        if bindType ≠ Binder.QUESTION then
          (Binder.Rebind bindType bound).map (fun b => ⟨b, arglist, none⟩)
        else some ⟨bound, arglist, none⟩

/-- White space only: every byte is in the class `\s`. -/
def allSpace (ws : GoString) : Prop := ∀ b ∈ ws, isSpace b = true

/-- The spellings of a letter given as an upper-case ASCII byte, stated
without reference to the matcher: the letter itself, its lower-case form (32
code points up), and for `S` also the long s U+017F (UTF-8 bytes C5 BF),
the third letter of the same case orbit. -/
def letterCases (u : UInt8) : List GoString :=
  [u] :: [u + 32] :: (if u = 0x53 then [[0xC5, 0xBF]] else [])

/-- A word given in upper case, written in any letter case: each letter in
one of its spellings, one after the other. -/
def FoldWord : List UInt8 → GoString → Prop
  | [], V => V = []
  | u :: w, V => ∃ f V1, f ∈ letterCases u ∧ V = f ++ V1 ∧ FoldWord w V1

/-- The keyword `VALUES` in any letter case. -/
def ValuesWord (V : GoString) : Prop := FoldWord (bytesOf "VALUES") V

/-- An occurrence of the pattern `)`, white space, `VALUES`, white space, `(`
starting at byte position `k` of `bound`. -/
def PatternAt (bound : GoString) (k : Nat) : Prop :=
  ∃ ws1 V ws2 rest, bound.drop k = 41 :: (ws1 ++ (V ++ (ws2 ++ 40 :: rest)))
    ∧ allSpace ws1 ∧ ValuesWord V ∧ allSpace ws2

/-- Nesting depth of a text: the number of `(` minus the number of `)`. -/
def depth (s : GoString) : Int := (s.count 40 : Int) - (s.count 41 : Int)

/-- A parenthesized group `"(" ++ body ++ ")"` whose final `)` is the one that
balances its opening `(`: inside `body` the depth never goes below zero and
ends at zero. -/
def BalancedGroup (G : GoString) : Prop :=
  ∃ body, G = 40 :: (body ++ [41]) ∧ depth body = 0
    ∧ ∀ k, k ≤ body.length → 0 ≤ depth (body.take k)

/-! ## binder/bind.go: the dialect table -/

/-- The dialect table `binds` (a `sync.Map` from driver name to bind type),
given by its lookup: `none` when `Load` finds nothing. -/
abbrev Binds := GoString → Option Int

/-- The table before any registration. -/
def emptyBinds : Binds := fun _ => none

/-- Method `Binder.Type(driverName)` on a state of the table: the stored bind
type, or UNKNOWN when nothing is stored for the name. -/
def bindTypeOf (binds : Binds) (driverName : GoString) : Int :=
  match binds driverName with
  | none => Binder.UNKNOWN
  | some itype => itype

/-- Method `Binder.Driver(driverName, bindType)`: the table after
`binds.Store(driverName, bindType)`. -/
def Driver (binds : Binds) (driverName : GoString) (bindType : Int) : Binds :=
  fun name => if name = driverName then some bindType else binds name

/-- The variable `defaultBinds`, as the list of its entries. -/
def defaultBinds : List (Int × List GoString) :=
  [(Binder.DOLLAR, [bytesOf "postgres", bytesOf "pgx", bytesOf "pq-timeouts",
      bytesOf "cloudsqlpostgres", bytesOf "ql", bytesOf "nrpostgres", bytesOf "cockroach"]),
   (Binder.QUESTION, [bytesOf "mysql", bytesOf "sqlite3", bytesOf "nrmysql",
      bytesOf "nrsqlite3"]),
   (Binder.NAMED, [bytesOf "oci8", bytesOf "ora", bytesOf "goracle", bytesOf "godror"]),
   (Binder.AT, [bytesOf "sqlserver", bytesOf "azuresql"])]

/-- The calls `Default.Driver(driver, bind)` that `init` makes when `range
defaultBinds` visits the entries in the given order, as (driver, bind) pairs. -/
def registrations (order : List (Int × List GoString)) : List (GoString × Int) :=
  order.flatMap (fun e => e.2.map (fun driver => (driver, e.1)))

/-- The table after `init`, for an order in which the Go map `defaultBinds`
is iterated. -/
def initBinds (order : List (Int × List GoString)) : Binds :=
  (registrations order).foldl (fun binds r => Driver binds r.1 r.2) emptyBinds

/-- The function `oldBindType` of `bind_test.go`. -/
def oldBindType (driverName : GoString) : Int :=
  if driverName = bytesOf "postgres" ∨ driverName = bytesOf "pgx"
      ∨ driverName = bytesOf "pq-timeouts" ∨ driverName = bytesOf "cloudsqlpostgres"
      ∨ driverName = bytesOf "ql" then Binder.DOLLAR
  else if driverName = bytesOf "mysql" then Binder.QUESTION
  else if driverName = bytesOf "sqlite3" then Binder.QUESTION
  else if driverName = bytesOf "oci8" ∨ driverName = bytesOf "ora"
      ∨ driverName = bytesOf "goracle" ∨ driverName = bytesOf "godror" then Binder.NAMED
  else if driverName = bytesOf "sqlserver" then Binder.AT
  else Binder.UNKNOWN

/-! ## reflectx -/

namespace Reflectx

/-- A `reflect.Type`, by identity: types are numbered, and a type environment
tells what each number stands for. -/
abbrev TypeId := Nat

/-- A `reflect.StructField`, as far as `getMapping` reads it: the declared
name, the type, the package path (empty for an exported field), the
`Anonymous` flag, and the value of the struct tag looked up under the
mapper's tag name (`none` when the field has no such tag). -/
structure StructField where
  Name : GoString
  Typ : TypeId
  PkgPath : GoString
  Anonymous : Bool
  Tag : Option GoString
  deriving DecidableEq, Repr

/-- What a type is, as far as `getMapping` looks: a struct with its fields, a
pointer to another type, or anything else. -/
inductive TypeDesc where
  | struct (fields : List StructField)
  | pointer (elem : TypeId)
  | other
  deriving DecidableEq, Repr

/-- The types of a program: the type numbered `t` is `env[t]`, and a number
without an entry is a type that is neither struct nor pointer. -/
abbrev TypeEnv := List TypeDesc

/-- The description of the type `t`. -/
def TypeEnv.desc (env : TypeEnv) (t : TypeId) : TypeDesc := env.getD t TypeDesc.other

/-- Function `Deref(t)`: the element type of a pointer type, else `t`. -/
def Deref (env : TypeEnv) (t : TypeId) : TypeId :=
  match env.desc t with
  | .pointer elem => elem
  | _ => t

/-- The fields `t.Field(0) .. t.Field(t.NumField()-1)` when `t.Kind()` is
`reflect.Struct`, and no field otherwise (`nChildren = 0`). -/
def structFields (env : TypeEnv) (t : TypeId) : List StructField :=
  match env.desc t with
  | .struct fields => fields
  | _ => []

/-- The test `fi.Zero.Kind() == reflect.Struct || (fi.Zero.Kind() ==
reflect.Pointer && fi.Zero.Type().Elem().Kind() == reflect.Struct)` on the
type of the field. -/
def isStructOrPointerToStruct (env : TypeEnv) (t : TypeId) : Bool :=
  match env.desc t with
  | .struct _ => true
  | .pointer elem =>
    (match env.desc elem with
     | .struct _ => true
     | _ => false)
  | .other => false

/-- Modelled from the spec: `Parser.Name` is not among the source files.  The
canonical name of a field is the explicit tag value, else the name-mapping
function applied to the declared field name, else the declared name; the
first result is the tag (empty when the field has none). -/
def parserName (mapFunc : Option (GoString → GoString)) (f : StructField) :
    GoString × GoString :=
  match f.Tag with
  | some tag => (tag, tag)
  | none =>
    match mapFunc with
    | some g => ([], g f.Name)
    | none => ([], f.Name)

/-- Modelled from the spec: the helper `apnd` is not among the source files.
The traversal of a field is the traversal of its parent followed by the
position of the field, in a fresh slice. -/
def apnd (is : List Int) (i : Int) : List Int := is ++ [i]

/-- The type `FieldInfo`, with the fields that `getMapping` and
`GetByTraversal` use.  A `*FieldInfo` is the number of a cell of the heap of
field nodes; `Field = none` is the zero `StructField` of the root, whose
`Type` is nil.  `Zero` is read only for its kind and `Options` not at all;
both are left out. -/
structure FieldInfo where
  Field : Option StructField
  Name : GoString
  Path : GoString
  Index : List Int
  Embedded : Bool
  Parent : Option Nat
  Children : List (Option Nat)
  deriving DecidableEq, Repr

/-- The zero value `FieldInfo{}`. -/
def zeroFieldInfo : FieldInfo := ⟨none, [], [], [], false, none, []⟩

/-- The node a pointer points to. -/
def nodeAt (heap : List FieldInfo) (p : Nat) : FieldInfo := heap.getD p zeroFieldInfo

/-- The value `fi.Field.Type` of a node (`none` is the nil type). -/
def fieldType (fi : FieldInfo) : Option TypeId := fi.Field.map (fun f => f.Typ)

/-- The type `typeQueue`. -/
structure typeQueue where
  t : TypeId
  fi : Nat
  pp : GoString
  deriving DecidableEq, Repr

/-- The loop `for p := tq.fi.Parent; p != nil; p = p.Parent` of the
recursion check, looking for an ancestor whose `Field.Type` is `ft`.  It
follows parent pointers, so it runs on fuel; `none` means the fuel ran out. -/
def recursiveField (heap : List FieldInfo) (ft : Option TypeId) :
    Nat → Option Nat → Option Bool
  | _, none => some false
  | 0, some _ => none
  | fuel + 1, some p =>
    if ft = fieldType (nodeAt heap p) then some true
    else recursiveField heap ft fuel (nodeAt heap p).Parent

/-- The dotted path of a name under a parent path: the name itself when the
parent path is empty, else `pp + "." + name`. -/
def joinPath (pp name : GoString) : GoString :=
  if pp = [] then name else pp ++ bytesOf "." ++ name

/-- One pass of the body of the loop over the fields of `tq.t`, for the field
`f` at position `fieldPos`: `none` when the field is skipped (its name is `-`,
or it is unexported and not anonymous), else the new `FieldInfo`, which will
live at address `addr`, and the queue entry appended for it, if any. -/
def newField (env : TypeEnv) (mapFunc : Option (GoString → GoString)) (tq : typeQueue)
    (parentIndex : List Int) (fieldPos : Nat) (f : StructField) (addr : Nat) :
    Option (FieldInfo × Option typeQueue) :=
  let tag := (parserName mapFunc f).1
  let name := (parserName mapFunc f).2
  if name = bytesOf "-" then none
  else
    let path := joinPath tq.pp name
    if f.PkgPath.length ≠ 0 && !f.Anonymous then none
    else if f.Anonymous then
      let pp := if tag ≠ [] then path else tq.pp
      some (⟨some f, name, path, apnd parentIndex fieldPos, true, some tq.fi,
              List.replicate (structFields env (Deref env f.Typ)).length none⟩,
            some ⟨Deref env f.Typ, addr, pp⟩)
    else if isStructOrPointerToStruct env f.Typ then
      some (⟨some f, name, path, apnd parentIndex fieldPos, false, some tq.fi,
              List.replicate (structFields env (Deref env f.Typ)).length none⟩,
            some ⟨Deref env f.Typ, addr, path⟩)
    else
      some (⟨some f, name, path, apnd parentIndex fieldPos, false, some tq.fi, []⟩, none)

/-- What one run of the loop over the fields of a node adds: the new nodes in
allocation order, the `Children` slice of the node, the entries appended to
the queue and the pointers appended to `m`. -/
structure Expansion where
  nodes : List FieldInfo
  children : List (Option Nat)
  queue : List typeQueue
  m : List Nat
  deriving DecidableEq, Repr

/-- The loop `for fieldPos := 0; fieldPos < nChildren; fieldPos++` from
position `fieldPos` on, over the fields not yet visited.  New nodes are
allocated after the `base` cells of the heap; a skipped field leaves nil in
its slot of `Children`. -/
def fieldLoop (env : TypeEnv) (mapFunc : Option (GoString → GoString)) (tq : typeQueue)
    (parentIndex : List Int) (base : Nat) : Nat → List StructField → Expansion → Expansion
  | _, [], e => e
  | fieldPos, f :: rest, e =>
    match newField env mapFunc tq parentIndex fieldPos f (base + e.nodes.length) with
    | none =>
      fieldLoop env mapFunc tq parentIndex base (fieldPos + 1) rest
        { e with children := e.children ++ [none] }
    | some (fi, entry) =>
      fieldLoop env mapFunc tq parentIndex base (fieldPos + 1) rest
        ⟨e.nodes ++ [fi], e.children ++ [some (base + e.nodes.length)],
          e.queue ++ entry.toList, e.m ++ [base + e.nodes.length]⟩

/-- The variables of `getMapping` that its loops update: the heap of field
nodes, the queue and the list `m`. -/
structure MapState where
  heap : List FieldInfo
  queue : List typeQueue
  m : List Nat
  deriving DecidableEq, Repr

/-- One iteration of `QueueLoop` for the popped entry `tq`, the rest of the
queue being `rest`: the recursion check, then the loop over the fields. -/
def queueStep (env : TypeEnv) (mapFunc : Option (GoString → GoString)) (heap : List FieldInfo)
    (tq : typeQueue) (rest : List typeQueue) (m : List Nat) : Option MapState :=
  let cur := nodeAt heap tq.fi
  match recursiveField heap (fieldType cur) heap.length cur.Parent with
  | none => none
  | some true => some ⟨heap, rest, m⟩
  | some false =>
    let e := fieldLoop env mapFunc tq cur.Index heap.length 0 (structFields env tq.t)
      ⟨[], [], [], []⟩
    some ⟨heap.set tq.fi { cur with Children := e.children } ++ e.nodes, rest ++ e.queue,
      m ++ e.m⟩

/-- The loop `for len(queue) != 0`, on fuel; `none` means the fuel ran out. -/
def queueLoop (env : TypeEnv) (mapFunc : Option (GoString → GoString)) :
    Nat → MapState → Option MapState
  | _, ⟨heap, [], m⟩ => some ⟨heap, [], m⟩
  | 0, ⟨_, _ :: _, _⟩ => none
  | fuel + 1, ⟨heap, tq :: rest, m⟩ =>
    match queueStep env mapFunc heap tq rest m with
    | none => none
    | some st => queueLoop env mapFunc fuel st

/-- The type `StructMap`: the heap that holds its nodes, the root pointer
`Tree`, the list `Index` and the two maps, each given by its lookup.  `Tree`
points to a node, as in every StructMap that `getMapping` makes; a nil `Tree`
is not represented. -/
structure StructMap where
  heap : List FieldInfo
  Tree : Nat
  Index : List Nat
  Paths : GoString → Option Nat
  Names : GoString → Option Nat

/-- The loop `for _, fi := range flds.Index` that fills `Paths` and `Names`. -/
def tablesLoop (heap : List FieldInfo) :
    List Nat → (GoString → Option Nat) × (GoString → Option Nat) →
      (GoString → Option Nat) × (GoString → Option Nat)
  | [], tables => tables
  | p :: rest, (paths, names) =>
    let fi := nodeAt heap p
    let replace : Bool :=
      match paths fi.Path with
      | none => true
      | some fld => (nodeAt heap fld).Embedded
    if replace then
      tablesLoop heap rest
        (fun k => if k = fi.Path then some p else paths k,
         if fi.Name ≠ [] && !fi.Embedded then (fun k => if k = fi.Path then some p else names k)
         else names)
    else tablesLoop heap rest (paths, names)

/-- Function `getMapping(t, tagName, mapFunc, tagMapFunc)`, with the fuel of
its queue loop.  The root node is cell 0 of the heap. -/
def getMapping (env : TypeEnv) (mapFunc : Option (GoString → GoString)) (t : TypeId)
    (fuel : Nat) : Option StructMap :=
  match queueLoop env mapFunc fuel ⟨[zeroFieldInfo], [⟨Deref env t, 0, []⟩], []⟩ with
  | none => none
  | some st =>
    let tables := tablesLoop st.heap st.m (fun _ => none, fun _ => none)
    some ⟨st.heap, 0, st.m, tables.1, tables.2⟩

/-- Method `StructMap.GetByPath(path)`: `none` is the nil pointer. -/
def StructMap.GetByPath (f : StructMap) (path : GoString) : Option Nat := f.Paths path

/-- The result of `GetByTraversal`: nil, a node, or a run-time panic (index
out of range). -/
inductive Lookup (ν : Type) where
  | absent
  | node (n : ν)
  | fault
  deriving DecidableEq, Repr

/-- The loop `for _, i := range index` of `GetByTraversal` over a pointer
structure given by the `Children` of each node.  `i >= len(tree.Children)` is
tested first; `tree.Children[i]` with a negative `i` is out of range. -/
def traversalLoop {ν : Type} (children : ν → List (Option ν)) : ν → List Int → Lookup ν
  | tree, [] => Lookup.node tree
  | tree, i :: rest =>
    if i ≥ ((children tree).length : Int) then Lookup.absent
    else if i < 0 then Lookup.fault
    else
      match (children tree)[i.toNat]? with
      | some (some child) => traversalLoop children child rest
      | _ => Lookup.absent

/-- Method `StructMap.GetByTraversal(index)` on a tree given by its root and
the `Children` of each node. -/
def GetByTraversal {ν : Type} (children : ν → List (Option ν)) (tree : ν) (index : List Int) :
    Lookup ν :=
  if index.length = 0 then Lookup.absent else traversalLoop children tree index

/-- Method `GetByTraversal` on a `StructMap` whose nodes live in a heap. -/
def StructMap.GetByTraversal (f : StructMap) (index : List Int) : Lookup Nat :=
  Reflectx.GetByTraversal (fun p => (nodeAt f.heap p).Children) f.Tree index

/-- The node reached from `tree` by following `Children[i]` for each index in
order, if every step finds a child. -/
def follow {ν : Type} (children : ν → List (Option ν)) : ν → List Nat → Option ν
  | tree, [] => some tree
  | tree, i :: rest =>
    match (children tree)[i]? with
    | some (some child) => follow children child rest
    | _ => none


/-- The fields of a node's own struct type as `getMapping` expands it: the
type `Deref(t)` for the root, `Deref(f.Type)` for a field node. -/
def nodeType (env : TypeEnv) (t : TypeId) (fi : FieldInfo) : TypeId :=
  match fieldType fi with
  | none => Deref env t
  | some ty => Deref env ty

/-- The result of the loop over the fields, written by recursion on the fields
that remain: what `fieldLoop` adds when the next free address is `addr`. -/
def expansionFrom (env : TypeEnv) (mapFunc : Option (GoString → GoString)) (tq : typeQueue)
    (parentIndex : List Int) : Nat → Nat → List StructField → Expansion
  | _, _, [] => ⟨[], [], [], []⟩
  | addr, fieldPos, f :: rest =>
    match newField env mapFunc tq parentIndex fieldPos f addr with
    | none =>
      let r := expansionFrom env mapFunc tq parentIndex addr (fieldPos + 1) rest
      ⟨r.nodes, none :: r.children, r.queue, r.m⟩
    | some (fi, entry) =>
      let r := expansionFrom env mapFunc tq parentIndex (addr + 1) (fieldPos + 1) rest
      ⟨fi :: r.nodes, some addr :: r.children, entry.toList ++ r.queue, addr :: r.m⟩

/-- The types of all fields of all struct types of the environment. -/
def fieldTypes (env : TypeEnv) : List TypeId :=
  env.flatMap (fun d =>
    match d with
    | .struct fields => fields.map (fun f => f.Typ)
    | _ => [])

/-- The number of distinct field types. -/
def distinctFieldTypes (env : TypeEnv) : Nat := (fieldTypes env).dedup.length

/-- The largest number of fields of a struct type of the environment. -/
def maxFields (env : TypeEnv) : Nat :=
  (env.map (fun d =>
    match d with
    | .struct fields => fields.length
    | _ => 0)).foldr max 0

/-- A bound on the number of queue entries that a node with `k` levels left
below it can cause, itself included, when no struct has more than `width`
fields. -/
def growth (width : Nat) : Nat → Nat
  | 0 => 1
  | k + 1 => 1 + width * growth width k

/-- A number of iterations of the queue loop that is enough for every type of
the environment. -/
def fuelBound (env : TypeEnv) : Nat := growth (maxFields env) (distinctFieldTypes env + 1)

/-- The field types met on the way up from a node along `Parent`, the node's
own first (the root has none); it follows pointers, so it runs on fuel. -/
def ancestorTypes (heap : List FieldInfo) : Nat → Option Nat → List TypeId
  | 0, _ => []
  | _, none => []
  | fuel + 1, some p =>
    (fieldType (nodeAt heap p)).toList ++ ancestorTypes heap fuel (nodeAt heap p).Parent

/-- The pointer result of a lookup: nil when there is no node. -/
def Lookup.ofOption {ν : Type} : Option ν → Lookup ν
  | none => Lookup.absent
  | some n => Lookup.node n

/-- The field that wins the path `path` among the fields `index` in discovery
order: the first one that is not embedded, and the last one when all of them
are embedded. -/
def pathWinner (heap : List FieldInfo) (index : List Nat) (path : GoString) : Option Nat :=
  (index.find? (fun p => (nodeAt heap p).Path = path && !(nodeAt heap p).Embedded)).or
    (index.reverse.find? (fun p => (nodeAt heap p).Path = path))

/-- An exported field without a tag. -/
def plainField (name : String) (t : TypeId) : StructField := ⟨bytesOf name, t, [], false, none⟩

/-- An exported field with a tag. -/
def taggedField (name : String) (t : TypeId) (tag : String) : StructField :=
  ⟨bytesOf name, t, [], false, some (bytesOf tag)⟩

/-- An embedded struct field without a tag. -/
def embeddedField (name : String) (t : TypeId) : StructField := ⟨bytesOf name, t, [], true, none⟩

/-- An embedded struct field with a tag. -/
def embeddedTagged (name : String) (t : TypeId) (tag : String) : StructField :=
  ⟨bytesOf name, t, [], true, some (bytesOf tag)⟩

/-- Function `strings.ToLower` on ASCII letters, the name mapping of
`TestMapping`. -/
def toLowerASCII (s : GoString) : GoString :=
  s.map (fun b => if 65 ≤ b && b ≤ 90 then b + 32 else b)

/-- The types of `TestGetByTraversal`: 0 is `int`, 1 is `string`, 2 is
`C{C0 int; C1 int}`, 3 is `*C`, 4 is `B{B0 string; B1 *C}` and 5 is
`A{A0 int; A1 B}`. -/
def traversalTypes : TypeEnv :=
  [.other, .other, .struct [plainField "C0" 0, plainField "C1" 0], .pointer 2,
   .struct [plainField "B0" 1, plainField "B1" 3],
   .struct [plainField "A0" 0, plainField "A1" 4]]

/-- The types of `TestMapping`, with the tag `db`: 0 is `int`, 1 is `string`,
2 is `bool`, 3 is `Person`, 4 is `SportsPerson` and 5 is `RugbyPlayer`. -/
def rugbyTypes : TypeEnv :=
  [.other, .other, .other,
   .struct [plainField "ID" 0, plainField "Name" 1, taggedField "WearsGlasses" 2 "wears_glasses"],
   .struct [plainField "Weight" 0, plainField "Age" 0, embeddedField "Person" 3],
   .struct [plainField "Position" 0, taggedField "IsIntense" 2 "is_intense",
     taggedField "IsAllBlack" 2 "-", embeddedField "SportsPerson" 4]]

/-- The types of `TestMapperMethodsByName`, with the tag `db`: 0 is `int`, 1
is `C{C0 string; C1 int}`, 2 is `B{B0 *C "B0"; B1 C "B1"; B2 string "B2"}`,
3 is `*C`, 4 is `*B`, 5 is `string`, 6 is
`A{A0 *B "A0"; B "A1"; A2 int}` and 7 is `*A`. -/
def methodsTypes : TypeEnv :=
  [.other, .struct [plainField "C0" 5, plainField "C1" 0],
   .struct [taggedField "B0" 3 "B0", taggedField "B1" 1 "B1", taggedField "B2" 5 "B2"],
   .pointer 1, .pointer 2, .other,
   .struct [taggedField "A0" 4 "A0", embeddedTagged "B" 2 "A1", plainField "A2" 0],
   .pointer 6]

/-- A struct with two plain fields mapped to the same path:
`struct{A int "x"; B int "x"}` is type 1, `int` is type 0. -/
def collidingTypes : TypeEnv :=
  [.other, .struct [taggedField "A" 0 "x", taggedField "B" 0 "x"]]

/-- A struct whose plain field `Y` is tagged with the path of the embedded
struct before it: 0 is `int`, 1 is `Inner{X int}` and 2 is
`Outer{Inner; Y int "Inner"}`. -/
def overridingTypes : TypeEnv :=
  [.other, .struct [plainField "X" 0],
   .struct [embeddedField "Inner" 1, taggedField "Y" 0 "Inner"]]

/-- A type that refers to itself through a pointer field: 0 is
`T{Next *T}` and 1 is `*T`. -/
def selfTypes : TypeEnv := [.struct [plainField "Next" 1], .pointer 0]


/-- The field types on the way up from the node `p`, its own first, when
`anc p` lists those of its proper ancestors. -/
def chainTypes (heap : List FieldInfo) (anc : Nat → List TypeId) (p : Nat) : List TypeId :=
  (fieldType (nodeAt heap p)).toList ++ anc p

/-- What holds of a field node `q` of the heap, made for the field `f` at
position `pos` of its parent `P`; `cp` gives for each node the path prefix of
its children and `anc` the field types of its proper ancestors. -/
structure NodeRel (env : TypeEnv) (mapFunc : Option (GoString → GoString)) (t : TypeId)
    (heap : List FieldInfo) (cp : Nat → GoString) (anc : Nat → List TypeId)
    (q : Nat) (f : StructField) (P pos : Nat) : Prop where
  field : (nodeAt heap q).Field = some f
  parent : (nodeAt heap q).Parent = some P
  lt : P < q
  name : (nodeAt heap q).Name = (parserName mapFunc f).2
  notExcluded : (nodeAt heap q).Name ≠ bytesOf "-"
  embedded : (nodeAt heap q).Embedded = f.Anonymous
  index : (nodeAt heap q).Index = (nodeAt heap P).Index ++ [(pos : Int)]
  child : (nodeAt heap P).Children[pos]? = some (some q)
  fieldPos : (structFields env (nodeType env t (nodeAt heap P)))[pos]? = some f
  path : (nodeAt heap q).Path = joinPath (cp P) (nodeAt heap q).Name
  childPath : cp q = if f.Anonymous = true then
      (if (parserName mapFunc f).1 ≠ [] then (nodeAt heap q).Path else cp P)
    else (nodeAt heap q).Path
  ancestors : anc q = chainTypes heap anc P
  nodup : (anc q).Nodup
  known : ∀ ty ∈ anc q, ty ∈ fieldTypes env
  typ : f.Typ ∈ fieldTypes env

/-- The invariant of the queue loop of `getMapping`. -/
structure Inv (env : TypeEnv) (mapFunc : Option (GoString → GoString)) (t : TypeId)
    (cp : Nat → GoString) (anc : Nat → List TypeId) (st : MapState) : Prop where
  rootField : (nodeAt st.heap 0).Field = none
  rootParent : (nodeAt st.heap 0).Parent = none
  rootIndex : (nodeAt st.heap 0).Index = []
  nonempty : 0 < st.heap.length
  rootPath : cp 0 = []
  rootAncestors : anc 0 = []
  nodes : ∀ q, 0 < q → q < st.heap.length → ∃ f P pos, NodeRel env mapFunc t st.heap cp anc q f P pos
  index : st.m = List.range' 1 (st.heap.length - 1)
  queueBound : ∀ tq ∈ st.queue, tq.fi < st.heap.length
  queuePath : ∀ tq ∈ st.queue, tq.pp = cp tq.fi
  queueType : ∀ tq ∈ st.queue, tq.t = nodeType env t (nodeAt st.heap tq.fi)
  queueSorted : st.queue.Pairwise (fun a b => a.fi < b.fi)
  queueParent : ∀ q, q < st.heap.length → ∀ P, (nodeAt st.heap q).Parent = some P →
    ∀ tq ∈ st.queue, P < tq.fi

/-- The path prefix of the children of a new node `n`, made under the prefix
`pp`: an embedded field without a tag hands `pp` on, every other field its
own path. -/
def pathFor (mapFunc : Option (GoString → GoString)) (pp : GoString) (n : FieldInfo) :
    GoString :=
  match n.Field with
  | some f =>
    if f.Anonymous = true then (if (parserName mapFunc f).1 ≠ [] then n.Path else pp)
    else n.Path
  | none => []

/-- The depth of a node: 0 for the root, else one more than the number of its
proper ancestors below the root. -/
def depthOf (anc : Nat → List TypeId) (q : Nat) : Nat :=
  if q = 0 then 0 else (anc q).length + 1

/-- The measure that decreases with every iteration of the queue loop. -/
def queueMeasure (env : TypeEnv) (anc : Nat → List TypeId) (queue : List typeQueue) : Nat :=
  (queue.map (fun tq =>
    growth (maxFields env) (distinctFieldTypes env + 1 - depthOf anc tq.fi))).sum

end Reflectx

/-- The test of the loop of `compileNamedQuery` for a byte that goes on with a
name: `unicode.IsOneOf(allowedBindRunes, rune(b)) || b == '_' || b == '.'`. -/
def isBindNameByte (b : UInt8) : Bool := allowedBindRune b || b = 95 || b = 46

/-- A state of the loop of `compileNamedQuery` without the parts that the bind
type acts on: `rebound` and `currentVar` are blanked. -/
def eraseState (s : CompileState) : CompileState := { s with rebound := [], currentVar := 0 }

/-- The outcome of an iteration without the parts that the bind type acts on. -/
def eraseStep : CompileStep → CompileStep
  | .next s => .next (eraseState s)
  | .ret r => .ret ⟨[], r.names, r.err⟩

/-! ## types/bit.go and types/json_text.go -/

namespace Types

/-- The value `src any` handed to a `Scan` method, as far as the type switches
of this package tell values apart: a `string`, a `[]byte` (nil or not; only
its bytes count), the nil interface, or a value of any other type. -/
inductive Src where
  | str (s : GoString)
  | bytes (b : GoString)
  | null
  | other
  deriving DecidableEq, Repr

/-- The errors made in this package: `ErrBadBitBoolSource` and the error
`Incompatible type for JSONText`. -/
inductive TypesError where
  | ErrBadBitBoolSource
  | incompatibleJSONText
  deriving DecidableEq, Repr

/-- How a method with a pointer receiver ends: it returns, leaving a value in
the receiver and an error (`none` is nil), or it panics at run time. -/
inductive Outcome (α : Type) where
  | ret (receiver : α) (err : Option TypesError)
  | fault
  deriving DecidableEq, Repr

/-- The type `BitBool`. -/
abbrev BitBool := Bool

/-- Method `BitBool.Value()`: the `driver.Value` (a `[]byte`) and the error. -/
def BitBool.Value (b : BitBool) : GoString × Option TypesError :=
  if b then ([1], none) else ([0], none)

/-- Method `(*BitBool).Scan(src)`, with the value of `*b` before the call.
`v[0]` is an index out of range when `v` has no byte. -/
def BitBool.Scan (b : BitBool) (src : Src) : Outcome BitBool :=
  match src with
  | .bytes v =>
    match v with
    | [] => Outcome.fault
    | v0 :: _ => Outcome.ret (v0 = 1) none
  | _ => Outcome.ret b (some TypesError.ErrBadBitBoolSource)

/-- The type `JSONText`, a `[]byte`. -/
abbrev JSONText := GoString

/-- The variable `EmptyJSON`, by the value it is given at its declaration.
It is a package variable of slice type: a write through a slice that shares
its backing array, such as `*j` after `Scan(nil)`, would change its bytes;
byte sequences are values here and that sharing is not modelled. -/
def EmptyJSON : JSONText := bytesOf "{}"

/-- Method `(*JSONText).Scan(src)`, with the value of `*j` before the call:
the value of `*j` after it and the error.  The switch sets `source` (nil at
first) and, in the nil case, `*j`; unless the default case returns, the last
statement `*j = append((*j)[0:0], source...)` follows in every case. -/
def JSONText.Scan (j : JSONText) (src : Src) : JSONText × Option TypesError :=
  let afterSwitch : Option (GoString × JSONText) :=
    match src with
    | .str t => some (t, j)
    | .bytes t => some (if t.length = 0 then EmptyJSON else t, j)
    | .null => some ([], EmptyJSON)
    | .other => none
  match afterSwitch with
  | none => (j, some TypesError.incompatibleJSONText)
  | some (source, j1) => (j1.take 0 ++ source, none)

end Types

/-! ## binder/bind.go: RebindBuff -/

namespace Binder

/-- The constant `utf8.RuneError`, U+FFFD. -/
def RuneError : Nat := 0xFFFD

/-- The entry of the table `first` of package `utf8` for a lead byte of a
sequence of more than one byte: the size of the sequence and the range
`acceptRanges` allows for the second byte.  `none` is the entry `xx` of a
byte that starts no sequence. -/
def leadInfo (s0 : Nat) : Option (Nat × Nat × Nat) :=
  if 0xC2 ≤ s0 ∧ s0 ≤ 0xDF then some (2, 0x80, 0xBF)
  else if s0 = 0xE0 then some (3, 0xA0, 0xBF)
  else if (0xE1 ≤ s0 ∧ s0 ≤ 0xEC) ∨ s0 = 0xEE ∨ s0 = 0xEF then some (3, 0x80, 0xBF)
  else if s0 = 0xED then some (3, 0x80, 0x9F)
  else if s0 = 0xF0 then some (4, 0x90, 0xBF)
  else if 0xF1 ≤ s0 ∧ s0 ≤ 0xF3 then some (4, 0x80, 0xBF)
  else if s0 = 0xF4 then some (4, 0x80, 0x8F)
  else none

/-- Function `utf8.DecodeRuneInString` on the values of the bytes, which is
what `for _, r := range query` does at each position: the rune and its width
in bytes, `(RuneError, 1)` for an invalid encoding.  The masks and shifts of
the source are written with `%` and `*`: `s0&mask2` is `s0 % 32`, `x<<6` is
`x * 64`, and the parts joined by `|` have no bit in common. -/
def decodeRuneNat : List Nat → Nat × Nat
  | [] => (RuneError, 0)
  | s0 :: rest =>
    if s0 < 0x80 then (s0, 1)
    else
      match leadInfo s0 with
      | none => (RuneError, 1)
      | some (sz, lo, hi) =>
        if rest.length + 1 < sz then (RuneError, 1)
        else
          match rest with
          | [] => (RuneError, 1)
          | s1 :: rest1 =>
            if s1 < lo ∨ hi < s1 then (RuneError, 1)
            else if sz ≤ 2 then (s0 % 32 * 64 + s1 % 64, 2)
            else
              match rest1 with
              | [] => (RuneError, 1)
              | s2 :: rest2 =>
                if s2 < 0x80 ∨ 0xBF < s2 then (RuneError, 1)
                else if sz ≤ 3 then (s0 % 16 * 4096 + s1 % 64 * 64 + s2 % 64, 3)
                else
                  match rest2 with
                  | [] => (RuneError, 1)
                  | s3 :: _ =>
                    if s3 < 0x80 ∨ 0xBF < s3 then (RuneError, 1)
                    else (s0 % 8 * 262144 + s1 % 64 * 4096 + s2 % 64 * 64 + s3 % 64, 4)

/-- The rune at the start of a string and its width. -/
def DecodeRune (p : GoString) : Nat × Nat := decodeRuneNat (p.map UInt8.toNat)

/-- Function `utf8.AppendRune` on an empty slice, which is what
`bytes.Buffer.WriteRune` appends: the UTF-8 encoding of a rune, that of
`RuneError` for a surrogate or a value above U+10FFFF. -/
def AppendRune (r : Nat) : GoString :=
  if r < 0x80 then [UInt8.ofNat r]
  else if r ≤ 0x7FF then [UInt8.ofNat (0xC0 + r / 64), UInt8.ofNat (0x80 + r % 64)]
  else if r > 0x10FFFF ∨ (0xD800 ≤ r ∧ r ≤ 0xDFFF) then [0xEF, 0xBF, 0xBD]
  else if r ≤ 0xFFFF then
    [UInt8.ofNat (0xE0 + r / 4096), UInt8.ofNat (0x80 + r / 64 % 64), UInt8.ofNat (0x80 + r % 64)]
  else
    [UInt8.ofNat (0xF0 + r / 262144), UInt8.ofNat (0x80 + r / 4096 % 64),
      UInt8.ofNat (0x80 + r / 64 % 64), UInt8.ofNat (0x80 + r % 64)]

/-- The loop `for _, r := range query` of `RebindBuff` over the rest of the
query, with the counter `j` and the buffer `rqb`.  Each iteration drops the
width of a rune, so the loop runs on fuel; `none` means the fuel ran out. -/
def RebindBuffLoop : Nat → GoString → Nat → GoString → Option GoString
  | _, [], _, rqb => some rqb
  | 0, _ :: _, _, _ => none
  | fuel + 1, b :: rest, j, rqb =>
    if (DecodeRune (b :: rest)).1 = 63 then
      RebindBuffLoop fuel ((b :: rest).drop (DecodeRune (b :: rest)).2) (j + 1)
        (rqb ++ AppendRune 36 ++ Itoa j)
    else
      RebindBuffLoop fuel ((b :: rest).drop (DecodeRune (b :: rest)).2) j
        (rqb ++ AppendRune (DecodeRune (b :: rest)).1)

/-- Method `Binder.RebindBuff(bindType, query)`. -/
def RebindBuff (bindType : Int) (query : GoString) : Option GoString :=
  if bindType ≠ DOLLAR then some query
  else RebindBuffLoop query.length query 1 []

/-- A well-formed UTF-8 byte sequence of one code point (the table of the
Unicode standard): one byte below 0x80; a lead byte 0xC2-0xDF and one
continuation byte; a lead byte 0xE0-0xEF and two, where the second byte is at
least 0xA0 after 0xE0 and at most 0x9F after 0xED; a lead byte 0xF0-0xF4 and
three, where the second byte is at least 0x90 after 0xF0 and at most 0x8F
after 0xF4. -/
def wellFormed (s : GoString) : Bool :=
  match s.map UInt8.toNat with
  | [a] => a < 0x80
  | [a, b] => 0xC2 ≤ a && a ≤ 0xDF && 0x80 ≤ b && b ≤ 0xBF
  | [a, b, c] =>
    ((a = 0xE0 && 0xA0 ≤ b && b ≤ 0xBF) || (0xE1 ≤ a && a ≤ 0xEC && 0x80 ≤ b && b ≤ 0xBF)
      || (a = 0xED && 0x80 ≤ b && b ≤ 0x9F) || (0xEE ≤ a && a ≤ 0xEF && 0x80 ≤ b && b ≤ 0xBF))
    && 0x80 ≤ c && c ≤ 0xBF
  | [a, b, c, d] =>
    ((a = 0xF0 && 0x90 ≤ b && b ≤ 0xBF) || (0xF1 ≤ a && a ≤ 0xF3 && 0x80 ≤ b && b ≤ 0xBF)
      || (a = 0xF4 && 0x80 ≤ b && b ≤ 0x8F))
    && 0x80 ≤ c && c ≤ 0xBF && 0x80 ≤ d && d ≤ 0xBF
  | _ => false

/-- A string that is valid UTF-8: well-formed sequences one after the other. -/
def ValidUTF8 (q : GoString) : Prop :=
  ∃ seqs : List GoString, (∀ s ∈ seqs, wellFormed s = true) ∧ q = seqs.flatten

end Binder

/-! ## rows.go and row.go -/

/-- A pointer handed to `Scan` of `database/sql`: the destination itself, the
field of the destination record reached by a traversal, a fresh `new(any)`
that takes the value of a column without a field, or the nil `any` of a slot
of `values` not yet filled. -/
inductive Target where
  | dest
  | field (traversal : List Int)
  | discard
  | blank
  deriving DecidableEq, Repr

/-- The argument `dest any` as the scan functions look at it through
`reflect`: whether its kind is a pointer, whether the pointer is nil, its
dynamic type (printed by `%T`), the type `reflectx.Deref(v.Type())`, whether
`isScannable` holds of that type, and whether it is a struct. -/
structure Dest (τ : Type) where
  isPointer : Bool
  isNil : Bool
  typ : τ
  base : τ
  scannable : Bool
  isStruct : Bool

/-- The errors of the scan functions.  `external` is an error of the
`database/sql` collaborator, `missingDestination` the error
`missing destination name %s in %T`. -/
inductive ScanError (ε τ : Type) where
  | ErrMustPassAPointerToStructScan
  | mustPassPointer
  | nilPointer
  | structOnly (base : τ)
  | scannableColumns (base : τ) (columns : Nat)
  | missingDestination (column : GoString) (dest : τ)
  | notAStruct
  | rawBytes
  | ErrNoRows
  | external (e : ε)
  deriving DecidableEq, Repr

/-- The collaborator `*sql.Rows` during one call: what its methods return
(`none` is a nil error). -/
structure SqlRows (ε : Type) where
  Columns : Except ε (List GoString)
  Next : Bool
  Err : Option ε
  Scan : List Target → Option ε
  Close : Option ε

/-- Modelled from the spec: `Mapper.TraversalsByName` is not among the source
files.  Each column name is resolved to a field traversal by the by-name
lookup of the type mapper, here `resolve`; a column without a field gets the
empty traversal. -/
def TraversalsByName (resolve : GoString → List Int) (columns : List GoString) :
    List (List Int) :=
  columns.map resolve

/-- Modelled from the spec: `missingFields` is not among the source files.
The index of the first missing column, one whose traversal is empty; `none`
is the nil error of the case without such a column. -/
def missingFields : List (List Int) → Option Nat
  | [] => none
  | t :: rest => if t.length = 0 then some 0 else (missingFields rest).map (fun f => f + 1)

/-- Modelled from the spec: `fieldsByTraversal` is not among the source files.
A destination that is not record-shaped is an error; else every traversal
gives the location of its field as a write target, in column order, and a
missing column a target that is thrown away. -/
def fieldsByTraversal {ε τ : Type} (dest : Dest τ) (traversals : List (List Int)) :
    Except (ScanError ε τ) (List Target) :=
  if !dest.isStruct then .error ScanError.notAStruct
  else .ok (traversals.map (fun t => if t.length = 0 then Target.discard else Target.field t))

/-- The type `Rows`, without the embedded `*sql.Rows` and the mapper, which
are arguments of `StructScan`.  `lenient` is the field named `unsafe` in the
source. -/
structure Rows where
  lenient : Bool
  started : Bool
  fields : List (List Int)
  values : List Target
  deriving DecidableEq, Repr

/-- What `Rows.StructScan` leaves: the error, the `Rows` after the call, and
the targets handed to `sql.Rows.Scan` if it was called. -/
structure RowsResult (ε τ : Type) where
  err : Option (ScanError ε τ)
  rows : Rows
  scanned : Option (List Target)

/-- The last part of `Rows.StructScan`, after the block `if !r.started`:
`fieldsByTraversal`, `r.Scan(r.values...)` and `r.Err()`. -/
def Rows.scanRow {ε τ : Type} (sqlRows : SqlRows ε) (r : Rows) (dest : Dest τ) :
    RowsResult ε τ :=
  match fieldsByTraversal dest r.fields with
  | .error e => ⟨some e, r, none⟩
  | .ok values =>
    match sqlRows.Scan values with
    | some e => ⟨some (ScanError.external e), { r with values := values }, some values⟩
    | none => ⟨sqlRows.Err.map ScanError.external, { r with values := values }, some values⟩

/-- Method `(*Rows).StructScan(dest)`.  With a nil pointer `v.Elem()` is the
zero `reflect.Value`, and `v.Type()` panics on it. -/
def Rows.StructScan {ε τ : Type} (sqlRows : SqlRows ε) (resolve : GoString → List Int)
    (r : Rows) (dest : Dest τ) : Run (RowsResult ε τ) :=
  if !dest.isPointer then Run.ret ⟨some ScanError.ErrMustPassAPointerToStructScan, r, none⟩
  else if !r.started then
    match sqlRows.Columns with
    | .error e => Run.ret ⟨some (ScanError.external e), r, none⟩
    | .ok columns =>
      if dest.isNil then Run.fault
      else
        let r1 : Rows := { r with fields := TraversalsByName resolve columns }
        match missingFields r1.fields with
        | some f =>
          if !r1.lenient then
            Run.ret ⟨some (ScanError.missingDestination (columns.getD f []) dest.typ), r1, none⟩
          else
            Run.ret (Rows.scanRow sqlRows
              { r1 with values := List.replicate columns.length Target.blank, started := true }
              dest)
        | none =>
          Run.ret (Rows.scanRow sqlRows
            { r1 with values := List.replicate columns.length Target.blank, started := true }
            dest)
  else Run.ret (Rows.scanRow sqlRows r dest)

/-- The type `Row`, without the mapper.  `rows = none` is the nil pointer and
`lenient` the field named `unsafe` in the source. -/
structure Row (ε τ : Type) where
  err : Option (ScanError ε τ)
  lenient : Bool
  rows : Option (SqlRows ε)

/-- What `Row.Scan` and `Row.scanAny` leave: the error returned, the value of
`r.err` after the call, and the targets handed to `sql.Rows.Scan` if it was
called. -/
structure RowResult (ε τ : Type) where
  err : Option (ScanError ε τ)
  rowErr : Option (ScanError ε τ)
  scanned : Option (List Target)

/-- Method `(*Row).Scan(dest...)` on a `Row` whose `rows` is `sqlRows`;
`isRawBytes` tells the targets of type `*sql.RawBytes`. -/
def Row.Scan {ε τ : Type} (r : Row ε τ) (sqlRows : SqlRows ε) (isRawBytes : Target → Bool)
    (dest : List Target) : RowResult ε τ :=
  match r.err with
  | some e => ⟨some e, r.err, none⟩
  | none =>
    if dest.any isRawBytes then ⟨some ScanError.rawBytes, r.err, none⟩
    else if !sqlRows.Next then
      match sqlRows.Err with
      | some e => ⟨some (ScanError.external e), r.err, none⟩
      | none => ⟨some ScanError.ErrNoRows, r.err, none⟩
    else
      match sqlRows.Scan dest with
      | some e => ⟨some (ScanError.external e), r.err, some dest⟩
      | none =>
        match sqlRows.Close with
        | some e => ⟨some (ScanError.external e), r.err, some dest⟩
        | none => ⟨none, r.err, some dest⟩

/-- Method `(*Row).Columns()`. -/
def Row.Columns {ε τ : Type} (r : Row ε τ) (sqlRows : SqlRows ε) :
    Except (ScanError ε τ) (List GoString) :=
  match r.err with
  | some e => .error e
  | none =>
    match sqlRows.Columns with
    | .error e => .error (ScanError.external e)
    | .ok columns => .ok columns

/-- Method `(*Row).scanAny(dest, structOnly)`.  The deferred `r.rows.Close()`
changes no result and is left out. -/
def Row.scanAny {ε τ : Type} (r : Row ε τ) (resolve : GoString → List Int)
    (isRawBytes : Target → Bool) (dest : Dest τ) (structOnly : Bool) : RowResult ε τ :=
  match r.err with
  | some e => ⟨some e, r.err, none⟩
  | none =>
    match r.rows with
    | none => ⟨some ScanError.ErrNoRows, some ScanError.ErrNoRows, none⟩
    | some sqlRows =>
      if !dest.isPointer then ⟨some ScanError.mustPassPointer, r.err, none⟩
      else if dest.isNil then ⟨some ScanError.nilPointer, r.err, none⟩
      else if structOnly && dest.scannable then ⟨some (ScanError.structOnly dest.base), r.err, none⟩
      else
        match Row.Columns r sqlRows with
        | .error e => ⟨some e, r.err, none⟩
        | .ok columns =>
          if dest.scannable && decide (columns.length > 1) then
            ⟨some (ScanError.scannableColumns dest.base columns.length), r.err, none⟩
          else if dest.scannable then Row.Scan r sqlRows isRawBytes [Target.dest]
          else
            let fields := TraversalsByName resolve columns
            match missingFields fields with
            | some f =>
              if !r.lenient then
                ⟨some (ScanError.missingDestination (columns.getD f []) dest.typ), r.err, none⟩
              else
                match fieldsByTraversal dest fields with
                | .error e => ⟨some e, r.err, none⟩
                | .ok values => Row.Scan r sqlRows isRawBytes values
            | none =>
              match fieldsByTraversal dest fields with
              | .error e => ⟨some e, r.err, none⟩
              | .ok values => Row.Scan r sqlRows isRawBytes values

/-- The loop `for i, ch := range s` of `findMatchingClosingBracketIndex` as
the source runs it, over the runes of `s`: `i` is the byte index at which the
rune `ch` starts.  Each iteration drops the width of a rune, so the loop runs
on fuel; `none` means the fuel ran out. -/
def findMatchingRunes : Nat → Int → Nat → GoString → Option Nat
  | _, _, _, [] => some 0
  | 0, _, _, _ :: _ => none
  | fuel + 1, count, i, b :: rest =>
    if (Binder.DecodeRune (b :: rest)).1 = 41 then
      if (if (Binder.DecodeRune (b :: rest)).1 = 40 then count + 1 else count) - 1 = 0 then some i
      else
        findMatchingRunes fuel
          ((if (Binder.DecodeRune (b :: rest)).1 = 40 then count + 1 else count) - 1)
          (i + (Binder.DecodeRune (b :: rest)).2)
          ((b :: rest).drop (Binder.DecodeRune (b :: rest)).2)
    else
      findMatchingRunes fuel (if (Binder.DecodeRune (b :: rest)).1 = 40 then count + 1 else count)
        (i + (Binder.DecodeRune (b :: rest)).2)
        ((b :: rest).drop (Binder.DecodeRune (b :: rest)).2)

namespace Reflectx

/-- A node whose fields have all been visited: every field of its struct type
that the loop over the fields keeps (its name is not `-`, and it is exported
or anonymous) has a node of its own, with this node as `Parent` and filed in
its slot of `Children`. -/
def Expanded (env : TypeEnv) (mapFunc : Option (GoString → GoString)) (t : TypeId)
    (heap : List FieldInfo) (E : Nat) : Prop :=
  ∀ (pos : Nat) (f : StructField),
    (structFields env (nodeType env t (nodeAt heap E)))[pos]? = some f →
    (parserName mapFunc f).2 ≠ bytesOf "-" →
    ¬ (f.PkgPath.length ≠ 0 ∧ f.Anonymous = false) →
    ∃ F, 0 < F ∧ F < heap.length ∧ (nodeAt heap F).Parent = some E
      ∧ (nodeAt heap F).Field = some f
      ∧ (nodeAt heap E).Children[pos]? = some (some F)

/-- The second invariant of the queue loop of `getMapping`: every node waits
in the queue, or has the field type of one of its ancestors, or is expanded. -/
def Progress (env : TypeEnv) (mapFunc : Option (GoString → GoString)) (t : TypeId)
    (anc : Nat → List TypeId) (st : MapState) : Prop :=
  ∀ E, E < st.heap.length →
    (∃ tq ∈ st.queue, tq.fi = E)
    ∨ (∃ ty, fieldType (nodeAt st.heap E) = some ty ∧ ty ∈ anc E)
    ∨ Expanded env mapFunc t st.heap E

/-- A struct met again below itself through an embedded pointer: 0 is `int`,
1 is `X{V int; Y Y}`, 2 is `Y{*X}`, 3 is `*X` and 4 is `R{X *X}`. -/
def embeddedLoopTypes : TypeEnv :=
  [.other, .struct [plainField "V" 0, plainField "Y" 2], .struct [embeddedField "X" 3],
   .pointer 1, .struct [plainField "X" 3]]

/-- A field of an embedded struct with the path of a field of the struct that
embeds it: 0 is `int`, 1 is `Inner{X int}` and 2 is `Outer{Inner; X int}`. -/
def shadowedTypes : TypeEnv :=
  [.other, .struct [plainField "X" 0], .struct [embeddedField "Inner" 1, plainField "X" 0]]

end Reflectx

/-! ## Lemmas -/

theorem IndexByte_none {s : GoString} {c : UInt8} :
    IndexByte s c = none ↔ c ∉ s := by
  induction s with
  | nil => simp [IndexByte]
  | cons b rest ih =>
    by_cases h : b = c
    · simp [IndexByte, h]
    · simp [IndexByte, h, ih, Ne.symm h]

theorem IndexByte_some {s : GoString} {c : UInt8} {i : Nat} (h : IndexByte s c = some i) :
    c ∉ s.take i ∧ s = s.take i ++ c :: s.drop (i + 1) := by
  induction s generalizing i with
  | nil => simp [IndexByte] at h
  | cons b rest ih =>
    by_cases hb : b = c
    · simp [IndexByte, hb] at h
      subst h
      simp [hb]
    · simp only [IndexByte, hb, if_false, Option.map_eq_some'] at h
      obtain ⟨k, hk, rfl⟩ := h
      obtain ⟨h1, h2⟩ := ih hk
      refine ⟨?_, ?_⟩
      · simp [List.take_succ_cons, Ne.symm hb, h1]
      · simp only [List.take_succ_cons, List.drop_succ_cons, List.cons_append]
        rw [← h2]

theorem IndexByte_append_of_not_mem {s t : GoString} {c : UInt8} (h : c ∉ s) :
    IndexByte (s ++ c :: t) c = some s.length := by
  induction s with
  | nil => simp [IndexByte]
  | cons b rest ih =>
    simp only [List.mem_cons, not_or] at h
    simp [IndexByte, Ne.symm h.1, ih h.2]

theorem digitChar_toNat {d : Nat} (h : d < 10) : (Nat.digitChar d).toNat = 48 + d := by
  interval_cases d <;> rfl

theorem toDigitsCore_digits (fuel : Nat) : ∀ (n : Nat) (acc : List Char),
    (∀ c ∈ acc, 48 ≤ c.toNat ∧ c.toNat ≤ 57) →
    ∀ c ∈ Nat.toDigitsCore 10 fuel n acc, 48 ≤ c.toNat ∧ c.toNat ≤ 57 := by
  induction fuel with
  | zero => intro n acc h; simpa [Nat.toDigitsCore] using h
  | succ f ih =>
    intro n acc h
    have hd : 48 ≤ (Nat.digitChar (n % 10)).toNat ∧ (Nat.digitChar (n % 10)).toNat ≤ 57 := by
      have := digitChar_toNat (Nat.mod_lt n (by decide : 10 > 0))
      have h2 := Nat.mod_lt n (by decide : 10 > 0)
      omega
    have hacc : ∀ c ∈ Nat.digitChar (n % 10) :: acc, 48 ≤ c.toNat ∧ c.toNat ≤ 57 := by
      intro c hc
      rcases List.mem_cons.1 hc with rfl | hc
      · exact hd
      · exact h c hc
    simp only [Nat.toDigitsCore]
    split
    · exact hacc
    · exact ih _ _ hacc

theorem Itoa_digits (n : Nat) : ∀ b ∈ Itoa n, 48 ≤ b.toNat ∧ b.toNat ≤ 57 := by
  intro b hb
  simp only [Itoa, List.mem_map] at hb
  obtain ⟨c, hc, rfl⟩ := hb
  have := toDigitsCore_digits (n + 1) n [] (by simp) c hc
  have h256 : c.toNat < 256 := by omega
  simp [UInt8.toNat, UInt8.ofNat, Fin.ofNat, Nat.mod_eq_of_lt h256]
  exact this

namespace Binder

theorem rebindLead_Itoa {bindType : Int}
    (h : bindType = DOLLAR ∨ bindType = NAMED ∨ bindType = AT) (k : Nat) :
    rebindLead bindType ++ Itoa k = dialectPlaceholder bindType k := by
  rcases h with rfl | rfl | rfl <;> rfl

theorem replaceMarks_of_not_mem (bindType : Int) (k : Nat) {s : GoString} (h : (63 : UInt8) ∉ s) :
    replaceMarks bindType k s = s := by
  induction s with
  | nil => rfl
  | cons b rest ih =>
    simp only [List.mem_cons, not_or] at h
    simp [replaceMarks, Ne.symm h.1, ih h.2]

theorem replaceMarks_append (bindType : Int) (k : Nat) {s : GoString} (t : GoString)
    (h : (63 : UInt8) ∉ s) :
    replaceMarks bindType k (s ++ 63 :: t)
      = s ++ dialectPlaceholder bindType k ++ replaceMarks bindType (k + 1) t := by
  induction s with
  | nil => simp [replaceMarks]
  | cons b rest ih =>
    simp only [List.mem_cons, not_or] at h
    simp [replaceMarks, Ne.symm h.1, ih h.2]

theorem RebindLoop_eq {bindType : Int}
    (hb : bindType = DOLLAR ∨ bindType = NAMED ∨ bindType = AT) (fuel : Nat) :
    ∀ (rqb : GoString) (j : Nat) (query : GoString), query.length < fuel →
      RebindLoop bindType fuel rqb j query
        = some (rqb ++ replaceMarks bindType (j + 1) query) := by
  induction fuel with
  | zero => intro _ _ _ h; omega
  | succ f ih =>
    intro rqb j query hlen
    rw [RebindLoop]
    cases hi : IndexByte query 63 with
    | none =>
      rw [replaceMarks_of_not_mem _ _ (IndexByte_none.1 hi)]
    | some i =>
      obtain ⟨hnot, hq⟩ := IndexByte_some hi
      have hlen2 : (query.drop (i + 1)).length < f := by
        have : (query.drop (i + 1)).length ≤ query.length - 1 := by
          rw [List.length_drop]; omega
        have : 0 < query.length := by
          rw [hq]; simp
        omega
      simp only []
      rw [ih _ _ _ hlen2]
      conv_rhs => rw [hq, replaceMarks_append _ _ _ hnot]
      rw [← rebindLead_Itoa hb]
      simp [List.append_assoc]

theorem dialectPlaceholder_no_mark {bindType : Int} (k : Nat) :
    (63 : UInt8) ∉ dialectPlaceholder bindType k := by
  have hI : (63 : UInt8) ∉ Itoa k := by
    intro h
    have := Itoa_digits k 63 h
    revert this
    decide
  unfold dialectPlaceholder
  split
  · intro h
    rcases List.mem_append.1 h with h | h
    · revert h; decide
    · exact hI h
  split
  · intro h
    rcases List.mem_append.1 h with h | h
    · revert h; decide
    · exact hI h
  split
  · intro h
    rcases List.mem_append.1 h with h | h
    · revert h; decide
    · exact hI h
  · simp

theorem replaceMarks_no_mark (bindType : Int) (k : Nat) (s : GoString) :
    (63 : UInt8) ∉ replaceMarks bindType k s := by
  induction s generalizing k with
  | nil => simp [replaceMarks]
  | cons b rest ih =>
    by_cases hb : b = 63
    · simp only [replaceMarks, hb, if_true, List.mem_append, not_or]
      exact ⟨dialectPlaceholder_no_mark k, ih _⟩
    · simp only [replaceMarks, hb, if_false, List.mem_cons, not_or]
      exact ⟨Ne.symm hb, ih _⟩

theorem replaceMarks_joinMarks (bindType : Int) (segs : List GoString) :
    ∀ k : Nat, (∀ s ∈ segs, (63 : UInt8) ∉ s) →
      replaceMarks bindType k (joinMarks segs) = weaveMarks bindType k segs := by
  induction segs with
  | nil => intro k _; rfl
  | cons s rest ih =>
    intro k h
    cases rest with
    | nil => exact replaceMarks_of_not_mem _ _ (h s (by simp))
    | cons s2 rest2 =>
      have hs : (63 : UInt8) ∉ s := h s (by simp)
      have hr : ∀ t ∈ s2 :: rest2, (63 : UInt8) ∉ t := fun t ht => h t (by simp [List.mem_cons] at ht ⊢; tauto)
      simp only [joinMarks, weaveMarks]
      rw [replaceMarks_append _ _ _ hs, ih (k + 1) hr]

/-- C1: for DOLLAR, NAMED and AT, `Rebind` returns the query with its k-th `?`
(counted from 1) replaced by `$k`, `:argk` or `@pk` and every other byte kept;
the output has no `?`, and a query of n+1 `?`-free segments joined by `?`
becomes the same segments joined by the placeholders numbered 1..n. -/
theorem Rebind_replaces_marks (bindType : Int) (q : GoString)
    (hb : bindType = DOLLAR ∨ bindType = NAMED ∨ bindType = AT) :
    Rebind bindType q = some (replaceMarks bindType 1 q)
    ∧ (∀ r, Rebind bindType q = some r → (63 : UInt8) ∉ r)
    ∧ (∀ segs : List GoString, (∀ s ∈ segs, (63 : UInt8) ∉ s) →
        Rebind bindType (joinMarks segs) = some (weaveMarks bindType 1 segs)) := by
  have hne : ¬ (bindType = QUESTION ∨ bindType = UNKNOWN) := by
    rcases hb with rfl | rfl | rfl <;> decide
  have key : ∀ q : GoString, Rebind bindType q = some (replaceMarks bindType 1 q) := by
    intro q
    simp only [Rebind, hne, if_false]
    simpa using RebindLoop_eq hb (q.length + 1) [] 0 q (Nat.lt_succ_self _)
  refine ⟨key q, ?_, ?_⟩
  · intro r hr
    rw [key q] at hr
    cases hr
    exact replaceMarks_no_mark _ _ _
  · intro segs hsegs
    rw [key, replaceMarks_joinMarks _ _ _ hsegs]

/-- Witness for C1: `"a = ? AND b = ?"` under DOLLAR. -/
theorem Rebind_replaces_marks_witness :
    Rebind DOLLAR (bytesOf "a = ? AND b = ?") = some (bytesOf "a = $1 AND b = $2") := by
  have h := (Rebind_replaces_marks DOLLAR (bytesOf "a = ? AND b = ?") (Or.inl rfl)).1
  rw [h]
  decide

/-- C2: `Rebind(QUESTION, q) = q` and `Rebind(UNKNOWN, q) = q` for every query. -/
theorem Rebind_identity (q : GoString) :
    Rebind QUESTION q = some q ∧ Rebind UNKNOWN q = some q := by
  constructor <;> simp [Rebind]

end Binder

namespace Binder

theorem placeholders_succ (n : Nat) :
    placeholders (n + 1) = bytesOf "?" ++ (List.replicate n (bytesOf ", ?")).flatten := by
  induction n with
  | zero => rfl
  | succ k ih =>
    have h : placeholders (k + 2) = bytesOf "?" ++ (bytesOf ", " ++ placeholders (k + 1)) := by
      simp [placeholders, List.replicate_succ, List.intercalate, List.intersperse]
    rw [h, ih, List.replicate_succ, List.flatten_cons]
    have h2 : bytesOf ", " ++ bytesOf "?" = bytesOf ", ?" := by decide
    rw [← List.append_assoc (bytesOf ", "), h2]

theorem expandWalk_of_not_mem {s : GoString} (h : (63 : UInt8) ∉ s) (args : List Plain) :
    expandWalk s args
      = if args = [] then .ok (s, []) else .error "number of bindVars less than number arguments" := by
  induction s with
  | nil => cases args <;> simp [expandWalk]
  | cons b rest ih =>
    simp only [List.mem_cons, not_or] at h
    simp only [expandWalk, Ne.symm h.1, if_false, ih h.2]
    by_cases ha : args = [] <;> simp [ha]

theorem expandWalk_append {s : GoString} (h : (63 : UInt8) ∉ s) (t : GoString)
    (args : List Plain) :
    expandWalk (s ++ 63 :: t) args
      = match args with
        | [] => .error "number of bindVars exceeds arguments"
        | a :: more =>
          match expandWalk t more with
          | .error e => .error e
          | .ok (qq, aa) => .ok (s ++ argMarks a ++ qq, argValues a ++ aa) := by
  induction s with
  | nil =>
    cases args with
    | nil => simp [expandWalk]
    | cons a more => simp [expandWalk]
  | cons b rest ih =>
    simp only [List.mem_cons, not_or] at h
    have hstep : expandWalk (b :: rest ++ 63 :: t) args
        = match expandWalk (rest ++ 63 :: t) args with
          | .error e => .error e
          | .ok (qq, aa) => .ok (b :: qq, aa) := by
      simp [expandWalk, Ne.symm h.1]
    rw [hstep, ih h.2]
    cases args with
    | nil => rfl
    | cons a more =>
      simp only []
      cases expandWalk t more with
      | error e => rfl
      | ok r => rfl

end Binder

namespace Binder

theorem metaEntry_length_eq_zero {p : Plain} (hp : p ≠ Plain.slice [])
    (hnp : p.isSlicePtr = false) :
    (metaEntry p).length = 0 ↔ asSliceForIn p = none := by
  cases p with
  | nil => simp [metaEntry, asSliceForIn]
  | scalar v => simp [metaEntry, asSliceForIn]
  | bytes b => simp [metaEntry, asSliceForIn]
  | slice elems =>
    cases elems with
    | nil => exact absurd rfl hp
    | cons e es => simp [metaEntry, asSliceForIn, SliceValue.elems]
  | slicePtr target => simp [Plain.isSlicePtr] at hnp

theorem inLoop_eq (ps : List Plain) (hps : Plain.slice [] ∉ ps)
    (hnp : ∀ p ∈ ps, p.isSlicePtr = false) (fuel : Nat) :
    ∀ (query : GoString) (offset arg : Nat) (buf : GoString) (newArgs : List GoVal),
      query.length - offset < fuel →
      inLoop (ps.map metaEntry) fuel query offset arg buf newArgs
        = some (walkResult (buf ++ query.take offset) newArgs
            (expandWalk (query.drop offset) (ps.drop arg))) := by
  induction fuel with
  | zero => intro _ _ _ _ _ h; omega
  | succ f ih =>
    intro query offset arg buf newArgs hlen
    rw [inLoop]
    cases hi : IndexByte (query.drop offset) 63 with
    | none =>
      have hnot := IndexByte_none.1 hi
      rw [expandWalk_of_not_mem hnot]
      by_cases harg : arg < ps.length
      · have hne : ps.drop arg ≠ [] := by
          intro h0
          have := congrArg List.length h0
          simp at this
          omega
        simp [harg, hne, walkResult]
      · have he : ps.drop arg = [] := List.drop_eq_nil_of_le (by omega)
        simp [harg, he, walkResult]
    | some i =>
      obtain ⟨hnot, hq⟩ := IndexByte_some hi
      have hdrop : (query.drop offset).drop (i + 1) = query.drop (offset + i + 1) := by
        rw [List.drop_drop]; congr 1
      have hpos : 0 < (query.drop offset).length := by rw [hq]; simp
      have hoff : offset < query.length := by
        rw [List.length_drop] at hpos; omega
      have hile : i < (query.drop offset).length := by
        by_contra hcon
        have h1 : (query.drop offset).take i = query.drop offset := List.take_of_length_le (by omega)
        rw [h1] at hnot
        have hmem : (63 : UInt8) ∈ query.drop offset := by rw [hq]; simp
        exact hnot hmem
      have htake : query.take (offset + i + 1)
          = query.take offset ++ (query.drop offset).take i ++ [63] := by
        have h1 : query.take (offset + (i + 1))
            = query.take offset ++ (query.drop offset).take (i + 1) := List.take_add _ _ _
        have h2 : (query.drop offset).take (i + 1) = (query.drop offset).take i ++ [63] := by
          conv_lhs => rw [hq]
          rw [List.take_append_eq_append_take]
          have hl : ((query.drop offset).take i).length = i := by
            rw [List.length_take]; omega
          simp [hl]
        rw [show offset + i + 1 = offset + (i + 1) by omega, h1, h2, List.append_assoc]
      rw [hq, expandWalk_append hnot, hdrop]
      simp only [List.getElem?_map]
      cases hget : ps[arg]? with
      | none =>
        have he : ps.drop arg = [] := by
          apply List.drop_eq_nil_of_le
          exact List.getElem?_eq_none_iff.1 hget
        simp [he, walkResult]
      | some a =>
        have halt : arg < ps.length := by
          by_contra hcon
          rw [List.getElem?_eq_none_iff.2 (by omega)] at hget
          cases hget
        have hd : ps.drop arg = a :: ps.drop (arg + 1) := by
          rw [List.drop_eq_getElem_cons halt]
          congr 1
          rw [List.getElem?_eq_getElem halt] at hget
          exact Option.some.inj hget
        have hamem : a ∈ ps := by
          have : a ∈ ps.drop arg := by rw [hd]; simp
          exact List.mem_of_mem_drop this
        have hane : a ≠ Plain.slice [] := fun h => hps (h ▸ hamem)
        have hanp : a.isSlicePtr = false := hnp a hamem
        simp only [Option.map_some', hd]
        by_cases hz : (metaEntry a).length = 0
        · have hns := (metaEntry_length_eq_zero hane hanp).1 hz
          have hlen2 : query.length - (offset + i + 1) < f := by omega
          rw [if_pos hz, ih _ _ _ _ _ hlen2]
          have hi_eq : (metaEntry a).i = a := by
            simp [metaEntry, hns]
          have hmarks : argMarks a = [63] := by
            cases a <;> first | rfl | simp [asSliceForIn] at hns
          have hvals : argValues a = [GoVal.plain a] := by
            cases a <;> first | rfl | simp [asSliceForIn] at hns
          rw [htake, hi_eq, hmarks, hvals]
          cases expandWalk (query.drop (offset + i + 1)) (ps.drop (arg + 1)) with
          | error e => rfl
          | ok r => simp [walkResult, List.append_assoc]
        · rw [if_neg hz]
          have hlen2 : (query.drop (offset + i + 1)).length - 0 < f := by
            rw [List.length_drop]; omega
          rw [ih _ _ _ _ _ hlen2]
          obtain ⟨elems, rfl⟩ : ∃ elems, a = Plain.slice elems := by
            cases a with
            | slice elems => exact ⟨elems, rfl⟩
            | nil => exact absurd rfl hz
            | scalar v => exact absurd rfl hz
            | bytes b => exact absurd rfl hz
            | slicePtr target => simp [Plain.isSlicePtr] at hanp
          obtain ⟨n, hn⟩ : ∃ n, elems.length = n + 1 := by
            cases elems with
            | nil => exact absurd rfl hane
            | cons e es => exact ⟨es.length, rfl⟩
          have hml : (metaEntry (Plain.slice elems)).length = n + 1 := by
            simp [metaEntry, asSliceForIn, SliceValue.elems, hn]
          have hmv : (metaEntry (Plain.slice elems)).v = elems := by
            simp [metaEntry, asSliceForIn, SliceValue.elems]
          have hmarks : argMarks (Plain.slice elems)
              = [63] ++ (List.replicate n (bytesOf ", ?")).flatten := by
            simp only [argMarks, hn, placeholders_succ]; rfl
          have hvals : appendReflectSlice newArgs elems (n + 1)
              = newArgs ++ argValues (Plain.slice elems) := by
            simp [appendReflectSlice, argValues, ← hn]
          rw [hml, hmv, hvals, hmarks, htake]
          simp only [Nat.add_sub_cancel, List.drop_zero, List.take_zero, List.append_nil]
          cases expandWalk (query.drop (offset + i + 1)) (ps.drop (arg + 1)) with
          | error e => rfl
          | ok r => simp [walkResult, List.append_assoc]

end Binder

namespace Binder

/-- No argument fails its Valuer conversion, none is (after conversion) an empty
slice, and none is a pointer to a slice. -/
theorem inMeta_ok_of (args : List GoVal) :
    ∀ (acc : List argMeta) (anySlices : Bool),
      (∀ a ∈ args, (valuerValue a).2 = none ∧ (valuerValue a).1 ≠ Plain.slice []
        ∧ (valuerValue a).1.isSlicePtr = false) →
      inMeta args acc anySlices
        = .ret (.ok (acc ++ (args.map (fun a => (valuerValue a).1)).map metaEntry,
            anySlices || args.any (fun a => (asSliceForIn (valuerValue a).1).isSome))) := by
  induction args with
  | nil => intro acc anySlices _; simp [inMeta]
  | cons a rest ih =>
    intro acc anySlices h
    obtain ⟨h1, h2, h3⟩ := h a (by simp)
    have hrest : ∀ x ∈ rest, (valuerValue x).2 = none ∧ (valuerValue x).1 ≠ Plain.slice []
        ∧ (valuerValue x).1.isSlicePtr = false :=
      fun x hx => h x (List.mem_cons_of_mem _ hx)
    rw [inMeta]
    simp only [h1]
    cases hp : (valuerValue a).1 with
    | nil =>
      simp only [asSliceForIn]
      rw [ih _ _ hrest]
      simp [metaEntry, hp, asSliceForIn]
    | scalar v =>
      simp only [asSliceForIn]
      rw [ih _ _ hrest]
      simp [metaEntry, hp, asSliceForIn]
    | bytes b =>
      simp only [asSliceForIn]
      rw [ih _ _ hrest]
      simp [metaEntry, hp, asSliceForIn]
    | slice elems =>
      have hv : elems.length ≠ 0 := by
        intro h0
        apply h2
        rw [hp, List.length_eq_zero.1 h0]
      simp only [asSliceForIn, SliceValue.Len, SliceValue.elems, hv, if_false]
      rw [ih _ _ hrest]
      simp [metaEntry, hp, asSliceForIn, SliceValue.elems]
    | slicePtr target =>
      rw [hp] at h3
      simp [Plain.isSlicePtr] at h3

theorem inMeta_ok_inv (args : List GoVal) :
    ∀ (acc : List argMeta) (anySlices : Bool) (r : List argMeta × Bool),
      inMeta args acc anySlices = .ret (.ok r) →
      ∀ a ∈ args, (valuerValue a).2 = none ∧ (valuerValue a).1 ≠ Plain.slice []
        ∧ (valuerValue a).1.isSlicePtr = false := by
  induction args with
  | nil => intro _ _ _ _ a ha; simp at ha
  | cons x rest ih =>
    intro acc anySlices r h a ha
    rw [inMeta] at h
    cases he : (valuerValue x).2 with
    | some e => simp [he] at h
    | none =>
      simp only [he] at h
      cases hp : (valuerValue x).1 with
      | nil =>
        simp only [hp, asSliceForIn] at h
        rcases List.mem_cons.1 ha with rfl | ha
        · exact ⟨he, by rw [hp]; simp, by rw [hp]; rfl⟩
        · exact ih _ _ _ h a ha
      | scalar v =>
        simp only [hp, asSliceForIn] at h
        rcases List.mem_cons.1 ha with rfl | ha
        · exact ⟨he, by rw [hp]; simp, by rw [hp]; rfl⟩
        · exact ih _ _ _ h a ha
      | bytes b =>
        simp only [hp, asSliceForIn] at h
        rcases List.mem_cons.1 ha with rfl | ha
        · exact ⟨he, by rw [hp]; simp, by rw [hp]; rfl⟩
        · exact ih _ _ _ h a ha
      | slice elems =>
        simp only [hp, asSliceForIn, SliceValue.Len, SliceValue.elems] at h
        by_cases hv : elems.length = 0
        · simp [hv] at h
        · simp only [hv, if_false] at h
          rcases List.mem_cons.1 ha with rfl | ha
          · refine ⟨he, ?_, by rw [hp]; rfl⟩
            rw [hp]
            intro hnil
            simp only [Plain.slice.injEq] at hnil
            exact hv (by rw [hnil]; rfl)
          · exact ih _ _ _ h a ha
      | slicePtr target =>
        simp [hp, asSliceForIn, SliceValue.Len] at h

/-- The first loop panics only at a pointer to a slice. -/
theorem inMeta_ret_of (args : List GoVal) :
    ∀ (acc : List argMeta) (anySlices : Bool),
      (∀ a ∈ args, (valuerValue a).1.isSlicePtr = false) →
      ∃ r, inMeta args acc anySlices = .ret r := by
  induction args with
  | nil => intro acc anySlices _; exact ⟨_, rfl⟩
  | cons x rest ih =>
    intro acc anySlices h
    have hx := h x (by simp)
    have hrest : ∀ a ∈ rest, (valuerValue a).1.isSlicePtr = false :=
      fun a ha => h a (List.mem_cons_of_mem _ ha)
    rw [inMeta]
    cases he : (valuerValue x).2 with
    | some e => exact ⟨_, rfl⟩
    | none =>
      simp only []
      cases hp : (valuerValue x).1 with
      | nil => simp only [asSliceForIn]; exact ih _ _ hrest
      | scalar v => simp only [asSliceForIn]; exact ih _ _ hrest
      | bytes b => simp only [asSliceForIn]; exact ih _ _ hrest
      | slice elems =>
        simp only [asSliceForIn, SliceValue.Len]
        by_cases hv : elems.length = 0
        · rw [if_pos hv]; exact ⟨_, rfl⟩
        · rw [if_neg hv]; exact ih _ _ hrest
      | slicePtr target =>
        rw [hp] at hx
        simp [Plain.isSlicePtr] at hx

/-- The first loop stops with an error at an argument that is, after its
conversion, an empty slice, unless it stopped before. -/
theorem inMeta_empty (pre : List GoVal) (a : GoVal) (post : List GoVal)
    (ha : valuerValue a = (Plain.slice [], none)) :
    ∀ (acc : List argMeta) (anySlices : Bool),
      (∀ x ∈ pre, (valuerValue x).1.isSlicePtr = false) →
      ∃ e, inMeta (pre ++ a :: post) acc anySlices = .ret (.error e) := by
  induction pre with
  | nil =>
    intro acc anySlices _
    refine ⟨"empty slice passed to \x27in\x27 query", ?_⟩
    rw [List.nil_append, inMeta]
    simp [ha, asSliceForIn, SliceValue.Len]
  | cons x rest ih =>
    intro acc anySlices h
    have hx := h x (by simp)
    have hrest : ∀ y ∈ rest, (valuerValue y).1.isSlicePtr = false :=
      fun y hy => h y (List.mem_cons_of_mem _ hy)
    rw [List.cons_append, inMeta]
    cases he : (valuerValue x).2 with
    | some e => exact ⟨e, rfl⟩
    | none =>
      simp only []
      cases hp : (valuerValue x).1 with
      | nil => simp only [asSliceForIn]; exact ih _ _ hrest
      | scalar v => simp only [asSliceForIn]; exact ih _ _ hrest
      | bytes b => simp only [asSliceForIn]; exact ih _ _ hrest
      | slice elems =>
        simp only [asSliceForIn, SliceValue.Len]
        by_cases hv : elems.length = 0
        · rw [if_pos hv]; exact ⟨_, rfl⟩
        · rw [if_neg hv]; exact ih _ _ hrest
      | slicePtr target =>
        rw [hp] at hx
        simp [Plain.isSlicePtr] at hx

/-- The result of `In` on every input: the first loop panics, or it fails, or
nothing is expandable, or the outcome is the one of the reference walk. -/
theorem In_cases (q : GoString) (args : List GoVal) :
    In q args = some Run.fault
    ∨ (∃ e, In q args = some (Run.ret ⟨[], none, some e⟩))
    ∨ In q args = some (Run.ret ⟨q, some args, none⟩)
    ∨ ∃ ps : List Plain, In q args = some (Run.ret (walkResult [] [] (expandWalk q ps))) := by
  unfold In
  cases hm : inMeta args [] false with
  | fault => exact Or.inl rfl
  | ret res =>
    cases res with
    | error e => exact Or.inr (Or.inl ⟨e, rfl⟩)
    | ok r =>
      have hinv := inMeta_ok_inv args [] false r hm
      rw [inMeta_ok_of args [] false hinv] at hm
      cases hm
      simp only []
      by_cases hany : args.any (fun a => (asSliceForIn (valuerValue a).1).isSome) = true
      · right; right; right
        refine ⟨args.map (fun a => (valuerValue a).1), ?_⟩
        simp only [Bool.false_or, hany, Bool.not_true, Bool.false_eq_true, if_false,
          List.nil_append]
        have hps : Plain.slice [] ∉ args.map (fun a => (valuerValue a).1) := by
          intro hmem
          obtain ⟨a, ha, hp⟩ := List.mem_map.1 hmem
          exact (hinv a ha).2.1 hp
        have hnp : ∀ p ∈ args.map (fun a => (valuerValue a).1), p.isSlicePtr = false := by
          intro p hmem
          obtain ⟨a, ha, hp⟩ := List.mem_map.1 hmem
          rw [← hp]
          exact (hinv a ha).2.2
        have := inLoop_eq _ hps hnp (q.length + 1) q 0 0 [] [] (by omega)
        rw [this]
        simp
      · right; right; left
        simp [hany]

theorem In_plain_eq (q : GoString) (args : List Plain)
    (hany : ∃ elems, Plain.slice elems ∈ args) (hne : Plain.slice [] ∉ args)
    (hnp : ∀ p ∈ args, p.isSlicePtr = false) :
    In q (args.map GoVal.plain) = some (Run.ret (walkResult [] [] (expandWalk q args))) := by
  have hcond : ∀ a ∈ args.map GoVal.plain,
      (valuerValue a).2 = none ∧ (valuerValue a).1 ≠ Plain.slice []
        ∧ (valuerValue a).1.isSlicePtr = false := by
    intro a ha
    obtain ⟨p, hp, rfl⟩ := List.mem_map.1 ha
    exact ⟨rfl, fun h => hne (h ▸ hp), hnp p hp⟩
  have hmap : (args.map GoVal.plain).map (fun a => (valuerValue a).1) = args := by
    simp [List.map_map, Function.comp_def, valuerValue]
  have hanyb : (args.map GoVal.plain).any (fun a => (asSliceForIn (valuerValue a).1).isSome)
      = true := by
    obtain ⟨elems, he⟩ := hany
    simp only [List.any_eq_true]
    exact ⟨GoVal.plain (Plain.slice elems), List.mem_map.2 ⟨_, he, rfl⟩, rfl⟩
  unfold In
  rw [inMeta_ok_of _ [] false hcond, hmap]
  simp only [hanyb, Bool.or_true, Bool.not_true, Bool.false_eq_true, if_false, List.nil_append]
  have := inLoop_eq args hne hnp (q.length + 1) q 0 0 [] [] (by omega)
  rw [this]
  simp

theorem In_noslice_eq (q : GoString) (args : List GoVal)
    (h : ∀ a ∈ args, (valuerValue a).2 = none ∧ asSliceForIn (valuerValue a).1 = none) :
    In q args = some (Run.ret ⟨q, some args, none⟩) := by
  have hcond : ∀ a ∈ args, (valuerValue a).2 = none ∧ (valuerValue a).1 ≠ Plain.slice []
      ∧ (valuerValue a).1.isSlicePtr = false := by
    intro a ha
    have hn := (h a ha).2
    refine ⟨(h a ha).1, fun hp => ?_, ?_⟩
    · rw [hp] at hn
      simp [asSliceForIn] at hn
    · cases hp : (valuerValue a).1 with
      | slicePtr target => rw [hp] at hn; simp [asSliceForIn] at hn
      | nil => rfl
      | scalar v => rfl
      | bytes b => rfl
      | slice elems => rfl
  have hanyb : args.any (fun a => (asSliceForIn (valuerValue a).1).isSome) = false := by
    rw [List.any_eq_false]
    intro a ha
    simp [(h a ha).2]
  unfold In
  rw [inMeta_ok_of _ [] false hcond]
  simp [hanyb]

/-- With a pointer to a slice as the first argument that the first loop has
to classify, `In` panics, whatever the query and the later arguments are. -/
theorem In_fault_of (q : GoString) (pre : List Plain) (target : Option (List Int))
    (post : List GoVal)
    (hpre : ∀ p ∈ pre, p ≠ Plain.slice [] ∧ p.isSlicePtr = false) :
    In q (pre.map GoVal.plain ++ GoVal.plain (Plain.slicePtr target) :: post)
      = some Run.fault := by
  have hm : ∀ (acc : List argMeta) (anySlices : Bool),
      inMeta (pre.map GoVal.plain ++ GoVal.plain (Plain.slicePtr target) :: post) acc anySlices
        = .fault := by
    induction pre with
    | nil =>
      intro acc anySlices
      rw [List.map_nil, List.nil_append, inMeta]
      simp [valuerValue, asSliceForIn, SliceValue.Len]
    | cons x rest ih =>
      intro acc anySlices
      obtain ⟨hx1, hx2⟩ := hpre x (by simp)
      have hrest : ∀ p ∈ rest, p ≠ Plain.slice [] ∧ p.isSlicePtr = false :=
        fun p hp => hpre p (List.mem_cons_of_mem _ hp)
      rw [List.map_cons, List.cons_append, inMeta]
      cases x with
      | nil => simp only [valuerValue, asSliceForIn]; exact ih hrest _ _
      | scalar v => simp only [valuerValue, asSliceForIn]; exact ih hrest _ _
      | bytes b => simp only [valuerValue, asSliceForIn]; exact ih hrest _ _
      | slice elems =>
        have hv : elems.length ≠ 0 := by
          intro h0
          exact hx1 (by rw [List.length_eq_zero.1 h0])
        simp only [valuerValue, asSliceForIn, SliceValue.Len, hv, if_false]
        exact ih hrest _ _
      | slicePtr t => simp [Plain.isSlicePtr] at hx2
  unfold In
  rw [hm]

theorem expandWalk_of_count_eq (q : GoString) :
    ∀ args : List Plain, countMarks q = args.length →
      expandWalk q args = .ok (expandQuery q args, flattenArgs args) := by
  induction q with
  | nil =>
    intro args h
    cases args with
    | nil => rfl
    | cons a more => simp [countMarks] at h
  | cons b rest ih =>
    intro args h
    by_cases hb : b = 63
    · subst hb
      cases args with
      | nil => simp [countMarks] at h
      | cons a more =>
        have h2 : countMarks rest = more.length := by
          simp [countMarks] at h ⊢; exact h
        simp [expandWalk, expandQuery, ih more h2, flattenArgs]
    · have h2 : countMarks rest = args.length := by
        simp [countMarks, List.count_cons, hb] at h ⊢; exact h
      simp [expandWalk, expandQuery, hb, ih args h2]

theorem expandWalk_of_count_gt (q : GoString) :
    ∀ args : List Plain, args.length < countMarks q →
      expandWalk q args = .error "number of bindVars exceeds arguments" := by
  induction q with
  | nil => intro args h; simp [countMarks] at h
  | cons b rest ih =>
    intro args h
    by_cases hb : b = 63
    · subst hb
      cases args with
      | nil => simp [expandWalk]
      | cons a more =>
        have h2 : more.length < countMarks rest := by
          simp [countMarks] at h ⊢; exact h
        simp [expandWalk, ih more h2]
    · have h2 : args.length < countMarks rest := by
        simp [countMarks, List.count_cons, hb] at h ⊢; exact h
      simp [expandWalk, hb, ih args h2]

theorem expandWalk_of_count_lt (q : GoString) :
    ∀ args : List Plain, countMarks q < args.length →
      expandWalk q args = .error "number of bindVars less than number arguments" := by
  induction q with
  | nil =>
    intro args h
    cases args with
    | nil => simp at h
    | cons a more => rfl
  | cons b rest ih =>
    intro args h
    by_cases hb : b = 63
    · subst hb
      cases args with
      | nil => simp at h
      | cons a more =>
        have h2 : countMarks rest < more.length := by
          simp [countMarks] at h ⊢; exact h
        simp [expandWalk, ih more h2]
    · have h2 : countMarks rest < args.length := by
        simp [countMarks, List.count_cons, hb] at h ⊢; exact h
      simp [expandWalk, hb, ih args h2]

end Binder

namespace Binder

/-- When the query has exactly as many `?` as there are arguments, no argument
is a Valuer or a pointer to a slice, at least one is a non-byte sequence and
no sequence is empty, `In` succeeds: the i-th `?` stays `?` for a scalar and
becomes n placeholders joined by `", "` for a sequence of length n, other
bytes are kept, and the arguments are the in-order concatenation of scalars
and sequence elements. -/
theorem In_expands_values (q : GoString) (args : List Plain)
    (hcount : countMarks q = args.length)
    (hany : ∃ elems, Plain.slice elems ∈ args)
    (hne : Plain.slice [] ∉ args)
    (hnp : ∀ p ∈ args, p.isSlicePtr = false) :
    In q (args.map GoVal.plain)
      = some (Run.ret ⟨expandQuery q args, some (flattenArgs args), none⟩) := by
  rw [In_plain_eq q args hany hne hnp, expandWalk_of_count_eq q args hcount]
  simp [walkResult]

/-- The example of the specification: `In("WHERE id IN (?)", []int{1,2,3})`. -/
theorem In_expands_values_example :
    In (bytesOf "WHERE id IN (?)") [GoVal.plain (Plain.slice [1, 2, 3])]
      = some (Run.ret ⟨bytesOf "WHERE id IN (?, ?, ?)",
          some [GoVal.plain (Plain.scalar 1), GoVal.plain (Plain.scalar 2),
            GoVal.plain (Plain.scalar 3)], none⟩) :=
  In_expands_values (bytesOf "WHERE id IN (?)") [Plain.slice [1, 2, 3]]
    (by decide) ⟨[1, 2, 3], by decide⟩ (by decide) (by decide)

/-- C3 (failing input): `In("a IN (?) AND b = ?", []int{1}, &[]int{1, 2})` has
two `?` and two arguments, one of them a non-byte sequence, none empty, none a
Valuer.  `asSliceForIn` accepts the pointer, because it tests
`Deref(v.Type())`, and hands back the pointer itself; `v.Len()` then panics.
The same holds for every query and for a nil pointer, and with the pointer in
front; with the pointer replaced by the scalar 7 the call returns the
expanded query and arguments. -/
theorem In_slice_pointer_panics :
    In (bytesOf "a IN (?) AND b = ?")
        [GoVal.plain (Plain.slice [1]), GoVal.plain (Plain.slicePtr (some [1, 2]))]
      = some Run.fault
    ∧ asSliceForIn (Plain.slicePtr (some [1, 2])) = some (SliceValue.ptr (some [1, 2]))
    ∧ (SliceValue.ptr (some [1, 2])).Len = Run.fault
    ∧ (∀ (q : GoString) (target : Option (List Int)) (post : List GoVal),
        In q (GoVal.plain (Plain.slice [1]) :: GoVal.plain (Plain.slicePtr target) :: post)
          = some Run.fault)
    ∧ (∀ (q : GoString) (target : Option (List Int)) (post : List GoVal),
        In q (GoVal.plain (Plain.slicePtr target) :: post) = some Run.fault)
    ∧ In (bytesOf "a IN (?) AND b = ?")
        [GoVal.plain (Plain.slice [1]), GoVal.plain (Plain.scalar 7)]
      = some (Run.ret ⟨bytesOf "a IN (?) AND b = ?",
          some [GoVal.plain (Plain.scalar 1), GoVal.plain (Plain.scalar 7)], none⟩) := by
  refine ⟨by decide, rfl, rfl, ?_, ?_, by decide⟩
  · intro q target post
    exact In_fault_of q [Plain.slice [1]] target post (by decide)
  · intro q target post
    exact In_fault_of q [] target post (by decide)

/-- With no Valuer argument and no pointer to a slice, at least one non-byte
sequence and no empty sequence, `In` returns an error exactly when the number
of `?` differs from the number of arguments: "number of bindVars exceeds
arguments" when there are more `?`, "number of bindVars less than number
arguments" when fewer. -/
theorem In_count_mismatch_values (q : GoString) (args : List Plain)
    (hany : ∃ elems, Plain.slice elems ∈ args)
    (hne : Plain.slice [] ∉ args)
    (hnp : ∀ p ∈ args, p.isSlicePtr = false) :
    ∃ r, In q (args.map GoVal.plain) = some (Run.ret r)
      ∧ (r.err ≠ none ↔ countMarks q ≠ args.length)
      ∧ (args.length < countMarks q → r.err = some "number of bindVars exceeds arguments")
      ∧ (countMarks q < args.length
          → r.err = some "number of bindVars less than number arguments") := by
  refine ⟨_, In_plain_eq q args hany hne hnp, ?_, ?_, ?_⟩
  · rcases Nat.lt_trichotomy (countMarks q) args.length with h | h | h
    · rw [expandWalk_of_count_lt q args h]
      simp [walkResult]; omega
    · rw [expandWalk_of_count_eq q args h]
      simp [walkResult, h]
    · rw [expandWalk_of_count_gt q args h]
      simp [walkResult]; omega
  · intro h
    rw [expandWalk_of_count_gt q args h]; rfl
  · intro h
    rw [expandWalk_of_count_lt q args h]; rfl

/-- One `?` against a sequence and a scalar. -/
theorem In_count_mismatch_values_example :
    ∃ r, In (bytesOf "id IN (?)") ([Plain.slice [1, 2], Plain.scalar 7].map GoVal.plain)
        = some (Run.ret r)
      ∧ (r.err ≠ none ↔ countMarks (bytesOf "id IN (?)") ≠ [Plain.slice [1, 2], Plain.scalar 7].length)
      ∧ ([Plain.slice [1, 2], Plain.scalar 7].length < countMarks (bytesOf "id IN (?)")
          → r.err = some "number of bindVars exceeds arguments")
      ∧ (countMarks (bytesOf "id IN (?)") < [Plain.slice [1, 2], Plain.scalar 7].length
          → r.err = some "number of bindVars less than number arguments") :=
  In_count_mismatch_values (bytesOf "id IN (?)") [Plain.slice [1, 2], Plain.scalar 7]
    ⟨[1, 2], by decide⟩ (by decide) (by decide)

/-- C4 (failing input): `In("a IN (?)", []int{1}, &[]int{1, 2})` has one `?`
and two arguments, one of them a non-byte sequence, none empty, none a
Valuer.  The call panics at `v.Len()` in the first loop and returns no error;
with the pointer replaced by the scalar 7 it returns the error "number of
bindVars less than number arguments", and likewise the pointer keeps
`In("a IN (?) AND b = ? AND c = ?", []int{1}, &[]int{1, 2})` from returning
"number of bindVars exceeds arguments". -/
theorem In_slice_pointer_no_count_error :
    In (bytesOf "a IN (?)")
        [GoVal.plain (Plain.slice [1]), GoVal.plain (Plain.slicePtr (some [1, 2]))]
      = some Run.fault
    ∧ countMarks (bytesOf "a IN (?)")
        < [GoVal.plain (Plain.slice [1]), GoVal.plain (Plain.slicePtr (some [1, 2]))].length
    ∧ In (bytesOf "a IN (?)") [GoVal.plain (Plain.slice [1]), GoVal.plain (Plain.scalar 7)]
      = some (Run.ret ⟨[], none, some "number of bindVars less than number arguments"⟩)
    ∧ In (bytesOf "a IN (?) AND b = ? AND c = ?")
        [GoVal.plain (Plain.slice [1]), GoVal.plain (Plain.slicePtr (some [1, 2]))]
      = some Run.fault
    ∧ In (bytesOf "a IN (?) AND b = ? AND c = ?")
        [GoVal.plain (Plain.slice [1]), GoVal.plain (Plain.scalar 7)]
      = some (Run.ret ⟨[], none, some "number of bindVars exceeds arguments"⟩) := by
  refine ⟨by decide, by decide, by decide, by decide, by decide⟩

/-- C5 (counterexample): an empty sequence of a type that implements
`driver.Valuer` is converted before it is classified; with `Value()`
returning the number 0 the call `In("a = ?", v)` returns the query and the
argument unchanged and no error. -/
theorem In_empty_valuer_no_error :
    (GoVal.valuer (Plain.slice []) (Plain.scalar 0) none).shape = Plain.slice []
    ∧ In (bytesOf "a = ?") [GoVal.valuer (Plain.slice []) (Plain.scalar 0) none]
      = some (Run.ret ⟨bytesOf "a = ?",
          some [GoVal.valuer (Plain.slice []) (Plain.scalar 0) none], none⟩) := by
  refine ⟨rfl, by decide⟩

/-- C5 (amended): if some argument is, after the Valuer conversion where its
type has one, an empty non-byte sequence, and no argument before it is or
converts to a pointer to a slice, `In` returns an error (with the empty query
and the nil argument list), whatever the query and the other arguments are. -/
theorem In_empty_slice_error (q : GoString) (pre post : List GoVal) (a : GoVal)
    (ha : valuerValue a = (Plain.slice [], none))
    (hpre : ∀ x ∈ pre, (valuerValue x).1.isSlicePtr = false) :
    ∃ e, In q (pre ++ a :: post) = some (Run.ret ⟨[], none, some e⟩) := by
  obtain ⟨e, he⟩ := inMeta_empty pre a post ha [] false hpre
  refine ⟨e, ?_⟩
  unfold In
  rw [he]

/-- Witness for C5 (amended): `In("a = ? AND b IN (?)", 1, []int{})`. -/
theorem In_empty_slice_error_witness :
    ∃ e, In (bytesOf "a = ? AND b IN (?)")
        [GoVal.plain (Plain.scalar 1), GoVal.plain (Plain.slice [])]
      = some (Run.ret ⟨[], none, some e⟩) :=
  In_empty_slice_error (bytesOf "a = ? AND b IN (?)") [GoVal.plain (Plain.scalar 1)] []
    (GoVal.plain (Plain.slice [])) rfl (by decide)

/-- C6: when no argument (after Valuer conversion) is an expandable sequence
and no Valuer conversion fails, `In` returns the query and the argument list
unchanged with no error, whatever the number of `?` in the query. -/
theorem In_fast_path (q : GoString) (args : List GoVal)
    (h : ∀ a ∈ args, (valuerValue a).2 = none ∧ asSliceForIn (valuerValue a).1 = none) :
    In q args = some (Run.ret ⟨q, some args, none⟩) :=
  In_noslice_eq q args h

/-- Witness for C6: two `?` against one scalar argument and a Valuer. -/
theorem In_fast_path_witness :
    In (bytesOf "a = ? AND b = ? AND c = ?")
        [GoVal.plain (Plain.scalar 1), GoVal.valuer (Plain.scalar 5) (Plain.scalar 2) none]
      = some (Run.ret ⟨bytesOf "a = ? AND b = ? AND c = ?",
          some [GoVal.plain (Plain.scalar 1),
            GoVal.valuer (Plain.scalar 5) (Plain.scalar 2) none], none⟩) :=
  In_fast_path _ _ (by decide)

/-- C7: `In` always ends, and whenever it returns an error the returned query
is empty and the returned argument list is nil.  It returns unless an
argument is, or converts to, a pointer to a slice, on which it can panic. -/
theorem In_error_no_partial (q : GoString) (args : List GoVal) :
    ∃ o, In q args = some o
      ∧ (∀ r, o = Run.ret r → r.err ≠ none → r.query = [] ∧ r.args = none)
      ∧ ((∀ a ∈ args, (valuerValue a).1.isSlicePtr = false) → ∃ r, o = Run.ret r) := by
  rcases In_cases q args with h | ⟨e, h⟩ | h | ⟨ps, h⟩
  · refine ⟨_, h, (fun r hr => by cases hr), ?_⟩
    intro hnp
    exfalso
    obtain ⟨res, hres⟩ := inMeta_ret_of args [] false hnp
    unfold In at h
    rw [hres] at h
    cases res with
    | error e => simp at h
    | ok r =>
      obtain ⟨meta, anySlices⟩ := r
      simp only [] at h
      by_cases hb : (!anySlices) = true
      · rw [if_pos hb] at h; simp at h
      · rw [if_neg hb] at h
        cases hl : inLoop meta (q.length + 1) q 0 0 [] [] with
        | none => rw [hl] at h; simp at h
        | some x => rw [hl] at h; simp at h
  · refine ⟨_, h, ?_, fun _ => ⟨_, rfl⟩⟩
    intro r hr _
    cases hr
    exact ⟨rfl, rfl⟩
  · refine ⟨_, h, ?_, fun _ => ⟨_, rfl⟩⟩
    intro r hr hne
    cases hr
    exact absurd rfl hne
  · refine ⟨_, h, ?_, fun _ => ⟨_, rfl⟩⟩
    intro r hr
    cases hr
    cases expandWalk q ps with
    | error e => intro _; exact ⟨rfl, rfl⟩
    | ok r => intro hne; exact absurd rfl hne

/-- Witness for C7: `In("a IN (?)", []int{})` returns an error with the empty
query and the nil argument list. -/
theorem In_error_no_partial_witness :
    ∃ r, In (bytesOf "a IN (?)") [GoVal.plain (Plain.slice [])] = some (Run.ret r)
      ∧ r.err ≠ none ∧ r.query = [] ∧ r.args = none := by
  obtain ⟨o, ho, h, hret⟩ :=
    In_error_no_partial (bytesOf "a IN (?)") [GoVal.plain (Plain.slice [])]
  obtain ⟨r, rfl⟩ := hret (by decide)
  have he : r.err ≠ none := by
    have hv : In (bytesOf "a IN (?)") [GoVal.plain (Plain.slice [])]
        = some (Run.ret ⟨[], none, some "empty slice passed to \x27in\x27 query"⟩) := by decide
    rw [hv] at ho
    simp only [Option.some.injEq, Run.ret.injEq] at ho
    rw [← ho]
    simp
  exact ⟨r, ho, he, h r rfl he⟩

/-- C8: a `[]byte` argument is never expanded: `asSliceForIn` reports it as
not a sequence; a list of scalars and byte sequences (empty ones included) is
returned unchanged; and next to an expanded sequence a byte sequence, even an
empty one, keeps its single `?` and is passed through as one argument. -/
theorem In_bytes_not_expanded :
    (∀ b : GoString, asSliceForIn (Plain.bytes b) = none)
    ∧ (∀ (q : GoString) (args : List Plain),
        (∀ p ∈ args, p = Plain.nil ∨ (∃ v, p = Plain.scalar v) ∨ (∃ b, p = Plain.bytes b)) →
        In q (args.map GoVal.plain)
          = some (Run.ret ⟨q, some (args.map GoVal.plain), none⟩))
    ∧ (∀ (s0 s1 s2 b : GoString) (e : Int) (es : List Int),
        (63 : UInt8) ∉ s0 → (63 : UInt8) ∉ s1 → (63 : UInt8) ∉ s2 →
        In (s0 ++ 63 :: (s1 ++ 63 :: s2))
            [GoVal.plain (Plain.bytes b), GoVal.plain (Plain.slice (e :: es))]
          = some (Run.ret ⟨s0 ++ bytesOf "?" ++ (s1 ++ placeholders (es.length + 1) ++ s2),
              some (GoVal.plain (Plain.bytes b)
                :: (e :: es).map (fun x => GoVal.plain (Plain.scalar x))), none⟩)) := by
  refine ⟨fun _ => rfl, ?_, ?_⟩
  · intro q args h
    apply In_noslice_eq
    intro a ha
    obtain ⟨p, hp, rfl⟩ := List.mem_map.1 ha
    rcases h p hp with rfl | ⟨v, rfl⟩ | ⟨b, rfl⟩ <;> exact ⟨rfl, rfl⟩
  · intro s0 s1 s2 b e es h0 h1 h2
    have h := In_plain_eq (s0 ++ 63 :: (s1 ++ 63 :: s2)) [Plain.bytes b, Plain.slice (e :: es)]
      ⟨e :: es, by simp⟩ (by simp) (by
        intro p hp
        simp only [List.mem_cons, List.mem_singleton, List.not_mem_nil, or_false] at hp
        rcases hp with rfl | rfl <;> rfl)
    simp only [List.map_cons, List.map_nil] at h
    rw [h, expandWalk_append h0]
    simp only []
    rw [expandWalk_append h1]
    simp only []
    rw [expandWalk_of_not_mem h2]
    simp [walkResult, argMarks, argValues]

/-- Witness for C8: `In("a = ? AND id IN (?)", []byte{}, []int{1, 2})`. -/
theorem In_bytes_not_expanded_witness :
    In (bytesOf "a = ? AND id IN (?)")
        [GoVal.plain (Plain.bytes []), GoVal.plain (Plain.slice [1, 2])]
      = some (Run.ret ⟨bytesOf "a = ? AND id IN (?, ?)",
          some [GoVal.plain (Plain.bytes []), GoVal.plain (Plain.scalar 1),
            GoVal.plain (Plain.scalar 2)], none⟩) := by
  have h := In_bytes_not_expanded.2.2 (bytesOf "a = ") (bytesOf " AND id IN (") (bytesOf ")")
    [] 1 [2] (by decide) (by decide) (by decide)
  have h1 : bytesOf "a = " ++ 63 :: (bytesOf " AND id IN (" ++ 63 :: bytesOf ")")
      = bytesOf "a = ? AND id IN (?)" := by decide
  rw [h1] at h
  rw [h]
  decide

end Binder

set_option maxRecDepth 100000 in
theorem byteClass_table :
    ∀ v : Fin 256,
      (isNameChar ⟨⟨v⟩⟩ = true →
        (allowedBindRune ⟨⟨v⟩⟩ || (⟨⟨v⟩⟩ : UInt8) = 95 || (⟨⟨v⟩⟩ : UInt8) = 46) = true
          ∧ (⟨⟨v⟩⟩ : UInt8) ≠ 58 ∧ (⟨⟨v⟩⟩ : UInt8) ≠ 61)
      ∧ (isNameChar ⟨⟨v⟩⟩ = false → v.val < 128 →
        allowedBindRune ⟨⟨v⟩⟩ = false ∧ (⟨⟨v⟩⟩ : UInt8) ≠ 95 ∧ (⟨⟨v⟩⟩ : UInt8) ≠ 46) := by
  decide

theorem allowed_of_isNameChar {b : UInt8} (h : isNameChar b = true) :
    (allowedBindRune b || b = 95 || b = 46) = true ∧ b ≠ 58 ∧ b ≠ 61 :=
  (byteClass_table b.toBitVec.toFin).1 h

theorem not_allowed_of_not_isNameChar {c : UInt8} (h : isNameChar c = false)
    (hc : c.toNat < 128) :
    allowedBindRune c = false ∧ c ≠ 95 ∧ c ≠ 46 :=
  (byteClass_table c.toBitVec.toFin).2 h hc

theorem compileLoop_eq_aux (bindType : Int) (rest : GoString) :
    ∀ (pre : GoString) (s : CompileState),
      compileLoop (pre ++ rest) bindType pre.length rest s
        = compileAux bindType (decide (pre.getLast? = some 58)) pre.length rest s := by
  induction rest with
  | nil => intro pre s; simp [compileLoop, compileAux]
  | cons b rest ih =>
    intro pre s
    have hprev : (decide (pre.length > 0) && decide ((pre ++ b :: rest)[pre.length - 1]? = some 58))
        = decide (pre.getLast? = some 58) := by
      cases hp : pre with
      | nil => simp
      | cons y ys =>
        have hlt : (y :: ys).length - 1 < (y :: ys).length := by simp
        rw [List.getElem?_append_left hlt, List.getLast?_eq_getElem?]
        simp
    have hlast : decide ((pre.length : Int) = ((pre ++ b :: rest).length : Int) - 1)
        = rest.isEmpty := by
      cases rest with
      | nil => simp
      | cons c r =>
        simp only [List.length_append, List.length_cons, List.isEmpty_cons, decide_eq_false_iff_not]
        push_cast
        omega
    have hnext := ih (pre ++ [b])
    have hgl : (pre ++ [b]).getLast? = some b := by simp
    simp only [List.append_assoc, List.singleton_append, List.length_append, List.length_singleton,
      hgl] at hnext
    rw [compileLoop, compileAux, compileStep, hprev, hlast]
    cases compileBody bindType (decide (pre.getLast? = some 58)) rest.isEmpty pre.length b s with
    | ret r => rfl
    | next s1 =>
      simp only []
      rw [hnext]
      simp

theorem compileNamedQuery_eq_aux (qs : GoString) (bindType : Int) :
    compileNamedQuery qs bindType
      = compileAux bindType false 0 qs ⟨false, [], [], [], 1⟩ := by
  have := compileLoop_eq_aux bindType qs [] ⟨false, [], [], [], 1⟩
  simpa [compileNamedQuery] using this

theorem compileAux_text (bindType : Int) (t : GoString) :
    ∀ (pc : Bool) (i : Nat) (rest : GoString) (s : CompileState),
      (58 : UInt8) ∉ t → s.inName = false →
      ∃ pc1, compileAux bindType pc i (t ++ rest) s
        = compileAux bindType pc1 (i + t.length) rest { s with rebound := s.rebound ++ t } := by
  induction t with
  | nil => intro pc i rest s _ _; exact ⟨pc, by simp⟩
  | cons b t ih =>
    intro pc i rest s h hs
    simp only [List.mem_cons, not_or] at h
    have hb : b ≠ 58 := Ne.symm h.1
    obtain ⟨pc1, h1⟩ := ih (decide (b = 58)) (i + 1) rest
      { s with rebound := s.rebound ++ [b] } h.2 hs
    refine ⟨pc1, ?_⟩
    have hbody : compileBody bindType pc (t ++ rest).isEmpty i b s
        = .next { s with rebound := s.rebound ++ [b] } := by
      simp [compileBody, hb, hs]
    rw [List.cons_append, compileAux, hbody]
    simp only []
    rw [h1]
    simp [Nat.add_assoc, Nat.add_comm 1]

theorem compileAux_text_end (bindType : Int) (t : GoString) (pc : Bool) (i : Nat)
    (s : CompileState) (h : (58 : UInt8) ∉ t) (hs : s.inName = false) :
    compileAux bindType pc i t s = ⟨s.rebound ++ t, s.names, none⟩ := by
  obtain ⟨pc1, h1⟩ := compileAux_text bindType t pc i [] s h hs
  rw [List.append_nil] at h1
  rw [h1]
  simp [compileAux]

theorem compileAux_colon (bindType : Int) (pc : Bool) (i : Nat) (rest : GoString)
    (s : CompileState) (hs : s.inName = false) :
    compileAux bindType pc i (58 :: rest) s
      = compileAux bindType true (i + 1) rest { s with inName := true, name := [] } := by
  have hbody : compileBody bindType pc rest.isEmpty i 58 s
      = .next { s with inName := true, name := [] } := by
    simp [compileBody, hs]
  rw [compileAux, hbody]
  simp

theorem compileAux_name_close (bindType : Int) (c : UInt8) (rest : GoString)
    (hc : isNameChar c = false) (hc58 : c ≠ 58) (hascii : c.toNat < 128) (n : GoString) :
    ∀ (pc : Bool) (i : Nat) (s : CompileState),
      (∀ b ∈ n, isNameChar b = true) → s.inName = true → s.name ++ n ≠ [] →
      compileAux bindType pc i (n ++ c :: rest) s
        = compileAux bindType false (i + n.length + 1) rest
            ⟨false, s.name ++ n,
              s.rebound ++ (emitBindvar bindType (s.name ++ n) s.currentVar).1 ++ [c],
              s.names ++ [s.name ++ n],
              (emitBindvar bindType (s.name ++ n) s.currentVar).2⟩ := by
  induction n with
  | nil =>
    intro pc i s _ hs hne
    obtain ⟨h1, h2, h3⟩ := not_allowed_of_not_isNameChar hc hascii
    have hlen : s.name.length ≠ 0 := by
      intro h0
      apply hne
      simp [List.length_eq_zero.1 h0]
    have hbody : compileBody bindType pc rest.isEmpty i c s
        = .next ⟨false, s.name,
            s.rebound ++ (emitBindvar bindType s.name s.currentVar).1 ++ [c],
            s.names ++ [s.name], (emitBindvar bindType s.name s.currentVar).2⟩ := by
      simp only [compileBody, hc58, hs, hlen, h1, h2, h3]
      cases rest.isEmpty <;> simp
    rw [List.nil_append, compileAux, hbody]
    simp [hc58]
  | cons b n ih =>
    intro pc i s hn hs hne
    have hb := allowed_of_isNameChar (hn b (by simp))
    have hbody : compileBody bindType pc (n ++ c :: rest).isEmpty i b s
        = .next { s with name := s.name ++ [b] } := by
      have hb1 := hb.1
      simp only [Bool.or_eq_true, decide_eq_true_eq] at hb1
      simp only [compileBody, hb.2.1, hb.2.2, hs]
      simp [hb1]
    rw [List.cons_append, compileAux, hbody]
    simp only []
    rw [ih (decide (b = 58)) (i + 1) { s with name := s.name ++ [b] }
      (fun x hx => hn x (List.mem_cons_of_mem _ hx)) hs (by simp)]
    simp [Nat.add_assoc, Nat.add_comm 1]

theorem emitBindvar_fst {bindType : Int}
    (hbt : bindType = Binder.UNKNOWN ∨ bindType = Binder.QUESTION ∨ bindType = Binder.DOLLAR
      ∨ bindType = Binder.NAMED ∨ bindType = Binder.AT) (n : GoString) (k : Nat) :
    (emitBindvar bindType n k).1 = namedPlaceholder bindType k n := by
  rcases hbt with rfl | rfl | rfl | rfl | rfl <;> rfl

theorem emitBindvar_snd {bindType : Int}
    (hbt : bindType = Binder.DOLLAR ∨ bindType = Binder.AT) (n : GoString) (k : Nat) :
    (emitBindvar bindType n k).2 = k + 1 := by
  rcases hbt with rfl | rfl <;> rfl

theorem namedPlaceholder_indep {bindType : Int}
    (h1 : bindType ≠ Binder.DOLLAR) (h2 : bindType ≠ Binder.AT) (n : GoString) (j k : Nat) :
    namedPlaceholder bindType j n = namedPlaceholder bindType k n := by
  simp [namedPlaceholder, h1, h2]

theorem namedExpected_indep {bindType : Int}
    (h1 : bindType ≠ Binder.DOLLAR) (h2 : bindType ≠ Binder.AT)
    (segs : List (GoString × GoString)) :
    ∀ j k : Nat, namedExpected bindType j segs = namedExpected bindType k segs := by
  induction segs with
  | nil => intro j k; rfl
  | cons nt rest ih =>
    intro j k
    obtain ⟨n, t⟩ := nt
    simp only [namedExpected]
    rw [namedPlaceholder_indep h1 h2 n j k, ih (j + 1) (k + 1)]

/-- What `compileNamedQuery` does from a point outside a name on a template
`":" ++ n1 ++ t1 ++ ... ++ ":" ++ nk ++ tk`. -/
theorem compileAux_template {bindType : Int}
    (hbt : bindType = Binder.UNKNOWN ∨ bindType = Binder.QUESTION ∨ bindType = Binder.DOLLAR
      ∨ bindType = Binder.NAMED ∨ bindType = Binder.AT)
    (segs : List (GoString × GoString)) :
    ∀ (pc : Bool) (i : Nat) (s : CompileState),
      s.inName = false →
      (∀ nt ∈ segs, nt.1 ≠ [] ∧ (∀ b ∈ nt.1, isNameChar b = true) ∧ (58 : UInt8) ∉ nt.2
        ∧ ∃ c rest, nt.2 = c :: rest ∧ c.toNat < 128 ∧ isNameChar c = false) →
      compileAux bindType pc i (namedTemplate segs) s
        = ⟨s.rebound ++ namedExpected bindType s.currentVar segs,
            s.names ++ segs.map Prod.fst, none⟩ := by
  induction segs with
  | nil => intro pc i s _ _; simp [namedTemplate, namedExpected, compileAux]
  | cons nt more ih =>
    intro pc i s hs hsegs
    obtain ⟨n, t⟩ := nt
    obtain ⟨hne, hname, hcolon, c, t1, rfl, hascii, hc⟩ := hsegs (n, t) (by simp)
    have hmore := fun x hx => hsegs x (List.mem_cons_of_mem _ hx)
    simp only [List.mem_cons, not_or] at hcolon
    have hc58 : c ≠ 58 := Ne.symm hcolon.1
    simp only [namedTemplate]
    rw [compileAux_colon bindType pc i _ s hs]
    rw [List.cons_append,
      compileAux_name_close bindType c (t1 ++ namedTemplate more) hc hc58 hascii n true (i + 1)
        { s with inName := true, name := [] } hname rfl (by simpa using hne)]
    obtain ⟨pc1, h1⟩ := compileAux_text bindType t1 false (i + 1 + n.length + 1)
      (namedTemplate more)
      ⟨false, [] ++ n, s.rebound ++ (emitBindvar bindType ([] ++ n) s.currentVar).1 ++ [c],
        s.names ++ [[] ++ n], (emitBindvar bindType ([] ++ n) s.currentVar).2⟩ hcolon.2 rfl
    rw [h1, ih _ _ _ rfl hmore]
    simp only [List.nil_append, emitBindvar_fst hbt, namedExpected, List.map_cons,
      List.append_assoc, List.singleton_append, List.cons_append]
    by_cases hd : bindType = Binder.DOLLAR ∨ bindType = Binder.AT
    · rw [emitBindvar_snd hd]
    · simp only [not_or] at hd
      rw [namedExpected_indep hd.1 hd.2 more _ (s.currentVar + 1)]

/-- C9: on a template `t0 ++ ":" ++ n1 ++ t1 ++ ... ++ ":" ++ nk ++ tk` whose
names are non-empty runs of ASCII letters, digits, `_` and `.`, whose texts
contain no `:` and whose texts after a name start with an ASCII byte that is
no name character, `compileNamedQuery` succeeds with the names in source
order and the query `t0 ++ P1 ++ t1 ++ ... ++ Pk ++ tk`, where `Pi` is `?` for
QUESTION and UNKNOWN, `$i` for DOLLAR, `@pi` for AT and `:ni` for NAMED. -/
theorem compileNamedQuery_template (bindType : Int) (t0 : GoString)
    (segs : List (GoString × GoString))
    (hbt : bindType = Binder.UNKNOWN ∨ bindType = Binder.QUESTION ∨ bindType = Binder.DOLLAR
      ∨ bindType = Binder.NAMED ∨ bindType = Binder.AT)
    (h0 : (58 : UInt8) ∉ t0)
    (hsegs : ∀ nt ∈ segs, nt.1 ≠ [] ∧ (∀ b ∈ nt.1, isNameChar b = true) ∧ (58 : UInt8) ∉ nt.2
        ∧ ∃ c rest, nt.2 = c :: rest ∧ c.toNat < 128 ∧ isNameChar c = false) :
    compileNamedQuery (t0 ++ namedTemplate segs) bindType
      = ⟨t0 ++ namedExpected bindType 1 segs, segs.map Prod.fst, none⟩ := by
  rw [compileNamedQuery_eq_aux]
  obtain ⟨pc1, h1⟩ := compileAux_text bindType t0 false 0 (namedTemplate segs)
    ⟨false, [], [], [], 1⟩ h0 rfl
  rw [h1, compileAux_template hbt segs _ _ _ rfl hsegs]
  simp

/-- Witness for C9: `"SELECT * FROM t WHERE a = :a AND b = :b_2 "` under DOLLAR. -/
theorem compileNamedQuery_template_witness :
    compileNamedQuery (bytesOf "SELECT * FROM t WHERE a = :a AND b = :b_2 ") Binder.DOLLAR
      = ⟨bytesOf "SELECT * FROM t WHERE a = $1 AND b = $2 ", [bytesOf "a", bytesOf "b_2"], none⟩ :=
  compileNamedQuery_template Binder.DOLLAR (bytesOf "SELECT * FROM t WHERE a = ")
    [(bytesOf "a", bytesOf " AND b = "), (bytesOf "b_2", bytesOf " ")]
    (by decide) (by decide)
    (by
      intro nt h
      simp only [List.mem_cons, List.mem_singleton, List.not_mem_nil, or_false] at h
      rcases h with rfl | rfl
      · exact ⟨by decide, by decide, by decide, 32, bytesOf "AND b = ", by decide, by decide,
          by decide⟩
      · exact ⟨by decide, by decide, by decide, 32, [], by decide, by decide, by decide⟩)

/-- C10: for every bind type and all `a`, `b` without `:`, compiling
`a ++ "::" ++ b` gives the query `a ++ ":" ++ b` and compiling `a ++ ":=" ++ b`
gives `a ++ ":=" ++ b`, both with no names and no error; and
`"SELECT :x, :: , :=1"` gives names `["x"]` and `"SELECT ?, : , :=1"` for
QUESTION. -/
theorem compileNamedQuery_escapes (bindType : Int) (a b : GoString)
    (ha : (58 : UInt8) ∉ a) (hb : (58 : UInt8) ∉ b) :
    compileNamedQuery (a ++ bytesOf "::" ++ b) bindType = ⟨a ++ bytesOf ":" ++ b, [], none⟩
    ∧ compileNamedQuery (a ++ bytesOf ":=" ++ b) bindType = ⟨a ++ bytesOf ":=" ++ b, [], none⟩
    ∧ compileNamedQuery (bytesOf "SELECT :x, :: , :=1") Binder.QUESTION
        = ⟨bytesOf "SELECT ?, : , :=1", [bytesOf "x"], none⟩ := by
  have hcc : bytesOf "::" = [58, 58] := by decide
  have hce : bytesOf ":=" = [58, 61] := by decide
  have hc : bytesOf ":" = [58] := by decide
  have hbody1 : ∀ (i : Nat) (s : CompileState), s.inName = true →
      compileBody bindType true b.isEmpty i 58 s
        = .next { s with rebound := s.rebound ++ [58], inName := false } := by
    intro i s hs
    simp [compileBody, hs]
  have hbody2 : ∀ (i : Nat) (s : CompileState), s.inName = true → s.name = [] →
      compileBody bindType true b.isEmpty (i + 1) 61 s
        = .next { s with rebound := s.rebound ++ [58, 61], inName := false } := by
    intro i s hs hn
    simp [compileBody, hs, hn]
  refine ⟨?_, ?_, by decide⟩
  · rw [compileNamedQuery_eq_aux, hcc, hc, List.append_assoc]
    obtain ⟨pc1, h1⟩ := compileAux_text bindType a false 0 ([58, 58] ++ b)
      ⟨false, [], [], [], 1⟩ ha rfl
    rw [h1]
    simp only [List.cons_append, List.nil_append]
    rw [compileAux_colon bindType pc1 _ _ _ rfl, compileAux, hbody1 _ _ rfl]
    simp only []
    rw [compileAux_text_end bindType b _ _ _ hb rfl]
  · rw [compileNamedQuery_eq_aux, hce, List.append_assoc]
    obtain ⟨pc1, h1⟩ := compileAux_text bindType a false 0 ([58, 61] ++ b)
      ⟨false, [], [], [], 1⟩ ha rfl
    rw [h1]
    simp only [List.cons_append, List.nil_append]
    rw [compileAux_colon bindType pc1 _ _ _ rfl, compileAux, hbody2 _ _ rfl rfl]
    simp only []
    rw [compileAux_text_end bindType b _ _ _ hb rfl]
    simp

/-- Witness for C10: `a = "x"`, `b = "int"`. -/
theorem compileNamedQuery_escapes_witness :
    compileNamedQuery (bytesOf "x::int") Binder.DOLLAR = ⟨bytesOf "x:int", [], none⟩ :=
  (compileNamedQuery_escapes Binder.DOLLAR (bytesOf "x") (bytesOf "int")
    (by decide) (by decide)).1

/-- C11 (failing input): when the input ends with `_` or `.` inside a name,
`compileNamedQuery` leaves that byte out of the name and emits it into the
query: `"SELECT :a_"` gives the name `a` and the query `"SELECT ?_"`, and
likewise for `"SELECT :a."`; a final letter or digit is kept in the name. -/
theorem compileNamedQuery_final_underscore :
    compileNamedQuery (bytesOf "SELECT :a_") Binder.QUESTION
        = ⟨bytesOf "SELECT ?_", [bytesOf "a"], none⟩
    ∧ compileNamedQuery (bytesOf "SELECT :a.") Binder.QUESTION
        = ⟨bytesOf "SELECT ?.", [bytesOf "a"], none⟩
    ∧ compileNamedQuery (bytesOf "SELECT :a1") Binder.QUESTION
        = ⟨bytesOf "SELECT ?", [bytesOf "a1"], none⟩ := by
  decide

theorem compileAux_name_run (bindType : Int) (n : GoString) :
    ∀ (pc : Bool) (i : Nat) (rest : GoString) (s : CompileState),
      (∀ b ∈ n, isNameChar b = true) → s.inName = true → n ≠ [] → rest ≠ [] →
      compileAux bindType pc i (n ++ rest) s
        = compileAux bindType false (i + n.length) rest { s with name := s.name ++ n } := by
  induction n with
  | nil => intro _ _ _ _ _ _ h; exact absurd rfl h
  | cons b n ih =>
    intro pc i rest s hn hs _ hrest
    have hb := allowed_of_isNameChar (hn b (by simp))
    have hne : (n ++ rest).isEmpty = false := by
      cases n with
      | nil => cases rest with
        | nil => exact absurd rfl hrest
        | cons c r => rfl
      | cons c r => rfl
    have hbody : compileBody bindType pc (n ++ rest).isEmpty i b s
        = .next { s with name := s.name ++ [b] } := by
      have hb1 := hb.1
      simp only [Bool.or_eq_true, decide_eq_true_eq] at hb1
      simp only [compileBody, hb.2.1, hb.2.2, hs, hne]
      simp [hb1]
    rw [List.cons_append, compileAux, hbody]
    simp only []
    cases n with
    | nil =>
      simp [hb.2.1, Nat.add_comm]
    | cons c r =>
      rw [ih (decide (b = 58)) (i + 1) rest { s with name := s.name ++ [b] }
        (fun x hx => hn x (List.mem_cons_of_mem _ hx)) hs (by simp) hrest]
      simp [Nat.add_assoc, Nat.add_comm 1]

/-- C12: for every bind type, a prefix `a` without `:`, a non-empty name `n`
of name characters and any suffix `b`, compiling `a ++ ":" ++ n ++ ":" ++ b`
returns an error (with the empty query and no names). -/
theorem compileNamedQuery_colon_in_name (bindType : Int) (a n b : GoString)
    (ha : (58 : UInt8) ∉ a) (hn : n ≠ []) (hchars : ∀ c ∈ n, isNameChar c = true) :
    ∃ msg, compileNamedQuery (a ++ bytesOf ":" ++ n ++ bytesOf ":" ++ b) bindType
      = ⟨[], [], some msg⟩ := by
  have hc : bytesOf ":" = [58] := by decide
  have hform : a ++ [58] ++ n ++ [58] ++ b = a ++ 58 :: (n ++ 58 :: b) := by simp
  rw [compileNamedQuery_eq_aux, hc, hform]
  obtain ⟨pc1, h1⟩ := compileAux_text bindType a false 0 (58 :: (n ++ 58 :: b))
    ⟨false, [], [], [], 1⟩ ha rfl
  rw [h1, compileAux_colon bindType pc1 _ _ _ rfl,
    compileAux_name_run bindType n true _ (58 :: b) _ hchars rfl hn (by simp), compileAux]
  simp [compileBody]

/-- Witness for C12: the template `":id::text"`. -/
theorem compileNamedQuery_colon_in_name_witness :
    ∃ msg, compileNamedQuery (bytesOf "" ++ bytesOf ":" ++ bytesOf "id" ++ bytesOf ":"
        ++ bytesOf ":text") Binder.DOLLAR = ⟨[], [], some msg⟩ :=
  compileNamedQuery_colon_in_name Binder.DOLLAR (bytesOf "") (bytesOf "id") (bytesOf ":text")
    (by decide) (by decide) (by decide)

theorem compileBody_ret_query (bindType : Int) (pc isLast : Bool) (i : Nat) (b : UInt8)
    (s : CompileState) (r : CompileResult)
    (h : compileBody bindType pc isLast i b s = .ret r) :
    r.query = [] ∧ r.names = s.names ∧ r.err ≠ none := by
  unfold compileBody at h
  split_ifs at h
  cases h
  exact ⟨rfl, rfl, by simp⟩

theorem compileLoop_error_query (qs : GoString) (bindType : Int) (rest : GoString) :
    ∀ (i : Nat) (s : CompileState),
      (compileLoop qs bindType i rest s).err ≠ none →
      (compileLoop qs bindType i rest s).query = [] := by
  induction rest with
  | nil => intro i s h; simp [compileLoop] at h
  | cons b rest ih =>
    intro i s h
    rw [compileLoop] at h ⊢
    cases hstep : compileStep qs bindType i b s with
    | ret r =>
      rw [hstep] at h
      exact (compileBody_ret_query _ _ _ _ _ _ _ hstep).1
    | next s1 =>
      rw [hstep] at h
      exact ih _ _ h

/-- C13 (counterexample): compiling `":a :b:c"` returns an error together with
the name list `["a"]`, so an error return can carry names. -/
theorem compileNamedQuery_error_keeps_names :
    (compileNamedQuery (bytesOf ":a :b:c") Binder.QUESTION).err ≠ none
    ∧ (compileNamedQuery (bytesOf ":a :b:c") Binder.QUESTION).names = [bytesOf "a"] := by
  decide

/-- C13 (amended): whenever `compileNamedQuery` returns an error, the returned
query text is empty, for every template and bind type. -/
theorem compileNamedQuery_error_query_empty (qs : GoString) (bindType : Int)
    (h : (compileNamedQuery qs bindType).err ≠ none) :
    (compileNamedQuery qs bindType).query = [] :=
  compileLoop_error_query qs bindType qs 0 _ h

/-- Witness for C13 (amended): the template `":a :b:c"`. -/
theorem compileNamedQuery_error_query_empty_witness :
    (compileNamedQuery (bytesOf ":a :b:c") Binder.QUESTION).query = [] :=
  compileNamedQuery_error_query_empty (bytesOf ":a :b:c") Binder.QUESTION (by decide)

theorem countMarks_append (s t : GoString) :
    Binder.countMarks (s ++ t) = Binder.countMarks s + Binder.countMarks t := by
  simp [Binder.countMarks]

theorem compileBody_next_count (pc isLast : Bool) (i : Nat) (b : UInt8)
    (s s1 : CompileState)
    (h : compileBody Binder.QUESTION pc isLast i b s = .next s1) :
    Binder.countMarks s1.rebound + s.names.length
      = Binder.countMarks s.rebound + Binder.countMarks [b] + s1.names.length := by
  have hq : emitBindvar Binder.QUESTION = fun _ cv => ([63], cv) := by
    funext n cv; rfl
  have h63 : allowedBindRune 63 = false := by decide
  unfold compileBody at h
  rw [hq] at h
  by_cases hb : b = 63
  · subst hb
    simp only [h63, show ((63 : UInt8) = 58) = False by decide,
      show ((63 : UInt8) = 61) = False by decide, show ((63 : UInt8) = 95) = False by decide,
      show ((63 : UInt8) = 46) = False by decide, if_false, decide_False, Bool.and_false,
      Bool.false_and, Bool.or_false, Bool.false_eq_true, Bool.not_false, Bool.and_true,
      ite_self] at h
    split_ifs at h <;> cases h <;>
      simp only [Binder.countMarks, List.count_append, List.length_append, List.length_singleton,
        List.count_singleton, List.count_cons, List.count_nil, beq_self_eq_true, if_true] <;>
      omega
  · have hc : Binder.countMarks [b] = 0 := by
      simp [Binder.countMarks, List.count_cons, hb]
    have hcb : List.count (63 : UInt8) [b] = 0 := hc
    have h58 : ((58 : UInt8) == 63) = false := by decide
    have h61 : ((61 : UInt8) == 63) = false := by decide
    have hbeq : (b == 63) = false := by simpa using hb
    rw [hc]
    split_ifs at h <;> cases h <;>
      simp only [Binder.countMarks, List.count_append, List.length_append, List.length_singleton,
        List.count_singleton, List.count_cons, List.count_nil, beq_self_eq_true, if_true, hcb,
        h58, h61, hbeq, Bool.false_eq_true, if_false]
        <;> omega

theorem compileAux_count (rest : GoString) :
    ∀ (pc : Bool) (i : Nat) (s : CompileState),
      (compileAux Binder.QUESTION pc i rest s).err = none →
      Binder.countMarks (compileAux Binder.QUESTION pc i rest s).query + s.names.length
        = Binder.countMarks s.rebound + Binder.countMarks rest
          + (compileAux Binder.QUESTION pc i rest s).names.length := by
  induction rest with
  | nil => intro pc i s _; simp [compileAux, Binder.countMarks]
  | cons b rest ih =>
    intro pc i s h
    rw [compileAux] at h ⊢
    cases hbody : compileBody Binder.QUESTION pc rest.isEmpty i b s with
    | ret r =>
      rw [hbody] at h
      exact absurd h (compileBody_ret_query _ _ _ _ _ _ _ hbody).2.2
    | next s1 =>
      rw [hbody] at h
      simp only [] at h ⊢
      have h1 := ih _ _ _ h
      have h2 := compileBody_next_count _ _ _ _ _ _ hbody
      have h3 : Binder.countMarks (b :: rest) = Binder.countMarks [b] + Binder.countMarks rest := by
        rw [← countMarks_append]; rfl
      omega

/-- The number of `?` in the query compiled for QUESTION: those of the
template plus one for each emitted name. -/
theorem compileNamedQuery_count (qs : GoString)
    (h : (compileNamedQuery qs Binder.QUESTION).err = none) :
    Binder.countMarks (compileNamedQuery qs Binder.QUESTION).query
      = Binder.countMarks qs + (compileNamedQuery qs Binder.QUESTION).names.length := by
  rw [compileNamedQuery_eq_aux] at h ⊢
  have := compileAux_count qs false 0 ⟨false, [], [], [], 1⟩ h
  simpa [Binder.countMarks] using this

theorem bindMapArgsLoop_ok {α : Type} (arg : GoString → Option α) (names : List GoString) :
    ∀ arglist : List α, (∀ n ∈ names, (arg n).isSome = true) →
      (bindMapArgsLoop arg names arglist).2 = none
      ∧ (bindMapArgsLoop arg names arglist).1.map some = arglist.map some ++ names.map arg := by
  induction names with
  | nil => intro arglist _; simp [bindMapArgsLoop]
  | cons n rest ih =>
    intro arglist h
    have hn := h n (by simp)
    obtain ⟨v, hv⟩ := Option.isSome_iff_exists.1 hn
    have hrest := ih (arglist ++ [v]) (fun x hx => h x (List.mem_cons_of_mem _ hx))
    simp only [bindMapArgsLoop, hv]
    refine ⟨hrest.1, ?_⟩
    rw [hrest.2]
    simp [hv]

theorem bindMapArgsLoop_err {α : Type} (arg : GoString → Option α) (names : List GoString) :
    ∀ (arglist : List α) (n : GoString),
      names.find? (fun x => (arg x).isNone) = some n →
      (bindMapArgsLoop arg names arglist).2 = some (BindError.notFound n) := by
  induction names with
  | nil => intro arglist n h; simp at h
  | cons x rest ih =>
    intro arglist n h
    cases hx : arg x with
    | none =>
      simp only [List.find?, hx, Option.isNone_none, Option.some.injEq] at h
      subst h
      simp [bindMapArgsLoop, hx]
    | some v =>
      simp only [List.find?, hx, Option.isNone_some] at h
      simp only [bindMapArgsLoop, hx]
      exact ih _ _ h

/-- C14: when `compileNamedQuery` succeeds on a template and the map has a key
for every emitted name, `bindMap(QUESTION, template, map)` succeeds, the
number of `?` in the returned query is the number of `?` in the template plus
the length of the returned argument list, and the argument list has one entry
per emitted name (the value of that name, in order). -/
theorem bindMap_marks {α : Type} (template : GoString) (m : GoString → Option α)
    (hok : (compileNamedQuery template Binder.QUESTION).err = none)
    (hkeys : ∀ n ∈ (compileNamedQuery template Binder.QUESTION).names, (m n).isSome = true) :
    (bindMap Binder.QUESTION template m).err = none
    ∧ Binder.countMarks (bindMap Binder.QUESTION template m).query
        = Binder.countMarks template + (bindMap Binder.QUESTION template m).args.length
    ∧ (bindMap Binder.QUESTION template m).args.length
        = (compileNamedQuery template Binder.QUESTION).names.length
    ∧ (bindMap Binder.QUESTION template m).args.map some
        = (compileNamedQuery template Binder.QUESTION).names.map m := by
  have hb := bindMapArgsLoop_ok m _ [] hkeys
  have hlen : (bindMapArgsLoop m (compileNamedQuery template Binder.QUESTION).names []).1.length
      = (compileNamedQuery template Binder.QUESTION).names.length := by
    have := congrArg List.length hb.2
    simpa using this
  have hcount := compileNamedQuery_count template hok
  simp only [bindMap, hok, bindMapArgs]
  refine ⟨hb.1, ?_, hlen, ?_⟩
  · rw [hcount, hlen]
  · simpa using hb.2

/-- Witness for C14: the template `"a = :a AND b = :b OR c = ?"`. -/
theorem bindMap_marks_witness :
    (bindMap Binder.QUESTION (bytesOf "a = :a AND b = :b OR c = ?")
        (fun k => if k = bytesOf "a" then some 1 else if k = bytesOf "b" then some 2
          else none)).err = none
    ∧ Binder.countMarks (bindMap Binder.QUESTION (bytesOf "a = :a AND b = :b OR c = ?")
        (fun k => if k = bytesOf "a" then some 1 else if k = bytesOf "b" then some 2
          else none)).query = 1 + 2 := by
  have h := bindMap_marks (bytesOf "a = :a AND b = :b OR c = ?")
    (fun k => if k = bytesOf "a" then some (1 : Nat) else if k = bytesOf "b" then some 2 else none)
    (by decide) (by decide)
  refine ⟨h.1, ?_⟩
  rw [h.2.1, h.2.2.1]
  decide

/-- C15: `bindMapArgs` succeeds exactly when every name is a key of the map;
on success the result has one value per name, the i-th being the map's value
for the i-th name; on failure the error names the first name, in list order,
that is missing from the map. -/
theorem bindMapArgs_spec {α : Type} (names : List GoString) (m : GoString → Option α) :
    ((bindMapArgs names m).2 = none ↔ ∀ n ∈ names, (m n).isSome = true)
    ∧ ((bindMapArgs names m).2 = none →
        (bindMapArgs names m).1.length = names.length
        ∧ (bindMapArgs names m).1.map some = names.map m)
    ∧ (∀ n, names.find? (fun x => (m x).isNone) = some n →
        (bindMapArgs names m).2 = some (BindError.notFound n)) := by
  have hiff : (bindMapArgs names m).2 = none ↔ ∀ n ∈ names, (m n).isSome = true := by
    constructor
    · intro h
      by_contra hcon
      cases hf : names.find? (fun x => (m x).isNone) with
      | none =>
        apply hcon
        intro n hn
        have := List.find?_eq_none.1 hf n hn
        simpa [Option.isSome_iff_ne_none, Option.isNone_iff_eq_none] using this
      | some n =>
        have := bindMapArgsLoop_err m names [] n hf
        simp only [bindMapArgs] at h
        rw [h] at this
        cases this
    · intro h
      exact (bindMapArgsLoop_ok m names [] h).1
  refine ⟨hiff, ?_, ?_⟩
  · intro h
    have hb := bindMapArgsLoop_ok m names [] (hiff.1 h)
    refine ⟨?_, by simpa [bindMapArgs] using hb.2⟩
    have := congrArg List.length hb.2
    simpa [bindMapArgs] using this
  · intro n hn
    exact bindMapArgsLoop_err m names [] n hn

/-- Witness for C15: the names `a, b, a` against a map with the only key `a`. -/
theorem bindMapArgs_spec_witness :
    (bindMapArgs [bytesOf "a", bytesOf "b", bytesOf "a"]
      (fun k => if k = bytesOf "a" then some (1 : Nat) else none)).2
      = some (BindError.notFound (bytesOf "b")) :=
  (bindMapArgs_spec [bytesOf "a", bytesOf "b", bytesOf "a"]
    (fun k => if k = bytesOf "a" then some (1 : Nat) else none)).2.2 (bytesOf "b") (by decide)

theorem dropWhile_space_append (ws r : GoString) (hws : allSpace ws)
    (hr : ∀ c t, r = c :: t → isSpace c = false) :
    (ws ++ r).dropWhile isSpace = r := by
  induction ws with
  | nil =>
    cases r with
    | nil => rfl
    | cons c t => simp [List.dropWhile, hr c t rfl]
  | cons b ws ih =>
    have hb : isSpace b = true := hws b (by simp)
    simp only [List.cons_append, List.dropWhile, hb]
    exact ih (fun x hx => hws x (List.mem_cons_of_mem _ hx))

set_option maxRecDepth 100000 in
theorem add32_ne_table : ∀ v : Fin 256, (⟨⟨v⟩⟩ : UInt8) + 32 ≠ ⟨⟨v⟩⟩ := by
  decide

theorem matchLetter_form (u : UInt8) (f r : GoString) (hf : f ∈ foldForms u) :
    matchLetter u (f ++ r) = some r := by
  unfold matchLetter
  by_cases hu : u = 83
  · subst hu
    have h83 : foldForms 83 = [[83], [115], [197, 191]] := by decide
    rw [h83] at hf ⊢
    simp only [List.mem_cons, List.mem_singleton, List.not_mem_nil, or_false] at hf
    rcases hf with rfl | rfl | rfl <;> simp [List.findSome?, List.isPrefixOf]
  · have hforms : foldForms u = [[u], [u + 32]] := by simp [foldForms, hu]
    rw [hforms] at hf ⊢
    simp only [List.mem_cons, List.mem_singleton, List.not_mem_nil, or_false] at hf
    rcases hf with rfl | rfl
    · simp [List.findSome?, List.isPrefixOf]
    · have hne : ¬ (u = u + 32) := fun h => add32_ne_table u.toBitVec.toFin h.symm
      simp [List.findSome?, List.isPrefixOf, hne]

theorem mem_letterCases_iff (u : UInt8) (f : GoString) :
    f ∈ letterCases u ↔ f ∈ foldForms u := by
  by_cases hu : u = 83
  · subst hu
    have h1 : letterCases 83 = [[83], [115], [197, 191]] := by decide
    have h2 : foldForms 83 = [[83], [115], [197, 191]] := by decide
    rw [h1, h2]
  · have h1 : letterCases u = [[u], [u + 32]] := by simp [letterCases, hu]
    have h2 : foldForms u = [[u], [u + 32]] := by simp [foldForms, hu]
    rw [h1, h2]

theorem valuesWord_eq : valuesWord = bytesOf "VALUES" := by decide

theorem ValuesWord_iff (V : GoString) : ValuesWord V ↔ FoldWord valuesWord V := by
  unfold ValuesWord
  rw [valuesWord_eq]

theorem matchWord_fold (w : List UInt8) :
    ∀ (V r : GoString), FoldWord w V → matchWord w (V ++ r) = some r := by
  induction w with
  | nil => intro V r h; simp only [FoldWord] at h; subst h; rfl
  | cons u w ih =>
    intro V r h
    obtain ⟨f, V1, hf, rfl, hV1⟩ := h
    rw [matchWord, List.append_assoc,
      matchLetter_form u f (V1 ++ r) ((mem_letterCases_iff u f).1 hf)]
    exact ih V1 r hV1

theorem matchLetter_sound (u : UInt8) (s r : GoString) (h : matchLetter u s = some r) :
    ∃ f, f ∈ foldForms u ∧ s = f ++ r := by
  unfold matchLetter at h
  obtain ⟨f, hf, hfr⟩ := List.exists_of_findSome?_eq_some h
  by_cases hp : f.isPrefixOf s = true
  · simp only [hp, if_true, Option.some.injEq] at hfr
    refine ⟨f, hf, ?_⟩
    obtain ⟨t, ht⟩ := List.isPrefixOf_iff_prefix.1 hp
    rw [← hfr, ← ht]
    simp
  · simp [hp] at hfr

theorem matchWord_sound (w : List UInt8) :
    ∀ (s r : GoString), matchWord w s = some r → ∃ V, FoldWord w V ∧ s = V ++ r := by
  induction w with
  | nil =>
    intro s r h
    simp only [matchWord, Option.some.injEq] at h
    exact ⟨[], rfl, by simp [h]⟩
  | cons u w ih =>
    intro s r h
    rw [matchWord] at h
    cases hl : matchLetter u s with
    | none => simp [hl] at h
    | some r1 =>
      simp only [hl] at h
      obtain ⟨f, hf, hs⟩ := matchLetter_sound u s r1 hl
      obtain ⟨V1, hV1, hr1⟩ := ih r1 r h
      exact ⟨f ++ V1, ⟨f, V1, (mem_letterCases_iff u f).2 hf, rfl, hV1⟩,
        by rw [hs, hr1, List.append_assoc]⟩

theorem ValuesWord_head (V : GoString) (h : ValuesWord V) :
    ∃ c t, V = c :: t ∧ isSpace c = false ∧ c ≠ 41 := by
  obtain ⟨f, V1, hf, rfl, _⟩ := (ValuesWord_iff V).1 h
  have h86 : letterCases 86 = [[86], [118]] := by decide
  rw [h86] at hf
  simp only [List.mem_cons, List.mem_singleton, List.not_mem_nil, or_false] at hf
  rcases hf with rfl | rfl
  · exact ⟨86, V1, rfl, by decide, by decide⟩
  · exact ⟨118, V1, rfl, by decide, by decide⟩

/-- An occurrence of the pattern at the start of `s` is matched, up to the `(`. -/
theorem matchValuesAt_complete (ws1 V ws2 rest : GoString)
    (h1 : allSpace ws1) (hV : ValuesWord V) (h2 : allSpace ws2) :
    matchValuesAt (41 :: (ws1 ++ (V ++ (ws2 ++ 40 :: rest))))
      = some (1 + ws1.length + V.length + ws2.length + 1) := by
  obtain ⟨c, t, hVc, hc, _⟩ := ValuesWord_head V hV
  have hd1 : (ws1 ++ (V ++ (ws2 ++ 40 :: rest))).dropWhile isSpace
      = V ++ (ws2 ++ 40 :: rest) := by
    apply dropWhile_space_append _ _ h1
    intro c1 t1 heq
    rw [hVc] at heq
    simp only [List.cons_append, List.cons.injEq] at heq
    rw [← heq.1]; exact hc
  have hd2 : (ws2 ++ 40 :: rest).dropWhile isSpace = 40 :: rest := by
    apply dropWhile_space_append _ _ h2
    intro c1 t1 heq
    simp only [List.cons.injEq] at heq
    rw [← heq.1]; decide
  simp only [matchValuesAt, hd1, matchWord_fold valuesWord V _ ((ValuesWord_iff V).1 hV), hd2]
  simp only [List.length_cons, List.length_append, Option.some.injEq]
  omega

/-- A match of `valuesReg` at the start of `s` is an occurrence of the pattern. -/
theorem matchValuesAt_sound (s : GoString) (e : Nat) (h : matchValuesAt s = some e) :
    ∃ ws1 V ws2 rest, s = 41 :: (ws1 ++ (V ++ (ws2 ++ 40 :: rest)))
      ∧ allSpace ws1 ∧ ValuesWord V ∧ allSpace ws2 := by
  unfold matchValuesAt at h
  split at h
  · rename_i r0
    cases hw : matchWord valuesWord (r0.dropWhile isSpace) with
    | none => simp [hw] at h
    | some r2 =>
      simp only [hw] at h
      split at h
      · rename_i r4 hr4
        obtain ⟨V, hV, hs⟩ := matchWord_sound valuesWord _ _ hw
        replace hV := (ValuesWord_iff V).2 hV
        refine ⟨r0.takeWhile isSpace, V, r2.takeWhile isSpace, r4, ?_, ?_, hV, ?_⟩
        · have e1 : r0 = r0.takeWhile isSpace ++ r0.dropWhile isSpace :=
            (List.takeWhile_append_dropWhile isSpace r0).symm
          have e2 : r2 = r2.takeWhile isSpace ++ r2.dropWhile isSpace :=
            (List.takeWhile_append_dropWhile isSpace r2).symm
          rw [hr4] at e2
          rw [hs] at e1
          rw [← e2, ← e1]
        · intro b hb
          exact (List.mem_takeWhile_imp hb)
        · intro b hb
          exact (List.mem_takeWhile_imp hb)
      · cases h
  · cases h

theorem findValuesFrom_skip (pre : GoString) :
    ∀ (pos : Nat) (s : GoString),
      (∀ k, k < pre.length → matchValuesAt ((pre ++ s).drop k) = none) →
      findValuesFrom pos (pre ++ s) = findValuesFrom (pos + pre.length) s := by
  induction pre with
  | nil => intro pos s _; simp
  | cons c pre ih =>
    intro pos s h
    have h0 := h 0 (by simp)
    simp only [List.drop_zero] at h0
    rw [List.cons_append] at h0 ⊢
    rw [findValuesFrom, h0]
    simp only []
    rw [ih (pos + 1) s (fun k hk => by
      have := h (k + 1) (by simp; omega)
      simpa using this)]
    simp [Nat.add_assoc, Nat.add_comm 1]

theorem findValuesFrom_hit (pos : Nat) (s : GoString) (e : Nat)
    (h : matchValuesAt s = some e) :
    findValuesFrom pos s = some (pos, pos + e) := by
  cases s with
  | nil => simp [matchValuesAt] at h
  | cons c rest => simp [findValuesFrom, h]

theorem matchValuesAt_none_of_not_pattern (bound : GoString) (k : Nat)
    (h : ¬ PatternAt bound k) : matchValuesAt (bound.drop k) = none := by
  cases hm : matchValuesAt (bound.drop k) with
  | none => rfl
  | some e =>
    obtain ⟨ws1, V, ws2, rest, hs, h1, hV, h2⟩ := matchValuesAt_sound _ _ hm
    exact absurd ⟨ws1, V, ws2, rest, hs, h1, hV, h2⟩ h

/-- What `FindStringIndex` returns at the leftmost occurrence of the pattern. -/
theorem FindStringIndex_leftmost (pre ws1 V ws2 rest : GoString)
    (h1 : allSpace ws1) (hV : ValuesWord V) (h2 : allSpace ws2)
    (hleft : ∀ k, k < pre.length →
      ¬ PatternAt (pre ++ 41 :: (ws1 ++ (V ++ (ws2 ++ 40 :: rest)))) k) :
    FindStringIndex (pre ++ 41 :: (ws1 ++ (V ++ (ws2 ++ 40 :: rest))))
      = some (pre.length, pre.length + (1 + ws1.length + V.length + ws2.length + 1)) := by
  unfold FindStringIndex
  rw [findValuesFrom_skip pre 0 _
    (fun k hk => matchValuesAt_none_of_not_pattern _ k (hleft k hk))]
  rw [findValuesFrom_hit _ _ _ (matchValuesAt_complete ws1 V ws2 rest h1 hV h2)]
  simp

theorem FindStringIndex_none (bound : GoString)
    (h : ∀ k, ¬ PatternAt bound k) : FindStringIndex bound = none := by
  unfold FindStringIndex
  have := findValuesFrom_skip bound 0 []
    (fun k _ => by
      rw [List.append_nil]
      exact matchValuesAt_none_of_not_pattern _ k (h k))
  rw [List.append_nil] at this
  rw [this]
  rfl

theorem depth_cons (c : UInt8) (s : GoString) :
    depth (c :: s) = (if c = 40 then 1 else 0) - (if c = 41 then 1 else 0) + depth s := by
  unfold depth
  by_cases h40 : c = 40
  · subst h40
    have : ((40 : UInt8) == 41) = false := by decide
    simp [List.count_cons, this]
    omega
  · by_cases h41 : c = 41
    · subst h41
      have : ((41 : UInt8) == 40) = false := by decide
      simp [List.count_cons, this]
      omega
    · have e1 : (c == 40) = false := by simpa using h40
      have e2 : (c == 41) = false := by simpa using h41
      simp [List.count_cons, e1, e2, h40, h41]

theorem findMatchingLoop_balanced (body : GoString) :
    ∀ (count : Int) (i : Nat) (suf : GoString),
      (∀ k, k ≤ body.length → 1 ≤ count + depth (body.take k)) →
      count + depth body = 1 →
      findMatchingLoop count i (body ++ 41 :: suf) = i + body.length := by
  induction body with
  | nil =>
    intro count i suf _ h
    have hc : count = 1 := by simpa [depth] using h
    subst hc
    have : ((41 : UInt8) = 40) = False := by decide
    simp [findMatchingLoop, this]
  | cons c body ih =>
    intro count i suf hpos hend
    have h1 := hpos 1 (by simp)
    simp only [List.take_succ_cons, List.take_zero] at h1
    rw [depth_cons] at h1 hend
    have hd0 : depth ([] : GoString) = 0 := rfl
    rw [hd0] at h1
    have hrest : ∀ cnt : Int, cnt = count + ((if c = 40 then 1 else 0) - (if c = 41 then 1 else 0)) →
        findMatchingLoop cnt (i + 1) (body ++ 41 :: suf) = i + 1 + body.length := by
      intro cnt hcnt
      apply ih
      · intro k hk
        have := hpos (k + 1) (by simp; omega)
        simp only [List.take_succ_cons] at this
        rw [depth_cons] at this
        omega
      · omega
    rw [List.cons_append, findMatchingLoop]
    by_cases h40 : c = 40
    · subst h40
      have : ((40 : UInt8) = 41) = False := by decide
      simp only [if_true, this, if_false]
      rw [hrest (count + 1) (by simp)]
      simp; omega
    · by_cases h41 : c = 41
      · subst h41
        have e40 : ((41 : UInt8) = 40) = False := by decide
        simp only [e40, if_false, if_true] at h1 ⊢
        have hne : ¬ (count - 1 = 0) := by omega
        simp only [hne, if_false]
        rw [hrest (count - 1) (by simp [e40]; omega)]
        simp; omega
      · simp only [h40, h41, if_false]
        rw [hrest count (by simp [h40, h41])]
        simp; omega

theorem findMatchingLoop_unbalanced (s : GoString) :
    ∀ (count : Int) (i : Nat),
      (∀ k, 0 < k → k ≤ s.length → count + depth (s.take k) ≠ 0) →
      findMatchingLoop count i s = 0 := by
  induction s with
  | nil => intro _ _ _; rfl
  | cons c s ih =>
    intro count i h
    have h1 := h 1 (by simp) (by simp)
    simp only [List.take_succ_cons, List.take_zero] at h1
    rw [depth_cons] at h1
    have hd0 : depth ([] : GoString) = 0 := rfl
    rw [hd0] at h1
    have hrest : ∀ cnt : Int, cnt = count + ((if c = 40 then 1 else 0) - (if c = 41 then 1 else 0)) →
        findMatchingLoop cnt (i + 1) s = 0 := by
      intro cnt hcnt
      apply ih
      intro k hk hkl
      have := h (k + 1) (by omega) (by simp; omega)
      simp only [List.take_succ_cons] at this
      rw [depth_cons] at this
      omega
    rw [findMatchingLoop]
    by_cases h40 : c = 40
    · subst h40
      have : ((40 : UInt8) = 41) = False := by decide
      simp only [if_true, this, if_false]
      exact hrest (count + 1) (by simp)
    · by_cases h41 : c = 41
      · subst h41
        have e40 : ((41 : UInt8) = 40) = False := by decide
        simp only [e40, if_false, if_true] at h1 ⊢
        have hne : ¬ (count - 1 = 0) := by omega
        simp only [hne, if_false]
        exact hrest (count - 1) (by simp [e40]; omega)
      · simp only [h40, h41, if_false]
        exact hrest count (by simp [h40, h41])

theorem findMatching_group (G suf : GoString) (hG : BalancedGroup G) :
    findMatchingClosingBracketIndex (G ++ suf) = G.length - 1 := by
  obtain ⟨body, rfl, hd, hpos⟩ := hG
  unfold findMatchingClosingBracketIndex
  have hform : (40 :: (body ++ [41])) ++ suf = 40 :: (body ++ 41 :: suf) := by simp
  rw [hform, findMatchingLoop]
  have : ((40 : UInt8) = 41) = False := by decide
  simp only [if_true, this, if_false]
  rw [findMatchingLoop_balanced body (0 + 1) 1 suf
    (fun k hk => by have := hpos k hk; omega) (by omega)]
  simp; omega

/-- The result of `fixBound` when the leftmost occurrence of the pattern is
followed by a balanced group. -/
theorem fixBound_group (pre ws1 V ws2 G suf : GoString) (loop : Int)
    (h1 : allSpace ws1) (hV : ValuesWord V) (h2 : allSpace ws2) (hG : BalancedGroup G)
    (hleft : ∀ k, k < pre.length →
      ¬ PatternAt (pre ++ 41 :: (ws1 ++ (V ++ (ws2 ++ (G ++ suf))))) k) :
    fixBound (pre ++ 41 :: (ws1 ++ (V ++ (ws2 ++ (G ++ suf))))) loop
      = pre ++ 41 :: (ws1 ++ (V ++ (ws2 ++ (G
          ++ ((List.replicate (loop - 1).toNat (44 :: G)).flatten ++ suf))))) := by
  obtain ⟨body, hGeq, hd, hpos⟩ := hG
  have hG2 : BalancedGroup G := ⟨body, hGeq, hd, hpos⟩
  have hGs : G ++ suf = 40 :: (body ++ [41] ++ suf) := by rw [hGeq]; simp
  have hGlen : G.length = body.length + 2 := by rw [hGeq]; simp
  have hfind := FindStringIndex_leftmost pre ws1 V ws2 (body ++ [41] ++ suf) h1 hV h2
    (by rw [← hGs]; exact hleft)
  rw [← hGs] at hfind
  have hP : pre ++ 41 :: (ws1 ++ (V ++ (ws2 ++ (G ++ suf))))
      = (pre ++ 41 :: (ws1 ++ (V ++ ws2))) ++ (G ++ suf) := by simp
  have hPlen : (pre ++ 41 :: (ws1 ++ (V ++ ws2))).length
      = pre.length + (1 + ws1.length + V.length + ws2.length + 1) - 1 := by
    simp only [List.length_append, List.length_cons]; omega
  have hidx := findMatching_group G suf hG2
  unfold fixBound
  rw [hfind]
  simp only []
  rw [← hPlen, hP, List.drop_left, hidx]
  have hne : ¬ (G.length - 1 = 0) := by omega
  simp only [hne, if_false]
  have hclose : (pre ++ 41 :: (ws1 ++ (V ++ ws2))).length + (G.length - 1) + 1
      = ((pre ++ 41 :: (ws1 ++ (V ++ ws2))) ++ G).length := by
    simp only [List.length_append, List.length_cons]; omega
  have hP2 : (pre ++ 41 :: (ws1 ++ (V ++ ws2))) ++ (G ++ suf)
      = ((pre ++ 41 :: (ws1 ++ (V ++ ws2))) ++ G) ++ suf := by simp
  rw [hclose, hP2, List.take_left, List.drop_left, List.drop_left]
  simp

/-- No occurrence of the pattern starts inside a text without `)`. -/
theorem PatternAt_needs_close (pre rest : GoString) (hno : (41 : UInt8) ∉ pre) :
    ∀ k, k < pre.length → ¬ PatternAt (pre ++ rest) k := by
  intro k hk hpat
  obtain ⟨ws1, V, ws2, r, hs, _, _, _⟩ := hpat
  rw [List.drop_append_of_le_length (Nat.le_of_lt hk)] at hs
  cases hdk : pre.drop k with
  | nil =>
    have := congrArg List.length hdk
    simp only [List.length_drop, List.length_nil] at this
    omega
  | cons c t =>
    rw [hdk] at hs
    simp only [List.cons_append, List.cons.injEq] at hs
    have hmem : (41 : UInt8) ∈ pre.drop k := by rw [hdk, hs.1]; simp
    exact hno (List.mem_of_mem_drop hmem)

/-- C16: for n >= 1 and a bound query `pre ++ ")" ++ ws1 ++ V ++ ws2 ++ G ++ suf`
that is the leftmost occurrence of the pattern, with `V` the word VALUES in
any letter case, `ws1`, `ws2` white space and `G` a parenthesized group closed
by the `)` that balances its opening `(`, `fixBound(bound, n)` is
`pre ++ ")" ++ ws1 ++ V ++ ws2 ++ G ++ ("," ++ G repeated n-1 times) ++ suf`. -/
theorem fixBound_repeats_group (pre ws1 V ws2 G suf : GoString) (n : Nat)
    (hn : 1 ≤ n)
    (h1 : allSpace ws1) (hV : ValuesWord V) (h2 : allSpace ws2) (hG : BalancedGroup G)
    (hleft : ∀ k, k < pre.length →
      ¬ PatternAt (pre ++ bytesOf ")" ++ ws1 ++ V ++ ws2 ++ G ++ suf) k) :
    fixBound (pre ++ bytesOf ")" ++ ws1 ++ V ++ ws2 ++ G ++ suf) (n : Int)
      = pre ++ bytesOf ")" ++ ws1 ++ V ++ ws2 ++ G
          ++ (List.replicate (n - 1) (bytesOf "," ++ G)).flatten ++ suf := by
  have hc : bytesOf ")" = [41] := by decide
  have hcomma : bytesOf "," = [44] := by decide
  have hform : pre ++ [41] ++ ws1 ++ V ++ ws2 ++ G ++ suf
      = pre ++ 41 :: (ws1 ++ (V ++ (ws2 ++ (G ++ suf)))) := by simp
  have hcount : ((n : Int) - 1).toNat = n - 1 := by omega
  rw [hc, hform] at hleft
  rw [hc, hcomma, hform, fixBound_group pre ws1 V ws2 G suf n h1 hV h2 hG hleft, hcount]
  simp

/-- Witness for C16: `"INSERT INTO t (a,b) VALUES (?,?)"` with n = 3, and a
query with the keyword in mixed case, a line break before the group and text
after it, with n = 2. -/
theorem fixBound_repeats_group_witness :
    fixBound (bytesOf "INSERT INTO t (a,b) VALUES (?,?)") 3
        = bytesOf "INSERT INTO t (a,b) VALUES (?,?),(?,?),(?,?)"
    ∧ fixBound (bytesOf "insert into t (a,b) vAlUeS\n  (?,?) returning id") 2
        = bytesOf "insert into t (a,b) vAlUeS\n  (?,?),(?,?) returning id" := by
  have h := fixBound_repeats_group (bytesOf "INSERT INTO t (a,b") (bytesOf " ")
    (bytesOf "VALUES") (bytesOf " ") (bytesOf "(?,?)") [] 3 (by decide)
    (by unfold allSpace; decide)
    ((ValuesWord_iff _).2
      ⟨[86], _, by decide, rfl, [65], _, by decide, rfl, [76], _, by decide, rfl,
        [85], _, by decide, rfl, [69], _, by decide, rfl, [83], _, by decide, rfl, rfl⟩)
    (by unfold allSpace; decide)
    ⟨bytesOf "?,?", by decide, by decide, by decide⟩
    (by
      have := PatternAt_needs_close (bytesOf "INSERT INTO t (a,b")
        (bytesOf ")" ++ bytesOf " " ++ bytesOf "VALUES" ++ bytesOf " " ++ bytesOf "(?,?)" ++ [])
        (by decide)
      simpa only [List.append_assoc] using this)
  have h' := fixBound_repeats_group (bytesOf "insert into t (a,b") (bytesOf " ")
    (bytesOf "vAlUeS") (bytesOf "\n  ") (bytesOf "(?,?)") (bytesOf " returning id") 2 (by decide)
    (by unfold allSpace; decide)
    ((ValuesWord_iff _).2
      ⟨[118], _, by decide, rfl, [65], _, by decide, rfl, [108], _, by decide, rfl,
        [85], _, by decide, rfl, [101], _, by decide, rfl, [83], _, by decide, rfl, rfl⟩)
    (by unfold allSpace; decide)
    ⟨bytesOf "?,?", by decide, by decide, by decide⟩
    (by
      have := PatternAt_needs_close (bytesOf "insert into t (a,b")
        (bytesOf ")" ++ bytesOf " " ++ bytesOf "vAlUeS" ++ bytesOf "\n  " ++ bytesOf "(?,?)"
          ++ bytesOf " returning id")
        (by decide)
      simpa only [List.append_assoc] using this)
  have e1 : bytesOf "INSERT INTO t (a,b" ++ bytesOf ")" ++ bytesOf " " ++ bytesOf "VALUES"
      ++ bytesOf " " ++ bytesOf "(?,?)" ++ [] = bytesOf "INSERT INTO t (a,b) VALUES (?,?)" := by
    decide
  have e2 : bytesOf "insert into t (a,b" ++ bytesOf ")" ++ bytesOf " " ++ bytesOf "vAlUeS"
      ++ bytesOf "\n  " ++ bytesOf "(?,?)" ++ bytesOf " returning id"
      = bytesOf "insert into t (a,b) vAlUeS\n  (?,?) returning id" := by
    decide
  rw [e1, show ((3 : Nat) : Int) = 3 from rfl] at h
  rw [e2, show ((2 : Nat) : Int) = 2 from rfl] at h'
  rw [h, h']
  exact ⟨by decide, by decide⟩

theorem intercalate_replicate_succ (G : GoString) (k : Nat) :
    List.intercalate [44] (List.replicate (k + 1) G)
      = G ++ (List.replicate k (44 :: G)).flatten := by
  induction k with
  | zero => simp [List.intercalate, List.intersperse]
  | succ j ih =>
    have h : List.intercalate [44] (List.replicate (j + 2) G)
        = G ++ ([44] ++ List.intercalate [44] (List.replicate (j + 1) G)) := by
      simp [List.replicate_succ, List.intercalate, List.intersperse]
    rw [h, ih, List.replicate_succ, List.flatten_cons]
    simp

theorem no_earlier_pattern (pre ws1 t : GoString)
    (hfirst : ∀ x W y, pre ++ 41 :: (ws1 ++ t) = x ++ (W ++ y) → ValuesWord W →
      pre.length + 1 + ws1.length ≤ x.length) :
    ∀ k, k < pre.length → ¬ PatternAt (pre ++ 41 :: (ws1 ++ t)) k := by
  intro k hk hpat
  obtain ⟨w1, W, w2, r, hs, hw1, hW, _⟩ := hpat
  have hb : pre ++ 41 :: (ws1 ++ t)
      = (pre ++ 41 :: (ws1 ++ t)).take k ++ (pre ++ 41 :: (ws1 ++ t)).drop k :=
    (List.take_append_drop k _).symm
  have htk : ((pre ++ 41 :: (ws1 ++ t)).take k).length = k := by
    rw [List.length_take]
    simp only [List.length_append, List.length_cons]
    omega
  have hx := hfirst ((pre ++ 41 :: (ws1 ++ t)).take k ++ 41 :: w1) W (w2 ++ 40 :: r)
    (by
      conv_lhs => rw [hb, hs]
      simp) hW
  rw [List.length_append, htk, List.length_cons] at hx
  have e1 : ((pre ++ 41 :: (ws1 ++ t)).drop k)[pre.length - k]? = some 41 := by
    rw [List.getElem?_drop]
    have : k + (pre.length - k) = pre.length := by omega
    rw [this, List.getElem?_append_right (Nat.le_refl _)]
    simp
  rw [hs] at e1
  obtain ⟨j, hj⟩ : ∃ j, pre.length - k = j + 1 := ⟨pre.length - k - 1, by omega⟩
  rw [hj, List.getElem?_cons_succ] at e1
  have hjlt : j < w1.length := by omega
  rw [List.getElem?_append_left hjlt, List.getElem?_eq_getElem hjlt] at e1
  have hmem : (41 : UInt8) ∈ w1 := by
    have := List.getElem_mem hjlt
    rw [Option.some.inj e1] at this
    exact this
  have := hw1 41 hmem
  revert this
  decide

/-- C19 (counterexample): `"INSERT INTO t VALUES (?,?)"` has no `)` before the
keyword, and `fixBound` with n = 3 returns it unchanged. -/
theorem fixBound_no_column_list :
    fixBound (bytesOf "INSERT INTO t VALUES (?,?)") 3 = bytesOf "INSERT INTO t VALUES (?,?)"
    ∧ fixBound (bytesOf "INSERT INTO t VALUES (?,?)") 3
        ≠ bytesOf "INSERT INTO t VALUES (?,?),(?,?),(?,?)" := by
  decide

/-- C19 (amended): when the first VALUES keyword (any letter case) of the bound
query comes after a `)` and optional white space, and is followed after
optional white space by a balanced parenthesized group, `fixBound(bound, n)`
with n > 1 puts that group n times, separated by commas, whatever precedes
the `)`. -/
theorem fixBound_first_keyword (pre ws1 V ws2 G suf : GoString) (n : Nat)
    (hn : 1 < n)
    (h1 : allSpace ws1) (hV : ValuesWord V) (h2 : allSpace ws2) (hG : BalancedGroup G)
    (hfirst : ∀ x W y, pre ++ bytesOf ")" ++ ws1 ++ V ++ ws2 ++ G ++ suf = x ++ W ++ y →
      ValuesWord W → (pre ++ bytesOf ")" ++ ws1).length ≤ x.length) :
    fixBound (pre ++ bytesOf ")" ++ ws1 ++ V ++ ws2 ++ G ++ suf) (n : Int)
      = pre ++ bytesOf ")" ++ ws1 ++ V ++ ws2
          ++ List.intercalate (bytesOf ",") (List.replicate n G) ++ suf := by
  have hc : bytesOf ")" = [41] := by decide
  have hcomma : bytesOf "," = [44] := by decide
  have hform : pre ++ [41] ++ ws1 ++ V ++ ws2 ++ G ++ suf
      = pre ++ 41 :: (ws1 ++ (V ++ (ws2 ++ (G ++ suf)))) := by simp
  have hcount : ((n : Int) - 1).toNat = n - 1 := by omega
  obtain ⟨m, rfl⟩ : ∃ m, n = m + 1 := ⟨n - 1, by omega⟩
  rw [hc, hform] at hfirst
  have hleft := no_earlier_pattern pre ws1 (V ++ (ws2 ++ (G ++ suf)))
    (fun x W y hxy hW => by
      have := hfirst x W y (by rw [hxy]; simp) hW
      simp only [List.length_append, List.length_cons, List.length_nil] at this ⊢
      omega)
  rw [hc, hcomma, hform, fixBound_group pre ws1 V ws2 G suf _ h1 hV h2 hG hleft, hcount,
    intercalate_replicate_succ]
  simp

/-- Witness for C19 (amended): `"INSERT INTO t (a) values (?)"` with n = 2. -/
theorem fixBound_first_keyword_witness :
    fixBound (bytesOf "INSERT INTO t (a) values (?)") 2
      = bytesOf "INSERT INTO t (a) values (?),(?)" := by
  have h := fixBound_first_keyword (bytesOf "INSERT INTO t (a") (bytesOf " ")
    (bytesOf "values") (bytesOf " ") (bytesOf "(?)") [] 2 (by decide)
    (by unfold allSpace; decide)
    ((ValuesWord_iff _).2
      ⟨[118], _, by decide, rfl, [97], _, by decide, rfl, [108], _, by decide, rfl,
        [117], _, by decide, rfl, [101], _, by decide, rfl, [115], _, by decide, rfl, rfl⟩)
    (by unfold allSpace; decide)
    ⟨bytesOf "?", by decide, by decide, by decide⟩
    (by
      intro x W y hxy hW
      by_contra hlt
      obtain ⟨c, t, hWc, _, _⟩ := ValuesWord_head W hW
      obtain ⟨f, W1, hf, hWf, _⟩ := (ValuesWord_iff W).1 hW
      have h86 : letterCases 86 = [[86], [118]] := by decide
      rw [h86] at hf
      have hlen : x.length < 18 := by
        have : (bytesOf "INSERT INTO t (a" ++ bytesOf ")" ++ bytesOf " ").length = 18 := by decide
        omega
      have hget : (bytesOf "INSERT INTO t (a" ++ bytesOf ")" ++ bytesOf " " ++ bytesOf "values"
          ++ bytesOf " " ++ bytesOf "(?)" ++ [])[x.length]? = W[0]? := by
        rw [hxy, List.append_assoc, List.getElem?_append_right (Nat.le_refl _)]
        rw [hWc]
        simp
      have hW0 : W[0]? = some 86 ∨ W[0]? = some 118 := by
        simp only [List.mem_cons, List.mem_singleton, List.not_mem_nil, or_false] at hf
        rcases hf with rfl | rfl
        · left; rw [hWf]; simp
        · right; rw [hWf]; simp
      rw [← hget] at hW0
      have key : ∀ i, i < 18 →
          (bytesOf "INSERT INTO t (a" ++ bytesOf ")" ++ bytesOf " " ++ bytesOf "values"
            ++ bytesOf " " ++ bytesOf "(?)" ++ [])[i]? ≠ some 86
          ∧ (bytesOf "INSERT INTO t (a" ++ bytesOf ")" ++ bytesOf " " ++ bytesOf "values"
            ++ bytesOf " " ++ bytesOf "(?)" ++ [])[i]? ≠ some 118 := by
        decide
      rcases hW0 with h0 | h0
      · exact (key _ hlen).1 h0
      · exact (key _ hlen).2 h0)
  have e1 : bytesOf "INSERT INTO t (a" ++ bytesOf ")" ++ bytesOf " " ++ bytesOf "values"
      ++ bytesOf " " ++ bytesOf "(?)" ++ [] = bytesOf "INSERT INTO t (a) values (?)" := by
    decide
  rw [e1, show ((2 : Nat) : Int) = 2 from rfl] at h
  rw [h]
  decide

/-- C20: `fixBound` returns the bound query unchanged (it has no error result)
when the query has no occurrence of VALUES followed, after optional white
space, by `(`, and also when the `(` of the leftmost occurrence of the
pattern has no balancing `)`. -/
theorem fixBound_unchanged (bound : GoString) (n : Int) :
    ((¬ ∃ x V ws y, bound = x ++ (V ++ (ws ++ 40 :: y)) ∧ ValuesWord V ∧ allSpace ws) →
      fixBound bound n = bound)
    ∧ (∀ pre ws1 V ws2 rest,
        bound = pre ++ 41 :: (ws1 ++ (V ++ (ws2 ++ 40 :: rest))) →
        allSpace ws1 → ValuesWord V → allSpace ws2 →
        (∀ k, k < pre.length → ¬ PatternAt bound k) →
        (∀ k, 0 < k → k ≤ (40 :: rest).length → depth ((40 :: rest).take k) ≠ 0) →
        fixBound bound n = bound) := by
  constructor
  · intro hno
    have hnone : FindStringIndex bound = none := by
      apply FindStringIndex_none
      intro k hpat
      obtain ⟨w1, W, w2, r, hs, _, hW, hw2⟩ := hpat
      apply hno
      refine ⟨bound.take k ++ 41 :: w1, W, w2, r, ?_, hW, hw2⟩
      conv_lhs => rw [← List.take_append_drop k bound, hs]
      simp
    simp [fixBound, hnone]
  · intro pre ws1 V ws2 rest hb h1 hV h2 hleft hun
    subst hb
    have hfind := FindStringIndex_leftmost pre ws1 V ws2 rest h1 hV h2 hleft
    have hP : pre ++ 41 :: (ws1 ++ (V ++ (ws2 ++ 40 :: rest)))
        = (pre ++ 41 :: (ws1 ++ (V ++ ws2))) ++ (40 :: rest) := by simp
    have hPlen : (pre ++ 41 :: (ws1 ++ (V ++ ws2))).length
        = pre.length + (1 + ws1.length + V.length + ws2.length + 1) - 1 := by
      simp only [List.length_append, List.length_cons]; omega
    have hidx : findMatchingClosingBracketIndex (40 :: rest) = 0 := by
      apply findMatchingLoop_unbalanced
      intro k hk hkl
      have := hun k hk hkl
      omega
    unfold fixBound
    rw [hfind]
    simp only []
    rw [← hPlen, hP, List.drop_left, hidx]
    simp

/-- Witness for C20: a query without the keyword, and one whose `(` after
VALUES is never closed. -/
theorem fixBound_unchanged_witness :
    fixBound (bytesOf "SELECT ?") 3 = bytesOf "SELECT ?"
    ∧ fixBound (bytesOf "INSERT INTO t (a) VALUES ((?)") 3
        = bytesOf "INSERT INTO t (a) VALUES ((?)" := by
  refine ⟨(fixBound_unchanged (bytesOf "SELECT ?") 3).1 ?_, ?_⟩
  · rintro ⟨x, V, ws, y, hb, hV, _⟩
    obtain ⟨c, t, hVc, _, _⟩ := ValuesWord_head V hV
    obtain ⟨f, V1, hf, hVf, _⟩ := (ValuesWord_iff V).1 hV
    have h86 : letterCases 86 = [[86], [118]] := by decide
    rw [h86] at hf
    have hmem : c ∈ bytesOf "SELECT ?" := by
      rw [hb, hVc]; simp
    have hc : c = 86 ∨ c = 118 := by
      simp only [List.mem_cons, List.mem_singleton, List.not_mem_nil, or_false] at hf
      rw [hVc] at hVf
      rcases hf with rfl | rfl
      · left; simp only [List.cons_append, List.cons.injEq] at hVf; exact hVf.1
      · right; simp only [List.cons_append, List.cons.injEq] at hVf; exact hVf.1
    rcases hc with rfl | rfl
    · revert hmem; decide
    · revert hmem; decide
  · decide

theorem bindArgsLoop_eq {α : Type} (field : GoString → Option α) (names : List GoString) :
    ∀ arglist : List α, bindArgsLoop field names arglist = bindMapArgsLoop field names arglist := by
  induction names with
  | nil => intro arglist; rfl
  | cons n rest ih =>
    intro arglist
    simp only [bindArgsLoop, bindMapArgsLoop]
    cases field n with
    | none => rfl
    | some v => exact ih _

theorem bindAnyArgs_eq {α : Type} (names : List GoString) (src : Source α) :
    bindAnyArgs names src = bindMapArgsLoop src.resolve names [] := by
  cases src with
  | map m => rfl
  | record field => exact bindArgsLoop_eq field names []

theorem bindMapArgsLoop_length {α : Type} (arg : GoString → Option α) (names : List GoString) :
    ∀ arglist : List α, (bindMapArgsLoop arg names arglist).2 = none →
      (bindMapArgsLoop arg names arglist).1.length = arglist.length + names.length := by
  induction names with
  | nil => intro arglist _; simp [bindMapArgsLoop]
  | cons n rest ih =>
    intro arglist h
    cases hn : arg n with
    | none => simp [bindMapArgsLoop, hn] at h
    | some v =>
      simp only [bindMapArgsLoop, hn] at h ⊢
      rw [ih _ h]
      simp; omega

theorem bindArrayLoop_ok {α : Type} (names : List GoString) (elems : List (Source α)) :
    ∀ arglist : List α,
      (∀ e ∈ elems, ∀ n ∈ names, (e.resolve n).isSome = true) →
      ∃ out, bindArrayLoop names elems arglist = .ok out
        ∧ out.map some = arglist.map some ++ elems.flatMap (fun e => names.map e.resolve) := by
  induction elems with
  | nil => intro arglist _; exact ⟨arglist, rfl, by simp⟩
  | cons e rest ih =>
    intro arglist h
    have he := bindMapArgsLoop_ok e.resolve names [] (h e (by simp))
    obtain ⟨out, hout, hmap⟩ := ih (arglist ++ (bindMapArgsLoop e.resolve names []).1)
      (fun x hx => h x (List.mem_cons_of_mem _ hx))
    refine ⟨out, ?_, ?_⟩
    · rw [bindArrayLoop, bindAnyArgs_eq]
      have hpair : bindMapArgsLoop e.resolve names []
          = ((bindMapArgsLoop e.resolve names []).1, none) := by
        rw [← he.1]
      rw [hpair]
      exact hout
    · rw [hmap, List.map_append, he.2]
      simp

theorem bindArrayLoop_length {α : Type} (names : List GoString) (elems : List (Source α)) :
    ∀ (arglist out : List α), bindArrayLoop names elems arglist = .ok out →
      out.length = arglist.length + elems.length * names.length := by
  induction elems with
  | nil =>
    intro arglist out h
    simp only [bindArrayLoop, Except.ok.injEq] at h
    subst h
    simp
  | cons e rest ih =>
    intro arglist out h
    rw [bindArrayLoop, bindAnyArgs_eq] at h
    cases herr : (bindMapArgsLoop e.resolve names []).2 with
    | some err =>
      have hpair : bindMapArgsLoop e.resolve names []
          = ((bindMapArgsLoop e.resolve names []).1, some err) := by
        rw [← herr]
      rw [hpair] at h
      cases h
    | none =>
      have hpair : bindMapArgsLoop e.resolve names []
          = ((bindMapArgsLoop e.resolve names []).1, none) := by
        rw [← herr]
      rw [hpair] at h
      have hl := bindMapArgsLoop_length e.resolve names [] herr
      have := ih _ _ h
      rw [this, List.length_append, hl]
      simp only [List.length_nil, List.length_cons, Nat.add_mul]
      omega

theorem RebindLoop_total (bindType : Int) (fuel : Nat) :
    ∀ (rqb : GoString) (j : Nat) (query : GoString), query.length < fuel →
      ∃ r, Binder.RebindLoop bindType fuel rqb j query = some r := by
  induction fuel with
  | zero => intro _ _ _ h; omega
  | succ f ih =>
    intro rqb j query hlen
    rw [Binder.RebindLoop]
    cases hi : IndexByte query 63 with
    | none => exact ⟨_, rfl⟩
    | some i =>
      obtain ⟨_, hq⟩ := IndexByte_some hi
      have hlen2 : (query.drop (i + 1)).length < f := by
        have h1 : (query.drop (i + 1)).length ≤ query.length - 1 := by
          rw [List.length_drop]; omega
        have h2 : 0 < query.length := by
          rw [hq]; simp
        omega
      exact ih _ _ _ hlen2

theorem Rebind_total (bindType : Int) (query : GoString) :
    ∃ r, Binder.Rebind bindType query = some r := by
  unfold Binder.Rebind
  split
  · exact ⟨_, rfl⟩
  · exact RebindLoop_total bindType _ _ _ _ (Nat.lt_succ_self _)

theorem flatMap_block_getElem? {β γ : Type} (f : β → List γ) (k : Nat) (l : List β) :
    ∀ (i j : Nat), (∀ e ∈ l, (f e).length = k) → j < k →
      (l.flatMap f)[i * k + j]? = (l[i]?).bind (fun e => (f e)[j]?) := by
  induction l with
  | nil => intro i j _ _; simp
  | cons e rest ih =>
    intro i j h hj
    have hk : (f e).length = k := h e (by simp)
    rw [List.flatMap_cons]
    cases i with
    | zero =>
      simp only [Nat.zero_mul, Nat.zero_add, List.getElem?_cons_zero, Option.some_bind]
      rw [List.getElem?_append_left (by omega)]
    | succ i =>
      have hidx : (i + 1) * k + j = (f e).length + (i * k + j) := by
        rw [hk, Nat.add_mul]; omega
      rw [hidx, List.getElem?_append_right (by omega)]
      simp only [Nat.add_sub_cancel_left, List.getElem?_cons_succ]
      exact ih i j (fun x hx => h x (List.mem_cons_of_mem _ hx)) hj

/-- C17: when `compileNamedQuery` succeeds on the template with k names and
each of the n >= 1 elements resolves every name, `bindArray` succeeds and
returns n*k arguments in record-major order: position i*k + j holds the value
of the j-th name taken from the i-th element. -/
theorem bindArray_record_major {α : Type} (bindType : Int) (template : GoString)
    (elems : List (Source α))
    (hok : (compileNamedQuery template Binder.QUESTION).err = none)
    (hn : 1 ≤ elems.length)
    (hres : ∀ e ∈ elems, ∀ n ∈ (compileNamedQuery template Binder.QUESTION).names,
      (e.resolve n).isSome = true) :
    ∃ r, bindArray bindType template elems = some r ∧ r.err = none
      ∧ r.args.length = elems.length * (compileNamedQuery template Binder.QUESTION).names.length
      ∧ r.args.map some
          = elems.flatMap (fun e => (compileNamedQuery template Binder.QUESTION).names.map e.resolve)
      ∧ ∀ (i j : Nat) (hi : i < elems.length)
          (hj : j < (compileNamedQuery template Binder.QUESTION).names.length),
          (r.args[i * (compileNamedQuery template Binder.QUESTION).names.length + j]?).map some
            = some (elems[i].resolve ((compileNamedQuery template Binder.QUESTION).names[j])) := by
  obtain ⟨out, hout, hmap⟩ := bindArrayLoop_ok _ elems [] hres
  have hlen := bindArrayLoop_length _ elems [] out hout
  simp only [List.length_nil, Nat.zero_add] at hlen
  simp only [List.map_nil, List.nil_append] at hmap
  have hne : ¬ (elems.length = 0) := by omega
  have hpos : ∀ (i j : Nat) (hi : i < elems.length)
      (hj : j < (compileNamedQuery template Binder.QUESTION).names.length),
      (out[i * (compileNamedQuery template Binder.QUESTION).names.length + j]?).map some
        = some (elems[i].resolve ((compileNamedQuery template Binder.QUESTION).names[j])) := by
    intro i j hi hj
    rw [← List.getElem?_map, hmap,
      flatMap_block_getElem? _ (compileNamedQuery template Binder.QUESTION).names.length
        elems i j (fun e _ => by simp) hj]
    rw [List.getElem?_eq_getElem hi]
    simp only [Option.some_bind, List.getElem?_map]
    rw [List.getElem?_eq_getElem hj]
    rfl
  by_cases hbt : bindType = Binder.QUESTION
  · refine ⟨⟨if elems.length > 1 then fixBound (compileNamedQuery template Binder.QUESTION).query
        elems.length else (compileNamedQuery template Binder.QUESTION).query, out, none⟩,
      ?_, rfl, hlen, hmap, hpos⟩
    simp only [bindArray, hok, hne, if_false, hout, hbt, ne_eq, not_true_eq_false]
  · obtain ⟨b, hb⟩ := Rebind_total bindType
      (if elems.length > 1 then fixBound (compileNamedQuery template Binder.QUESTION).query
        elems.length else (compileNamedQuery template Binder.QUESTION).query)
    refine ⟨⟨b, out, none⟩, ?_, rfl, hlen, hmap, hpos⟩
    simp only [bindArray, hok, hne, if_false, hout, ne_eq, hbt, not_false_eq_true, if_true, hb,
      Option.map_some']

/-- Witness for C17: two maps bound against `"INSERT INTO t (a,b) VALUES (:a,:b)"`. -/
theorem bindArray_record_major_witness :
    ∃ r, bindArray Binder.QUESTION (bytesOf "INSERT INTO t (a,b) VALUES (:a,:b)")
        [Source.map (fun k => if k = bytesOf "a" then some (1 : Nat)
            else if k = bytesOf "b" then some 2 else none),
          Source.map (fun k => if k = bytesOf "a" then some (3 : Nat)
            else if k = bytesOf "b" then some 4 else none)] = some r
      ∧ r.err = none ∧ r.args.length = 2 * 2 := by
  obtain ⟨r, h1, h2, h3, _⟩ := bindArray_record_major Binder.QUESTION
    (bytesOf "INSERT INTO t (a,b) VALUES (:a,:b)")
    [Source.map (fun k => if k = bytesOf "a" then some (1 : Nat)
        else if k = bytesOf "b" then some 2 else none),
      Source.map (fun k => if k = bytesOf "a" then some (3 : Nat)
        else if k = bytesOf "b" then some 4 else none)]
    (by decide) (by decide) (by decide)
  refine ⟨r, h1, h2, ?_⟩
  rw [h3]
  decide

theorem countMarks_eq_zero {s : GoString} (h : (63 : UInt8) ∉ s) : Binder.countMarks s = 0 := by
  simpa [Binder.countMarks, List.count_eq_zero] using h

theorem countMarks_replicate_flatten (x : GoString) (m : Nat) :
    Binder.countMarks (List.replicate m x).flatten = m * Binder.countMarks x := by
  induction m with
  | zero => simp [Binder.countMarks]
  | succ j ih =>
    rw [List.replicate_succ, List.flatten_cons, countMarks_append, ih, Nat.succ_mul]
    omega

theorem allSpace_no_mark {ws : GoString} (h : allSpace ws) : (63 : UInt8) ∉ ws := by
  intro hmem
  have := h 63 hmem
  revert this
  decide

theorem FoldWord_no_mark (w : List UInt8) :
    ∀ V : GoString, (∀ u ∈ w, ∀ f ∈ letterCases u, (63 : UInt8) ∉ f) → FoldWord w V →
      (63 : UInt8) ∉ V := by
  induction w with
  | nil => intro V _ h; simp only [FoldWord] at h; subst h; simp
  | cons u w ih =>
    intro V hw h
    obtain ⟨f, V1, hf, rfl, hV1⟩ := h
    intro hmem
    rcases List.mem_append.1 hmem with h1 | h1
    · exact hw u (by simp) f hf h1
    · exact ih V1 (fun x hx => hw x (List.mem_cons_of_mem _ hx)) hV1 h1

theorem ValuesWord_no_mark {V : GoString} (h : ValuesWord V) : (63 : UInt8) ∉ V :=
  FoldWord_no_mark valuesWord V (by decide) ((ValuesWord_iff V).1 h)

theorem bindArray_question_inv {α : Type} (template : GoString) (elems : List (Source α))
    (r : BindResult α)
    (hr : bindArray Binder.QUESTION template elems = some r) (hok : r.err = none) :
    (compileNamedQuery template Binder.QUESTION).err = none
    ∧ r.args.length = elems.length * (compileNamedQuery template Binder.QUESTION).names.length
    ∧ r.query = (if elems.length > 1
        then fixBound (compileNamedQuery template Binder.QUESTION).query elems.length
        else (compileNamedQuery template Binder.QUESTION).query)
    ∧ 1 ≤ elems.length := by
  unfold bindArray at hr
  cases hc : (compileNamedQuery template Binder.QUESTION).err with
  | some e =>
    simp only [hc, Option.some.injEq] at hr
    subst hr
    cases hok
  | none =>
    simp only [hc] at hr
    by_cases hz : elems.length = 0
    · simp only [hz, if_true, Option.some.injEq] at hr
      subst hr
      cases hok
    · simp only [hz, if_false] at hr
      cases hl : bindArrayLoop (compileNamedQuery template Binder.QUESTION).names elems [] with
      | error e =>
        simp only [hl, Option.some.injEq] at hr
        subst hr
        cases hok
      | ok out =>
        simp only [hl, ne_eq, not_true_eq_false, if_false, Option.some.injEq] at hr
        subst hr
        have hlen := bindArrayLoop_length _ elems [] out hl
        simp only [List.length_nil, Nat.zero_add] at hlen
        exact ⟨rfl, hlen, rfl, by omega⟩

/-- C18 (counterexample): binding two maps against `"SELECT :a"` succeeds with
the query `"SELECT ?"` (one placeholder) and two arguments. -/
theorem bindArray_marks_mismatch :
    bindArray Binder.QUESTION (bytesOf "SELECT :a")
        [Source.map (fun k => if k = bytesOf "a" then some (1 : Nat) else none),
          Source.map (fun k => if k = bytesOf "a" then some (3 : Nat) else none)]
      = some ⟨bytesOf "SELECT ?", [1, 3], none⟩
    ∧ Binder.countMarks (bytesOf "SELECT ?") ≠ [1, 3].length := by
  decide

/-- C18 (amended): for a successful `bindArray` call with the QUESTION style on
a template without `?`, the number of `?` in the returned query equals the
length of the argument list when the sequence has one element, and also when
the compiled query is `pre ++ ")" ++ ws1 ++ V ++ ws2 ++ G ++ suf` at the
leftmost occurrence of the pattern, `G` is a balanced group and neither `pre`
nor `suf` holds a placeholder. -/
theorem bindArray_marks {α : Type} (template : GoString) (elems : List (Source α))
    (r : BindResult α)
    (hr : bindArray Binder.QUESTION template elems = some r) (hok : r.err = none)
    (hq : Binder.countMarks template = 0)
    (hshape : elems.length = 1 ∨
      ∃ pre ws1 V ws2 G suf,
        (compileNamedQuery template Binder.QUESTION).query
            = pre ++ bytesOf ")" ++ ws1 ++ V ++ ws2 ++ G ++ suf
        ∧ allSpace ws1 ∧ ValuesWord V ∧ allSpace ws2 ∧ BalancedGroup G
        ∧ (∀ k, k < pre.length →
            ¬ PatternAt (pre ++ bytesOf ")" ++ ws1 ++ V ++ ws2 ++ G ++ suf) k)
        ∧ (63 : UInt8) ∉ pre ∧ (63 : UInt8) ∉ suf) :
    Binder.countMarks r.query = r.args.length := by
  obtain ⟨hc, hlen, hquery, hn⟩ := bindArray_question_inv template elems r hr hok
  have hcount := compileNamedQuery_count template hc
  rw [hq, Nat.zero_add] at hcount
  rw [hlen, hquery]
  by_cases hone : elems.length > 1
  · simp only [hone, if_true]
    rcases hshape with h1 | ⟨pre, ws1, V, ws2, G, suf, hb, hw1, hV, hw2, hG, hleft, hpre, hsuf⟩
    · omega
    · have hcl : bytesOf ")" = [41] := by decide
      have hform : pre ++ [41] ++ ws1 ++ V ++ ws2 ++ G ++ suf
          = pre ++ 41 :: (ws1 ++ (V ++ (ws2 ++ (G ++ suf)))) := by simp
      rw [hcl, hform] at hb hleft
      have h41 : Binder.countMarks [41] = 0 := by decide
      have hG0 : Binder.countMarks (44 :: G) = Binder.countMarks G := by
        have : (44 :: G) = [44] ++ G := rfl
        rw [this, countMarks_append]
        have : Binder.countMarks [44] = 0 := by decide
        omega
      have hk : Binder.countMarks G
          = (compileNamedQuery template Binder.QUESTION).names.length := by
        rw [← hcount, hb]
        have e : pre ++ 41 :: (ws1 ++ (V ++ (ws2 ++ (G ++ suf))))
            = pre ++ ([41] ++ (ws1 ++ (V ++ (ws2 ++ (G ++ suf))))) := rfl
        rw [e]
        simp only [countMarks_append, h41, countMarks_eq_zero hpre, countMarks_eq_zero hsuf,
          countMarks_eq_zero (allSpace_no_mark hw1), countMarks_eq_zero (allSpace_no_mark hw2),
          countMarks_eq_zero (ValuesWord_no_mark hV)]
        omega
      rw [hb, fixBound_group pre ws1 V ws2 G suf _ hw1 hV hw2 hG hleft]
      have e : pre ++ 41 :: (ws1 ++ (V ++ (ws2 ++ (G
            ++ ((List.replicate ((elems.length : Int) - 1).toNat (44 :: G)).flatten ++ suf)))))
          = pre ++ ([41] ++ (ws1 ++ (V ++ (ws2 ++ (G
            ++ ((List.replicate ((elems.length : Int) - 1).toNat (44 :: G)).flatten ++ suf)))))) :=
        rfl
      rw [e]
      simp only [countMarks_append, h41, countMarks_eq_zero hpre, countMarks_eq_zero hsuf,
        countMarks_eq_zero (allSpace_no_mark hw1), countMarks_eq_zero (allSpace_no_mark hw2),
        countMarks_eq_zero (ValuesWord_no_mark hV), countMarks_replicate_flatten, hG0, hk]
      have hto : ((elems.length : Int) - 1).toNat = elems.length - 1 := by omega
      rw [hto]
      obtain ⟨m, hm⟩ : ∃ m, elems.length = m + 1 := ⟨elems.length - 1, by omega⟩
      rw [hm, Nat.add_sub_cancel, Nat.succ_mul]
      omega
  · have h1 : elems.length = 1 := by omega
    simp only [hone, if_false, h1, Nat.one_mul]
    exact hcount

/-- Witness for C18 (amended): two maps bound against
`"INSERT INTO t (a,b) vaLues (:a,:b)"`, where the group is repeated, and one
map bound against `"SELECT :a, :b"`. -/
theorem bindArray_marks_witness :
    Binder.countMarks (bytesOf "INSERT INTO t (a,b) vaLues (?,?),(?,?)") = [1, 2, 3, 4].length
    ∧ Binder.countMarks (bytesOf "SELECT ?, ?") = [1, 2].length := by
  refine ⟨?_, ?_⟩
  · exact bindArray_marks (bytesOf "INSERT INTO t (a,b) vaLues (:a,:b)")
      [Source.map (fun k => if k = bytesOf "a" then some (1 : Nat)
          else if k = bytesOf "b" then some 2 else none),
        Source.map (fun k => if k = bytesOf "a" then some (3 : Nat)
          else if k = bytesOf "b" then some 4 else none)]
      ⟨bytesOf "INSERT INTO t (a,b) vaLues (?,?),(?,?)", [1, 2, 3, 4], none⟩
      (by decide) rfl (by decide)
      (Or.inr ⟨bytesOf "INSERT INTO t (a,b", bytesOf " ", bytesOf "vaLues", bytesOf " ",
        bytesOf "(?,?)", [], by decide, by unfold allSpace; decide,
        (ValuesWord_iff _).2
          ⟨[118], _, by decide, rfl, [97], _, by decide, rfl, [76], _, by decide, rfl,
            [117], _, by decide, rfl, [101], _, by decide, rfl, [115], _, by decide, rfl, rfl⟩,
        by unfold allSpace; decide,
        ⟨bytesOf "?,?", by decide, by decide, by decide⟩,
        (by
          have := PatternAt_needs_close (bytesOf "INSERT INTO t (a,b")
            (bytesOf ")" ++ bytesOf " " ++ bytesOf "vaLues" ++ bytesOf " " ++ bytesOf "(?,?)"
              ++ [])
            (by decide)
          simpa only [List.append_assoc] using this),
        by decide, by decide⟩)
  · exact bindArray_marks (bytesOf "SELECT :a, :b")
      [Source.map (fun k => if k = bytesOf "a" then some (1 : Nat)
        else if k = bytesOf "b" then some 2 else none)]
      ⟨bytesOf "SELECT ?, ?", [1, 2], none⟩ (by decide) rfl (by decide) (Or.inl rfl)

theorem Rebind_eq_replaceMarks {bindType : Int}
    (hb : bindType = Binder.DOLLAR ∨ bindType = Binder.NAMED ∨ bindType = Binder.AT)
    (q : GoString) :
    Binder.Rebind bindType q = some (Binder.replaceMarks bindType 1 q) := by
  have hne : ¬ (bindType = Binder.QUESTION ∨ bindType = Binder.UNKNOWN) := by
    rcases hb with rfl | rfl | rfl <;> decide
  simp only [Binder.Rebind, hne, if_false]
  simpa using Binder.RebindLoop_eq hb (q.length + 1) [] 0 q (Nat.lt_succ_self _)

theorem replaceMarks_append_gen (bindType : Int) (x : GoString) :
    ∀ (k : Nat) (y : GoString),
      Binder.replaceMarks bindType k (x ++ y)
        = Binder.replaceMarks bindType k x
          ++ Binder.replaceMarks bindType (k + Binder.countMarks x) y := by
  induction x with
  | nil => intro k y; simp [Binder.replaceMarks, Binder.countMarks]
  | cons b x ih =>
    intro k y
    by_cases hb : b = 63
    · subst hb
      have e1 : Binder.replaceMarks bindType k (63 :: (x ++ y))
          = Binder.dialectPlaceholder bindType k
            ++ Binder.replaceMarks bindType (k + 1) (x ++ y) := by
        simp [Binder.replaceMarks]
      have e2 : Binder.replaceMarks bindType k (63 :: x)
          = Binder.dialectPlaceholder bindType k ++ Binder.replaceMarks bindType (k + 1) x := by
        simp [Binder.replaceMarks]
      have e3 : k + 1 + Binder.countMarks x = k + Binder.countMarks (63 :: x) := by
        simp [Binder.countMarks]; omega
      rw [List.cons_append, e1, e2, ih, e3, List.append_assoc]
    · have hc : Binder.countMarks (b :: x) = Binder.countMarks x := by
        simp [Binder.countMarks, List.count_cons, hb]
      have e1 : Binder.replaceMarks bindType k (b :: (x ++ y))
          = b :: Binder.replaceMarks bindType k (x ++ y) := by
        simp [Binder.replaceMarks, hb]
      have e2 : Binder.replaceMarks bindType k (b :: x)
          = b :: Binder.replaceMarks bindType k x := by
        simp [Binder.replaceMarks, hb]
      rw [List.cons_append, e1, e2, ih, hc, List.cons_append]

/-- The state of a run of `compileNamedQuery` for DOLLAR or AT that goes with
a state of the run for QUESTION on the same input. -/
theorem toBind_body {bindType : Int}
    (hbt : bindType = Binder.DOLLAR ∨ bindType = Binder.AT)
    (pc isLast : Bool) (i : Nat) (b : UInt8) (hb : b ≠ 63) (s : CompileState) :
    compileBody bindType pc isLast i b
        { s with rebound := Binder.replaceMarks bindType 1 s.rebound,
                 currentVar := 1 + Binder.countMarks s.rebound }
      = match compileBody Binder.QUESTION pc isLast i b s with
        | .ret r => .ret r
        | .next s1 => .next { s1 with rebound := Binder.replaceMarks bindType 1 s1.rebound,
                                      currentVar := 1 + Binder.countMarks s1.rebound } := by
  have hq : emitBindvar Binder.QUESTION = fun _ cv => ([63], cv) := by
    funext n cv; rfl
  have he : ∀ n cv, emitBindvar bindType n cv
      = (Binder.dialectPlaceholder bindType cv, cv + 1) := by
    intro n cv
    rcases hbt with rfl | rfl <;> rfl
  have hone : ∀ x : GoString, Binder.replaceMarks bindType 1 (x ++ [b])
      = Binder.replaceMarks bindType 1 x ++ [b] := by
    intro x
    rw [replaceMarks_append_gen]
    simp [Binder.replaceMarks, hb]
  have hcnt : ∀ x : GoString, Binder.countMarks (x ++ [b]) = Binder.countMarks x := by
    intro x
    simp [Binder.countMarks, List.count_cons, hb]
  have hmark : ∀ x : GoString, Binder.replaceMarks bindType 1 (x ++ [63])
      = Binder.replaceMarks bindType 1 x
        ++ Binder.dialectPlaceholder bindType (1 + Binder.countMarks x) := by
    intro x
    rw [replaceMarks_append_gen]
    simp [Binder.replaceMarks]
  have hmcnt : ∀ x : GoString, Binder.countMarks (x ++ [63]) = Binder.countMarks x + 1 := by
    intro x
    simp [Binder.countMarks]
  unfold compileBody
  rw [hq]
  simp only [he]
  split_ifs <;>
    simp only [hone, hcnt, hmark, hmcnt, Nat.add_assoc, Nat.add_comm 1]
  all_goals first
    | rfl
    | (subst_vars
       simp [replaceMarks_append_gen, Binder.replaceMarks, Binder.countMarks, List.count_cons] )

theorem toBind_aux {bindType : Int}
    (hbt : bindType = Binder.DOLLAR ∨ bindType = Binder.AT) (rest : GoString) :
    ∀ (pc : Bool) (i : Nat) (s : CompileState), (63 : UInt8) ∉ rest →
      compileAux bindType pc i rest
          { s with rebound := Binder.replaceMarks bindType 1 s.rebound,
                   currentVar := 1 + Binder.countMarks s.rebound }
        = ⟨Binder.replaceMarks bindType 1 (compileAux Binder.QUESTION pc i rest s).query,
            (compileAux Binder.QUESTION pc i rest s).names,
            (compileAux Binder.QUESTION pc i rest s).err⟩ := by
  induction rest with
  | nil => intro pc i s _; simp [compileAux]
  | cons b rest ih =>
    intro pc i s h
    simp only [List.mem_cons, not_or] at h
    have hb : b ≠ 63 := Ne.symm h.1
    rw [compileAux, compileAux, toBind_body hbt pc rest.isEmpty i b hb s]
    cases hbody : compileBody Binder.QUESTION pc rest.isEmpty i b s with
    | ret r =>
      have := (compileBody_ret_query _ _ _ _ _ _ _ hbody).1
      cases r
      simp only [] at this
      subst this
      rfl
    | next s1 =>
      simp only []
      exact ih _ _ s1 h.2

/-- C21: for a template without `?` and the bind type DOLLAR or AT, compiling
with that bind type gives the same names and the same error as compiling
with QUESTION, and on success its query is what `Rebind` makes of the query
compiled with QUESTION. -/
theorem compileNamedQuery_rebind (q : GoString) (bindType : Int)
    (hq : (63 : UInt8) ∉ q)
    (hbt : bindType = Binder.DOLLAR ∨ bindType = Binder.AT) :
    (compileNamedQuery q bindType).names = (compileNamedQuery q Binder.QUESTION).names
    ∧ (compileNamedQuery q bindType).err = (compileNamedQuery q Binder.QUESTION).err
    ∧ ((compileNamedQuery q Binder.QUESTION).err = none →
        Binder.Rebind bindType (compileNamedQuery q Binder.QUESTION).query
          = some (compileNamedQuery q bindType).query) := by
  have h := toBind_aux hbt q false 0 ⟨false, [], [], [], 1⟩ hq
  have hinit : ({ (⟨false, [], [], [], 1⟩ : CompileState) with
      rebound := Binder.replaceMarks bindType 1 [],
      currentVar := 1 + Binder.countMarks [] } : CompileState) = ⟨false, [], [], [], 1⟩ := rfl
  rw [hinit] at h
  have hb3 : bindType = Binder.DOLLAR ∨ bindType = Binder.NAMED ∨ bindType = Binder.AT := by
    rcases hbt with h1 | h1
    · exact Or.inl h1
    · exact Or.inr (Or.inr h1)
  rw [compileNamedQuery_eq_aux, compileNamedQuery_eq_aux, h]
  refine ⟨rfl, rfl, fun _ => ?_⟩
  exact Rebind_eq_replaceMarks hb3 _

/-- Witness for C21: `"a = :a AND b = :b"` under DOLLAR. -/
theorem compileNamedQuery_rebind_witness :
    Binder.Rebind Binder.DOLLAR
        (compileNamedQuery (bytesOf "a = :a AND b = :b") Binder.QUESTION).query
      = some (compileNamedQuery (bytesOf "a = :a AND b = :b") Binder.DOLLAR).query :=
  (compileNamedQuery_rebind (bytesOf "a = :a AND b = :b") Binder.DOLLAR (by decide)
    (Or.inl rfl)).2.2 (by decide)

/-- C22: with the dialect table as a map from driver name to bind type,
`Type(name)` is UNKNOWN for a name never registered, `Type(name)` is `t` after
`Driver(name, t)`, and `Driver(name, t)` leaves `Type(other)` unchanged for
every other name. -/
theorem dialect_table_frame (binds : Binds) (name other : GoString) (t : Int) :
    (∀ n, bindTypeOf emptyBinds n = Binder.UNKNOWN)
    ∧ (binds name = none → bindTypeOf binds name = Binder.UNKNOWN)
    ∧ bindTypeOf (Driver binds name t) name = t
    ∧ (other ≠ name → bindTypeOf (Driver binds name t) other = bindTypeOf binds other) := by
  refine ⟨fun _ => rfl, ?_, ?_, ?_⟩
  · intro h; simp [bindTypeOf, h]
  · simp [bindTypeOf, Driver]
  · intro h; simp [bindTypeOf, Driver, h]

/-- Witness for C22: registering `"pgx"` leaves `"mysql"` as it was. -/
theorem dialect_table_frame_witness :
    bindTypeOf (Driver emptyBinds (bytesOf "pgx") Binder.DOLLAR) (bytesOf "mysql")
      = bindTypeOf emptyBinds (bytesOf "mysql") :=
  (dialect_table_frame emptyBinds (bytesOf "pgx") (bytesOf "mysql") Binder.DOLLAR).2.2.2
    (by decide)

theorem foldl_Driver_not_mem (pairs : List (GoString × Int)) :
    ∀ (binds : Binds) (d : GoString), d ∉ pairs.map Prod.fst →
      (pairs.foldl (fun b r => Driver b r.1 r.2) binds) d = binds d := by
  induction pairs with
  | nil => intro _ _ _; rfl
  | cons r rest ih =>
    intro binds d h
    simp only [List.map_cons, List.mem_cons, not_or] at h
    rw [List.foldl_cons, ih _ d h.2]
    simp [Driver, h.1]

theorem foldl_Driver_mem (pairs : List (GoString × Int)) :
    ∀ (binds : Binds) (d : GoString) (b : Int), (d, b) ∈ pairs →
      (pairs.map Prod.fst).Nodup →
      (pairs.foldl (fun t r => Driver t r.1 r.2) binds) d = some b := by
  induction pairs with
  | nil => intro _ _ _ h; simp at h
  | cons r rest ih =>
    intro binds d b hmem hnd
    simp only [List.map_cons, List.nodup_cons] at hnd
    rw [List.foldl_cons]
    rcases List.mem_cons.1 hmem with heq | hrest
    · subst heq
      rw [foldl_Driver_not_mem rest _ _ hnd.1]
      simp [Driver]
    · exact ih _ d b hrest hnd.2

theorem oldBindType_registered (d : GoString) (h : oldBindType d ≠ Binder.UNKNOWN) :
    (d, oldBindType d) ∈ registrations defaultBinds := by
  unfold oldBindType at h ⊢
  split_ifs at h ⊢ with h1 h2 h3 h4 h5
  · rcases h1 with rfl | rfl | rfl | rfl | rfl <;> decide
  · subst h2; decide
  · subst h3; decide
  · rcases h4 with rfl | rfl | rfl | rfl <;> decide
  · subst h5; decide
  · exact absurd rfl h

/-- C23: after `init`, in whatever order the map `defaultBinds` is iterated,
`Type(d)` equals `oldBindType(d)` for every driver name `d` that `oldBindType`
knows; the drivers postgres, pgx, mysql, sqlite3, ora and sqlserver are not
UNKNOWN. -/
theorem init_agrees_with_oldBindType (order : List (Int × List GoString))
    (horder : order.Perm defaultBinds) (d : GoString)
    (hd : oldBindType d ≠ Binder.UNKNOWN) :
    bindTypeOf (initBinds order) d = oldBindType d
    ∧ ∀ n ∈ [bytesOf "postgres", bytesOf "pgx", bytesOf "mysql", bytesOf "sqlite3",
        bytesOf "ora", bytesOf "sqlserver"], bindTypeOf (initBinds order) n ≠ Binder.UNKNOWN := by
  have hperm : (registrations order).Perm (registrations defaultBinds) :=
    List.Perm.flatMap_right _ horder
  have hnd : ((registrations order).map Prod.fst).Nodup := by
    have h0 : ((registrations defaultBinds).map Prod.fst).Nodup := by decide
    exact (List.Perm.nodup_iff (hperm.map Prod.fst)).2 h0
  have key : ∀ x, oldBindType x ≠ Binder.UNKNOWN →
      bindTypeOf (initBinds order) x = oldBindType x := by
    intro x hx
    have hmem : (x, oldBindType x) ∈ registrations order :=
      hperm.mem_iff.2 (oldBindType_registered x hx)
    simp only [bindTypeOf, initBinds, foldl_Driver_mem _ emptyBinds x _ hmem hnd]
  refine ⟨key d hd, ?_⟩
  intro n hn
  have hn2 : oldBindType n ≠ Binder.UNKNOWN := by
    simp only [List.mem_cons, List.mem_singleton, List.not_mem_nil, or_false] at hn
    rcases hn with rfl | rfl | rfl | rfl | rfl | rfl <;> decide
  rw [key n hn2]
  exact hn2

/-- Witness for C23: the driver `"ora"` with the entries in source order. -/
theorem init_agrees_with_oldBindType_witness :
    bindTypeOf (initBinds defaultBinds) (bytesOf "ora") = Binder.NAMED :=
  (init_agrees_with_oldBindType defaultBinds (List.Perm.refl _) (bytesOf "ora")
    (by decide)).1

/-! ## reflectx: lemmas and theorems -/

namespace Reflectx

theorem traversalLoop_follow {ν : Type} (children : ν → List (Option ν)) (index : List Nat) :
    ∀ tree : ν, traversalLoop children tree (index.map Int.ofNat) =
      Lookup.ofOption (follow children tree index) := by
  induction index with
  | nil => intro tree; rfl
  | cons i rest ih =>
    intro tree
    simp only [List.map_cons, traversalLoop, follow]
    by_cases hlen : (children tree).length ≤ i
    · have h1 : Int.ofNat i ≥ ((children tree).length : Int) := by
        simp only [Int.ofNat_eq_coe, ge_iff_le, Nat.cast_le]; exact hlen
      rw [if_pos h1, List.getElem?_eq_none hlen]
      rfl
    · have h1 : ¬ Int.ofNat i ≥ ((children tree).length : Int) := by
        simp only [Int.ofNat_eq_coe, ge_iff_le, Nat.cast_le]; exact hlen
      have h2 : ¬ Int.ofNat i < 0 := by simp
      rw [if_neg h1, if_neg h2, show (Int.ofNat i).toNat = i from rfl]
      cases hc : (children tree)[i]? with
      | none => rfl
      | some c =>
        cases c with
        | none => rfl
        | some child => exact ih child

/-- C27: for every StructMap and every list of non-negative indexes,
`GetByTraversal` returns nil for the empty list and when some step finds no
child (the index is at least the number of children, or the slot is nil), and
otherwise the node reached by following `Children[i]` from the root. -/
theorem GetByTraversal_follow (sm : StructMap) (index : List Nat) :
    sm.GetByTraversal (index.map Int.ofNat) =
      if index = [] then Lookup.absent
      else Lookup.ofOption (follow (fun p => (nodeAt sm.heap p).Children) sm.Tree index) := by
  unfold StructMap.GetByTraversal GetByTraversal
  cases index with
  | nil => rfl
  | cons i rest =>
    rw [if_neg (by simp), if_neg (by simp)]
    exact traversalLoop_follow _ (i :: rest) sm.Tree

/-- Witness for C27: the cases of `TestGetByTraversal` on `A`. -/
theorem GetByTraversal_follow_witness :
    (getMapping traversalTypes none 5 10).map
      (fun sm => (sm.GetByTraversal [1, 1, 1], sm.GetByTraversal [3, 4, 5],
        sm.GetByTraversal [], (nodeAt sm.heap 6).Name))
      = some (Lookup.node 6, Lookup.absent, Lookup.absent, bytesOf "C1")
    ∧ ∀ sm : StructMap, sm.GetByTraversal [] = Lookup.absent :=
  ⟨by decide, fun sm => GetByTraversal_follow sm []⟩

/-- C28: a negative first index is not caught by the guard
`i >= len(tree.Children)`, so `tree.Children[i]` is an out-of-range access on
every StructMap. -/
theorem GetByTraversal_negative_index (sm : StructMap) (rest : List Int) :
    sm.GetByTraversal (-1 :: rest) = Lookup.fault := by
  unfold StructMap.GetByTraversal GetByTraversal
  rw [if_neg (by simp)]
  simp only [traversalLoop]
  rw [if_neg (by omega), if_pos (by omega)]


theorem newField_spec {env : TypeEnv} {mapFunc : Option (GoString → GoString)} {tq : typeQueue}
    {pidx : List Int} {pos : Nat} {f : StructField} {addr : Nat} {node : FieldInfo}
    {entry : Option typeQueue}
    (h : newField env mapFunc tq pidx pos f addr = some (node, entry)) :
    node.Field = some f ∧ node.Name = (parserName mapFunc f).2 ∧ node.Name ≠ bytesOf "-" ∧
    node.Path = joinPath tq.pp node.Name ∧ node.Index = pidx ++ [(pos : Int)] ∧
    node.Parent = some tq.fi ∧ node.Embedded = f.Anonymous ∧
    (∀ x, entry = some x → x.fi = addr ∧ x.t = Deref env f.Typ ∧
      x.pp = if f.Anonymous = true then
          (if (parserName mapFunc f).1 ≠ [] then node.Path else tq.pp)
        else node.Path) := by
  unfold newField at h
  simp only [] at h
  by_cases h1 : (parserName mapFunc f).2 = bytesOf "-"
  · rw [if_pos h1] at h; exact absurd h (by simp)
  rw [if_neg h1] at h
  by_cases h2 : (decide (f.PkgPath.length ≠ 0) && !f.Anonymous) = true
  · rw [if_pos h2] at h; exact absurd h (by simp)
  rw [if_neg h2] at h
  by_cases h3 : f.Anonymous = true
  · rw [if_pos h3] at h
    simp only [Option.some.injEq, Prod.mk.injEq] at h
    obtain ⟨rfl, rfl⟩ := h
    refine ⟨rfl, rfl, h1, rfl, rfl, rfl, h3.symm, ?_⟩
    intro x hx
    simp only [Option.some.injEq] at hx
    subst hx
    refine ⟨rfl, rfl, ?_⟩
    simp only [h3, if_true]
  · rw [if_neg h3] at h
    have h3f : f.Anonymous = false := by simpa using h3
    by_cases h4 : isStructOrPointerToStruct env f.Typ = true
    · rw [if_pos h4] at h
      simp only [Option.some.injEq, Prod.mk.injEq] at h
      obtain ⟨rfl, rfl⟩ := h
      refine ⟨rfl, rfl, h1, rfl, rfl, rfl, h3f.symm, ?_⟩
      intro x hx
      simp only [Option.some.injEq] at hx
      subst hx
      refine ⟨rfl, rfl, ?_⟩
      simp only [h3f, Bool.false_eq_true, if_false]
    · rw [if_neg h4] at h
      simp only [Option.some.injEq, Prod.mk.injEq] at h
      obtain ⟨rfl, rfl⟩ := h
      refine ⟨rfl, rfl, h1, rfl, rfl, rfl, h3f.symm, ?_⟩
      intro x hx
      exact absurd hx (by simp)

theorem fieldLoop_eq (env : TypeEnv) (mapFunc : Option (GoString → GoString)) (tq : typeQueue)
    (pidx : List Int) (base : Nat) (fields : List StructField) :
    ∀ (pos : Nat) (e : Expansion),
      fieldLoop env mapFunc tq pidx base pos fields e =
        ⟨e.nodes ++ (expansionFrom env mapFunc tq pidx (base + e.nodes.length) pos fields).nodes,
         e.children ++
           (expansionFrom env mapFunc tq pidx (base + e.nodes.length) pos fields).children,
         e.queue ++ (expansionFrom env mapFunc tq pidx (base + e.nodes.length) pos fields).queue,
         e.m ++ (expansionFrom env mapFunc tq pidx (base + e.nodes.length) pos fields).m⟩ := by
  induction fields with
  | nil =>
    intro pos e
    simp only [fieldLoop, expansionFrom, List.append_nil]
  | cons f rest ih =>
    intro pos e
    simp only [fieldLoop, expansionFrom]
    cases hnf : newField env mapFunc tq pidx pos f (base + e.nodes.length) with
    | none =>
      simp only []
      rw [ih]
      simp only [List.append_assoc, List.singleton_append]
    | some r =>
      obtain ⟨fi, entry⟩ := r
      simp only []
      rw [ih]
      simp only [List.append_assoc, List.singleton_append, List.length_append,
        List.length_singleton, Nat.add_assoc]

theorem fieldLoop_empty (env : TypeEnv) (mapFunc : Option (GoString → GoString)) (tq : typeQueue)
    (pidx : List Int) (base : Nat) (fields : List StructField) :
    fieldLoop env mapFunc tq pidx base 0 fields ⟨[], [], [], []⟩ =
      expansionFrom env mapFunc tq pidx base 0 fields := by
  rw [fieldLoop_eq]
  simp only [List.nil_append, List.length_nil, Nat.add_zero]

theorem expansionFrom_children_length (env : TypeEnv) (mapFunc : Option (GoString → GoString))
    (tq : typeQueue) (pidx : List Int) (fields : List StructField) :
    ∀ addr pos, (expansionFrom env mapFunc tq pidx addr pos fields).children.length
      = fields.length := by
  induction fields with
  | nil => intro addr pos; rfl
  | cons f rest ih =>
    intro addr pos
    simp only [expansionFrom]
    cases hnf : newField env mapFunc tq pidx pos f addr with
    | none => simp only [List.length_cons, ih]
    | some r => obtain ⟨fi, entry⟩ := r; simp only [List.length_cons, ih]

theorem expansionFrom_m (env : TypeEnv) (mapFunc : Option (GoString → GoString))
    (tq : typeQueue) (pidx : List Int) (fields : List StructField) :
    ∀ addr pos, (expansionFrom env mapFunc tq pidx addr pos fields).m
      = List.range' addr (expansionFrom env mapFunc tq pidx addr pos fields).nodes.length := by
  induction fields with
  | nil => intro addr pos; rfl
  | cons f rest ih =>
    intro addr pos
    simp only [expansionFrom]
    cases hnf : newField env mapFunc tq pidx pos f addr with
    | none => simp only [ih]
    | some r =>
      obtain ⟨fi, entry⟩ := r
      simp only [List.length_cons, List.range'_succ, ih]

theorem expansionFrom_nodes_length (env : TypeEnv) (mapFunc : Option (GoString → GoString))
    (tq : typeQueue) (pidx : List Int) (fields : List StructField) :
    ∀ addr pos, (expansionFrom env mapFunc tq pidx addr pos fields).queue.length
        ≤ (expansionFrom env mapFunc tq pidx addr pos fields).nodes.length
      ∧ (expansionFrom env mapFunc tq pidx addr pos fields).nodes.length ≤ fields.length := by
  induction fields with
  | nil => intro addr pos; exact ⟨Nat.le_refl _, Nat.le_refl _⟩
  | cons f rest ih =>
    intro addr pos
    simp only [expansionFrom]
    cases hnf : newField env mapFunc tq pidx pos f addr with
    | none =>
      have := ih addr (pos + 1)
      simp only [List.length_cons]
      omega
    | some r =>
      obtain ⟨fi, entry⟩ := r
      have := ih (addr + 1) (pos + 1)
      have hle : entry.toList.length ≤ 1 := by cases entry <;> simp
      simp only [List.length_cons, List.length_append]
      omega

theorem expansionFrom_node (env : TypeEnv) (mapFunc : Option (GoString → GoString))
    (tq : typeQueue) (pidx : List Int) (fields : List StructField) :
    ∀ addr pos k node,
      (expansionFrom env mapFunc tq pidx addr pos fields).nodes[k]? = some node →
      ∃ j f entry, fields[j]? = some f
        ∧ newField env mapFunc tq pidx (pos + j) f (addr + k) = some (node, entry)
        ∧ (expansionFrom env mapFunc tq pidx addr pos fields).children[j]? = some (some (addr + k))
        ∧ ∀ x, entry = some x → x ∈ (expansionFrom env mapFunc tq pidx addr pos fields).queue := by
  induction fields with
  | nil =>
    intro addr pos k node h
    simp [expansionFrom] at h
  | cons f rest ih =>
    intro addr pos k node h
    simp only [expansionFrom] at h ⊢
    cases hnf : newField env mapFunc tq pidx pos f addr with
    | none =>
      rw [hnf] at h
      simp only [] at h ⊢
      obtain ⟨j, g, entry, hj, hn, hc, hq⟩ := ih addr (pos + 1) k node h
      refine ⟨j + 1, g, entry, by simpa using hj, ?_, by simpa using hc, hq⟩
      rw [← hn]; congr 1; omega
    | some r =>
      obtain ⟨fi, entry⟩ := r
      rw [hnf] at h
      simp only [] at h ⊢
      cases k with
      | zero =>
        simp only [List.getElem?_cons_zero, Option.some.injEq] at h
        subst h
        refine ⟨0, f, entry, List.getElem?_cons_zero, by simpa using hnf, by simp, ?_⟩
        intro x hx
        subst hx
        simp
      | succ k =>
        simp only [List.getElem?_cons_succ] at h
        obtain ⟨j, g, entry2, hj, hn, hc, hq⟩ := ih (addr + 1) (pos + 1) k node h
        refine ⟨j + 1, g, entry2, by simpa using hj, ?_, ?_, ?_⟩
        · rw [← hn]; congr 1 <;> omega
        · simp only [List.getElem?_cons_succ, hc]
          congr 2; omega
        · intro x hx
          exact List.mem_append_right _ (hq x hx)

theorem expansionFrom_queue (env : TypeEnv) (mapFunc : Option (GoString → GoString))
    (tq : typeQueue) (pidx : List Int) (fields : List StructField) :
    ∀ addr pos x, x ∈ (expansionFrom env mapFunc tq pidx addr pos fields).queue →
      ∃ k node j f, (expansionFrom env mapFunc tq pidx addr pos fields).nodes[k]? = some node
        ∧ fields[j]? = some f
        ∧ newField env mapFunc tq pidx (pos + j) f (addr + k) = some (node, some x) := by
  induction fields with
  | nil =>
    intro addr pos x h
    simp [expansionFrom] at h
  | cons f rest ih =>
    intro addr pos x h
    simp only [expansionFrom] at h ⊢
    cases hnf : newField env mapFunc tq pidx pos f addr with
    | none =>
      rw [hnf] at h
      simp only [] at h ⊢
      obtain ⟨k, node, j, g, hk, hj, hn⟩ := ih addr (pos + 1) x h
      refine ⟨k, node, j + 1, g, hk, by simpa using hj, ?_⟩
      rw [← hn]; congr 1; omega
    | some r =>
      obtain ⟨fi, entry⟩ := r
      rw [hnf] at h
      simp only [List.mem_append] at h ⊢
      rcases h with h | h
      · cases entry with
        | none => simp at h
        | some y =>
          simp only [Option.toList, List.mem_singleton] at h
          subst h
          exact ⟨0, fi, 0, f, List.getElem?_cons_zero, List.getElem?_cons_zero, by simpa using hnf⟩
      · obtain ⟨k, node, j, g, hk, hj, hn⟩ := ih (addr + 1) (pos + 1) x h
        refine ⟨k + 1, node, j + 1, g, by simpa using hk, by simpa using hj, ?_⟩
        rw [← hn]; congr 1 <;> omega

theorem expansionFrom_queue_fi (env : TypeEnv) (mapFunc : Option (GoString → GoString))
    (tq : typeQueue) (pidx : List Int) (fields : List StructField) (addr pos : Nat)
    (x : typeQueue) (h : x ∈ (expansionFrom env mapFunc tq pidx addr pos fields).queue) :
    addr ≤ x.fi
      ∧ x.fi < addr + (expansionFrom env mapFunc tq pidx addr pos fields).nodes.length := by
  obtain ⟨k, node, j, g, hk, _, hn⟩ := expansionFrom_queue env mapFunc tq pidx fields addr pos x h
  have hfi := ((newField_spec hn).2.2.2.2.2.2.2 x rfl).1
  have hlt : k < (expansionFrom env mapFunc tq pidx addr pos fields).nodes.length := by
    by_contra hcon
    rw [List.getElem?_eq_none (Nat.le_of_not_lt hcon)] at hk
    exact absurd hk (by simp)
  omega

theorem expansionFrom_sorted (env : TypeEnv) (mapFunc : Option (GoString → GoString))
    (tq : typeQueue) (pidx : List Int) (fields : List StructField) :
    ∀ addr pos, (expansionFrom env mapFunc tq pidx addr pos fields).queue.Pairwise
      (fun a b => a.fi < b.fi) := by
  induction fields with
  | nil => intro addr pos; exact List.Pairwise.nil
  | cons f rest ih =>
    intro addr pos
    simp only [expansionFrom]
    cases hnf : newField env mapFunc tq pidx pos f addr with
    | none => exact ih addr (pos + 1)
    | some r =>
      obtain ⟨fi, entry⟩ := r
      simp only []
      rw [List.pairwise_append]
      refine ⟨by cases entry <;> simp, ih (addr + 1) (pos + 1), ?_⟩
      intro a ha b hb
      have hb2 := (expansionFrom_queue_fi env mapFunc tq pidx rest (addr + 1) (pos + 1) b hb).1
      cases entry with
      | none => simp at ha
      | some y =>
        simp only [Option.toList, List.mem_singleton] at ha
        subst ha
        have := ((newField_spec hnf).2.2.2.2.2.2.2 a rfl).1
        omega


theorem nodeAt_grow_old (heap nodes : List FieldInfo) (i : Nat) (v : FieldInfo) (q : Nat)
    (hq : q < heap.length) :
    nodeAt (heap.set i v ++ nodes) q = if q = i then v else nodeAt heap q := by
  unfold nodeAt
  rw [List.getD_eq_getElem?_getD, List.getD_eq_getElem?_getD,
    List.getElem?_append_left (by rw [List.length_set]; exact hq), List.getElem?_set]
  by_cases h : i = q
  · subst h
    rw [if_pos rfl, if_pos rfl, if_pos hq]
    rfl
  · rw [if_neg h, if_neg (fun h2 => h h2.symm)]

theorem nodeAt_grow_new (heap nodes : List FieldInfo) (i : Nat) (v : FieldInfo) (k : Nat) :
    nodeAt (heap.set i v ++ nodes) (heap.length + k) = nodes.getD k zeroFieldInfo := by
  unfold nodeAt
  rw [List.getD_eq_getElem?_getD, List.getD_eq_getElem?_getD,
    List.getElem?_append_right (by rw [List.length_set]; omega), List.length_set]
  congr 2
  omega

/-- Two nodes that differ at most in `Children`. -/
theorem nodeAt_grow_frame (heap nodes : List FieldInfo) (i : Nat) (ch : List (Option Nat))
    (q : Nat) (hq : q < heap.length) :
    (nodeAt (heap.set i { nodeAt heap i with Children := ch } ++ nodes) q).Field
        = (nodeAt heap q).Field
      ∧ (nodeAt (heap.set i { nodeAt heap i with Children := ch } ++ nodes) q).Name
        = (nodeAt heap q).Name
      ∧ (nodeAt (heap.set i { nodeAt heap i with Children := ch } ++ nodes) q).Path
        = (nodeAt heap q).Path
      ∧ (nodeAt (heap.set i { nodeAt heap i with Children := ch } ++ nodes) q).Index
        = (nodeAt heap q).Index
      ∧ (nodeAt (heap.set i { nodeAt heap i with Children := ch } ++ nodes) q).Embedded
        = (nodeAt heap q).Embedded
      ∧ (nodeAt (heap.set i { nodeAt heap i with Children := ch } ++ nodes) q).Parent
        = (nodeAt heap q).Parent
      ∧ (q ≠ i → (nodeAt (heap.set i { nodeAt heap i with Children := ch } ++ nodes) q).Children
        = (nodeAt heap q).Children)
      ∧ (q = i → (nodeAt (heap.set i { nodeAt heap i with Children := ch } ++ nodes) q).Children
        = ch) := by
  rw [nodeAt_grow_old _ _ _ _ _ hq]
  by_cases h : q = i
  · subst h
    rw [if_pos rfl]
    exact ⟨rfl, rfl, rfl, rfl, rfl, rfl, fun h => absurd rfl h, fun _ => rfl⟩
  · rw [if_neg h]
    exact ⟨rfl, rfl, rfl, rfl, rfl, rfl, fun _ => rfl, fun h2 => absurd h2 h⟩

theorem structFields_typ {env : TypeEnv} {t : TypeId} {f : StructField}
    (h : f ∈ structFields env t) : f.Typ ∈ fieldTypes env := by
  unfold structFields TypeEnv.desc at h
  rw [List.getD_eq_getElem?_getD] at h
  cases hd : env[t]? with
  | none => rw [hd] at h; simp at h
  | some d =>
    rw [hd] at h
    simp only [Option.getD_some] at h
    cases d with
    | struct fields =>
      simp only [] at h
      unfold fieldTypes
      rw [List.mem_flatMap]
      exact ⟨TypeDesc.struct fields, List.getElem?_mem hd, List.mem_map.2 ⟨f, h, rfl⟩⟩
    | pointer e => simp at h
    | other => simp at h

theorem le_foldr_max (l : List Nat) (x : Nat) (h : x ∈ l) : x ≤ l.foldr max 0 := by
  induction l with
  | nil => simp at h
  | cons a rest ih =>
    simp only [List.foldr_cons]
    rcases List.mem_cons.1 h with h | h
    · subst h; exact Nat.le_max_left _ _
    · exact Nat.le_trans (ih h) (Nat.le_max_right _ _)

theorem structFields_length_le (env : TypeEnv) (t : TypeId) :
    (structFields env t).length ≤ maxFields env := by
  unfold structFields TypeEnv.desc
  rw [List.getD_eq_getElem?_getD]
  cases hd : env[t]? with
  | none => simp
  | some d =>
    simp only [Option.getD_some]
    cases d with
    | struct fields =>
      simp only []
      unfold maxFields
      apply le_foldr_max
      rw [List.mem_map]
      exact ⟨TypeDesc.struct fields, List.getElem?_mem hd, rfl⟩
    | pointer e => simp
    | other => simp

theorem nodup_length_le (env : TypeEnv) (l : List TypeId) (hn : l.Nodup)
    (hs : ∀ ty ∈ l, ty ∈ fieldTypes env) : l.length ≤ distinctFieldTypes env := by
  unfold distinctFieldTypes
  have hsub : l ⊆ (fieldTypes env).dedup := fun ty h => List.mem_dedup.2 (hs ty h)
  exact (List.Nodup.subperm hn hsub).length_le

theorem growth_pos (w k : Nat) : 0 < growth w k := by
  cases k <;> simp [growth]


theorem nodeType_congr (env : TypeEnv) (t : TypeId) {a b : FieldInfo} (h : a.Field = b.Field) :
    nodeType env t a = nodeType env t b := by
  unfold nodeType fieldType
  rw [h]

theorem chainTypes_congr {heap heap1 : List FieldInfo} {anc anc1 : Nat → List TypeId} {p : Nat}
    (hf : (nodeAt heap1 p).Field = (nodeAt heap p).Field) (ha : anc1 p = anc p) :
    chainTypes heap1 anc1 p = chainTypes heap anc p := by
  unfold chainTypes fieldType
  rw [hf, ha]

theorem Inv_init (env : TypeEnv) (mapFunc : Option (GoString → GoString)) (t : TypeId) :
    Inv env mapFunc t (fun _ => []) (fun _ => [])
      ⟨[zeroFieldInfo], [⟨Deref env t, 0, []⟩], []⟩ where
  rootField := rfl
  rootParent := rfl
  rootIndex := rfl
  nonempty := by simp
  rootPath := rfl
  rootAncestors := rfl
  nodes := by
    intro q h0 hq
    simp only [List.length_singleton] at hq
    omega
  index := rfl
  queueBound := by
    intro tq h
    simp only [List.mem_singleton] at h
    subst h
    simp
  queuePath := by
    intro tq h
    simp only [List.mem_singleton] at h
    subst h
    rfl
  queueType := by
    intro tq h
    simp only [List.mem_singleton] at h
    subst h
    rfl
  queueSorted := List.pairwise_singleton _ _
  queueParent := by
    intro q hq P hP
    simp only [List.length_singleton] at hq
    have : q = 0 := by omega
    subst this
    exact absurd hP (by simp [nodeAt, zeroFieldInfo])

theorem Inv_skip {env : TypeEnv} {mapFunc : Option (GoString → GoString)} {t : TypeId}
    {cp : Nat → GoString} {anc : Nat → List TypeId} {heap : List FieldInfo} {tq : typeQueue}
    {rest : List typeQueue} {m : List Nat}
    (h : Inv env mapFunc t cp anc ⟨heap, tq :: rest, m⟩) :
    Inv env mapFunc t cp anc ⟨heap, rest, m⟩ where
  rootField := h.rootField
  rootParent := h.rootParent
  rootIndex := h.rootIndex
  nonempty := h.nonempty
  rootPath := h.rootPath
  rootAncestors := h.rootAncestors
  nodes := h.nodes
  index := h.index
  queueBound := fun x hx => h.queueBound x (List.mem_cons_of_mem _ hx)
  queuePath := fun x hx => h.queuePath x (List.mem_cons_of_mem _ hx)
  queueType := fun x hx => h.queueType x (List.mem_cons_of_mem _ hx)
  queueSorted := (List.pairwise_cons.1 h.queueSorted).2
  queueParent := fun q hq P hP x hx => h.queueParent q hq P hP x (List.mem_cons_of_mem _ hx)

/-- The chain of a node: nothing for the root, the field type and the chain of
the parent for a field node. -/
theorem chainTypes_root {env : TypeEnv} {mapFunc : Option (GoString → GoString)} {t : TypeId}
    {cp : Nat → GoString} {anc : Nat → List TypeId} {st : MapState}
    (h : Inv env mapFunc t cp anc st) : chainTypes st.heap anc 0 = [] := by
  unfold chainTypes fieldType
  rw [h.rootField, h.rootAncestors]
  rfl

theorem chainTypes_node {env : TypeEnv} {mapFunc : Option (GoString → GoString)} {t : TypeId}
    {heap : List FieldInfo} {cp : Nat → GoString} {anc : Nat → List TypeId} {q : Nat}
    {f : StructField} {P pos : Nat} (h : NodeRel env mapFunc t heap cp anc q f P pos) :
    chainTypes heap anc q = f.Typ :: chainTypes heap anc P := by
  unfold chainTypes fieldType
  rw [h.field, h.ancestors]
  rfl

theorem recursiveField_eq {env : TypeEnv} {mapFunc : Option (GoString → GoString)} {t : TypeId}
    {cp : Nat → GoString} {anc : Nat → List TypeId} {st : MapState}
    (h : Inv env mapFunc t cp anc st) (ty : TypeId) :
    ∀ P, P < st.heap.length → ∀ fuel, P + 1 ≤ fuel →
      recursiveField st.heap (some ty) fuel (some P)
        = some (decide (ty ∈ chainTypes st.heap anc P)) := by
  intro P
  induction P using Nat.strong_induction_on with
  | _ P ih =>
    intro hP fuel hfuel
    obtain ⟨fuel, rfl⟩ : ∃ k, fuel = k + 1 := ⟨fuel - 1, by omega⟩
    rw [recursiveField]
    by_cases h0 : P = 0
    · subst h0
      rw [chainTypes_root h]
      simp only [fieldType, h.rootField, h.rootParent, Option.map_none']
      rw [if_neg (by simp)]
      cases fuel <;> simp [recursiveField]
    · obtain ⟨f, P2, pos, hrel⟩ := h.nodes P (Nat.pos_of_ne_zero h0) hP
      rw [chainTypes_node hrel, hrel.parent]
      simp only [fieldType, hrel.field, Option.map_some']
      by_cases hty : ty = f.Typ
      · subst hty
        rw [if_pos rfl]
        simp
      · rw [if_neg (by simpa using hty)]
        rw [ih P2 hrel.lt (Nat.lt_trans hrel.lt hP) fuel (by have := hrel.lt; omega)]
        simp [hty]

theorem recursiveField_check {env : TypeEnv} {mapFunc : Option (GoString → GoString)}
    {t : TypeId} {cp : Nat → GoString} {anc : Nat → List TypeId} {heap : List FieldInfo}
    {tq : typeQueue} {rest : List typeQueue} {m : List Nat}
    (h : Inv env mapFunc t cp anc ⟨heap, tq :: rest, m⟩) :
    ∃ b, recursiveField heap (fieldType (nodeAt heap tq.fi)) heap.length
        (nodeAt heap tq.fi).Parent = some b
      ∧ (b = false → (chainTypes heap anc tq.fi).Nodup)
      ∧ (b = true → ∃ ty, fieldType (nodeAt heap tq.fi) = some ty ∧ ty ∈ anc tq.fi) := by
  have hi : tq.fi < heap.length := h.queueBound tq (List.mem_cons_self _ _)
  by_cases h0 : tq.fi = 0
  · rw [h0]
    refine ⟨false, ?_, ?_, fun hb => absurd hb (by simp)⟩
    · have := h.rootParent
      simp only [] at this
      rw [this]
      cases heap.length <;> rfl
    · intro _
      have := chainTypes_root h
      simp only [] at this
      rw [this]
      exact List.nodup_nil
  · obtain ⟨f, P, pos, hrel⟩ := h.nodes tq.fi (Nat.pos_of_ne_zero h0) hi
    have hP : P < heap.length := Nat.lt_trans hrel.lt hi
    refine ⟨decide (f.Typ ∈ chainTypes heap anc P), ?_, ?_, ?_⟩
    · rw [hrel.parent]
      simp only [fieldType, hrel.field, Option.map_some']
      exact recursiveField_eq h f.Typ P hP heap.length (by omega)
    · intro hb
      rw [chainTypes_node hrel]
      have hnot : f.Typ ∉ chainTypes heap anc P := by simpa using hb
      refine List.nodup_cons.2 ⟨hnot, ?_⟩
      rw [← hrel.ancestors]
      exact hrel.nodup
    · intro hb
      refine ⟨f.Typ, by simp [fieldType, hrel.field], ?_⟩
      rw [hrel.ancestors]
      simpa using hb

theorem chainTypes_known {env : TypeEnv} {mapFunc : Option (GoString → GoString)}
    {t : TypeId} {cp : Nat → GoString} {anc : Nat → List TypeId} {st : MapState}
    (h : Inv env mapFunc t cp anc st) (q : Nat) (hq : q < st.heap.length) :
    ∀ ty ∈ chainTypes st.heap anc q, ty ∈ fieldTypes env := by
  by_cases h0 : q = 0
  · subst h0
    rw [chainTypes_root h]
    intro ty hty
    simp at hty
  · obtain ⟨f, P, pos, hrel⟩ := h.nodes q (Nat.pos_of_ne_zero h0) hq
    rw [chainTypes_node hrel, ← hrel.ancestors]
    intro ty hty
    rcases List.mem_cons.1 hty with h1 | h1
    · rw [h1]; exact hrel.typ
    · exact hrel.known ty h1

theorem depthOf_eq {env : TypeEnv} {mapFunc : Option (GoString → GoString)}
    {t : TypeId} {cp : Nat → GoString} {anc : Nat → List TypeId} {st : MapState}
    (h : Inv env mapFunc t cp anc st) (q : Nat) (hq : q < st.heap.length) :
    depthOf anc q = (chainTypes st.heap anc q).length := by
  unfold depthOf
  by_cases h0 : q = 0
  · subst h0
    rw [chainTypes_root h, if_pos rfl]
    rfl
  · obtain ⟨f, P, pos, hrel⟩ := h.nodes q (Nat.pos_of_ne_zero h0) hq
    rw [if_neg h0, chainTypes_node hrel, ← hrel.ancestors]
    rfl


theorem getD_of_getElem? {l : List FieldInfo} {k : Nat} {node : FieldInfo}
    (h : l[k]? = some node) : l.getD k zeroFieldInfo = node := by
  rw [List.getD_eq_getElem?_getD, h]
  rfl

theorem Inv_expand {env : TypeEnv} {mapFunc : Option (GoString → GoString)} {t : TypeId}
    {cp : Nat → GoString} {anc : Nat → List TypeId} {heap : List FieldInfo} {tq : typeQueue}
    {rest : List typeQueue} {m : List Nat}
    (h : Inv env mapFunc t cp anc ⟨heap, tq :: rest, m⟩)
    (hnd : (chainTypes heap anc tq.fi).Nodup) (e : Expansion)
    (he : e = expansionFrom env mapFunc tq (nodeAt heap tq.fi).Index heap.length 0
      (structFields env tq.t)) :
    ∃ cp1 anc1,
      Inv env mapFunc t cp1 anc1
        ⟨heap.set tq.fi { nodeAt heap tq.fi with Children := e.children } ++ e.nodes,
          rest ++ e.queue, m ++ e.m⟩
      ∧ (∀ q, q < heap.length → anc1 q = anc q)
      ∧ (∀ q, heap.length ≤ q → anc1 q = chainTypes heap anc tq.fi) := by
  have hi : tq.fi < heap.length := h.queueBound tq (List.mem_cons_self _ _)
  have hL : 0 < heap.length := h.nonempty
  refine ⟨fun q => if q < heap.length then cp q
      else pathFor mapFunc tq.pp (e.nodes.getD (q - heap.length) zeroFieldInfo),
    fun q => if q < heap.length then anc q else chainTypes heap anc tq.fi,
    ?_, fun q hq => if_pos hq, fun q hq => if_neg (by omega)⟩
  have hfr := fun q hq => nodeAt_grow_frame heap e.nodes tq.fi e.children q hq
  -- the new nodes
  have hnew : ∀ k node, e.nodes[k]? = some node →
      nodeAt (heap.set tq.fi { nodeAt heap tq.fi with Children := e.children } ++ e.nodes)
          (heap.length + k) = node
        ∧ ∃ j f entry, (structFields env tq.t)[j]? = some f
          ∧ newField env mapFunc tq (nodeAt heap tq.fi).Index j f (heap.length + k)
              = some (node, entry)
          ∧ e.children[j]? = some (some (heap.length + k)) := by
    intro k node hk
    refine ⟨by rw [nodeAt_grow_new]; exact getD_of_getElem? hk, ?_⟩
    rw [he] at hk
    obtain ⟨j, f, entry, hj, hn, hc, _⟩ := expansionFrom_node env mapFunc tq _ _ _ _ k node hk
    rw [Nat.zero_add] at hn
    exact ⟨j, f, entry, hj, hn, by rw [he]; exact hc⟩
  have hqnew : ∀ x ∈ e.queue, ∃ k node j f, e.nodes[k]? = some node
      ∧ (structFields env tq.t)[j]? = some f
      ∧ newField env mapFunc tq (nodeAt heap tq.fi).Index j f (heap.length + k)
          = some (node, some x) := by
    intro x hx
    rw [he] at hx
    obtain ⟨k, node, j, f, hk, hj, hn⟩ := expansionFrom_queue env mapFunc tq _ _ _ _ x hx
    rw [Nat.zero_add] at hn
    exact ⟨k, node, j, f, by rw [he]; exact hk, hj, hn⟩
  have hqfi : ∀ x ∈ e.queue, heap.length ≤ x.fi := by
    intro x hx
    rw [he] at hx
    exact (expansionFrom_queue_fi env mapFunc tq _ _ _ _ x hx).1
  have hchain : ∀ P, P < heap.length →
      chainTypes (heap.set tq.fi { nodeAt heap tq.fi with Children := e.children } ++ e.nodes)
        (fun q => if q < heap.length then anc q else chainTypes heap anc tq.fi) P
        = chainTypes heap anc P := by
    intro P hP
    exact chainTypes_congr (hfr P hP).1 (if_pos hP)
  have hsorted := List.pairwise_cons.1 h.queueSorted
  constructor
  · exact (hfr 0 hL).1.trans h.rootField
  · exact (hfr 0 hL).2.2.2.2.2.1.trans h.rootParent
  · exact (hfr 0 hL).2.2.2.1.trans h.rootIndex
  · simp only [List.length_append, List.length_set]; omega
  · simp only [if_pos hL]; exact h.rootPath
  · simp only [if_pos hL]; exact h.rootAncestors
  · -- nodes
    intro q h0 hq
    simp only [List.length_append, List.length_set] at hq
    by_cases hold : q < heap.length
    · obtain ⟨f, P, pos, hrel⟩ := h.nodes q h0 hold
      have hP : P < heap.length := Nat.lt_trans hrel.lt hold
      have hPne : P ≠ tq.fi := by
        have := h.queueParent q hold P hrel.parent tq (List.mem_cons_self _ _)
        omega
      refine ⟨f, P, pos, ?_⟩
      constructor
      · exact (hfr q hold).1.trans hrel.field
      · exact (hfr q hold).2.2.2.2.2.1.trans hrel.parent
      · exact hrel.lt
      · exact (hfr q hold).2.1.trans hrel.name
      · rw [(hfr q hold).2.1]; exact hrel.notExcluded
      · exact (hfr q hold).2.2.2.2.1.trans hrel.embedded
      · rw [(hfr q hold).2.2.2.1, (hfr P hP).2.2.2.1]; exact hrel.index
      · rw [(hfr P hP).2.2.2.2.2.2.1 hPne]; exact hrel.child
      · rw [nodeType_congr env t (hfr P hP).1]; exact hrel.fieldPos
      · simp only [if_pos hP]
        rw [(hfr q hold).2.2.1, (hfr q hold).2.1]; exact hrel.path
      · simp only [if_pos hP, if_pos hold]
        rw [(hfr q hold).2.2.1]; exact hrel.childPath
      · simp only [if_pos hold]
        rw [hchain P hP]; exact hrel.ancestors
      · simp only [if_pos hold]; exact hrel.nodup
      · simp only [if_pos hold]; exact hrel.known
      · exact hrel.typ
    · obtain ⟨k, rfl⟩ : ∃ k, q = heap.length + k := ⟨q - heap.length, by omega⟩
      have hk : k < e.nodes.length := by omega
      obtain ⟨hnode, j, f, entry, hj, hn, hc⟩ := hnew k (e.nodes[k]) (List.getElem?_eq_getElem hk)
      have hs := newField_spec hn
      refine ⟨f, tq.fi, j, ?_⟩
      constructor
      · rw [hnode]; exact hs.1
      · rw [hnode]; exact hs.2.2.2.2.2.1
      · omega
      · rw [hnode]; exact hs.2.1
      · rw [hnode]; exact hs.2.2.1
      · rw [hnode]; exact hs.2.2.2.2.2.2.1
      · rw [hnode, (hfr tq.fi hi).2.2.2.1]; exact hs.2.2.2.2.1
      · rw [(hfr tq.fi hi).2.2.2.2.2.2.2 rfl]; exact hc
      · rw [nodeType_congr env t (hfr tq.fi hi).1,
          ← h.queueType tq (List.mem_cons_self _ _)]
        exact hj
      · simp only [if_pos hi]
        rw [hnode, ← h.queuePath tq (List.mem_cons_self _ _)]
        exact hs.2.2.2.1
      · simp only [if_pos hi, if_neg hold, Nat.add_sub_cancel_left]
        rw [hnode, getD_of_getElem? (List.getElem?_eq_getElem hk),
          ← h.queuePath tq (List.mem_cons_self _ _)]
        simp only [pathFor, hs.1]
      · simp only [if_neg hold]
        rw [hchain tq.fi hi]
      · simp only [if_neg hold]; exact hnd
      · simp only [if_neg hold]
        exact chainTypes_known h tq.fi hi
      · exact structFields_typ (List.getElem?_mem hj)
  · -- index
    simp only [List.length_append, List.length_set]
    have hm : m = List.range' 1 (heap.length - 1) := h.index
    rw [hm, he, expansionFrom_m]
    have h1 : heap.length = 1 + (heap.length - 1) := by omega
    have h2 : heap.length +
        (expansionFrom env mapFunc tq (nodeAt heap tq.fi).Index heap.length 0
          (structFields env tq.t)).nodes.length - 1
        = (heap.length - 1) + (expansionFrom env mapFunc tq (nodeAt heap tq.fi).Index
          heap.length 0 (structFields env tq.t)).nodes.length := by omega
    rw [h2]
    nth_rewrite 2 [h1]
    rw [List.range'_append_1, Nat.add_comm]
  · -- queueBound
    intro x hx
    simp only [List.length_append, List.length_set]
    rcases List.mem_append.1 hx with hx | hx
    · have hb : x.fi < heap.length := h.queueBound x (List.mem_cons_of_mem _ hx)
      omega
    · rw [he] at hx ⊢
      exact (expansionFrom_queue_fi env mapFunc tq _ _ _ _ x hx).2
  · -- queuePath
    intro x hx
    rcases List.mem_append.1 hx with hx | hx
    · have hb : x.fi < heap.length := h.queueBound x (List.mem_cons_of_mem _ hx)
      simp only [if_pos hb]
      exact h.queuePath x (List.mem_cons_of_mem _ hx)
    · obtain ⟨k, node, j, f, hk, hj, hn⟩ := hqnew x hx
      have hs := newField_spec hn
      obtain ⟨hfi, _, hpp⟩ := hs.2.2.2.2.2.2.2 x rfl
      rw [hfi]
      simp only [if_neg (show ¬ heap.length + k < heap.length by omega),
        Nat.add_sub_cancel_left]
      rw [getD_of_getElem? hk, hpp]
      simp only [pathFor, hs.1]
  · -- queueType
    intro x hx
    rcases List.mem_append.1 hx with hx | hx
    · have hb : x.fi < heap.length := h.queueBound x (List.mem_cons_of_mem _ hx)
      rw [nodeType_congr env t (hfr x.fi hb).1]
      exact h.queueType x (List.mem_cons_of_mem _ hx)
    · obtain ⟨k, node, j, f, hk, hj, hn⟩ := hqnew x hx
      have hs := newField_spec hn
      obtain ⟨hfi, ht, _⟩ := hs.2.2.2.2.2.2.2 x rfl
      rw [hfi, (hnew k node hk).1, ht]
      simp only [nodeType, fieldType, hs.1, Option.map_some']
  · -- queueSorted
    rw [List.pairwise_append]
    refine ⟨hsorted.2, by rw [he]; exact expansionFrom_sorted env mapFunc tq _ _ _ _, ?_⟩
    intro a ha b hb
    have hb2 : a.fi < heap.length := h.queueBound a (List.mem_cons_of_mem _ ha)
    have := hqfi b hb
    omega
  · -- queueParent
    intro q hq P hP x hx
    simp only [List.length_append, List.length_set] at hq
    by_cases hold : q < heap.length
    · rw [(hfr q hold).2.2.2.2.2.1] at hP
      rcases List.mem_append.1 hx with hx | hx
      · exact h.queueParent q hold P hP x (List.mem_cons_of_mem _ hx)
      · have := h.queueParent q hold P hP tq (List.mem_cons_self _ _)
        have := hqfi x hx
        omega
    · obtain ⟨k, rfl⟩ : ∃ k, q = heap.length + k := ⟨q - heap.length, by omega⟩
      have hk : k < e.nodes.length := by omega
      obtain ⟨hnode, j, f, entry, hj, hn, hc⟩ := hnew k (e.nodes[k]) (List.getElem?_eq_getElem hk)
      rw [hnode, (newField_spec hn).2.2.2.2.2.1] at hP
      simp only [Option.some.injEq] at hP
      subst hP
      rcases List.mem_append.1 hx with hx | hx
      · exact hsorted.1 x hx
      · have := hqfi x hx
        omega


theorem sum_map_const {α : Type} (l : List α) (f : α → Nat) (v : Nat)
    (h : ∀ x ∈ l, f x = v) : (l.map f).sum = l.length * v := by
  induction l with
  | nil => simp
  | cons a rest ih =>
    rw [List.map_cons, List.sum_cons, h a (List.mem_cons_self _ _),
      ih (fun x hx => h x (List.mem_cons_of_mem _ hx)), List.length_cons, Nat.succ_mul,
      Nat.add_comm]

theorem queueMeasure_congr (env : TypeEnv) (anc anc1 : Nat → List TypeId)
    (queue : List typeQueue) (h : ∀ x ∈ queue, anc1 x.fi = anc x.fi) :
    queueMeasure env anc1 queue = queueMeasure env anc queue := by
  unfold queueMeasure
  congr 1
  apply List.map_congr_left
  intro x hx
  unfold depthOf
  rw [h x hx]

theorem queueStep_inv {env : TypeEnv} {mapFunc : Option (GoString → GoString)} {t : TypeId}
    {cp : Nat → GoString} {anc : Nat → List TypeId} {heap : List FieldInfo} {tq : typeQueue}
    {rest : List typeQueue} {m : List Nat}
    (h : Inv env mapFunc t cp anc ⟨heap, tq :: rest, m⟩) :
    ∃ st1 cp1 anc1, queueStep env mapFunc heap tq rest m = some st1
      ∧ Inv env mapFunc t cp1 anc1 st1
      ∧ queueMeasure env anc1 st1.queue < queueMeasure env anc (tq :: rest) := by
  have hi : tq.fi < heap.length := h.queueBound tq (List.mem_cons_self _ _)
  obtain ⟨b, hb, hfalse, _⟩ := recursiveField_check h
  have hhead : queueMeasure env anc (tq :: rest)
      = growth (maxFields env) (distinctFieldTypes env + 1 - depthOf anc tq.fi)
        + queueMeasure env anc rest := by
    simp only [queueMeasure, List.map_cons, List.sum_cons]
  unfold queueStep
  simp only []
  rw [hb]
  cases b with
  | true =>
    refine ⟨⟨heap, rest, m⟩, cp, anc, rfl, Inv_skip h, ?_⟩
    rw [hhead]
    have := growth_pos (maxFields env) (distinctFieldTypes env + 1 - depthOf anc tq.fi)
    simp only []
    omega
  | false =>
    simp only []
    rw [fieldLoop_empty]
    have hnd := hfalse rfl
    obtain ⟨cp1, anc1, hinv1, hold, hnew⟩ := Inv_expand h hnd _ rfl
    refine ⟨_, cp1, anc1, rfl, hinv1, ?_⟩
    simp only []
    have hdepth : depthOf anc tq.fi = (chainTypes heap anc tq.fi).length := depthOf_eq h tq.fi hi
    have hc : (chainTypes heap anc tq.fi).length ≤ distinctFieldTypes env :=
      nodup_length_le env _ hnd (chainTypes_known h tq.fi hi)
    have hrest : queueMeasure env anc1 rest = queueMeasure env anc rest := by
      apply queueMeasure_congr
      intro x hx
      exact hold x.fi (h.queueBound x (List.mem_cons_of_mem _ hx))
    have hq : queueMeasure env anc1
        (expansionFrom env mapFunc tq (nodeAt heap tq.fi).Index heap.length 0
          (structFields env tq.t)).queue
        = (expansionFrom env mapFunc tq (nodeAt heap tq.fi).Index heap.length 0
            (structFields env tq.t)).queue.length
          * growth (maxFields env)
              (distinctFieldTypes env - (chainTypes heap anc tq.fi).length) := by
      unfold queueMeasure
      apply sum_map_const
      intro x hx
      have hx1 := (expansionFrom_queue_fi env mapFunc tq _ _ _ _ x hx).1
      have hL : 0 < heap.length := h.nonempty
      unfold depthOf
      rw [if_neg (by omega), hnew x.fi hx1]
      congr 1
      omega
    have hlen := expansionFrom_nodes_length env mapFunc tq (nodeAt heap tq.fi).Index
      (structFields env tq.t) heap.length 0
    have hF := structFields_length_le env tq.t
    have hmul : (expansionFrom env mapFunc tq (nodeAt heap tq.fi).Index heap.length 0
        (structFields env tq.t)).queue.length
          * growth (maxFields env)
              (distinctFieldTypes env - (chainTypes heap anc tq.fi).length)
        ≤ maxFields env * growth (maxFields env)
              (distinctFieldTypes env - (chainTypes heap anc tq.fi).length) :=
      Nat.mul_le_mul_right _ (by omega)
    have hg : growth (maxFields env) (distinctFieldTypes env + 1 - depthOf anc tq.fi)
        = 1 + maxFields env * growth (maxFields env)
              (distinctFieldTypes env - (chainTypes heap anc tq.fi).length) := by
      rw [hdepth, show distinctFieldTypes env + 1 - (chainTypes heap anc tq.fi).length
        = (distinctFieldTypes env - (chainTypes heap anc tq.fi).length) + 1 by omega]
      rfl
    unfold queueMeasure at hrest hq hhead ⊢
    rw [List.map_append, List.sum_append, hrest, hq, hhead, hg]
    omega

theorem queueLoop_nil (env : TypeEnv) (mapFunc : Option (GoString → GoString)) (fuel : Nat)
    (heap : List FieldInfo) (m : List Nat) :
    queueLoop env mapFunc fuel ⟨heap, [], m⟩ = some ⟨heap, [], m⟩ := by
  cases fuel <;> rfl

theorem queueLoop_inv {env : TypeEnv} {mapFunc : Option (GoString → GoString)} {t : TypeId} :
    ∀ (fuel : Nat) (st st2 : MapState) (cp : Nat → GoString) (anc : Nat → List TypeId),
      Inv env mapFunc t cp anc st → queueLoop env mapFunc fuel st = some st2 →
      ∃ cp2 anc2, Inv env mapFunc t cp2 anc2 st2 ∧ st2.queue = [] := by
  intro fuel
  induction fuel with
  | zero =>
    intro st st2 cp anc h hl
    obtain ⟨heap, queue, m⟩ := st
    cases queue with
    | nil =>
      rw [queueLoop_nil] at hl
      simp only [Option.some.injEq] at hl
      subst hl
      exact ⟨cp, anc, h, rfl⟩
    | cons tq rest => simp [queueLoop] at hl
  | succ fuel ih =>
    intro st st2 cp anc h hl
    obtain ⟨heap, queue, m⟩ := st
    cases queue with
    | nil =>
      rw [queueLoop_nil] at hl
      simp only [Option.some.injEq] at hl
      subst hl
      exact ⟨cp, anc, h, rfl⟩
    | cons tq rest =>
      obtain ⟨st1, cp1, anc1, hstep, hinv1, _⟩ := queueStep_inv h
      rw [queueLoop, hstep] at hl
      exact ih st1 st2 cp1 anc1 hinv1 hl

theorem queueLoop_total {env : TypeEnv} {mapFunc : Option (GoString → GoString)} {t : TypeId} :
    ∀ (fuel : Nat) (st : MapState) (cp : Nat → GoString) (anc : Nat → List TypeId),
      Inv env mapFunc t cp anc st → queueMeasure env anc st.queue ≤ fuel →
      ∃ st2, queueLoop env mapFunc fuel st = some st2 := by
  intro fuel
  induction fuel with
  | zero =>
    intro st cp anc h hm
    obtain ⟨heap, queue, m⟩ := st
    cases queue with
    | nil => exact ⟨_, queueLoop_nil env mapFunc 0 heap m⟩
    | cons tq rest =>
      have := growth_pos (maxFields env) (distinctFieldTypes env + 1 - depthOf anc tq.fi)
      simp only [queueMeasure, List.map_cons, List.sum_cons] at hm
      omega
  | succ fuel ih =>
    intro st cp anc h hm
    obtain ⟨heap, queue, m⟩ := st
    cases queue with
    | nil => exact ⟨_, queueLoop_nil env mapFunc _ heap m⟩
    | cons tq rest =>
      obtain ⟨st1, cp1, anc1, hstep, hinv1, hlt⟩ := queueStep_inv h
      rw [queueLoop, hstep]
      simp only [] at hm
      exact ih st1 cp1 anc1 hinv1 (by omega)

theorem getMapping_inv {env : TypeEnv} {mapFunc : Option (GoString → GoString)} {t : TypeId}
    {fuel : Nat} {sm : StructMap} (h : getMapping env mapFunc t fuel = some sm) :
    ∃ cp anc st, Inv env mapFunc t cp anc st ∧ st.queue = [] ∧ sm.heap = st.heap
      ∧ sm.Index = st.m ∧ sm.Tree = 0
      ∧ sm.Paths = (tablesLoop st.heap st.m (fun _ => none, fun _ => none)).1
      ∧ sm.Names = (tablesLoop st.heap st.m (fun _ => none, fun _ => none)).2 := by
  unfold getMapping at h
  cases hl : queueLoop env mapFunc fuel ⟨[zeroFieldInfo], [⟨Deref env t, 0, []⟩], []⟩ with
  | none => rw [hl] at h; exact absurd h (by simp)
  | some st =>
    rw [hl] at h
    simp only [Option.some.injEq] at h
    subst h
    obtain ⟨cp, anc, hinv, hq⟩ := queueLoop_inv fuel _ st _ _ (Inv_init env mapFunc t) hl
    exact ⟨cp, anc, st, hinv, hq, rfl, rfl, rfl, rfl, rfl⟩

theorem getMapping_total (env : TypeEnv) (mapFunc : Option (GoString → GoString)) (t : TypeId)
    (fuel : Nat) (hfuel : fuelBound env ≤ fuel) :
    ∃ sm, getMapping env mapFunc t fuel = some sm := by
  have hm : queueMeasure env (fun _ => [])
      (⟨[zeroFieldInfo], [⟨Deref env t, 0, []⟩], []⟩ : MapState).queue ≤ fuel := by
    simp only [queueMeasure, List.map_cons, List.map_nil, List.sum_cons, List.sum_nil, depthOf,
      if_pos, Nat.sub_zero, Nat.add_zero]
    exact hfuel
  obtain ⟨st, hst⟩ := queueLoop_total fuel _ _ _ (Inv_init env mapFunc t) hm
  unfold getMapping
  rw [hst]
  exact ⟨_, rfl⟩


theorem mem_index_iff {env : TypeEnv} {mapFunc : Option (GoString → GoString)} {t : TypeId}
    {cp : Nat → GoString} {anc : Nat → List TypeId} {st : MapState}
    (h : Inv env mapFunc t cp anc st) (p : Nat) :
    p ∈ st.m ↔ 0 < p ∧ p < st.heap.length := by
  rw [h.index, List.mem_range'_1]
  have := h.nonempty
  omega

theorem tablesLoop_entries (heap : List FieldInfo) (Q : GoString → Nat → Prop) :
    ∀ (index : List Nat) (tables : (GoString → Option Nat) × (GoString → Option Nat)),
      (∀ k p, tables.1 k = some p → Q k p) → (∀ k p, tables.2 k = some p → Q k p) →
      (∀ p ∈ index, Q (nodeAt heap p).Path p) →
      (∀ k p, (tablesLoop heap index tables).1 k = some p → Q k p)
        ∧ (∀ k p, (tablesLoop heap index tables).2 k = some p → Q k p) := by
  intro index
  induction index with
  | nil => intro tables h1 h2 _; exact ⟨h1, h2⟩
  | cons q rest ih =>
    intro tables h1 h2 hq
    obtain ⟨paths, names⟩ := tables
    have hq0 := hq q (List.mem_cons_self _ _)
    have hrest : ∀ p ∈ rest, Q (nodeAt heap p).Path p :=
      fun p hp => hq p (List.mem_cons_of_mem _ hp)
    simp only [tablesLoop]
    split_ifs with hrep hname
    · apply ih _ _ _ hrest
      · intro k p hk
        simp only [] at hk
        by_cases hkp : k = (nodeAt heap q).Path
        · rw [if_pos hkp] at hk
          simp only [Option.some.injEq] at hk
          subst hk; subst hkp; exact hq0
        · rw [if_neg hkp] at hk; exact h1 k p hk
      · intro k p hk
        simp only [] at hk
        by_cases hkp : k = (nodeAt heap q).Path
        · rw [if_pos hkp] at hk
          simp only [Option.some.injEq] at hk
          subst hk; subst hkp; exact hq0
        · rw [if_neg hkp] at hk; exact h2 k p hk
    · apply ih _ _ _ hrest
      · intro k p hk
        simp only [] at hk
        by_cases hkp : k = (nodeAt heap q).Path
        · rw [if_pos hkp] at hk
          simp only [Option.some.injEq] at hk
          subst hk; subst hkp; exact hq0
        · rw [if_neg hkp] at hk; exact h1 k p hk
      · exact h2
    · exact ih _ h1 h2 hrest

theorem pathWinner_cons (heap : List FieldInfo) (q : Nat) (rest : List Nat) (path : GoString) :
    pathWinner heap (q :: rest) path =
      if (nodeAt heap q).Path = path then
        (if (nodeAt heap q).Embedded = true then (pathWinner heap rest path).or (some q)
         else some q)
      else pathWinner heap rest path := by
  unfold pathWinner
  rw [List.find?_cons, List.reverse_cons, List.find?_append]
  by_cases hp : (nodeAt heap q).Path = path
  · rw [if_pos hp]
    by_cases he : (nodeAt heap q).Embedded = true
    · rw [if_pos he]
      simp only [hp, he, decide_True, Bool.not_true, Bool.and_false, List.find?_cons,
        List.find?_nil]
      cases List.find? (fun p => decide ((nodeAt heap p).Path = path) && !(nodeAt heap p).Embedded)
          rest with
      | none =>
        simp only [Option.none_or]
      | some r => rfl
    · rw [if_neg he]
      have he2 : (nodeAt heap q).Embedded = false := by simpa using he
      simp only [hp, he2, decide_True, Bool.not_false, Bool.and_true]
      rfl
  · rw [if_neg hp]
    simp only [hp, decide_False, Bool.false_and, List.find?_cons, List.find?_nil,
      Option.or_none]

theorem tablesLoop_paths (heap : List FieldInfo) (path : GoString) :
    ∀ (index : List Nat) (paths names : GoString → Option Nat),
      (tablesLoop heap index (paths, names)).1 path =
        match paths path with
        | some c =>
          if (nodeAt heap c).Embedded = true then (pathWinner heap index path).or (some c)
          else some c
        | none => pathWinner heap index path := by
  intro index
  induction index with
  | nil =>
    intro paths names
    simp only [tablesLoop, pathWinner, List.find?_nil, List.reverse_nil, Option.or_none]
    cases paths path with
    | none => rfl
    | some c => simp
  | cons q rest ih =>
    intro paths names
    rw [pathWinner_cons]
    simp only [tablesLoop]
    by_cases hp : (nodeAt heap q).Path = path
    · rw [if_pos hp]
      subst hp
      cases hc : paths (nodeAt heap q).Path with
      | none =>
        simp only [if_true]
        rw [ih]
        simp only [if_true]
      | some c =>
        simp only []
        by_cases hce : (nodeAt heap c).Embedded = true
        · rw [if_pos hce, if_pos hce, ih]
          simp only [if_true]
          by_cases he : (nodeAt heap q).Embedded = true
          · rw [if_pos he]
            cases pathWinner heap rest (nodeAt heap q).Path <;> rfl
          · rw [if_neg he]
            rfl
        · rw [if_neg hce, if_neg hce, ih, hc]
          simp only [if_neg hce]
    · rw [if_neg hp]
      have hne : ¬ path = (nodeAt heap q).Path := fun h => hp h.symm
      split_ifs with hrep hname
      · rw [ih]; simp only [if_neg hne]
      · rw [ih]; simp only [if_neg hne]
      · rw [ih]

/-- C24: in a StructMap made by `getMapping`, every entry of `Index` is the
node of a field whose canonical name is not `-`; every entry of `Paths` and of
`Names` is an entry of `Index` filed under its own path; and `GetByPath`
returns nil for a path that no entry of `Index` has. -/
theorem getMapping_excluded (env : TypeEnv) (mapFunc : Option (GoString → GoString))
    (t : TypeId) (fuel : Nat) (sm : StructMap)
    (h : getMapping env mapFunc t fuel = some sm) :
    (∀ p ∈ sm.Index, ∃ f, (nodeAt sm.heap p).Field = some f
        ∧ (nodeAt sm.heap p).Name = (parserName mapFunc f).2
        ∧ (parserName mapFunc f).2 ≠ bytesOf "-")
      ∧ (∀ path p, sm.Paths path = some p → p ∈ sm.Index ∧ (nodeAt sm.heap p).Path = path)
      ∧ (∀ path p, sm.Names path = some p → p ∈ sm.Index ∧ (nodeAt sm.heap p).Path = path)
      ∧ (∀ path, (∀ p ∈ sm.Index, (nodeAt sm.heap p).Path ≠ path) →
          sm.GetByPath path = none) := by
  obtain ⟨cp, anc, st, hinv, _, hheap, hidx, _, hpaths, hnames⟩ := getMapping_inv h
  have hent := tablesLoop_entries st.heap (fun k p => p ∈ st.m ∧ (nodeAt st.heap p).Path = k)
    st.m (fun _ => none, fun _ => none) (fun k p hk => absurd hk (by simp))
    (fun k p hk => absurd hk (by simp)) (fun p hp => ⟨hp, rfl⟩)
  rw [hheap, hidx, hpaths, hnames]
  refine ⟨?_, hent.1, hent.2, ?_⟩
  · intro p hp
    obtain ⟨h0, hlt⟩ := (mem_index_iff hinv p).1 hp
    obtain ⟨f, P, pos, hrel⟩ := hinv.nodes p h0 hlt
    exact ⟨f, hrel.field, hrel.name, by rw [← hrel.name]; exact hrel.notExcluded⟩
  · intro path hno
    unfold StructMap.GetByPath
    rw [hpaths]
    cases hres : (tablesLoop st.heap st.m (fun _ => none, fun _ => none)).1 path with
    | none => rfl
    | some p =>
      obtain ⟨hp, hpath⟩ := hent.1 path p hres
      exact absurd hpath (hno p (hidx ▸ hp))

/-- Witness for C24: `RugbyPlayer` of `TestMapping`, whose field `IsAllBlack`
is tagged `-`. -/
theorem getMapping_excluded_witness :
    ∃ sm, getMapping rugbyTypes (some toLowerASCII) 5 10 = some sm
      ∧ sm.GetByPath (bytesOf "isallblack") = none
      ∧ sm.GetByPath (bytesOf "IsAllBlack") = none
      ∧ sm.GetByPath (bytesOf "-") = none := by
  cases hsm : getMapping rugbyTypes (some toLowerASCII) 5 10 with
  | none =>
    have hs : (getMapping rugbyTypes (some toLowerASCII) 5 10).isSome = true := by decide
    rw [hsm] at hs
    exact absurd hs (by simp)
  | some sm =>
    have hfacts : (getMapping rugbyTypes (some toLowerASCII) 5 10).map
        (fun sm => sm.Index.map (fun p => (nodeAt sm.heap p).Path))
        = some [bytesOf "position", bytesOf "is_intense", bytesOf "sportsperson",
            bytesOf "weight", bytesOf "age", bytesOf "person", bytesOf "id", bytesOf "name",
            bytesOf "wears_glasses"] := by decide
    rw [hsm] at hfacts
    simp only [Option.map_some', Option.some.injEq] at hfacts
    have hno : ∀ path, path ∉ [bytesOf "position", bytesOf "is_intense",
        bytesOf "sportsperson", bytesOf "weight", bytesOf "age", bytesOf "person",
        bytesOf "id", bytesOf "name", bytesOf "wears_glasses"] →
        ∀ p ∈ sm.Index, (nodeAt sm.heap p).Path ≠ path := by
      intro path hpath p hp hcon
      apply hpath
      rw [← hfacts, ← hcon]
      exact List.mem_map.2 ⟨p, hp, rfl⟩
    have hthm := (getMapping_excluded rugbyTypes (some toLowerASCII) 5 10 sm hsm).2.2.2
    exact ⟨sm, rfl, hthm _ (hno _ (by decide)), hthm _ (hno _ (by decide)),
      hthm _ (hno _ (by decide))⟩


/-- C29 (counterexample): in `struct{A int "x"; B int "x"}` both fields are
plain and have the path `x`; `B` is discovered after `A`, and `GetByPath("x")`
is the node of `A`. -/
theorem getMapping_later_plain_not_returned :
    (getMapping collidingTypes none 1 5).map
        (fun sm => (sm.Index, (nodeAt sm.heap 1).Path, (nodeAt sm.heap 2).Path,
          sm.GetByPath (bytesOf "x")))
        = some ([1, 2], bytesOf "x", bytesOf "x", some 1)
      ∧ (getMapping collidingTypes none 1 5).map
        (fun sm => ((nodeAt sm.heap 1).Embedded, (nodeAt sm.heap 2).Embedded,
          (nodeAt sm.heap 1).Index, (nodeAt sm.heap 2).Index))
        = some (false, false, [0], [1]) := by
  constructor <;> decide

/-- C29 (amended): in a StructMap made by `getMapping`, `GetByPath(path)` is
the first field of `Index` with that path that is not embedded, and the last
field with that path when all of them are embedded (nil when there is none). -/
theorem getMapping_path_winner (env : TypeEnv) (mapFunc : Option (GoString → GoString))
    (t : TypeId) (fuel : Nat) (sm : StructMap)
    (h : getMapping env mapFunc t fuel = some sm) (path : GoString) :
    sm.GetByPath path = pathWinner sm.heap sm.Index path := by
  obtain ⟨cp, anc, st, _, _, hheap, hidx, _, hpaths, _⟩ := getMapping_inv h
  unfold StructMap.GetByPath
  rw [hpaths, hheap, hidx, tablesLoop_paths]

/-- Witness for C29: in `Outer{Inner; Y int "Inner"}` the plain field `Y`,
found after the embedded `Inner`, takes the path `Inner`. -/
theorem getMapping_path_winner_witness :
    ∃ sm, getMapping overridingTypes none 2 5 = some sm
      ∧ sm.GetByPath (bytesOf "Inner") = some 2 := by
  cases hsm : getMapping overridingTypes none 2 5 with
  | none =>
    have hs : (getMapping overridingTypes none 2 5).isSome = true := by decide
    rw [hsm] at hs
    exact absurd hs (by simp)
  | some sm =>
    have hfacts : (getMapping overridingTypes none 2 5).map
        (fun sm => pathWinner sm.heap sm.Index (bytesOf "Inner")) = some (some 2) := by decide
    rw [hsm] at hfacts
    simp only [Option.map_some', Option.some.injEq] at hfacts
    exact ⟨sm, rfl, (getMapping_path_winner overridingTypes none 2 5 sm hsm _).trans hfacts⟩

theorem joinPath_ne_nil (pp name : GoString) (h : name ≠ []) : joinPath pp name ≠ [] := by
  unfold joinPath
  split_ifs with hpp
  · exact h
  · intro hcon
    have := congrArg List.length hcon
    simp [bytesOf] at this
    exact hpp this.1

theorem parserName_tag (mapFunc : Option (GoString → GoString)) (f : StructField)
    (h : (parserName mapFunc f).1 ≠ []) : (parserName mapFunc f).2 ≠ [] := by
  unfold parserName at h ⊢
  cases hT : f.Tag with
  | none =>
    rw [hT] at h
    cases mapFunc <;> exact absurd rfl h
  | some tag =>
    rw [hT] at h
    exact h

theorem pathWinner_isSome (heap : List FieldInfo) (path : GoString) :
    ∀ (index : List Nat), (∃ p ∈ index, (nodeAt heap p).Path = path) →
      ∃ r, pathWinner heap index path = some r := by
  intro index
  induction index with
  | nil =>
    intro h
    obtain ⟨p, hp, _⟩ := h
    exact absurd hp (by simp)
  | cons q rest ih =>
    intro h
    rw [pathWinner_cons]
    by_cases hq : (nodeAt heap q).Path = path
    · rw [if_pos hq]
      by_cases he : (nodeAt heap q).Embedded = true
      · rw [if_pos he]
        cases pathWinner heap rest path with
        | none => exact ⟨q, rfl⟩
        | some r => exact ⟨r, rfl⟩
      · rw [if_neg he]
        exact ⟨q, rfl⟩
    · rw [if_neg hq]
      obtain ⟨p, hp, hpath⟩ := h
      rcases List.mem_cons.1 hp with hpq | hpr
      · subst hpq; exact absurd hpath hq
      · exact ih ⟨p, hpr, hpath⟩

theorem ancestorTypes_none (heap : List FieldInfo) (fuel : Nat) :
    ancestorTypes heap fuel none = [] := by
  cases fuel <;> rfl

theorem ancestorTypes_eq {env : TypeEnv} {mapFunc : Option (GoString → GoString)}
    {t : TypeId} {cp : Nat → GoString} {anc : Nat → List TypeId} {st : MapState}
    (h : Inv env mapFunc t cp anc st) :
    ∀ P, P < st.heap.length → ∀ fuel, P + 1 ≤ fuel →
      ancestorTypes st.heap fuel (some P) = chainTypes st.heap anc P := by
  intro P
  induction P using Nat.strong_induction_on with
  | _ P ih =>
    intro hP fuel hfuel
    obtain ⟨fuel, rfl⟩ : ∃ k, fuel = k + 1 := ⟨fuel - 1, by omega⟩
    rw [ancestorTypes]
    by_cases h0 : P = 0
    · subst h0
      rw [chainTypes_root h, h.rootParent, ancestorTypes_none]
      simp only [fieldType, h.rootField]
      rfl
    · obtain ⟨f, P2, pos, hrel⟩ := h.nodes P (Nat.pos_of_ne_zero h0) hP
      rw [chainTypes_node hrel, hrel.parent,
        ih P2 hrel.lt (Nat.lt_trans hrel.lt hP) fuel (by have := hrel.lt; omega)]
      simp only [fieldType, hrel.field]
      rfl

theorem newField_isSome (env : TypeEnv) (mapFunc : Option (GoString → GoString))
    (tq : typeQueue) (pidx : List Int) (pos : Nat) (f : StructField) (addr : Nat)
    (h1 : (parserName mapFunc f).2 ≠ bytesOf "-")
    (h2 : ¬ (f.PkgPath.length ≠ 0 ∧ f.Anonymous = false)) :
    ∃ r, newField env mapFunc tq pidx pos f addr = some r := by
  unfold newField
  simp only []
  rw [if_neg h1]
  have h2b : ¬ ((decide (f.PkgPath.length ≠ 0) && !f.Anonymous) = true) := by
    intro hc
    simp only [Bool.and_eq_true, decide_eq_true_eq, Bool.not_eq_true'] at hc
    exact h2 hc
  rw [if_neg h2b]
  by_cases h3 : f.Anonymous = true
  · rw [if_pos h3]; exact ⟨_, rfl⟩
  · rw [if_neg h3]
    by_cases h4 : isStructOrPointerToStruct env f.Typ = true
    · rw [if_pos h4]; exact ⟨_, rfl⟩
    · rw [if_neg h4]; exact ⟨_, rfl⟩

theorem newField_leaf {env : TypeEnv} {mapFunc : Option (GoString → GoString)} {tq : typeQueue}
    {pidx : List Int} {pos : Nat} {f : StructField} {addr : Nat} {node : FieldInfo}
    (h : newField env mapFunc tq pidx pos f addr = some (node, none)) :
    structFields env (Deref env f.Typ) = [] := by
  unfold newField at h
  simp only [] at h
  by_cases h1 : (parserName mapFunc f).2 = bytesOf "-"
  · rw [if_pos h1] at h; exact absurd h (by simp)
  rw [if_neg h1] at h
  by_cases h2 : (decide (f.PkgPath.length ≠ 0) && !f.Anonymous) = true
  · rw [if_pos h2] at h; exact absurd h (by simp)
  rw [if_neg h2] at h
  by_cases h3 : f.Anonymous = true
  · rw [if_pos h3] at h
    simp only [Option.some.injEq, Prod.mk.injEq] at h
    exact absurd h.2 (by simp)
  · rw [if_neg h3] at h
    by_cases h4 : isStructOrPointerToStruct env f.Typ = true
    · rw [if_pos h4] at h
      simp only [Option.some.injEq, Prod.mk.injEq] at h
      exact absurd h.2 (by simp)
    · unfold isStructOrPointerToStruct at h4
      unfold structFields Deref
      cases hd : env.desc f.Typ with
      | struct fields => simp only [hd] at h4; exact absurd trivial h4
      | other => simp only [hd]
      | pointer elem =>
        simp only []
        cases hd2 : env.desc elem with
        | struct fields => simp only [hd, hd2] at h4; exact absurd trivial h4
        | other => rfl
        | pointer e2 => rfl

theorem expansionFrom_complete (env : TypeEnv) (mapFunc : Option (GoString → GoString))
    (tq : typeQueue) (pidx : List Int) (fields : List StructField) :
    ∀ (addr pos j : Nat) (f : StructField), fields[j]? = some f →
      (parserName mapFunc f).2 ≠ bytesOf "-" →
      ¬ (f.PkgPath.length ≠ 0 ∧ f.Anonymous = false) →
      ∃ k node, (expansionFrom env mapFunc tq pidx addr pos fields).nodes[k]? = some node
        ∧ node.Field = some f ∧ node.Parent = some tq.fi
        ∧ (expansionFrom env mapFunc tq pidx addr pos fields).children[j]?
            = some (some (addr + k)) := by
  induction fields with
  | nil => intro addr pos j f h; simp at h
  | cons g rest ih =>
    intro addr pos j f hj h1 h2
    simp only [expansionFrom]
    cases hnf : newField env mapFunc tq pidx pos g addr with
    | none =>
      simp only []
      cases j with
      | zero =>
        simp only [List.getElem?_cons_zero, Option.some.injEq] at hj
        subst hj
        obtain ⟨r, hr⟩ := newField_isSome env mapFunc tq pidx pos g addr h1 h2
        rw [hr] at hnf
        exact absurd hnf (by simp)
      | succ j =>
        simp only [List.getElem?_cons_succ] at hj
        obtain ⟨k, node, hk, hf, hp, hc⟩ := ih addr (pos + 1) j f hj h1 h2
        exact ⟨k, node, hk, hf, hp, by simpa using hc⟩
    | some r =>
      obtain ⟨fi, entry⟩ := r
      simp only []
      cases j with
      | zero =>
        simp only [List.getElem?_cons_zero, Option.some.injEq] at hj
        subst hj
        have hs := newField_spec hnf
        exact ⟨0, fi, by simp, hs.1, hs.2.2.2.2.2.1, by simp⟩
      | succ j =>
        simp only [List.getElem?_cons_succ] at hj
        obtain ⟨k, node, hk, hf, hp, hc⟩ := ih (addr + 1) (pos + 1) j f hj h1 h2
        refine ⟨k + 1, node, by simpa using hk, hf, hp, ?_⟩
        simp only [List.getElem?_cons_succ, hc]
        congr 2; omega

theorem Progress_init (env : TypeEnv) (mapFunc : Option (GoString → GoString)) (t : TypeId)
    (anc : Nat → List TypeId) :
    Progress env mapFunc t anc ⟨[zeroFieldInfo], [⟨Deref env t, 0, []⟩], []⟩ := by
  intro E hE
  simp only [List.length_singleton] at hE
  left
  exact ⟨_, List.mem_singleton.2 rfl, by simp only []; omega⟩

theorem Progress_skip {env : TypeEnv} {mapFunc : Option (GoString → GoString)} {t : TypeId}
    {anc : Nat → List TypeId} {heap : List FieldInfo} {tq : typeQueue}
    {rest : List typeQueue} {m : List Nat}
    (hp : Progress env mapFunc t anc ⟨heap, tq :: rest, m⟩)
    (hrec : ∃ ty, fieldType (nodeAt heap tq.fi) = some ty ∧ ty ∈ anc tq.fi) :
    Progress env mapFunc t anc ⟨heap, rest, m⟩ := by
  intro E hE
  by_cases hEq : E = tq.fi
  · subst hEq; exact Or.inr (Or.inl hrec)
  · rcases hp E hE with ⟨x, hx, hfi⟩ | h2 | h3
    · rcases List.mem_cons.1 hx with rfl | hx
      · exact absurd hfi.symm hEq
      · exact Or.inl ⟨x, hx, hfi⟩
    · exact Or.inr (Or.inl h2)
    · exact Or.inr (Or.inr h3)

theorem Progress_expand {env : TypeEnv} {mapFunc : Option (GoString → GoString)} {t : TypeId}
    {cp : Nat → GoString} {anc anc1 : Nat → List TypeId} {heap : List FieldInfo}
    {tq : typeQueue} {rest : List typeQueue} {m : List Nat}
    (h : Inv env mapFunc t cp anc ⟨heap, tq :: rest, m⟩)
    (hp : Progress env mapFunc t anc ⟨heap, tq :: rest, m⟩)
    (hold : ∀ q, q < heap.length → anc1 q = anc q) (e : Expansion)
    (he : e = expansionFrom env mapFunc tq (nodeAt heap tq.fi).Index heap.length 0
      (structFields env tq.t)) :
    Progress env mapFunc t anc1
      ⟨heap.set tq.fi { nodeAt heap tq.fi with Children := e.children } ++ e.nodes,
        rest ++ e.queue, m ++ e.m⟩ := by
  have hi : tq.fi < heap.length := h.queueBound tq (List.mem_cons_self _ _)
  have hL : 0 < heap.length := h.nonempty
  have hfr := fun q hq => nodeAt_grow_frame heap e.nodes tq.fi e.children q hq
  intro E hE
  simp only [List.length_append, List.length_set] at hE
  by_cases hEold : E < heap.length
  · by_cases hEq : E = tq.fi
    · -- the node that was expanded
      right; right
      unfold Expanded
      intro pos f hpos h1 h2
      simp only [] at hpos ⊢
      rw [nodeType_congr env t (hfr E hEold).1] at hpos
      have hty : tq.t = nodeType env t (nodeAt heap tq.fi) :=
        h.queueType tq (List.mem_cons_self _ _)
      rw [hEq, ← hty] at hpos
      obtain ⟨k, node, hk, hf, hpar, hc⟩ := expansionFrom_complete env mapFunc tq
        (nodeAt heap tq.fi).Index (structFields env tq.t) heap.length 0 pos f hpos h1 h2
      rw [← he] at hk hc
      have hklt : k < e.nodes.length := by
        by_contra hcon
        rw [List.getElem?_eq_none (Nat.le_of_not_lt hcon)] at hk
        exact absurd hk (by simp)
      have hnode : nodeAt (heap.set tq.fi { nodeAt heap tq.fi with Children := e.children }
          ++ e.nodes) (heap.length + k) = node := by
        rw [nodeAt_grow_new]; exact getD_of_getElem? hk
      refine ⟨heap.length + k, by omega, ?_, ?_, ?_, ?_⟩
      · simp only [List.length_append, List.length_set]; omega
      · rw [hnode, hpar, hEq]
      · rw [hnode, hf]
      · rw [(hfr E hEold).2.2.2.2.2.2.2 hEq]; exact hc
    · rcases hp E hEold with ⟨x, hx, hfi⟩ | ⟨ty, hty, hmem⟩ | h3
      · rcases List.mem_cons.1 hx with rfl | hx
        · exact absurd hfi.symm hEq
        · exact Or.inl ⟨x, List.mem_append_left _ hx, hfi⟩
      · right; left
        refine ⟨ty, ?_, ?_⟩
        · simp only [fieldType] at hty ⊢
          rw [(hfr E hEold).1]; exact hty
        · rw [hold E hEold]; exact hmem
      · right; right
        unfold Expanded
        intro pos f hpos h1 h2
        simp only [] at hpos ⊢
        rw [nodeType_congr env t (hfr E hEold).1] at hpos
        obtain ⟨F, hF0, hFlt, hFpar, hFfield, hFch⟩ := h3 pos f hpos h1 h2
        simp only [] at hFlt hFpar hFfield hFch
        refine ⟨F, hF0, ?_, ?_, ?_, ?_⟩
        · simp only [List.length_append, List.length_set]; omega
        · rw [(hfr F hFlt).2.2.2.2.2.1]; exact hFpar
        · rw [(hfr F hFlt).1]; exact hFfield
        · rw [(hfr E hEold).2.2.2.2.2.2.1 hEq]; exact hFch
  · -- a new node
    obtain ⟨k, rfl⟩ : ∃ k, E = heap.length + k := ⟨E - heap.length, by omega⟩
    have hklt : k < e.nodes.length := by omega
    obtain ⟨node, hk⟩ : ∃ node, e.nodes[k]? = some node :=
      ⟨e.nodes[k], List.getElem?_eq_getElem hklt⟩
    have hnode : nodeAt (heap.set tq.fi { nodeAt heap tq.fi with Children := e.children }
        ++ e.nodes) (heap.length + k) = node := by
      rw [nodeAt_grow_new]; exact getD_of_getElem? hk
    have hk2 := hk
    rw [he] at hk2
    obtain ⟨j, f, entry, hj, hn, hc, hq⟩ := expansionFrom_node env mapFunc tq _ _ _ _ k node hk2
    cases entry with
    | some x =>
      left
      refine ⟨x, List.mem_append_right _ (by rw [he]; exact hq x rfl), ?_⟩
      exact ((newField_spec hn).2.2.2.2.2.2.2 x rfl).1
    | none =>
      right; right
      unfold Expanded
      intro pos g hpos _ _
      simp only [] at hpos
      rw [hnode] at hpos
      have hfield := (newField_spec hn).1
      have hleaf := newField_leaf hn
      simp only [nodeType, fieldType, hfield, Option.map_some'] at hpos
      rw [hleaf] at hpos
      simp at hpos

theorem queueStep_progress {env : TypeEnv} {mapFunc : Option (GoString → GoString)}
    {t : TypeId} {cp : Nat → GoString} {anc : Nat → List TypeId} {heap : List FieldInfo}
    {tq : typeQueue} {rest : List typeQueue} {m : List Nat}
    (h : Inv env mapFunc t cp anc ⟨heap, tq :: rest, m⟩)
    (hp : Progress env mapFunc t anc ⟨heap, tq :: rest, m⟩) :
    ∃ st1 cp1 anc1, queueStep env mapFunc heap tq rest m = some st1
      ∧ Inv env mapFunc t cp1 anc1 st1 ∧ Progress env mapFunc t anc1 st1 := by
  obtain ⟨b, hb, hfalse, htrue⟩ := recursiveField_check h
  unfold queueStep
  simp only []
  rw [hb]
  cases b with
  | true => exact ⟨⟨heap, rest, m⟩, cp, anc, rfl, Inv_skip h, Progress_skip hp (htrue rfl)⟩
  | false =>
    simp only []
    rw [fieldLoop_empty]
    obtain ⟨cp1, anc1, hinv1, hold, _⟩ := Inv_expand h (hfalse rfl) _ rfl
    exact ⟨_, cp1, anc1, rfl, hinv1, Progress_expand h hp hold _ rfl⟩

theorem queueLoop_progress {env : TypeEnv} {mapFunc : Option (GoString → GoString)}
    {t : TypeId} :
    ∀ (fuel : Nat) (st st2 : MapState) (cp : Nat → GoString) (anc : Nat → List TypeId),
      Inv env mapFunc t cp anc st → Progress env mapFunc t anc st →
      queueLoop env mapFunc fuel st = some st2 →
      ∃ cp2 anc2, Inv env mapFunc t cp2 anc2 st2 ∧ Progress env mapFunc t anc2 st2
        ∧ st2.queue = [] := by
  intro fuel
  induction fuel with
  | zero =>
    intro st st2 cp anc h hp hl
    obtain ⟨heap, queue, m⟩ := st
    cases queue with
    | nil =>
      rw [queueLoop_nil] at hl
      simp only [Option.some.injEq] at hl
      subst hl
      exact ⟨cp, anc, h, hp, rfl⟩
    | cons tq rest => simp [queueLoop] at hl
  | succ fuel ih =>
    intro st st2 cp anc h hp hl
    obtain ⟨heap, queue, m⟩ := st
    cases queue with
    | nil =>
      rw [queueLoop_nil] at hl
      simp only [Option.some.injEq] at hl
      subst hl
      exact ⟨cp, anc, h, hp, rfl⟩
    | cons tq rest =>
      obtain ⟨st1, cp1, anc1, hstep, hinv1, hp1⟩ := queueStep_progress h hp
      rw [queueLoop, hstep] at hl
      exact ih st1 st2 cp1 anc1 hinv1 hp1 hl

/-- When `getMapping` is done, every node either has the field type of one
of its ancestors or is expanded. -/
theorem getMapping_progress {env : TypeEnv} {mapFunc : Option (GoString → GoString)}
    {t : TypeId} {fuel : Nat} {sm : StructMap} (h : getMapping env mapFunc t fuel = some sm) :
    ∃ cp anc st, Inv env mapFunc t cp anc st ∧ sm.heap = st.heap
      ∧ sm.Index = st.m ∧ sm.Tree = 0
      ∧ sm.Paths = (tablesLoop st.heap st.m (fun _ => none, fun _ => none)).1
      ∧ ∀ E, E < st.heap.length →
          (∃ ty, fieldType (nodeAt st.heap E) = some ty ∧ ty ∈ anc E)
          ∨ Expanded env mapFunc t st.heap E := by
  unfold getMapping at h
  cases hl : queueLoop env mapFunc fuel ⟨[zeroFieldInfo], [⟨Deref env t, 0, []⟩], []⟩ with
  | none => rw [hl] at h; exact absurd h (by simp)
  | some st =>
    rw [hl] at h
    simp only [Option.some.injEq] at h
    subst h
    obtain ⟨cp, anc, hinv, hp, hq⟩ := queueLoop_progress fuel _ st _ _
      (Inv_init env mapFunc t) (Progress_init env mapFunc t _) hl
    refine ⟨cp, anc, st, hinv, rfl, rfl, rfl, rfl, ?_⟩
    intro E hE
    rcases hp E hE with ⟨x, hx, _⟩ | h2 | h3
    · rw [hq] at hx; simp at hx
    · exact Or.inl h2
    · exact Or.inr h3

/-- C25 (counterexample): in `R{X *X}` with `X{V int; Y Y}` and `Y{*X}` the
node 4 is the embedded field `*X` of `Y`, without a tag, below the field `X`
of `R` whose type is `*X` too.  `V` is an exported field of its struct type
and the prefix of its parent is `X.Y`, but the node has no child, no field of
the map has the path `X.Y.V`, and `GetByPath("X.Y.V")` is nil.  And in
`Outer{Inner; X int}` with `Inner{X int}` the field `X` of the embedded
`Inner` is node 3 with the path `X`, but `GetByPath("X")` is node 2, the
field `X` of `Outer`. -/
theorem getMapping_embedded_not_expanded :
    (getMapping embeddedLoopTypes none 4 10).map
        (fun sm => ((nodeAt sm.heap 4).Field, (nodeAt sm.heap 4).Parent,
          (nodeAt sm.heap 3).Path, sm.Index))
        = some (some (embeddedField "X" 3), some 3, bytesOf "X.Y", [1, 2, 3, 4])
      ∧ (structFields embeddedLoopTypes (Deref embeddedLoopTypes 3))[0]?
        = some (plainField "V" 0)
      ∧ (getMapping embeddedLoopTypes none 4 10).map
        (fun sm => (sm.GetByPath (bytesOf "X.Y.V"),
          sm.Index.filter (fun F => (nodeAt sm.heap F).Parent = some 4),
          sm.Index.filter (fun F => (nodeAt sm.heap F).Path = bytesOf "X.Y.V")))
        = some (none, [], [])
      ∧ (getMapping shadowedTypes none 2 10).map
        (fun sm => ((nodeAt sm.heap 1).Field, (nodeAt sm.heap 3).Field,
          (nodeAt sm.heap 3).Parent, (nodeAt sm.heap 3).Path))
        = some (some (embeddedField "Inner" 1), some (plainField "X" 0), some 1, bytesOf "X")
      ∧ (getMapping shadowedTypes none 2 10).map
        (fun sm => (sm.GetByPath (bytesOf "X"), (nodeAt sm.heap 2).Field,
          (nodeAt sm.heap 2).Parent))
        = some (some 2, some (plainField "X" 0), some 0) := by
  refine ⟨by decide, by decide, by decide, by decide, by decide⟩

/-- C25 (amended): in a StructMap made by `getMapping` every node has a path
prefix for its children: empty for the root, the node's own path for a field
that is not anonymous and for an anonymous field with a tag, and the prefix of
the parent for an anonymous field without a tag.  The path of a field is the
prefix of its parent joined with its name.  So for an anonymous field `E` with
the child `F`: without a tag, the path of `F` is the prefix of the parent of
`E` joined with the name of `F`; with a tag, it is the path of `E`, a dot, and
the name of `F`.  `GetByPath` of the path of a field of `Index` returns a
field of `Index` with that path.  And when the type of the anonymous field `E`
is not the type of a field on the way up from its parent, every field of the
struct type of `E` that is not excluded by the name `-` and is exported (or
anonymous) has such a child `F` of `E` in `Index`. -/
theorem getMapping_embedded_paths (env : TypeEnv) (mapFunc : Option (GoString → GoString))
    (t : TypeId) (fuel : Nat) (sm : StructMap)
    (h : getMapping env mapFunc t fuel = some sm) :
    ∃ cp : Nat → GoString, cp sm.Tree = []
      ∧ (∀ F ∈ sm.Index, ∃ E, (nodeAt sm.heap F).Parent = some E
          ∧ (nodeAt sm.heap F).Path = joinPath (cp E) (nodeAt sm.heap F).Name)
      ∧ (∀ E ∈ sm.Index, ∃ fE P, (nodeAt sm.heap E).Field = some fE
          ∧ (nodeAt sm.heap E).Parent = some P
          ∧ (fE.Anonymous = false → cp E = (nodeAt sm.heap E).Path)
          ∧ (fE.Anonymous = true → (parserName mapFunc fE).1 = [] → cp E = cp P)
          ∧ (fE.Anonymous = true → (parserName mapFunc fE).1 ≠ [] →
              cp E = (nodeAt sm.heap E).Path))
      ∧ (∀ E ∈ sm.Index, ∀ F ∈ sm.Index, ∀ fE, (nodeAt sm.heap F).Parent = some E →
          (nodeAt sm.heap E).Field = some fE → fE.Anonymous = true →
          ((parserName mapFunc fE).1 = [] →
            ∃ P, (nodeAt sm.heap E).Parent = some P
              ∧ (nodeAt sm.heap E).Path = joinPath (cp P) (nodeAt sm.heap E).Name
              ∧ (nodeAt sm.heap F).Path = joinPath (cp P) (nodeAt sm.heap F).Name)
          ∧ ((parserName mapFunc fE).1 ≠ [] →
            (nodeAt sm.heap F).Path
              = (nodeAt sm.heap E).Path ++ bytesOf "." ++ (nodeAt sm.heap F).Name))
      ∧ (∀ F ∈ sm.Index, ∃ p ∈ sm.Index, sm.GetByPath (nodeAt sm.heap F).Path = some p
          ∧ (nodeAt sm.heap p).Path = (nodeAt sm.heap F).Path)
      ∧ (∀ E ∈ sm.Index, ∀ fE, (nodeAt sm.heap E).Field = some fE → fE.Anonymous = true →
          fE.Typ ∉ ancestorTypes sm.heap sm.heap.length (nodeAt sm.heap E).Parent →
          ∀ (pos : Nat) (f : StructField),
            (structFields env (Deref env fE.Typ))[pos]? = some f →
            (parserName mapFunc f).2 ≠ bytesOf "-" →
            (f.PkgPath = [] ∨ f.Anonymous = true) →
            ∃ F ∈ sm.Index, (nodeAt sm.heap F).Parent = some E
              ∧ (nodeAt sm.heap F).Field = some f
              ∧ (nodeAt sm.heap F).Name = (parserName mapFunc f).2
              ∧ ((parserName mapFunc fE).1 = [] →
                  ∃ P, (nodeAt sm.heap E).Parent = some P
                    ∧ (nodeAt sm.heap F).Path = joinPath (cp P) (parserName mapFunc f).2)
              ∧ ((parserName mapFunc fE).1 ≠ [] →
                  (nodeAt sm.heap F).Path
                    = (nodeAt sm.heap E).Path ++ bytesOf "." ++ (parserName mapFunc f).2)
              ∧ ∃ p ∈ sm.Index, sm.GetByPath (nodeAt sm.heap F).Path = some p
                  ∧ (nodeAt sm.heap p).Path = (nodeAt sm.heap F).Path) := by
  obtain ⟨cp, anc, st, hinv, hheap, hidx, htree, hpaths, hprog⟩ := getMapping_progress h
  have hwin : ∀ F ∈ st.m, ∃ p ∈ st.m,
      (tablesLoop st.heap st.m (fun _ => none, fun _ => none)).1 (nodeAt st.heap F).Path = some p
        ∧ (nodeAt st.heap p).Path = (nodeAt st.heap F).Path := by
    intro F hF
    obtain ⟨r, hr⟩ := pathWinner_isSome st.heap (nodeAt st.heap F).Path st.m ⟨F, hF, rfl⟩
    have hget : (tablesLoop st.heap st.m (fun _ => none, fun _ => none)).1
        (nodeAt st.heap F).Path = some r := by
      rw [tablesLoop_paths]
      exact hr
    have hent := (tablesLoop_entries st.heap
      (fun k p => p ∈ st.m ∧ (nodeAt st.heap p).Path = k)
      st.m (fun _ => none, fun _ => none) (fun k p hk => absurd hk (by simp))
      (fun k p hk => absurd hk (by simp)) (fun p hp => ⟨hp, rfl⟩)).1 _ r hget
    exact ⟨r, hent.1, hget, hent.2⟩
  have hpair : ∀ E ∈ st.m, ∀ F ∈ st.m, ∀ fE, (nodeAt st.heap F).Parent = some E →
      (nodeAt st.heap E).Field = some fE → fE.Anonymous = true →
      ((parserName mapFunc fE).1 = [] →
        ∃ P, (nodeAt st.heap E).Parent = some P
          ∧ (nodeAt st.heap E).Path = joinPath (cp P) (nodeAt st.heap E).Name
          ∧ (nodeAt st.heap F).Path = joinPath (cp P) (nodeAt st.heap F).Name)
      ∧ ((parserName mapFunc fE).1 ≠ [] →
        (nodeAt st.heap F).Path
          = (nodeAt st.heap E).Path ++ bytesOf "." ++ (nodeAt st.heap F).Name) := by
    intro E hE F hF fE hFE hfield hanon
    obtain ⟨h0, hlt⟩ := (mem_index_iff hinv E).1 hE
    obtain ⟨f, P, pos, hrel⟩ := hinv.nodes E h0 hlt
    obtain ⟨hF0, hFlt⟩ := (mem_index_iff hinv F).1 hF
    obtain ⟨g, P2, pos2, hrelF⟩ := hinv.nodes F hF0 hFlt
    have hfe : f = fE := by
      have := hrel.field.symm.trans hfield
      simpa using this
    subst hfe
    have hP2 : P2 = E := by
      have := hrelF.parent.symm.trans hFE
      simpa using this
    subst hP2
    constructor
    · intro ht
      refine ⟨P, hrel.parent, hrel.path, ?_⟩
      rw [hrelF.path, hrel.childPath, if_pos hanon, if_neg (by simpa using ht)]
    · intro ht
      have hpath := hrelF.path
      rw [hrel.childPath, if_pos hanon, if_pos ht] at hpath
      rw [hpath]
      have hname : (nodeAt st.heap P2).Name ≠ [] := by
        rw [hrel.name]; exact parserName_tag mapFunc f ht
      have hne : (nodeAt st.heap P2).Path ≠ [] := by
        rw [hrel.path]; exact joinPath_ne_nil _ _ hname
      unfold joinPath
      rw [if_neg hne]
  unfold StructMap.GetByPath
  rw [hheap, hidx, htree, hpaths]
  refine ⟨cp, hinv.rootPath, ?_, ?_, hpair, hwin, ?_⟩
  · intro F hF
    obtain ⟨h0, hlt⟩ := (mem_index_iff hinv F).1 hF
    obtain ⟨f, P, pos, hrel⟩ := hinv.nodes F h0 hlt
    exact ⟨P, hrel.parent, hrel.path⟩
  · intro E hE
    obtain ⟨h0, hlt⟩ := (mem_index_iff hinv E).1 hE
    obtain ⟨f, P, pos, hrel⟩ := hinv.nodes E h0 hlt
    refine ⟨f, P, hrel.field, hrel.parent, ?_, ?_, ?_⟩
    · intro ha
      rw [hrel.childPath, if_neg (by simp [ha])]
    · intro ha ht
      rw [hrel.childPath, if_pos ha, if_neg (by simpa using ht)]
    · intro ha ht
      rw [hrel.childPath, if_pos ha, if_pos ht]
  · intro E hE fE hfield hanon hnot pos f hpos hname hexp
    obtain ⟨h0, hlt⟩ := (mem_index_iff hinv E).1 hE
    obtain ⟨f0, P, pos0, hrel⟩ := hinv.nodes E h0 hlt
    have hfe : f0 = fE := by
      have := hrel.field.symm.trans hfield
      simpa using this
    subst hfe
    have hP : P < st.heap.length := Nat.lt_trans hrel.lt hlt
    rcases hprog E hlt with ⟨ty, hty, hmem⟩ | hexpanded
    · exfalso
      apply hnot
      rw [hrel.parent, ancestorTypes_eq hinv P hP st.heap.length (by omega), ← hrel.ancestors]
      simp only [fieldType, hrel.field, Option.map_some', Option.some.injEq] at hty
      rw [hty]
      exact hmem
    · have hnt : nodeType env t (nodeAt st.heap E) = Deref env f0.Typ := by
        simp only [nodeType, fieldType, hrel.field, Option.map_some']
      have hkeep : ¬ (f.PkgPath.length ≠ 0 ∧ f.Anonymous = false) := by
        rintro ⟨hl, ha⟩
        rcases hexp with hp | hp
        · rw [hp] at hl; exact hl rfl
        · rw [hp] at ha; cases ha
      obtain ⟨F, hF0, hFlt, hFpar, hFfield, _⟩ :=
        hexpanded pos f (by rw [hnt]; exact hpos) hname hkeep
      have hFm : F ∈ st.m := (mem_index_iff hinv F).2 ⟨hF0, hFlt⟩
      obtain ⟨g, P2, pos2, hrelF⟩ := hinv.nodes F hF0 hFlt
      have hg : g = f := by
        have := hrelF.field.symm.trans hFfield
        simpa using this
      subst hg
      have hFname : (nodeAt st.heap F).Name = (parserName mapFunc g).2 := hrelF.name
      have hp := hpair E hE F hFm f0 hFpar hrel.field hanon
      refine ⟨F, hFm, hFpar, hFfield, hFname, ?_, ?_, hwin F hFm⟩
      · intro ht
        obtain ⟨P3, hP3, _, hpath⟩ := hp.1 ht
        exact ⟨P3, hP3, by rw [← hFname]; exact hpath⟩
      · intro ht
        rw [← hFname]
        exact hp.2 ht

/-- Witness for C25 (amended): in `RugbyPlayer` of `TestMapping` the field
`ID` of the embedded `Person`, itself inside the embedded `SportsPerson`, has
the path `id` and is found by `GetByPath("id")`; in
`A{A0 *B "A0"; B "A1"; A2 int}` of `TestMapperMethodsByName` the embedded `B`
is tagged `A1`, and its field `B2` has the path `A1.B2` and the traversal
`[1, 2]`. -/
theorem getMapping_embedded_paths_witness :
    (∃ sm, getMapping rugbyTypes (some toLowerASCII) 5 10 = some sm
      ∧ ∃ F ∈ sm.Index, (nodeAt sm.heap F).Path = bytesOf "id"
        ∧ (nodeAt sm.heap F).Parent = some 6
        ∧ ∃ p ∈ sm.Index, sm.GetByPath (bytesOf "id") = some p
          ∧ (nodeAt sm.heap p).Path = bytesOf "id")
    ∧ (∃ sm, getMapping methodsTypes (some (fun n => n)) 7 20 = some sm
      ∧ (nodeAt sm.heap 9).Path = bytesOf "A1" ++ bytesOf "." ++ bytesOf "B2"
      ∧ sm.GetByPath (bytesOf "A1.B2") = some 9
      ∧ (nodeAt sm.heap 9).Index = [1, 2]) := by
  constructor
  · cases hsm : getMapping rugbyTypes (some toLowerASCII) 5 10 with
    | none =>
      have hs : (getMapping rugbyTypes (some toLowerASCII) 5 10).isSome = true := by decide
      rw [hsm] at hs
      exact absurd hs (by simp)
    | some sm =>
      have hf1 : (getMapping rugbyTypes (some toLowerASCII) 5 10).map
          (fun sm => (decide (6 ∈ sm.Index), (nodeAt sm.heap 6).Field, (nodeAt sm.heap 6).Parent,
            decide (3 ∈ sm.Index)))
          = some (true, some (embeddedField "Person" 3), some 3, true) := by decide
      have hf2 : (getMapping rugbyTypes (some toLowerASCII) 5 10).map
          (fun sm => ((nodeAt sm.heap 3).Field, (nodeAt sm.heap 3).Parent, sm.Tree,
            decide ((3 : Nat) ∉ ancestorTypes sm.heap sm.heap.length (nodeAt sm.heap 6).Parent)))
          = some (some (embeddedField "SportsPerson" 4), some 0, 0, true) := by decide
      rw [hsm] at hf1 hf2
      simp only [Option.map_some', Option.some.injEq, Prod.mk.injEq, decide_eq_true_eq]
        at hf1 hf2
      obtain ⟨h6, hfld6, hpar6, h3⟩ := hf1
      obtain ⟨hfld3, hpar3, htree, hanc⟩ := hf2
      obtain ⟨cp, hroot, _, hcp, _, _, hall⟩ :=
        getMapping_embedded_paths rugbyTypes (some toLowerASCII) 5 10 sm hsm
      obtain ⟨F, hF, hFpar, _, _, hpath, _, hget⟩ :=
        hall 6 h6 _ hfld6 rfl hanc 0 (plainField "ID" 0) (by decide) (by decide)
          (Or.inl rfl)
      obtain ⟨P, hP, hFpath⟩ := hpath (by decide)
      have hP3 : P = 3 := by
        rw [hpar6] at hP
        exact (Option.some.inj hP).symm
      subst hP3
      obtain ⟨fE, P0, hfE, hP0, _, hno, _⟩ := hcp 3 h3
      rw [hfld3] at hfE
      rw [hpar3] at hP0
      have hfE2 := Option.some.inj hfE
      have hP02 := Option.some.inj hP0
      subst hfE2
      subst hP02
      have hcp3 : cp 3 = [] := by
        rw [hno rfl (by decide), ← htree, hroot]
      have hid : (nodeAt sm.heap F).Path = bytesOf "id" := by
        rw [hFpath, hcp3]
        decide
      rw [hid] at hget
      exact ⟨sm, rfl, F, hF, hid, hFpar, hget⟩
  · cases hsm : getMapping methodsTypes (some (fun n => n)) 7 20 with
    | none =>
      have hs : (getMapping methodsTypes (some (fun n => n)) 7 20).isSome = true := by decide
      rw [hsm] at hs
      exact absurd hs (by simp)
    | some sm =>
      have hf1 : (getMapping methodsTypes (some (fun n => n)) 7 20).map
          (fun sm => (decide (2 ∈ sm.Index), decide (9 ∈ sm.Index), (nodeAt sm.heap 9).Parent,
            (nodeAt sm.heap 2).Field))
          = some (true, true, some 2, some (embeddedTagged "B" 2 "A1")) := by decide
      have hf2 : (getMapping methodsTypes (some (fun n => n)) 7 20).map
          (fun sm => ((nodeAt sm.heap 2).Path, (nodeAt sm.heap 9).Name,
            sm.GetByPath (bytesOf "A1.B2"), (nodeAt sm.heap 9).Index))
          = some (bytesOf "A1", bytesOf "B2", some 9, [1, 2]) := by decide
      rw [hsm] at hf1 hf2
      simp only [Option.map_some', Option.some.injEq, Prod.mk.injEq, decide_eq_true_eq]
        at hf1 hf2
      obtain ⟨h2, h9, hpar, hfld⟩ := hf1
      obtain ⟨hpath, hname, hget, hidx⟩ := hf2
      obtain ⟨cp, _, _, _, h4, _⟩ :=
        getMapping_embedded_paths methodsTypes (some (fun n => n)) 7 20 sm hsm
      have hdot := (h4 2 h2 9 h9 _ hpar hfld rfl).2 (by decide)
      rw [hpath, hname] at hdot
      exact ⟨sm, rfl, hdot, hget, hidx⟩

theorem traversalLoop_append {ν : Type} (children : ν → List (Option ν)) (ys : List Int) :
    ∀ (xs : List Int) (tree n : ν), traversalLoop children tree xs = Lookup.node n →
      traversalLoop children tree (xs ++ ys) = traversalLoop children n ys := by
  intro xs
  induction xs with
  | nil =>
    intro tree n h
    simp only [traversalLoop, Lookup.node.injEq] at h
    subst h
    rfl
  | cons i rest ih =>
    intro tree n h
    simp only [List.cons_append, traversalLoop] at h ⊢
    by_cases h1 : i ≥ ((children tree).length : Int)
    · rw [if_pos h1] at h; exact absurd h (by simp)
    · rw [if_neg h1] at h ⊢
      by_cases h2 : i < 0
      · rw [if_pos h2] at h; exact absurd h (by simp)
      · rw [if_neg h2] at h ⊢
        cases hc : (children tree)[i.toNat]? with
        | none => rw [hc] at h; exact absurd h (by simp)
        | some c =>
          cases c with
          | none => rw [hc] at h; exact absurd h (by simp)
          | some child =>
            rw [hc] at h
            simp only [] at h ⊢
            exact ih child n h

theorem traversalLoop_reaches {env : TypeEnv} {mapFunc : Option (GoString → GoString)}
    {t : TypeId} {cp : Nat → GoString} {anc : Nat → List TypeId} {st : MapState}
    (h : Inv env mapFunc t cp anc st) :
    ∀ q, q < st.heap.length →
      traversalLoop (fun p => (nodeAt st.heap p).Children) 0 (nodeAt st.heap q).Index
        = Lookup.node q := by
  intro q
  induction q using Nat.strong_induction_on with
  | _ q ih =>
    intro hq
    by_cases h0 : q = 0
    · subst h0
      rw [h.rootIndex]
      rfl
    · obtain ⟨f, P, pos, hrel⟩ := h.nodes q (Nat.pos_of_ne_zero h0) hq
      rw [hrel.index, traversalLoop_append _ _ _ _ _ (ih P hrel.lt (Nat.lt_trans hrel.lt hq))]
      have hpos : pos < (nodeAt st.heap P).Children.length := by
        by_contra hcon
        have := hrel.child
        rw [List.getElem?_eq_none (Nat.le_of_not_lt hcon)] at this
        exact absurd this (by simp)
      simp only [traversalLoop]
      rw [if_neg (by simp only [ge_iff_le, Nat.cast_le]; omega), if_neg (by simp),
        Int.toNat_natCast, hrel.child]

/-- C30: in a StructMap made by `getMapping`, `GetByTraversal(fi.Index)` is
`fi` for every `fi` of `Index`, and `fi.Index` is the `Index` of its parent
followed by the position of the field of `fi` among the fields of the struct
type of the parent, which is also the slot of `fi` in the `Children` of the
parent. -/
theorem getMapping_traversal (env : TypeEnv) (mapFunc : Option (GoString → GoString))
    (t : TypeId) (fuel : Nat) (sm : StructMap)
    (h : getMapping env mapFunc t fuel = some sm) :
    ∀ p ∈ sm.Index, sm.GetByTraversal (nodeAt sm.heap p).Index = Lookup.node p
      ∧ ∃ (P pos : Nat) (f : StructField), (nodeAt sm.heap p).Parent = some P
        ∧ (nodeAt sm.heap p).Field = some f
        ∧ (structFields env (nodeType env t (nodeAt sm.heap P)))[pos]? = some f
        ∧ (nodeAt sm.heap p).Index = (nodeAt sm.heap P).Index ++ [(pos : Int)]
        ∧ (nodeAt sm.heap P).Children[pos]? = some (some p) := by
  obtain ⟨cp, anc, st, hinv, _, hheap, hidx, htree, _, _⟩ := getMapping_inv h
  intro p hp
  rw [hidx] at hp
  obtain ⟨h0, hlt⟩ := (mem_index_iff hinv p).1 hp
  obtain ⟨f, P, pos, hrel⟩ := hinv.nodes p h0 hlt
  unfold StructMap.GetByTraversal GetByTraversal
  rw [hheap, htree]
  refine ⟨?_, P, pos, f, hrel.parent, hrel.field, hrel.fieldPos, hrel.index, hrel.child⟩
  rw [if_neg (by rw [hrel.index]; simp)]
  exact traversalLoop_reaches hinv p hlt

/-- Witness for C30: in `struct{A int "x"; B int "x"}` the field `B` is
shadowed in the path table and is still reached by its traversal `[1]`. -/
theorem getMapping_traversal_witness :
    ∃ sm, getMapping collidingTypes none 1 5 = some sm
      ∧ sm.GetByPath (bytesOf "x") = some 1
      ∧ sm.GetByTraversal [1] = Lookup.node 2 := by
  cases hsm : getMapping collidingTypes none 1 5 with
  | none =>
    have hs : (getMapping collidingTypes none 1 5).isSome = true := by decide
    rw [hsm] at hs
    exact absurd hs (by simp)
  | some sm =>
    have hf : (getMapping collidingTypes none 1 5).map
        (fun sm => (decide (2 ∈ sm.Index), (nodeAt sm.heap 2).Index, sm.GetByPath (bytesOf "x")))
        = some (true, [1], some 1) := by decide
    rw [hsm] at hf
    simp only [Option.map_some', Option.some.injEq, Prod.mk.injEq, decide_eq_true_eq] at hf
    obtain ⟨h2, hidx, hget⟩ := hf
    have hthm := (getMapping_traversal collidingTypes none 1 5 sm hsm 2 h2).1
    rw [hidx] at hthm
    exact ⟨sm, rfl, hget, hthm⟩

theorem index_length {env : TypeEnv} {mapFunc : Option (GoString → GoString)}
    {t : TypeId} {cp : Nat → GoString} {anc : Nat → List TypeId} {st : MapState}
    (h : Inv env mapFunc t cp anc st) :
    ∀ q, q < st.heap.length →
      (nodeAt st.heap q).Index.length = (chainTypes st.heap anc q).length := by
  intro q
  induction q using Nat.strong_induction_on with
  | _ q ih =>
    intro hq
    by_cases h0 : q = 0
    · subst h0
      rw [h.rootIndex, chainTypes_root h]
      rfl
    · obtain ⟨f, P, pos, hrel⟩ := h.nodes q (Nat.pos_of_ne_zero h0) hq
      rw [hrel.index, chainTypes_node hrel, List.length_append,
        ih P hrel.lt (Nat.lt_trans hrel.lt hq)]
      rfl

/-- C26: with `fuelBound env` iterations or more, the queue loop of
`getMapping` ends and a StructMap is returned, for every type of every
environment.  In it a node whose field type is the field type of one of its
ancestors has no child; the field types on the way up from the parent of any
node are pairwise distinct; and the traversal of a node is no longer than the
number of distinct field types plus one. -/
theorem getMapping_terminates (env : TypeEnv) (mapFunc : Option (GoString → GoString))
    (t : TypeId) (fuel : Nat) (hfuel : fuelBound env ≤ fuel) :
    ∃ sm, getMapping env mapFunc t fuel = some sm
      ∧ (∀ q ∈ sm.Index, ∀ ty, fieldType (nodeAt sm.heap q) = some ty →
          ty ∈ ancestorTypes sm.heap sm.heap.length (nodeAt sm.heap q).Parent →
          ∀ c ∈ sm.Index, (nodeAt sm.heap c).Parent ≠ some q)
      ∧ (∀ c ∈ sm.Index,
          (ancestorTypes sm.heap sm.heap.length (nodeAt sm.heap c).Parent).Nodup
          ∧ (nodeAt sm.heap c).Index.length ≤ distinctFieldTypes env + 1) := by
  obtain ⟨sm, hsm⟩ := getMapping_total env mapFunc t fuel hfuel
  obtain ⟨cp, anc, st, hinv, _, hheap, hidx, _, _, _⟩ := getMapping_inv hsm
  refine ⟨sm, hsm, ?_, ?_⟩
  · rw [hheap, hidx]
    intro q hq ty hty hmem c hc hpar
    obtain ⟨hq0, hqlt⟩ := (mem_index_iff hinv q).1 hq
    obtain ⟨hc0, hclt⟩ := (mem_index_iff hinv c).1 hc
    obtain ⟨f, P, pos, hrel⟩ := hinv.nodes q hq0 hqlt
    obtain ⟨g, P2, pos2, hrelc⟩ := hinv.nodes c hc0 hclt
    have hP2 : P2 = q := by
      have := hrelc.parent.symm.trans hpar
      simpa using this
    subst hP2
    have hnd := hrelc.nodup
    rw [hrelc.ancestors, chainTypes_node hrel] at hnd
    rw [hrel.parent, ancestorTypes_eq hinv P (Nat.lt_trans hrel.lt hqlt) st.heap.length
      (by have := hrel.lt; omega)] at hmem
    have hf : ty = f.Typ := by
      have := hty.symm.trans (show fieldType (nodeAt st.heap P2) = some f.Typ by
        simp only [fieldType, hrel.field]; rfl)
      simpa using this
    subst hf
    exact (List.nodup_cons.1 hnd).1 hmem
  · rw [hheap, hidx]
    intro c hc
    obtain ⟨hc0, hclt⟩ := (mem_index_iff hinv c).1 hc
    obtain ⟨g, P, pos, hrel⟩ := hinv.nodes c hc0 hclt
    have hanc : ancestorTypes st.heap st.heap.length (nodeAt st.heap c).Parent = anc c := by
      rw [hrel.parent, ancestorTypes_eq hinv P (Nat.lt_trans hrel.lt hclt) st.heap.length
        (by have := hrel.lt; omega), hrel.ancestors]
    refine ⟨by rw [hanc]; exact hrel.nodup, ?_⟩
    rw [index_length hinv c hclt, chainTypes_node hrel, ← hrel.ancestors, List.length_cons]
    have := nodup_length_le env (anc c) hrel.nodup hrel.known
    omega

/-- Witness for C26: `T{Next *T}` refers to itself; three iterations are
enough, the mapping has the two nodes `Next` and `Next.Next`, both of type
`*T`, and `Next.Next` is not expanded. -/
theorem getMapping_terminates_witness :
    ∃ sm, getMapping selfTypes none 0 3 = some sm
      ∧ sm.Index = [1, 2]
      ∧ (nodeAt sm.heap 2).Path = bytesOf "Next.Next"
      ∧ (∀ c ∈ sm.Index, (nodeAt sm.heap c).Parent ≠ some 2)
      ∧ (∀ c ∈ sm.Index, (nodeAt sm.heap c).Index.length ≤ 2) := by
  obtain ⟨sm, hsm, h2, h3⟩ := getMapping_terminates selfTypes none 0 3 (by decide)
  have hf : (getMapping selfTypes none 0 3).map
      (fun sm => (sm.Index, (nodeAt sm.heap 2).Path, fieldType (nodeAt sm.heap 2),
        decide (1 ∈ ancestorTypes sm.heap sm.heap.length (nodeAt sm.heap 2).Parent)))
      = some ([1, 2], bytesOf "Next.Next", some 1, true) := by decide
  rw [hsm] at hf
  simp only [Option.map_some', Option.some.injEq, Prod.mk.injEq, decide_eq_true_eq] at hf
  obtain ⟨hidx, hpath, hty, hmem⟩ := hf
  refine ⟨sm, hsm, hidx, hpath, h2 2 (by rw [hidx]; decide) 1 hty hmem, ?_⟩
  intro c hc
  exact (h3 c hc).2

end Reflectx

/-! ## named.go: names, errors and the bind type -/

theorem compileBody_erase (bt1 bt2 : Int) (pc isLast : Bool) (i : Nat) (b : UInt8)
    (s1 s2 : CompileState) (h : eraseState s1 = eraseState s2) :
    eraseStep (compileBody bt1 pc isLast i b s1) = eraseStep (compileBody bt2 pc isLast i b s2) := by
  obtain ⟨in1, n1, rb1, ns1, cv1⟩ := s1
  obtain ⟨in2, n2, rb2, ns2, cv2⟩ := s2
  simp only [eraseState, CompileState.mk.injEq, and_true, true_and] at h
  obtain ⟨hin, hname, hnames⟩ := h
  subst hin hname hnames
  unfold compileBody
  simp only []
  split_ifs <;> rfl

theorem compileAux_names_indep (bt1 bt2 : Int) (rest : GoString) :
    ∀ (pc : Bool) (i : Nat) (s1 s2 : CompileState), eraseState s1 = eraseState s2 →
      (compileAux bt1 pc i rest s1).names = (compileAux bt2 pc i rest s2).names
        ∧ (compileAux bt1 pc i rest s1).err = (compileAux bt2 pc i rest s2).err := by
  induction rest with
  | nil =>
    intro pc i s1 s2 h
    simp only [compileAux]
    exact ⟨(congrArg CompileState.names h : (eraseState s1).names = (eraseState s2).names), trivial⟩
  | cons b rest ih =>
    intro pc i s1 s2 h
    simp only [compileAux]
    have hbody := compileBody_erase bt1 bt2 pc rest.isEmpty i b s1 s2 h
    cases h1 : compileBody bt1 pc rest.isEmpty i b s1 with
    | next t1 =>
      cases h2 : compileBody bt2 pc rest.isEmpty i b s2 with
      | next t2 =>
        rw [h1, h2] at hbody
        simp only [eraseStep, CompileStep.next.injEq] at hbody
        exact ih _ _ t1 t2 hbody
      | ret r2 =>
        rw [h1, h2] at hbody
        exact absurd hbody (by simp [eraseStep])
    | ret r1 =>
      cases h2 : compileBody bt2 pc rest.isEmpty i b s2 with
      | next t2 =>
        rw [h1, h2] at hbody
        exact absurd hbody (by simp [eraseStep])
      | ret r2 =>
        rw [h1, h2] at hbody
        simp only [eraseStep, CompileStep.ret.injEq, CompileResult.mk.injEq, true_and] at hbody
        exact hbody

/-- C37: for every template and any two bind types, `compileNamedQuery`
returns the same name list and the same error (nil or not, and the same
text). -/
theorem compileNamedQuery_names_indep (qs : GoString) (bt1 bt2 : Int) :
    (compileNamedQuery qs bt1).names = (compileNamedQuery qs bt2).names
      ∧ (compileNamedQuery qs bt1).err = (compileNamedQuery qs bt2).err
      ∧ ((compileNamedQuery qs bt1).err = none ↔ (compileNamedQuery qs bt2).err = none) := by
  rw [compileNamedQuery_eq_aux, compileNamedQuery_eq_aux]
  have h := compileAux_names_indep bt1 bt2 qs false 0 ⟨false, [], [], [], 1⟩
    ⟨false, [], [], [], 1⟩ rfl
  exact ⟨h.1, h.2, by rw [h.2]⟩

/-! ## named.go: the bytes of a name -/

theorem compileBody_name_bytes (bindType : Int) (pc isLast : Bool) (i : Nat) (b : UInt8)
    (s : CompileState) (hname : ∀ c ∈ s.name, isBindNameByte c = true)
    (hnames : ∀ n ∈ s.names, ∀ c ∈ n, isBindNameByte c = true) :
    (∀ r, compileBody bindType pc isLast i b s = .ret r →
        ∀ n ∈ r.names, ∀ c ∈ n, isBindNameByte c = true)
      ∧ (∀ t, compileBody bindType pc isLast i b s = .next t →
        (∀ c ∈ t.name, isBindNameByte c = true)
          ∧ ∀ n ∈ t.names, ∀ c ∈ n, isBindNameByte c = true) := by
  have hext : ∀ (ok : isBindNameByte b = true), ∀ c ∈ s.name ++ [b], isBindNameByte c = true := by
    intro ok c hc
    rcases List.mem_append.1 hc with h | h
    · exact hname c h
    · rw [List.mem_singleton.1 h]; exact ok
  have hadd : ∀ (nm : GoString), (∀ c ∈ nm, isBindNameByte c = true) →
      ∀ n ∈ s.names ++ [nm], ∀ c ∈ n, isBindNameByte c = true := by
    intro nm hnm n hn
    rcases List.mem_append.1 hn with h | h
    · exact hnames n h
    · rw [List.mem_singleton.1 h]; exact hnm
  have hnm : ∀ c ∈ (if (isLast && allowedBindRune b) = true then s.name ++ [b] else s.name),
      isBindNameByte c = true := by
    by_cases hl : (isLast && allowedBindRune b) = true
    · rw [if_pos hl]
      simp only [Bool.and_eq_true] at hl
      exact hext (by simp [isBindNameByte, hl.2])
    · rw [if_neg hl]
      exact hname
  unfold compileBody
  simp only []
  by_cases h1 : b = 58
  · rw [if_pos h1]
    by_cases h2 : (s.inName && pc) = true
    · rw [if_pos h2]
      refine ⟨fun r hr => (by cases hr), fun t ht => ?_⟩
      cases ht
      exact ⟨hname, hnames⟩
    · rw [if_neg h2]
      by_cases h3 : s.inName = true
      · rw [if_pos h3]
        refine ⟨fun r hr => ?_, fun t ht => by cases ht⟩
        cases hr
        exact hnames
      · rw [if_neg h3]
        refine ⟨fun r hr => (by cases hr), fun t ht => ?_⟩
        cases ht
        exact ⟨fun c hc => by simp at hc, hnames⟩
  · rw [if_neg h1]
    by_cases h4 : (s.inName && decide (i > 0) && decide (b = 61)
        && decide (s.name.length = 0)) = true
    · rw [if_pos h4]
      refine ⟨fun r hr => (by cases hr), fun t ht => ?_⟩
      cases ht
      exact ⟨hname, hnames⟩
    · rw [if_neg h4]
      by_cases h5 : (s.inName && (allowedBindRune b || decide (b = 95) || decide (b = 46))
          && !isLast) = true
      · rw [if_pos h5]
        refine ⟨fun r hr => (by cases hr), fun t ht => ?_⟩
        cases ht
        have ok : isBindNameByte b = true := by
          simp only [Bool.and_eq_true] at h5
          exact h5.1.2
        exact ⟨hext ok, hnames⟩
      · rw [if_neg h5]
        by_cases h6 : s.inName = true
        · rw [if_pos h6]
          refine ⟨fun r hr => (by cases hr), fun t ht => ?_⟩
          cases ht
          exact ⟨hnm, hadd _ hnm⟩
        · rw [if_neg h6]
          refine ⟨fun r hr => (by cases hr), fun t ht => ?_⟩
          cases ht
          exact ⟨hname, hnames⟩

theorem compileAux_name_bytes (bindType : Int) (rest : GoString) :
    ∀ (pc : Bool) (i : Nat) (s : CompileState),
      (∀ c ∈ s.name, isBindNameByte c = true) →
      (∀ n ∈ s.names, ∀ c ∈ n, isBindNameByte c = true) →
      ∀ n ∈ (compileAux bindType pc i rest s).names, ∀ c ∈ n, isBindNameByte c = true := by
  induction rest with
  | nil =>
    intro pc i s _ hnames
    simp only [compileAux]
    exact hnames
  | cons b rest ih =>
    intro pc i s hname hnames
    simp only [compileAux]
    have hbody := compileBody_name_bytes bindType pc rest.isEmpty i b s hname hnames
    cases h1 : compileBody bindType pc rest.isEmpty i b s with
    | next t =>
      obtain ⟨h2, h3⟩ := hbody.2 t h1
      exact ih _ _ t h2 h3
    | ret r => exact hbody.1 r h1

/-- C36 (counterexample): the template `: x` compiles without error and its
name list holds the empty name. -/
theorem compileNamedQuery_empty_name :
    compileNamedQuery (bytesOf ": x") Binder.QUESTION = ⟨bytesOf "? x", [[]], none⟩ := by
  decide

/-- C36 (amended): when `compileNamedQuery` succeeds, every byte of every
name of its name list passes the test of the loop for a name byte: it is a
letter or a digit as a rune, an underscore or a dot. -/
theorem compileNamedQuery_name_bytes (qs : GoString) (bindType : Int)
    (_hok : (compileNamedQuery qs bindType).err = none) :
    ∀ n ∈ (compileNamedQuery qs bindType).names, ∀ c ∈ n, isBindNameByte c = true := by
  rw [compileNamedQuery_eq_aux]
  exact compileAux_name_bytes bindType qs false 0 ⟨false, [], [], [], 1⟩
    (fun c hc => by simp at hc) (fun n hn => by simp at hn)

/-- Witness for C36: the names of `:a_1 = :b.c` are `a_1` and `b.c`. -/
theorem compileNamedQuery_name_bytes_witness :
    (compileNamedQuery (bytesOf ":a_1 = :b.c") Binder.DOLLAR).names
        = [bytesOf "a_1", bytesOf "b.c"]
      ∧ ∀ n ∈ (compileNamedQuery (bytesOf ":a_1 = :b.c") Binder.DOLLAR).names,
          ∀ c ∈ n, isBindNameByte c = true :=
  ⟨by decide, compileNamedQuery_name_bytes (bytesOf ":a_1 = :b.c") Binder.DOLLAR (by decide)⟩

/-! ## named.go: the matching bracket -/

theorem depth_take_succ (s : GoString) (k : Nat) (c : UInt8) (hc : s[k]? = some c) :
    depth (s.take (k + 1))
      = depth (s.take k) + ((if c = 40 then 1 else 0) - (if c = 41 then 1 else 0)) := by
  induction s generalizing k with
  | nil => simp at hc
  | cons a s ih =>
    cases k with
    | zero =>
      simp only [List.getElem?_cons_zero, Option.some.injEq] at hc
      subst hc
      simp only [List.take_succ_cons, List.take_zero]
      rw [depth_cons]
      simp [depth]
    | succ k =>
      simp only [List.getElem?_cons_succ] at hc
      simp only [List.take_succ_cons]
      rw [depth_cons, depth_cons, ih k hc]
      omega

/-- The first balanced prefix of a text that starts with `(`: before it the
depth is at least one, and it ends with `)`. -/
theorem first_balanced (s : GoString) (hs : s[0]? = some 40) (k : Nat) (hk0 : 0 < k)
    (hk : k ≤ s.length) (hbal : depth (s.take k) = 0)
    (hmin : ∀ j, 0 < j → j < k → depth (s.take j) ≠ 0) :
    (∀ j, 0 < j → j < k → 1 ≤ depth (s.take j)) ∧ s[k - 1]? = some 41 ∧ 2 ≤ k := by
  have hone : depth (s.take 1) = 1 := by
    have := depth_take_succ s 0 40 hs
    simpa [depth] using this
  have hpos : ∀ j, 0 < j → j < k → 1 ≤ depth (s.take j) := by
    intro j
    induction j with
    | zero => intro h; omega
    | succ j ih =>
      intro _ hjk
      by_cases hj0 : j = 0
      · subst hj0
        rw [show 0 + 1 = 1 from rfl]
        omega
      · have h1 := ih (Nat.pos_of_ne_zero hj0) (by omega)
        have hlt : j < s.length := by omega
        have hstep := depth_take_succ s j s[j] (List.getElem?_eq_getElem hlt)
        have hne := hmin (j + 1) (by omega) hjk
        split_ifs at hstep <;> omega
  have hk2 : 2 ≤ k := by
    by_contra hcon
    have : k = 1 := by omega
    subst this
    omega
  refine ⟨hpos, ?_, hk2⟩
  have hlt : k - 1 < s.length := by omega
  have hstep := depth_take_succ s (k - 1) s[k - 1] (List.getElem?_eq_getElem hlt)
  rw [show k - 1 + 1 = k by omega, hbal] at hstep
  have hprev := hpos (k - 1) (by omega) (by omega)
  rw [List.getElem?_eq_getElem hlt]
  by_cases h41 : s[k - 1] = 41
  · rw [h41]
  · rw [if_neg h41] at hstep
    split_ifs at hstep <;> omega

theorem findMatching_first_balanced (s : GoString) (hs : s[0]? = some 40) (k : Nat)
    (hk0 : 0 < k) (hk : k ≤ s.length) (hbal : depth (s.take k) = 0)
    (hmin : ∀ j, 0 < j → j < k → depth (s.take j) ≠ 0) :
    findMatchingClosingBracketIndex s = k - 1 := by
  obtain ⟨hpos, hlast, hk2⟩ := first_balanced s hs k hk0 hk hbal hmin
  have hsplit : s = s.take k ++ s.drop k := (List.take_append_drop k s).symm
  have hG : BalancedGroup (s.take k) := by
    refine ⟨(s.take (k - 1)).drop 1, ?_, ?_, ?_⟩
    · apply List.ext_getElem?
      intro n
      by_cases hn0 : n = 0
      · subst hn0
        rw [List.getElem?_take_of_lt (by omega), hs]
        simp
      · obtain ⟨m, rfl⟩ : ∃ m, n = m + 1 := ⟨n - 1, by omega⟩
        rw [List.getElem?_cons_succ]
        by_cases hm : m + 1 < k - 1
        · rw [List.getElem?_take_of_lt (by omega),
            List.getElem?_append_left (by simp; omega), List.getElem?_drop,
            List.getElem?_take_of_lt (by omega)]
          congr 1; omega
        · by_cases hm2 : m + 1 = k - 1
          · rw [List.getElem?_take_of_lt (by omega),
              List.getElem?_append_right (by simp; omega)]
            have hlen : ((s.take (k - 1)).drop 1).length = k - 2 := by simp; omega
            rw [hlen, hm2, hlast, show m - (k - 2) = 0 by omega]
            rfl
          · rw [List.getElem?_eq_none (by simp; omega), List.getElem?_eq_none (by simp; omega)]
    · have h1 : depth (s.take (k - 1)) = 1 := by
        have hlt : k - 1 < s.length := by omega
        have hstep := depth_take_succ s (k - 1) 41 hlast
        rw [show k - 1 + 1 = k by omega, hbal] at hstep
        have : ((41 : UInt8) = 40) = False := by decide
        simp only [this, if_false, if_true] at hstep
        omega
      have hform : s.take (k - 1) = 40 :: (s.take (k - 1)).drop 1 := by
        have hne : (s.take (k - 1))[0]? = some 40 := by
          rw [List.getElem?_take_of_lt (by omega)]; exact hs
        cases hl : s.take (k - 1) with
        | nil => rw [hl] at hne; simp at hne
        | cons a r =>
          rw [hl] at hne
          simp only [List.getElem?_cons_zero, Option.some.injEq] at hne
          subst hne
          rfl
      rw [hform, depth_cons] at h1
      have : ((40 : UInt8) = 41) = False := by decide
      simp only [this, if_false, if_true] at h1
      omega
    · intro j hj
      have hlen : ((s.take (k - 1)).drop 1).length = k - 2 := by simp; omega
      rw [hlen] at hj
      have hp := hpos (j + 1) (by omega) (by omega)
      have hform : s.take (j + 1) = 40 :: ((s.take (k - 1)).drop 1).take j := by
        apply List.ext_getElem?
        intro n
        by_cases hn0 : n = 0
        · subst hn0
          rw [List.getElem?_take_of_lt (by omega), hs]
          simp
        · obtain ⟨m, rfl⟩ : ∃ m, n = m + 1 := ⟨n - 1, by omega⟩
          rw [List.getElem?_cons_succ]
          by_cases hm : m < j
          · rw [List.getElem?_take_of_lt (by omega), List.getElem?_take_of_lt hm,
              List.getElem?_drop, List.getElem?_take_of_lt (by omega)]
            congr 1; omega
          · rw [List.getElem?_eq_none (by simp; omega), List.getElem?_eq_none (by simp; omega)]
      rw [hform, depth_cons] at hp
      have : ((40 : UInt8) = 41) = False := by decide
      simp only [this, if_false, if_true] at hp
      omega
  have hres := findMatching_group (s.take k) (s.drop k) hG
  rw [← hsplit] at hres
  rw [hres, List.length_take]
  congr 1
  omega

/-- C40: for a text `s` that starts with `(`: when no non-empty prefix of `s`
has as many `)` as `(`, `findMatchingClosingBracketIndex(s)` is 0; otherwise
it is an index `r > 0` with `s[r] = ')'` and as many `)` as `(` in
`s[0..r]`, and the smallest such index. -/
theorem findMatching_spec (s : GoString) (hs : s[0]? = some 40) :
    ((∀ k, 0 < k → k ≤ s.length → depth (s.take k) ≠ 0) →
        findMatchingClosingBracketIndex s = 0)
      ∧ ((∃ k, 0 < k ∧ k ≤ s.length ∧ depth (s.take k) = 0) →
          0 < findMatchingClosingBracketIndex s
            ∧ s[findMatchingClosingBracketIndex s]? = some 41
            ∧ depth (s.take (findMatchingClosingBracketIndex s + 1)) = 0
            ∧ ∀ r, 0 < r → s[r]? = some 41 → depth (s.take (r + 1)) = 0 →
                findMatchingClosingBracketIndex s ≤ r) := by
  constructor
  · intro h
    unfold findMatchingClosingBracketIndex
    exact findMatchingLoop_unbalanced s 0 0 (fun k hk0 hk => by
      have := h k hk0 hk
      omega)
  · intro hex
    classical
    let P : Nat → Prop := fun k => 0 < k ∧ k ≤ s.length ∧ depth (s.take k) = 0
    have hexP : ∃ k, P k := hex
    obtain ⟨hk0, hk, hbal⟩ := Nat.find_spec hexP
    have hmin : ∀ j, 0 < j → j < Nat.find hexP → depth (s.take j) ≠ 0 := by
      intro j hj0 hj hcon
      exact Nat.find_min hexP hj ⟨hj0, by omega, hcon⟩
    obtain ⟨_, hlast, hk2⟩ := first_balanced s hs _ hk0 hk hbal hmin
    rw [findMatching_first_balanced s hs _ hk0 hk hbal hmin]
    refine ⟨by omega, hlast, ?_, ?_⟩
    · rw [show Nat.find hexP - 1 + 1 = Nat.find hexP by omega]
      exact hbal
    · intro r hr0 hr hd
      have hrlt : r < s.length := by
        by_contra hcon
        rw [List.getElem?_eq_none (by omega)] at hr
        exact absurd hr (by simp)
      have := Nat.find_min' hexP (show P (r + 1) from ⟨by omega, by omega, hd⟩)
      omega

/-- Witness for C40: in `(a(b))c` the bracket at index 5 balances the first
one, and in `((a)` none does. -/
theorem findMatching_spec_witness :
    findMatchingClosingBracketIndex (bytesOf "(a(b))c") = 5
      ∧ findMatchingClosingBracketIndex (bytesOf "((a)") = 0
      ∧ ∀ r, 0 < r → (bytesOf "(a(b))c")[r]? = some 41 →
          depth ((bytesOf "(a(b))c").take (r + 1)) = 0 →
          findMatchingClosingBracketIndex (bytesOf "(a(b))c") ≤ r :=
  ⟨by decide, by decide,
    ((findMatching_spec (bytesOf "(a(b))c") (by decide)).2 ⟨6, by decide, by decide, by decide⟩).2.2.2⟩

/-! ## named.go: one map bound as an array -/

theorem emitBindvar_unknown (name : GoString) (cv : Nat) :
    emitBindvar Binder.UNKNOWN name cv = emitBindvar Binder.QUESTION name cv := by
  simp [emitBindvar, Binder.UNKNOWN, Binder.QUESTION, Binder.NAMED]

theorem compileBody_unknown (pc isLast : Bool) (i : Nat) (b : UInt8) (s : CompileState) :
    compileBody Binder.UNKNOWN pc isLast i b s = compileBody Binder.QUESTION pc isLast i b s := by
  unfold compileBody
  simp only [emitBindvar_unknown]

theorem compileAux_unknown (rest : GoString) :
    ∀ (pc : Bool) (i : Nat) (s : CompileState),
      compileAux Binder.UNKNOWN pc i rest s = compileAux Binder.QUESTION pc i rest s := by
  induction rest with
  | nil => intro pc i s; rfl
  | cons b rest ih =>
    intro pc i s
    simp only [compileAux, compileBody_unknown]
    cases compileBody Binder.QUESTION pc rest.isEmpty i b s with
    | next t => exact ih _ _ t
    | ret r => rfl

/-- What `compileNamedQuery` returns for one of the bind types QUESTION,
UNKNOWN, DOLLAR and AT on a template without `?`, in terms of the compilation
for QUESTION and of `Rebind`. -/
theorem compileNamedQuery_via_question (q : GoString) (bindType : Int)
    (hq : (63 : UInt8) ∉ q)
    (hbt : bindType = Binder.QUESTION ∨ bindType = Binder.UNKNOWN ∨ bindType = Binder.DOLLAR
      ∨ bindType = Binder.AT) :
    (compileNamedQuery q bindType).names = (compileNamedQuery q Binder.QUESTION).names
      ∧ (compileNamedQuery q bindType).err = (compileNamedQuery q Binder.QUESTION).err
      ∧ Binder.Rebind bindType (compileNamedQuery q Binder.QUESTION).query
          = some (compileNamedQuery q bindType).query := by
  rcases hbt with rfl | rfl | hbt
  · exact ⟨rfl, rfl, rfl⟩
  · rw [compileNamedQuery_eq_aux, compileNamedQuery_eq_aux, compileAux_unknown]
    exact ⟨rfl, rfl, rfl⟩
  · have hbt2 : bindType = Binder.DOLLAR ∨ bindType = Binder.AT := hbt
    have h := toBind_aux hbt2 q false 0 ⟨false, [], [], [], 1⟩ hq
    have hinit : ({ (⟨false, [], [], [], 1⟩ : CompileState) with
        rebound := Binder.replaceMarks bindType 1 [],
        currentVar := 1 + Binder.countMarks [] } : CompileState) = ⟨false, [], [], [], 1⟩ := rfl
    rw [hinit] at h
    have hb3 : bindType = Binder.DOLLAR ∨ bindType = Binder.NAMED ∨ bindType = Binder.AT := by
      rcases hbt2 with h1 | h1
      · exact Or.inl h1
      · exact Or.inr (Or.inr h1)
    rw [Rebind_eq_replaceMarks hb3, compileNamedQuery_eq_aux q bindType,
      compileNamedQuery_eq_aux q Binder.QUESTION, h]
    exact ⟨rfl, rfl, rfl⟩

/-- C35 (counterexample): for NAMED and the template `:a`, `bindMap` returns
the query `:a` and `bindArray` on the one-element sequence returns `:arg1`. -/
theorem bindArray_named_differs :
    bindMap Binder.NAMED (bytesOf ":a")
        (fun n => if n = bytesOf "a" then some (7 : Nat) else none)
        = ⟨bytesOf ":a", [7], none⟩
      ∧ bindArray Binder.NAMED (bytesOf ":a")
          [Source.map (fun n => if n = bytesOf "a" then some (7 : Nat) else none)]
        = some ⟨bytesOf ":arg1", [7], none⟩ := by
  constructor <;> decide

/-- C35 (amended): for the bind types QUESTION, UNKNOWN, DOLLAR and AT, a
template without `?` and a map on which `bindMap` succeeds, `bindArray` on the
one-element sequence of that map returns what `bindMap` returns: the same
query, the same arguments and no error. -/
theorem bindArray_single_map {α : Type} (bindType : Int) (template : GoString)
    (m : GoString → Option α) (hq : (63 : UInt8) ∉ template)
    (hbt : bindType = Binder.QUESTION ∨ bindType = Binder.UNKNOWN ∨ bindType = Binder.DOLLAR
      ∨ bindType = Binder.AT)
    (hok : (bindMap bindType template m).err = none) :
    bindArray bindType template [Source.map m] = some (bindMap bindType template m) := by
  obtain ⟨hnames, herr, hre⟩ := compileNamedQuery_via_question template bindType hq hbt
  unfold bindMap at hok ⊢
  simp only [] at hok ⊢
  cases hc : (compileNamedQuery template bindType).err with
  | some e =>
    rw [hc] at hok
    exact absurd hok (by simp)
  | none =>
    rw [hc] at hok
    simp only [] at hok ⊢
    have hcq : (compileNamedQuery template Binder.QUESTION).err = none := by
      rw [← herr]; exact hc
    unfold bindArray
    simp only [hcq, List.length_singleton, Nat.one_ne_zero, if_false, bindArrayLoop,
      bindAnyArgs, List.nil_append, gt_iff_lt, Nat.lt_irrefl]
    rw [← hnames]
    cases hargs : bindMapArgs (compileNamedQuery template bindType).names m with
    | mk args err =>
      rw [hargs] at hok
      simp only [] at hok
      subst hok
      simp only []
      by_cases hqn : bindType = Binder.QUESTION
      · subst hqn
        simp
      · rw [if_pos hqn, hre]
        rfl

/-- Witness for C35: the template `a = :a` with DOLLAR. -/
theorem bindArray_single_map_witness :
    bindArray Binder.DOLLAR (bytesOf "a = :a")
        [Source.map (fun n => if n = bytesOf "a" then some (7 : Nat) else none)]
      = some ⟨bytesOf "a = $1", [7], none⟩ :=
  (bindArray_single_map Binder.DOLLAR (bytesOf "a = :a")
    (fun n => if n = bytesOf "a" then some (7 : Nat) else none) (by decide) (by decide)
    (by decide)).trans (by decide)

/-! ## types: theorems -/

namespace Types

/-- C33: `Value()` returns `[1]` for true and `[0]` for false with a nil
error, and `Scan` of that value returns nil and stores the same boolean,
whatever the receiver held before. -/
theorem BitBool_roundtrip (b old : BitBool) :
    BitBool.Value b = (if b = true then [1] else [0], none)
      ∧ BitBool.Scan old (Src.bytes (BitBool.Value b).1) = Outcome.ret b none := by
  cases b <;> cases old <;> decide

/-- C38: on a byte sequence without bytes, empty or nil, `Scan` evaluates
`v[0]` and panics; a source that is no byte sequence gives
`ErrBadBitBoolSource`, and a byte sequence with a first byte is handled. -/
theorem BitBool_Scan_empty (b : BitBool) :
    BitBool.Scan b (Src.bytes []) = Outcome.fault
      ∧ (∀ s, BitBool.Scan b (Src.str s) = Outcome.ret b (some TypesError.ErrBadBitBoolSource))
      ∧ BitBool.Scan b Src.null = Outcome.ret b (some TypesError.ErrBadBitBoolSource)
      ∧ BitBool.Scan b Src.other = Outcome.ret b (some TypesError.ErrBadBitBoolSource)
      ∧ (∀ v0 rest, BitBool.Scan b (Src.bytes (v0 :: rest)) = Outcome.ret (decide (v0 = 1)) none) :=
  ⟨rfl, fun _ => rfl, rfl, rfl, fun _ _ => rfl⟩

/-- C39: `Scan(nil)` returns nil and leaves the empty text in `*j`, not
`EmptyJSON`: the assignment `*j = EmptyJSON` of the nil case is followed by
`*j = append((*j)[0:0], source...)` with a nil `source`.  Scanning an empty
byte sequence leaves `EmptyJSON`. -/
theorem JSONText_Scan_nil (j : JSONText) :
    JSONText.Scan j Src.null = ([], none)
      ∧ JSONText.Scan j (Src.bytes []) = (EmptyJSON, none)
      ∧ EmptyJSON ≠ [] := by
  refine ⟨rfl, ?_, by decide⟩
  simp [JSONText.Scan]

end Types

/-! ## binder/bind.go: RebindBuff and Rebind -/

namespace Binder

theorem ofNat_toNat_byte (a : UInt8) : UInt8.ofNat a.toNat = a := by
  apply UInt8.eq_of_toBitVec_eq
  simp [UInt8.ofNat, UInt8.toNat]

theorem ofNat_eq_of_toNat {a : UInt8} {n : Nat} (h : n = a.toNat) : UInt8.ofNat n = a := by
  rw [h]; exact ofNat_toNat_byte a

theorem byte_ne_mark {a : UInt8} (h : a.toNat ≠ 63) : (63 : UInt8) ≠ a := by
  intro hcon
  apply h
  rw [← hcon]
  rfl

theorem wellFormed_cases (s : GoString) (h : wellFormed s = true) :
    (∃ a, s = [a] ∧ a.toNat < 0x80)
      ∨ (∃ a b, s = [a, b] ∧ 0xC2 ≤ a.toNat ∧ a.toNat ≤ 0xDF ∧ 0x80 ≤ b.toNat ∧ b.toNat ≤ 0xBF)
      ∨ (∃ a b c, s = [a, b, c]
          ∧ ((a.toNat = 0xE0 ∧ 0xA0 ≤ b.toNat ∧ b.toNat ≤ 0xBF)
            ∨ (0xE1 ≤ a.toNat ∧ a.toNat ≤ 0xEC ∧ 0x80 ≤ b.toNat ∧ b.toNat ≤ 0xBF)
            ∨ (a.toNat = 0xED ∧ 0x80 ≤ b.toNat ∧ b.toNat ≤ 0x9F)
            ∨ (0xEE ≤ a.toNat ∧ a.toNat ≤ 0xEF ∧ 0x80 ≤ b.toNat ∧ b.toNat ≤ 0xBF))
          ∧ 0x80 ≤ c.toNat ∧ c.toNat ≤ 0xBF)
      ∨ (∃ a b c d, s = [a, b, c, d]
          ∧ ((a.toNat = 0xF0 ∧ 0x90 ≤ b.toNat ∧ b.toNat ≤ 0xBF)
            ∨ (0xF1 ≤ a.toNat ∧ a.toNat ≤ 0xF3 ∧ 0x80 ≤ b.toNat ∧ b.toNat ≤ 0xBF)
            ∨ (a.toNat = 0xF4 ∧ 0x80 ≤ b.toNat ∧ b.toNat ≤ 0x8F))
          ∧ 0x80 ≤ c.toNat ∧ c.toNat ≤ 0xBF ∧ 0x80 ≤ d.toNat ∧ d.toNat ≤ 0xBF) := by
  match s, h with
  | [], h => simp [wellFormed] at h
  | [a], h =>
    left
    simp only [wellFormed, List.map_cons, List.map_nil, decide_eq_true_eq] at h
    exact ⟨a, rfl, h⟩
  | [a, b], h =>
    right; left
    simp only [wellFormed, List.map_cons, List.map_nil, Bool.and_eq_true, decide_eq_true_eq] at h
    exact ⟨a, b, rfl, h.1.1.1, h.1.1.2, h.1.2, h.2⟩
  | [a, b, c], h =>
    right; right; left
    simp only [wellFormed, List.map_cons, List.map_nil, Bool.and_eq_true, Bool.or_eq_true,
      decide_eq_true_eq] at h
    refine ⟨a, b, c, rfl, ?_, h.1.2, h.2⟩
    rcases h.1.1 with ((h1 | h1) | h1) | h1
    · exact Or.inl ⟨h1.1.1, h1.1.2, h1.2⟩
    · exact Or.inr (Or.inl ⟨h1.1.1.1, h1.1.1.2, h1.1.2, h1.2⟩)
    · exact Or.inr (Or.inr (Or.inl ⟨h1.1.1, h1.1.2, h1.2⟩))
    · exact Or.inr (Or.inr (Or.inr ⟨h1.1.1.1, h1.1.1.2, h1.1.2, h1.2⟩))
  | [a, b, c, d], h =>
    right; right; right
    simp only [wellFormed, List.map_cons, List.map_nil, Bool.and_eq_true, Bool.or_eq_true,
      decide_eq_true_eq] at h
    refine ⟨a, b, c, d, rfl, ?_, h.1.1.1.2, h.1.1.2, h.1.2, h.2⟩
    rcases h.1.1.1.1 with (h1 | h1) | h1
    · exact Or.inl ⟨h1.1.1, h1.1.2, h1.2⟩
    · exact Or.inr (Or.inl ⟨h1.1.1.1, h1.1.1.2, h1.1.2, h1.2⟩)
    · exact Or.inr (Or.inr ⟨h1.1.1, h1.1.2, h1.2⟩)
  | _ :: _ :: _ :: _ :: _ :: _, h => simp [wellFormed] at h


theorem decode_one (a : Nat) (rest : List Nat) (h : a < 0x80) :
    decodeRuneNat (a :: rest) = (a, 1) := by
  simp only [decodeRuneNat]
  rw [if_pos h]

theorem decode_two (a b : Nat) (rest : List Nat) (h1 : 0xC2 ≤ a) (h2 : a ≤ 0xDF)
    (h3 : 0x80 ≤ b) (h4 : b ≤ 0xBF) :
    decodeRuneNat (a :: b :: rest) = (a % 32 * 64 + b % 64, 2) := by
  have hl : leadInfo a = some (2, 0x80, 0xBF) := by
    unfold leadInfo
    rw [if_pos ⟨h1, h2⟩]
  simp only [decodeRuneNat, hl, List.length_cons]
  rw [if_neg (by omega), if_neg (by omega), if_neg (by omega), if_pos (by omega)]

theorem decode_three (a b c : Nat) (rest : List Nat)
    (hab : (a = 0xE0 ∧ 0xA0 ≤ b ∧ b ≤ 0xBF) ∨ (0xE1 ≤ a ∧ a ≤ 0xEC ∧ 0x80 ≤ b ∧ b ≤ 0xBF)
      ∨ (a = 0xED ∧ 0x80 ≤ b ∧ b ≤ 0x9F) ∨ (0xEE ≤ a ∧ a ≤ 0xEF ∧ 0x80 ≤ b ∧ b ≤ 0xBF))
    (h3 : 0x80 ≤ c) (h4 : c ≤ 0xBF) :
    decodeRuneNat (a :: b :: c :: rest) = (a % 16 * 4096 + b % 64 * 64 + c % 64, 3) := by
  obtain ⟨lo, hi, hl, hlo, hhi⟩ : ∃ lo hi, leadInfo a = some (3, lo, hi) ∧ lo ≤ b ∧ b ≤ hi := by
    rcases hab with h | h | h | h
    · exact ⟨0xA0, 0xBF, by unfold leadInfo; rw [if_neg (by omega), if_pos h.1], h.2.1, h.2.2⟩
    · exact ⟨0x80, 0xBF, by
        unfold leadInfo
        rw [if_neg (by omega), if_neg (by omega), if_pos (Or.inl ⟨h.1, h.2.1⟩)], h.2.2.1, h.2.2.2⟩
    · exact ⟨0x80, 0x9F, by
        unfold leadInfo
        rw [if_neg (by omega), if_neg (by omega), if_neg (by omega), if_pos h.1], h.2.1, h.2.2⟩
    · exact ⟨0x80, 0xBF, by
        unfold leadInfo
        rw [if_neg (by omega), if_neg (by omega), if_pos (by omega)], h.2.2.1, h.2.2.2⟩
  have ha : ¬ a < 0x80 := by rcases hab with h | h | h | h <;> omega
  simp only [decodeRuneNat, hl, List.length_cons]
  rw [if_neg ha, if_neg (by omega), if_neg (by omega), if_neg (by omega), if_neg (by omega),
    if_pos (by omega)]

theorem decode_four (a b c d : Nat) (rest : List Nat)
    (hab : (a = 0xF0 ∧ 0x90 ≤ b ∧ b ≤ 0xBF) ∨ (0xF1 ≤ a ∧ a ≤ 0xF3 ∧ 0x80 ≤ b ∧ b ≤ 0xBF)
      ∨ (a = 0xF4 ∧ 0x80 ≤ b ∧ b ≤ 0x8F))
    (h3 : 0x80 ≤ c) (h4 : c ≤ 0xBF) (h5 : 0x80 ≤ d) (h6 : d ≤ 0xBF) :
    decodeRuneNat (a :: b :: c :: d :: rest)
      = (a % 8 * 262144 + b % 64 * 4096 + c % 64 * 64 + d % 64, 4) := by
  obtain ⟨lo, hi, hl, hlo, hhi⟩ : ∃ lo hi, leadInfo a = some (4, lo, hi) ∧ lo ≤ b ∧ b ≤ hi := by
    rcases hab with h | h | h
    · exact ⟨0x90, 0xBF, by
        unfold leadInfo
        rw [if_neg (by omega), if_neg (by omega), if_neg (by omega), if_neg (by omega),
          if_pos h.1], h.2.1, h.2.2⟩
    · exact ⟨0x80, 0xBF, by
        unfold leadInfo
        rw [if_neg (by omega), if_neg (by omega), if_neg (by omega), if_neg (by omega),
          if_neg (by omega), if_pos ⟨h.1, h.2.1⟩], h.2.2.1, h.2.2.2⟩
    · exact ⟨0x80, 0x8F, by
        unfold leadInfo
        rw [if_neg (by omega), if_neg (by omega), if_neg (by omega), if_neg (by omega),
          if_neg (by omega), if_neg (by omega), if_pos h.1], h.2.1, h.2.2⟩
  have ha : ¬ a < 0x80 := by rcases hab with h | h | h <;> omega
  simp only [decodeRuneNat, hl, List.length_cons]
  rw [if_neg ha, if_neg (by omega), if_neg (by omega), if_neg (by omega), if_neg (by omega),
    if_neg (by omega), if_neg (by omega)]

/-- Decoding a well-formed sequence takes all of it, and encoding the rune
gives the sequence back; the rune is `?` only for the one byte `?`, and no
other well-formed sequence holds that byte. -/
theorem DecodeRune_wellFormed (s rest : GoString) (h : wellFormed s = true) :
    (DecodeRune (s ++ rest)).2 = s.length
      ∧ AppendRune (DecodeRune (s ++ rest)).1 = s
      ∧ 0 < s.length
      ∧ ((DecodeRune (s ++ rest)).1 = 63 → s = [63])
      ∧ ((DecodeRune (s ++ rest)).1 ≠ 63 → (63 : UInt8) ∉ s) := by
  rcases wellFormed_cases s h with ⟨a, rfl, ha⟩ | ⟨a, b, rfl, h1, h2, h3, h4⟩
    | ⟨a, b, c, rfl, hab, h3, h4⟩ | ⟨a, b, c, d, rfl, hab, h3, h4, h5, h6⟩
  · have hd : DecodeRune ([a] ++ rest) = (a.toNat, 1) := by
      simp only [DecodeRune, List.singleton_append, List.map_cons]
      exact decode_one _ _ ha
    rw [hd]
    refine ⟨rfl, ?_, by simp, ?_, ?_⟩
    · unfold AppendRune
      rw [if_pos ha, ofNat_toNat_byte]
    · intro h63
      simp only [] at h63
      rw [← ofNat_toNat_byte a, h63]
      rfl
    · intro hne
      simp only [List.mem_singleton]
      exact byte_ne_mark hne
  · have hd : DecodeRune ([a, b] ++ rest) = (a.toNat % 32 * 64 + b.toNat % 64, 2) := by
      simp only [DecodeRune, List.cons_append, List.nil_append, List.map_cons]
      exact decode_two _ _ _ h1 h2 h3 h4
    rw [hd]
    refine ⟨rfl, ?_, by simp, ?_, ?_⟩
    · unfold AppendRune
      simp only []
      rw [if_neg (by omega), if_pos (by omega),
        ofNat_eq_of_toNat (show 0xC0 + (a.toNat % 32 * 64 + b.toNat % 64) / 64 = a.toNat by omega),
        ofNat_eq_of_toNat (show 0x80 + (a.toNat % 32 * 64 + b.toNat % 64) % 64 = b.toNat by omega)]
    · intro h63
      simp only [] at h63
      omega
    · intro _
      simp only [List.mem_cons, List.mem_singleton, List.not_mem_nil, or_false, not_or]
      exact ⟨byte_ne_mark (by omega), byte_ne_mark (by omega)⟩
  · have hd : DecodeRune ([a, b, c] ++ rest)
        = (a.toNat % 16 * 4096 + b.toNat % 64 * 64 + c.toNat % 64, 3) := by
      simp only [DecodeRune, List.cons_append, List.nil_append, List.map_cons]
      exact decode_three _ _ _ _ hab h3 h4
    rw [hd]
    have hA : 0xE0 ≤ a.toNat ∧ a.toNat ≤ 0xEF ∧ 0x80 ≤ b.toNat ∧ b.toNat ≤ 0xBF := by
      rcases hab with h | h | h | h <;> omega
    have hlow : 0x800 ≤ a.toNat % 16 * 4096 + b.toNat % 64 * 64 + c.toNat % 64 := by
      rcases hab with h | h | h | h <;> omega
    have hsur : ¬ (0xD800 ≤ a.toNat % 16 * 4096 + b.toNat % 64 * 64 + c.toNat % 64
        ∧ a.toNat % 16 * 4096 + b.toNat % 64 * 64 + c.toNat % 64 ≤ 0xDFFF) := by
      rcases hab with h | h | h | h <;> omega
    refine ⟨rfl, ?_, by simp, ?_, ?_⟩
    · unfold AppendRune
      simp only []
      rw [if_neg (by omega), if_neg (by omega), if_neg (by omega), if_pos (by omega),
        ofNat_eq_of_toNat (show 0xE0
          + (a.toNat % 16 * 4096 + b.toNat % 64 * 64 + c.toNat % 64) / 4096 = a.toNat by omega),
        ofNat_eq_of_toNat (show 0x80
          + (a.toNat % 16 * 4096 + b.toNat % 64 * 64 + c.toNat % 64) / 64 % 64 = b.toNat by omega),
        ofNat_eq_of_toNat (show 0x80
          + (a.toNat % 16 * 4096 + b.toNat % 64 * 64 + c.toNat % 64) % 64 = c.toNat by omega)]
    · intro h63
      simp only [] at h63
      omega
    · intro _
      simp only [List.mem_cons, List.mem_singleton, List.not_mem_nil, or_false, not_or]
      exact ⟨byte_ne_mark (by omega), byte_ne_mark (by omega), byte_ne_mark (by omega)⟩
  · have hd : DecodeRune ([a, b, c, d] ++ rest)
        = (a.toNat % 8 * 262144 + b.toNat % 64 * 4096 + c.toNat % 64 * 64 + d.toNat % 64, 4) := by
      simp only [DecodeRune, List.cons_append, List.nil_append, List.map_cons]
      exact decode_four _ _ _ _ _ hab h3 h4 h5 h6
    rw [hd]
    have hA : 0xF0 ≤ a.toNat ∧ a.toNat ≤ 0xF4 ∧ 0x80 ≤ b.toNat ∧ b.toNat ≤ 0xBF := by
      rcases hab with h | h | h <;> omega
    have hlow : 0x10000
        ≤ a.toNat % 8 * 262144 + b.toNat % 64 * 4096 + c.toNat % 64 * 64 + d.toNat % 64 := by
      rcases hab with h | h | h <;> omega
    have hhigh : a.toNat % 8 * 262144 + b.toNat % 64 * 4096 + c.toNat % 64 * 64 + d.toNat % 64
        ≤ 0x10FFFF := by
      rcases hab with h | h | h <;> omega
    refine ⟨rfl, ?_, by simp, ?_, ?_⟩
    · unfold AppendRune
      simp only []
      rw [if_neg (by omega), if_neg (by omega), if_neg (by omega), if_neg (by omega),
        ofNat_eq_of_toNat (show 0xF0
          + (a.toNat % 8 * 262144 + b.toNat % 64 * 4096 + c.toNat % 64 * 64 + d.toNat % 64)
            / 262144 = a.toNat by omega),
        ofNat_eq_of_toNat (show 0x80
          + (a.toNat % 8 * 262144 + b.toNat % 64 * 4096 + c.toNat % 64 * 64 + d.toNat % 64)
            / 4096 % 64 = b.toNat by omega),
        ofNat_eq_of_toNat (show 0x80
          + (a.toNat % 8 * 262144 + b.toNat % 64 * 4096 + c.toNat % 64 * 64 + d.toNat % 64)
            / 64 % 64 = c.toNat by omega),
        ofNat_eq_of_toNat (show 0x80
          + (a.toNat % 8 * 262144 + b.toNat % 64 * 4096 + c.toNat % 64 * 64 + d.toNat % 64)
            % 64 = d.toNat by omega)]
    · intro h63
      simp only [] at h63
      omega
    · intro _
      simp only [List.mem_cons, List.mem_singleton, List.not_mem_nil, or_false, not_or]
      exact ⟨byte_ne_mark (by omega), byte_ne_mark (by omega), byte_ne_mark (by omega),
        byte_ne_mark (by omega)⟩


theorem RebindBuffLoop_nil (fuel j : Nat) (rqb : GoString) :
    RebindBuffLoop fuel [] j rqb = some rqb := by
  cases fuel <;> rfl

theorem RebindBuffLoop_valid (seqs : List GoString) :
    ∀ (fuel j : Nat) (rqb : GoString), (∀ s ∈ seqs, wellFormed s = true) →
      seqs.flatten.length ≤ fuel →
      RebindBuffLoop fuel seqs.flatten j rqb
        = some (rqb ++ replaceMarks DOLLAR j seqs.flatten) := by
  induction seqs with
  | nil =>
    intro fuel j rqb _ _
    rw [List.flatten_nil, RebindBuffLoop_nil]
    simp [replaceMarks]
  | cons s seqs ih =>
    intro fuel j rqb hwf hfuel
    obtain ⟨hw, happ, hpos, h63, hne⟩ :=
      DecodeRune_wellFormed s seqs.flatten (hwf s (List.mem_cons_self _ _))
    have hrest : ∀ t ∈ seqs, wellFormed t = true := fun t ht => hwf t (List.mem_cons_of_mem _ ht)
    rw [List.flatten_cons] at hfuel ⊢
    rw [List.length_append] at hfuel
    obtain ⟨b, s1, hs⟩ : ∃ b s1, s = b :: s1 := by
      cases s with
      | nil => simp at hpos
      | cons b s1 => exact ⟨b, s1, rfl⟩
    obtain ⟨f, rfl⟩ : ∃ f, fuel = f + 1 := ⟨fuel - 1, by omega⟩
    have hform : s ++ seqs.flatten = b :: (s1 ++ seqs.flatten) := by rw [hs]; rfl
    have hdrop : (s ++ seqs.flatten).drop s.length = seqs.flatten := List.drop_left _ _
    rw [hform] at hw happ h63 hne hdrop ⊢
    rw [RebindBuffLoop, hw, hdrop]
    by_cases hr : (DecodeRune (b :: (s1 ++ seqs.flatten))).1 = 63
    · rw [if_pos hr, ih f (j + 1) _ hrest (by omega)]
      have hs63 := h63 hr
      rw [hs] at hs63
      simp only [List.cons.injEq] at hs63
      obtain ⟨hb, hs1⟩ := hs63
      subst hb hs1
      have hph : dialectPlaceholder DOLLAR j = AppendRune 36 ++ Itoa j := by
        simp only [dialectPlaceholder, if_true]
        rfl
      simp only [List.nil_append, replaceMarks, if_true, hph, List.append_assoc]
    · rw [if_neg hr, ih f j _ hrest (by omega), happ]
      have hno := hne hr
      rw [← hform, replaceMarks_append_gen, replaceMarks_of_not_mem _ _ hno,
        countMarks_eq_zero hno, Nat.add_zero, List.append_assoc]

/-- What `RebindBuff` returns for DOLLAR on a valid UTF-8 query: every `?`
replaced by `$` and its running number. -/
theorem RebindBuff_dollar (q : GoString) (hq : ValidUTF8 q) :
    RebindBuff DOLLAR q = some (replaceMarks DOLLAR 1 q) := by
  obtain ⟨seqs, hwf, rfl⟩ := hq
  unfold RebindBuff
  rw [if_neg (by simp), RebindBuffLoop_valid seqs _ 1 [] hwf (Nat.le_refl _)]
  rfl

end Binder

/-- C34: for every query that is valid UTF-8, `RebindBuff(DOLLAR, query)` and
`Rebind(DOLLAR, query)` return the same string, the query with `$1`, `$2`, ...
for its `?` bytes. -/
theorem RebindBuff_dollar_agrees (q : GoString) (hq : Binder.ValidUTF8 q) :
    Binder.RebindBuff Binder.DOLLAR q = Binder.Rebind Binder.DOLLAR q
      ∧ Binder.Rebind Binder.DOLLAR q = some (Binder.replaceMarks Binder.DOLLAR 1 q) := by
  have h := Rebind_eq_replaceMarks (Or.inl rfl : Binder.DOLLAR = Binder.DOLLAR
    ∨ Binder.DOLLAR = Binder.NAMED ∨ Binder.DOLLAR = Binder.AT) q
  exact ⟨(Binder.RebindBuff_dollar q hq).trans h.symm, h⟩

/-- Witness for C34: a query with a two-byte and a three-byte character. -/
theorem RebindBuff_dollar_agrees_witness :
    Binder.RebindBuff Binder.DOLLAR (bytesOf "é = ? AND ∀ = ?")
      = Binder.Rebind Binder.DOLLAR (bytesOf "é = ? AND ∀ = ?") :=
  (RebindBuff_dollar_agrees (bytesOf "é = ? AND ∀ = ?")
    ⟨[bytesOf "é", bytesOf " ", bytesOf "=", bytesOf " ", bytesOf "?", bytesOf " ",
        bytesOf "A", bytesOf "N", bytesOf "D", bytesOf " ", bytesOf "∀", bytesOf " ",
        bytesOf "=", bytesOf " ", bytesOf "?"], by decide, by decide⟩).1

/-- C32 (counterexample): for NAMED, `RebindBuff` returns the query `?`
unchanged where `Rebind` returns `:arg1`; for DOLLAR and the byte 0xFF, which
is no valid UTF-8, `RebindBuff` writes U+FFFD where `Rebind` keeps the byte. -/
theorem RebindBuff_ne_Rebind :
    Binder.RebindBuff Binder.NAMED (bytesOf "?") = some (bytesOf "?")
      ∧ Binder.Rebind Binder.NAMED (bytesOf "?") = some (bytesOf ":arg1")
      ∧ Binder.RebindBuff Binder.DOLLAR [0xFF] = some [0xEF, 0xBF, 0xBD]
      ∧ Binder.Rebind Binder.DOLLAR [0xFF] = some [0xFF] := by
  refine ⟨by decide, by decide, by decide, by decide⟩

/-- C32 (amended): `RebindBuff(bindType, query)` returns the same string as
`Rebind(bindType, query)` for QUESTION and UNKNOWN and every query, and for
DOLLAR and every query that is valid UTF-8. -/
theorem RebindBuff_eq_Rebind (bindType : Int) (q : GoString)
    (h : bindType = Binder.QUESTION ∨ bindType = Binder.UNKNOWN
      ∨ (bindType = Binder.DOLLAR ∧ Binder.ValidUTF8 q)) :
    Binder.RebindBuff bindType q = Binder.Rebind bindType q := by
  rcases h with rfl | rfl | ⟨rfl, hq⟩
  · rfl
  · rfl
  · rw [Binder.RebindBuff_dollar q hq]
    exact (Rebind_eq_replaceMarks (Or.inl rfl) q).symm

/-- Witness for C32: DOLLAR and an ASCII query. -/
theorem RebindBuff_eq_Rebind_witness :
    Binder.RebindBuff Binder.DOLLAR (bytesOf "a=?")
      = Binder.Rebind Binder.DOLLAR (bytesOf "a=?") :=
  RebindBuff_eq_Rebind Binder.DOLLAR (bytesOf "a=?")
    (Or.inr (Or.inr ⟨rfl, [bytesOf "a", bytesOf "=", bytesOf "?"], by decide, by decide⟩))

/-! ## rows.go and row.go: a column without a field -/

theorem missingFields_find (resolve : GoString → List Int) (columns : List GoString)
    (c : GoString)
    (h : columns.find? (fun x => decide ((resolve x).length = 0)) = some c) :
    ∃ f, missingFields (TraversalsByName resolve columns) = some f ∧ columns.getD f [] = c := by
  unfold TraversalsByName
  induction columns with
  | nil => simp at h
  | cons x rest ih =>
    rw [List.find?_cons] at h
    by_cases hx : (resolve x).length = 0
    · simp only [hx, decide_True, Option.some.injEq] at h
      subst h
      exact ⟨0, by simp [missingFields, hx], rfl⟩
    · simp only [hx, decide_False] at h
      obtain ⟨f, hf, hc⟩ := ih h
      refine ⟨f + 1, ?_, ?_⟩
      · simp only [List.map_cons, missingFields]
        rw [if_neg hx, hf]
        rfl
      · simpa using hc

theorem Rows_scanRow_err {ε τ : Type} (sqlRows : SqlRows ε) (r : Rows) (dest : Dest τ)
    (col : GoString) (ty : τ) :
    (Rows.scanRow sqlRows r dest).err ≠ some (ScanError.missingDestination col ty) := by
  unfold Rows.scanRow fieldsByTraversal
  by_cases hs : dest.isStruct = true
  · simp only [hs, Bool.not_true, Bool.false_eq_true, if_false]
    cases sqlRows.Scan _ with
    | some e => simp
    | none =>
      cases sqlRows.Err with
      | none => simp
      | some e => simp
  · simp [hs]

theorem Row_Scan_err {ε τ : Type} (lenient : Bool) (sqlRows : SqlRows ε)
    (isRawBytes : Target → Bool) (values : List Target) (col : GoString) (ty : τ) :
    (Row.Scan (⟨none, lenient, some sqlRows⟩ : Row ε τ) sqlRows isRawBytes values).err
      ≠ some (ScanError.missingDestination col ty) := by
  unfold Row.Scan
  simp only []
  split_ifs
  · simp
  · cases sqlRows.Err <;> simp
  · cases sqlRows.Scan values with
    | some e => simp
    | none => cases sqlRows.Close <;> simp

/-- C31: on the first call of `Rows.StructScan` and in `Row.scanAny`, with a
non-nil pointer to a destination that is not scannable and a column list whose
first column without a field is `c`: when `unsafe` is false the call returns
the error `missing destination name c in T` for the type `T` of the
destination and nothing is handed to `Scan`; when `unsafe` is true the call
goes on with `fieldsByTraversal` and `Scan` and never returns that error, and
for a record destination the targets, with a throw-away target for each
column without a field, are handed to `Scan`. -/
theorem StructScan_missing_column {ε τ : Type} (sqlRows : SqlRows ε)
    (resolve : GoString → List Int) (isRawBytes : Target → Bool) (dest : Dest τ)
    (columns : List GoString) (c : GoString)
    (hptr : dest.isPointer = true) (hnil : dest.isNil = false)
    (hscan : dest.scannable = false)
    (hcols : sqlRows.Columns = .ok columns)
    (hmiss : columns.find? (fun x => decide ((resolve x).length = 0)) = some c) :
    (∀ fields values,
        Rows.StructScan sqlRows resolve ⟨false, false, fields, values⟩ dest
          = Run.ret ⟨some (ScanError.missingDestination c dest.typ),
              ⟨false, false, TraversalsByName resolve columns, values⟩, none⟩)
      ∧ (∀ fields values,
          Rows.StructScan sqlRows resolve ⟨true, false, fields, values⟩ dest
            = Run.ret (Rows.scanRow sqlRows
                ⟨true, true, TraversalsByName resolve columns,
                  List.replicate columns.length Target.blank⟩ dest)
          ∧ (∀ col ty, (Rows.scanRow sqlRows
                ⟨true, true, TraversalsByName resolve columns,
                  List.replicate columns.length Target.blank⟩ dest).err
              ≠ some (ScanError.missingDestination col ty))
          ∧ (dest.isStruct = true →
              (Rows.scanRow sqlRows
                ⟨true, true, TraversalsByName resolve columns,
                  List.replicate columns.length Target.blank⟩ dest).scanned
                = some ((TraversalsByName resolve columns).map
                    (fun t => if t.length = 0 then Target.discard else Target.field t))))
      ∧ (∀ structOnly,
          Row.scanAny (⟨none, false, some sqlRows⟩ : Row ε τ) resolve isRawBytes dest structOnly
            = ⟨some (ScanError.missingDestination c dest.typ), none, none⟩)
      ∧ (∀ structOnly,
          (∀ col ty,
            (Row.scanAny (⟨none, true, some sqlRows⟩ : Row ε τ) resolve isRawBytes dest
              structOnly).err ≠ some (ScanError.missingDestination col ty))
          ∧ (dest.isStruct = true →
              Row.scanAny (⟨none, true, some sqlRows⟩ : Row ε τ) resolve isRawBytes dest
                structOnly
                = Row.Scan (⟨none, true, some sqlRows⟩ : Row ε τ) sqlRows isRawBytes
                    ((TraversalsByName resolve columns).map
                      (fun t => if t.length = 0 then Target.discard else Target.field t)))) := by
  obtain ⟨f, hf, hc⟩ := missingFields_find resolve columns c hmiss
  refine ⟨?_, ?_, ?_, ?_⟩
  · intro fields values
    simp only [Rows.StructScan, hptr, hnil, hcols, hf, hc, Bool.not_true, Bool.not_false,
      Bool.false_eq_true, if_false, if_true]
  · intro fields values
    refine ⟨?_, fun col ty => Rows_scanRow_err _ _ _ col ty, ?_⟩
    · simp only [Rows.StructScan, hptr, hnil, hcols, hf, Bool.not_true, Bool.not_false,
        Bool.false_eq_true, if_false, if_true]
    · intro hs
      simp only [Rows.scanRow, fieldsByTraversal, hs, Bool.not_true, Bool.false_eq_true,
        if_false]
      cases sqlRows.Scan _ <;> rfl
  · intro structOnly
    simp only [Row.scanAny, Row.Columns, hptr, hnil, hscan, hcols, hf, hc, Bool.not_true,
      Bool.not_false, Bool.false_eq_true, Bool.and_false, Bool.false_and, if_false, if_true]
  · intro structOnly
    have hrun : Row.scanAny (⟨none, true, some sqlRows⟩ : Row ε τ) resolve isRawBytes dest
        structOnly
        = match (fieldsByTraversal dest (TraversalsByName resolve columns) :
            Except (ScanError ε τ) (List Target)) with
          | .error e => ⟨some e, none, none⟩
          | .ok values => Row.Scan (⟨none, true, some sqlRows⟩ : Row ε τ) sqlRows isRawBytes
              values := by
      simp only [Row.scanAny, Row.Columns, hptr, hnil, hscan, hcols, hf, Bool.not_true,
        Bool.not_false, Bool.false_eq_true, Bool.and_false, Bool.false_and, if_false,
        if_true]
    rw [hrun]
    constructor
    · intro col ty
      unfold fieldsByTraversal
      by_cases hs : dest.isStruct = true
      · simp only [hs, Bool.not_true, Bool.false_eq_true, if_false]
        exact Row_Scan_err true sqlRows isRawBytes _ col ty
      · simp [hs]
    · intro hs
      simp only [fieldsByTraversal, hs, Bool.not_true, Bool.false_eq_true, if_false]

/-- Witness for C31: the columns `id` and `extra` and a record with a field
for `id` only. -/
theorem StructScan_missing_column_witness :
    Row.scanAny (⟨none, false, some ⟨.ok [bytesOf "id", bytesOf "extra"], true, none,
        fun _ => none, none⟩⟩ : Row String String)
      (fun x => if x = bytesOf "id" then [0] else []) (fun _ => false)
      ⟨true, false, "*Person", "Person", false, true⟩ true
      = ⟨some (ScanError.missingDestination (bytesOf "extra") "*Person"), none, none⟩ :=
  (StructScan_missing_column
    (⟨.ok [bytesOf "id", bytesOf "extra"], true, none, fun _ => none, none⟩ : SqlRows String)
    (fun x => if x = bytesOf "id" then [0] else []) (fun _ => false)
    (⟨true, false, "*Person", "Person", false, true⟩ : Dest String)
    [bytesOf "id", bytesOf "extra"] (bytesOf "extra") rfl rfl rfl rfl (by decide)).2.2.1 true

/-! ## named.go: runes and bytes in the bracket loop -/

theorem decodeRuneNat_shape (a : Nat) (rest : List Nat) :
    ((Binder.decodeRuneNat (a :: rest)).2 = 1
        ∧ ((Binder.decodeRuneNat (a :: rest)).1 = a ∧ a < 0x80
          ∨ (Binder.decodeRuneNat (a :: rest)).1 = Binder.RuneError ∧ 0x80 ≤ a))
      ∨ (0x80 ≤ a ∧ 0x80 ≤ (Binder.decodeRuneNat (a :: rest)).1
        ∧ 2 ≤ (Binder.decodeRuneNat (a :: rest)).2
        ∧ (Binder.decodeRuneNat (a :: rest)).2 ≤ rest.length + 1
        ∧ ∀ x ∈ rest.take ((Binder.decodeRuneNat (a :: rest)).2 - 1), 0x80 ≤ x) := by
  by_cases ha : a < 0x80
  · left
    simp only [Binder.decodeRuneNat, if_pos ha]
    exact ⟨trivial, Or.inl ⟨trivial, ha⟩⟩
  · have hbad : ((Binder.RuneError, 1) : Nat × Nat).2 = 1
        ∧ ((((Binder.RuneError, 1) : Nat × Nat).1 = a ∧ a < 0x80)
          ∨ (((Binder.RuneError, 1) : Nat × Nat).1 = Binder.RuneError ∧ 0x80 ≤ a)) :=
      ⟨rfl, Or.inr ⟨rfl, by omega⟩⟩
    simp only [Binder.decodeRuneNat, if_neg ha]
    cases hl : Binder.leadInfo a with
    | none => exact Or.inl hbad
    | some info =>
      obtain ⟨sz, lo, hi⟩ := info
      have hinfo : 0xC2 ≤ a ∧ a ≤ 0xF4 ∧ 0x80 ≤ lo ∧ hi ≤ 0xBF ∧ 2 ≤ sz ∧ sz ≤ 4
          ∧ (sz = 2 → a ≤ 0xDF) ∧ (sz = 3 → 0xE0 ≤ a ∧ a ≤ 0xEF ∧ (a = 0xE0 → 0xA0 ≤ lo))
          ∧ (sz = 4 → 0xF0 ≤ a ∧ (a = 0xF0 → 0x90 ≤ lo)) := by
        unfold Binder.leadInfo at hl
        split_ifs at hl <;> simp only [Option.some.injEq, Prod.mk.injEq] at hl <;>
          obtain ⟨rfl, rfl, rfl⟩ := hl <;> omega
      simp only []
      by_cases hlen : rest.length + 1 < sz
      · rw [if_pos hlen]; exact Or.inl hbad
      · rw [if_neg hlen]
        cases rest with
        | nil => exact Or.inl hbad
        | cons s1 rest1 =>
          simp only []
          by_cases h1 : s1 < lo ∨ hi < s1
          · rw [if_pos h1]; exact Or.inl hbad
          · rw [if_neg h1]
            by_cases hsz2 : sz ≤ 2
            · rw [if_pos hsz2]
              right
              refine ⟨by omega, ?_, by simp, by simp, ?_⟩
              · simp only []; omega
              · intro x hx
                simp only [Nat.add_one_sub_one, List.take_succ_cons, List.take_zero,
                  List.mem_singleton] at hx
                omega
            · rw [if_neg hsz2]
              cases rest1 with
              | nil => exact Or.inl hbad
              | cons s2 rest2 =>
                simp only []
                by_cases h2 : s2 < 0x80 ∨ 0xBF < s2
                · rw [if_pos h2]; exact Or.inl hbad
                · rw [if_neg h2]
                  by_cases hsz3 : sz ≤ 3
                  · rw [if_pos hsz3]
                    right
                    have hs3 : sz = 3 := by omega
                    refine ⟨by omega, ?_, by simp, by simp, ?_⟩
                    · simp only []; omega
                    · intro x hx
                      simp only [Nat.add_one_sub_one, List.take_succ_cons, List.take_zero,
                        List.mem_cons, List.mem_singleton, List.not_mem_nil, or_false] at hx
                      omega
                  · rw [if_neg hsz3]
                    cases rest2 with
                    | nil => exact Or.inl hbad
                    | cons s3 rest3 =>
                      simp only []
                      by_cases h3 : s3 < 0x80 ∨ 0xBF < s3
                      · rw [if_pos h3]; exact Or.inl hbad
                      · rw [if_neg h3]
                        right
                        have hs4 : sz = 4 := by omega
                        refine ⟨by omega, ?_, by simp, by simp, ?_⟩
                        · simp only []; omega
                        · intro x hx
                          simp only [Nat.add_one_sub_one, List.take_succ_cons, List.take_zero,
                            List.mem_cons, List.mem_singleton, List.not_mem_nil, or_false] at hx
                          omega
theorem toNat_eq_iff (b : UInt8) (n : Nat) (hn : n < 256) : b.toNat = n ↔ b = UInt8.ofNat n := by
  constructor
  · intro h
    rw [← h, Binder.ofNat_toNat_byte]
  · intro h
    rw [h]
    exact UInt8.toNat_ofNat_of_lt hn

theorem findMatchingLoop_skip (skipped : GoString) :
    ∀ (count : Int) (i : Nat) (rest : GoString), (∀ x ∈ skipped, 0x80 ≤ x.toNat) →
      findMatchingLoop count i (skipped ++ rest)
        = findMatchingLoop count (i + skipped.length) rest := by
  induction skipped with
  | nil => intro count i rest _; rfl
  | cons x skipped ih =>
    intro count i rest h
    have hx := h x (List.mem_cons_self _ _)
    have h40 : ¬ x = 40 := by
      intro hcon; rw [hcon] at hx; revert hx; decide
    have h41 : ¬ x = 41 := by
      intro hcon; rw [hcon] at hx; revert hx; decide
    rw [List.cons_append, findMatchingLoop]
    simp only [if_neg h40, if_neg h41]
    rw [ih count (i + 1) rest (fun y hy => h y (List.mem_cons_of_mem _ hy)), List.length_cons]
    congr 1
    omega

/-- The loop over the runes of a string and the loop over its bytes return
the same index: a byte `(` or `)` always starts a rune, which is that
character, and no other rune is one of the two. -/
theorem findMatchingRunes_eq (fuel : Nat) :
    ∀ (s : GoString) (count : Int) (i : Nat), s.length ≤ fuel →
      findMatchingRunes fuel count i s = some (findMatchingLoop count i s) := by
  induction fuel with
  | zero =>
    intro s count i h
    cases s with
    | nil => rfl
    | cons b rest => simp at h
  | succ fuel ih =>
    intro s count i h
    cases s with
    | nil => rfl
    | cons b rest =>
      simp only [List.length_cons] at h
      have hd : Binder.DecodeRune (b :: rest)
          = Binder.decodeRuneNat (b.toNat :: rest.map UInt8.toNat) := rfl
      have h40 : b.toNat = 40 ↔ b = 40 := toNat_eq_iff b 40 (by omega)
      have h41 : b.toNat = 41 ↔ b = 41 := toNat_eq_iff b 41 (by omega)
      rw [findMatchingRunes]
      rcases decodeRuneNat_shape b.toNat (rest.map UInt8.toNat) with
        ⟨hw, hr⟩ | ⟨hb, hr, hw2, hwle, hskip⟩
      · rw [← hd] at hw hr
        have e40 : (Binder.DecodeRune (b :: rest)).1 = 40 ↔ b = 40 := by
          rcases hr with ⟨h1, _⟩ | ⟨h1, h2⟩
          · rw [h1]; exact h40
          · rw [h1]
            constructor
            · intro hcon; exact absurd hcon (by decide)
            · intro hcon; rw [← h40] at hcon; omega
        have e41 : (Binder.DecodeRune (b :: rest)).1 = 41 ↔ b = 41 := by
          rcases hr with ⟨h1, _⟩ | ⟨h1, h2⟩
          · rw [h1]; exact h41
          · rw [h1]
            constructor
            · intro hcon; exact absurd hcon (by decide)
            · intro hcon; rw [← h41] at hcon; omega
        rw [hw]
        simp only [List.drop_succ_cons, List.drop_zero, findMatchingLoop]
        by_cases c41 : b = 41
        · have c40 : ¬ b = 40 := by rw [c41]; decide
          rw [if_pos (e41.2 c41), if_neg (fun hx => c40 (e40.1 hx)), if_neg c40, if_pos c41]
          by_cases hz : count - 1 = 0
          · rw [if_pos hz, if_pos hz]
          · rw [if_neg hz, if_neg hz]
            exact ih rest _ _ (by omega)
        · rw [if_neg (fun hx => c41 (e41.1 hx)), if_neg c41]
          by_cases c40 : b = 40
          · rw [if_pos (e40.2 c40), if_pos c40]
            exact ih rest _ _ (by omega)
          · rw [if_neg (fun hx => c40 (e40.1 hx)), if_neg c40]
            exact ih rest _ _ (by omega)
      · rw [← hd] at hr hw2 hwle hskip
        simp only [List.length_map] at hwle
        have c40 : ¬ b = 40 := by rw [← h40]; omega
        have c41 : ¬ b = 41 := by rw [← h41]; omega
        have r40 : ¬ (Binder.DecodeRune (b :: rest)).1 = 40 := by omega
        have r41 : ¬ (Binder.DecodeRune (b :: rest)).1 = 41 := by omega
        rw [if_neg r41, if_neg r40]
        simp only [findMatchingLoop, if_neg c40, if_neg c41]
        obtain ⟨w, hw⟩ : ∃ w, (Binder.DecodeRune (b :: rest)).2 = w + 2 :=
          ⟨(Binder.DecodeRune (b :: rest)).2 - 2, by omega⟩
        rw [hw] at hskip hwle ⊢
        simp only [List.drop_succ_cons]
        have hsk : ∀ x ∈ rest.take (w + 1), 0x80 ≤ x.toNat := by
          intro x hx
          apply hskip
          rw [show w + 2 - 1 = w + 1 by omega, ← List.map_take]
          exact List.mem_map.2 ⟨x, hx, rfl⟩
        have hsplit : rest = rest.take (w + 1) ++ rest.drop (w + 1) :=
          (List.take_append_drop _ _).symm
        rw [ih (rest.drop (w + 1)) _ _ (by rw [List.length_drop]; omega)]
        congr 1
        conv_rhs => rw [hsplit]
        rw [findMatchingLoop_skip _ _ _ _ hsk, List.length_take]
        congr 1
        omega

/-- The function `findMatchingClosingBracketIndex` run over runes returns,
with fuel for every byte, what the loop over bytes returns. -/
theorem findMatchingRunes_index (s : GoString) :
    findMatchingRunes s.length 0 0 s = some (findMatchingClosingBracketIndex s) :=
  findMatchingRunes_eq s.length s 0 0 (Nat.le_refl _)

end Sqlx
